import Mathlib

/-!
# Query translation of `BaseSequelizeRepository`

A shallow embedding of `src/shared/layers/base/base-sequelize.repository.js`:
`parseAttribute`, `filterInclude`, `setOptions`, `list` and `bulkUpdate`, with the
JavaScript values they handle.

Modelling conventions

* A JavaScript string is a Lean `String`; `split`, `includes` and `startsWith` work on its
  list of characters.
* A JavaScript object is an association list in property order (`Obj`); a property key is
  a string or one of the `Op` symbols of the query library (`PKey`).  Property reads are
  own-property reads; a missing property reads as `Val.undef`.
* The model registry (`Sequelize`) maps a model name to its attribute names, its
  associations and its primary keys; a model is referred to by its name.  The query
  library stores every association under its alias, so the own property `k` of
  `model.associations` is the association whose `as` is `k`.  `model.associations` is a
  plain object: a read `model.associations[k]` of a key that it inherits from
  `Object.prototype` (`constructor`, `toString`, ...) is truthy and is no association
  (`Property.inherited`); the tests `Object.keys(model.associations).includes(k)` see own
  properties only.
* A thrown `TypeError` is `Except.error`.
* Storage calls (`findAll`, `update`, ...) are answered by an oracle that may answer
  each call of an operation differently; every operation returns the calls it issued
  together with its outcome.
* An operation runs alone.  The calls of `updateAssociations` that `bulkCreate` and
  `bulkUpdate` await under `Promise.all` run interleaved: with multitenancy they take
  turns in the order of the wait list, without it the library chooses which call in
  flight is answered next.
-/

namespace BaseSequelizeRepository

/-! ## JavaScript strings -/

/-- Worker of `jsSplit`: `k` characters of a matched separator are still to be skipped,
`acc` holds the current piece reversed. -/
def splitGo (sep : List Char) : Nat → List Char → List Char → List (List Char)
  | _, [], acc => [acc.reverse]
  | k + 1, _ :: cs, acc => splitGo sep k cs acc
  | 0, c :: cs, acc =>
      if sep.isPrefixOf (c :: cs) then acc.reverse :: splitGo sep (sep.length - 1) cs []
      else splitGo sep 0 cs (c :: acc)

/-- The pieces of `s.split(sep)`, as character lists. -/
def splitChars (sep s : List Char) : List (List Char) :=
  match sep with
  | [] => s.map fun c => [c]
  | _ :: _ => splitGo sep 0 s []

/-- `s.split(sep)`. -/
def jsSplit (sep s : String) : List String :=
  (splitChars sep.data s.data).map String.mk

/-- Worker of `jsIncludes`. -/
def includesGo (sub : List Char) : List Char → Bool
  | [] => sub.isPrefixOf []
  | c :: cs => sub.isPrefixOf (c :: cs) || includesGo sub cs

/-- `s.includes(sub)`. -/
def jsIncludes (s sub : String) : Bool :=
  includesGo sub.data s.data

/-- `s.startsWith(p)`. -/
def jsStartsWith (s p : String) : Bool :=
  p.data.isPrefixOf s.data

/-- `s.substring(1)`. -/
def jsSubstring1 (s : String) : String :=
  String.mk (s.data.drop 1)

/-- `parts.join(sep)`. -/
def jsJoin (sep : String) (parts : List String) : String :=
  String.mk (List.intercalate sep.data (parts.map String.data))

/-! ## JavaScript values -/

/-- A property key: a string, or the symbol `Op[o]` of the query library. -/
inductive PKey
  | str (s : String)
  | op (o : String)
deriving DecidableEq, Repr

/-- The values a filter map, a DTO, a where object or an entity can hold. -/
inductive Val
  | undef
  | null
  | bool (b : Bool)
  | num (n : Int)
  | str (s : String)
  | arr (xs : List Val)
  | obj (kvs : List (PKey × Val))

/-- A plain object: its own properties in order. -/
abbrev Obj := List (PKey × Val)

/-- The read `o[k]`. -/
def objGet (o : Obj) (k : PKey) : Val :=
  match o.find? fun p => p.1 == k with
  | some p => p.2
  | none => Val.undef

/-- The write `o[k] = v`. -/
def objSet (o : Obj) (k : PKey) (v : Val) : Obj :=
  if o.any fun p => p.1 == k then o.map fun p => if p.1 == k then (k, v) else p
  else o ++ [(k, v)]

/-- The object literal `{ ...a, ...b }`. -/
def objSpread (a b : Obj) : Obj :=
  b.foldl (fun acc p => objSet acc p.1 p.2) a

/-- The own properties that `{ ...x }` copies from an object. -/
def Val.props : Val → Obj
  | Val.obj kvs => kvs
  | _ => []

/-- Truthiness of a value. -/
def Val.truthy : Val → Bool
  | Val.undef => false
  | Val.null => false
  | Val.bool b => b
  | Val.num n => n != 0
  | Val.str s => s != ""
  | Val.arr _ => true
  | Val.obj _ => true

/-- The test `x.constructor.name === 'Object'`; reading `constructor` of `null` or
`undefined` throws. -/
def isPlainObject : Val → Except String Bool
  | Val.undef => Except.error "TypeError: Cannot read properties of undefined (reading 'constructor')"
  | Val.null => Except.error "TypeError: Cannot read properties of null (reading 'constructor')"
  | Val.obj _ => Except.ok true
  | _ => Except.ok false

/-! ## Models and associations -/

/-- The four association kinds of the query library (`associationType`). -/
inductive AssociationType
  | HasOne
  | BelongsTo
  | HasMany
  | BelongsToMany
deriving DecidableEq, Repr

/-- An association: its alias, its kind and the name of its target model. -/
structure Association where
  as : String
  associationType : AssociationType
  target : String
deriving DecidableEq, Repr

/-- The model registry: for each model name the keys of `rawAttributes`, the values of
`associations` (in key order) and the keys of `primaryKeys` with their `autoIncrement`;
`isDefined` is the test `sequelize.isDefined(name)`. -/
structure Sequelize where
  rawAttributes : String → List String
  associations : String → List Association
  primaryKeys : String → List (String × Bool)
  isDefined : String → Bool := fun _ => true

/-- The own property `field` of `model.associations`: the read `model.associations[field]`
for a `field` among `Object.keys(model.associations)`, and `none` for any other. -/
def Sequelize.association (db : Sequelize) (model field : String) : Option Association :=
  (db.associations model).find? fun a => a.as == field

/-- The names of the properties that a plain object inherits from `Object.prototype`. -/
def objectPrototypeKeys : List String :=
  ["constructor", "__defineGetter__", "__defineSetter__", "hasOwnProperty", "__lookupGetter__",
   "__lookupSetter__", "isPrototypeOf", "propertyIsEnumerable", "toString", "valueOf",
   "__proto__", "toLocaleString"]

/-- The value of a read `object[key]` on a plain object: an own property; a property
inherited from `Object.prototype`, which is a function or the prototype itself, so truthy
and without the properties `as`, `target` and `associationType` of an association; or
`undefined`. -/
inductive Property (α : Type)
  | own (value : α)
  | inherited
  | undefined

/-- The read `associations[key]` on the plain object `associations`. -/
def associationIn (associations : List Association) (key : String) : Property Association :=
  match associations.find? fun a => a.as == key with
  | some a => Property.own a
  | none => if objectPrototypeKeys.contains key then Property.inherited else Property.undefined

/-- The read `model.associations[field]`. -/
def Sequelize.associationProperty (db : Sequelize) (model field : String) :
    Property Association :=
  associationIn (db.associations model) field

/-- The list `Object.keys(model.associations)`. -/
def Sequelize.associationKeys (db : Sequelize) (model : String) : List String :=
  (db.associations model).map fun a => a.as

/-! ## Include trees -/

/-- The value of the `association` property of an include object: an association name
not yet resolved, the association itself, or the value that `model.associations[key]`
inherits from `Object.prototype`, which `loadIncludeClasses` stores for such a name. -/
inductive AssociationProp
  | name (s : String)
  | node (a : Association)
  | inherited (key : String)
deriving DecidableEq, Repr

/-- The value of the `model` property of an include object: a model name not yet resolved,
or the model class (given by its name). -/
inductive ModelProp
  | name (s : String)
  | cls (modelName : String)
deriving DecidableEq, Repr

/-- An `include` property: one entry, or an array of entries. -/
inductive IncField (α : Type)
  | one (x : α)
  | many (xs : List α)

/-- The properties of an include object that the repository reads or writes. -/
structure IncObj (α : Type) where
  all : Bool := false
  association : Option AssociationProp := none
  model : Option ModelProp := none
  as : Option String := none
  where_ : Option Obj := none
  required : Option Bool := none
  separate : Option Bool := none
  include_ : Option (IncField α) := none

/-- An entry of an include list: a string (association name, dotted path or `'all'`), a
model class, an association, or an include object. -/
inductive Inc
  | str (s : String)
  | model (name : String)
  | assoc (a : Association)
  | obj (o : IncObj Inc)

/-- An include value as an array: `Array.isArray(include) ? include : [include]`. -/
def IncField.toList {α : Type} : IncField α → List α
  | IncField.one x => [x]
  | IncField.many xs => xs

/-- Truthiness of an include value: only the empty string is falsy. -/
def IncField.truthy : IncField Inc → Bool
  | IncField.one (Inc.str s) => s != ""
  | _ => true

/-- The read `item.all === true`. -/
def Inc.isAll : Inc → Bool
  | Inc.obj o => o.all
  | _ => false

/-- The test `item === s` for a string `s`. -/
def Inc.isStr : Inc → String → Bool
  | Inc.str t, s => t == s
  | _, _ => false

/-- The read `item.as`. -/
def Inc.as? : Inc → Option String
  | Inc.assoc a => some a.as
  | Inc.obj o => o.as
  | _ => none

/-- The read `item.name`. -/
def Inc.name? : Inc → Option String
  | Inc.model n => some n
  | _ => none

/-- The read `item.association?.as`. -/
def Inc.associationAs? : Inc → Option String
  | Inc.obj o =>
    match o.association with
    | some (AssociationProp.node a) => some a.as
    | _ => none
  | _ => none

/-- The read `item.where`. -/
def Inc.where? : Inc → Option Obj
  | Inc.obj o => o.where_
  | _ => none

/-- Truthiness of `item.required`. -/
def Inc.isRequired : Inc → Bool
  | Inc.obj o => o.required == some true
  | _ => false

/-- The read `item.separate`. -/
def Inc.separate? : Inc → Option Bool
  | Inc.obj o => o.separate
  | _ => none

/-- Truthiness of `item.include`. -/
def Inc.hasInclude : Inc → Bool
  | Inc.obj o =>
    match o.include_ with
    | some f => f.truthy
    | none => false
  | _ => false

/-- The statement `if (item.where) delete item.separate`. -/
def Inc.dropSeparateIfWhere : Inc → Inc
  | Inc.obj o =>
    match o.where_ with
    | some _ => Inc.obj { o with separate := none }
    | none => Inc.obj o
  | i => i

/-- The nested entries of an include entry. -/
def Inc.children : Inc → List Inc
  | Inc.obj o =>
    match o.include_ with
    | some f => f.toList
    | none => []
  | _ => []

/-- Replaces the first element that satisfies `p`: what a write through the reference
returned by `Array.prototype.find` does to the array. -/
def modifyFirst {α : Type} (p : α → Bool) (f : α → α) : List α → List α
  | [] => []
  | x :: xs => if p x then f x :: xs else x :: modifyFirst p f xs

/-! ## The repository -/

/-- The constructor options the query translation reads.  A configured include is stored
only when it is truthy; `include` defaults to the wildcard object. -/
structure Options where
  include_ : Option (IncField Inc) := some (IncField.one (Inc.obj { all := true }))
  includeOnList : Option (IncField Inc) := none
  includeOnRead : Option (IncField Inc) := none
  includeOnCreate : Option (IncField Inc) := none
  includeOnUpdate : Option (IncField Inc) := none
  includeOnDelete : Option (IncField Inc) := none
  operatorSeparator : String := "$"

/-- The `action` argument of `setOptions`. -/
inductive Action
  | List
  | Read
  | Create
  | Update
  | Delete
deriving DecidableEq, Repr

/-- The read `this.options['includeOn' + action]`. -/
def Options.includeOn (o : Options) : Action → Option (IncField Inc)
  | Action.List => o.includeOnList
  | Action.Read => o.includeOnRead
  | Action.Create => o.includeOnCreate
  | Action.Update => o.includeOnUpdate
  | Action.Delete => o.includeOnDelete

/-- A repository: the registry, the name of its model, its options, the configured
`listLimit` and the configured `isMultitenantEnabled`. -/
structure Repository where
  sequelize : Sequelize
  model : String
  options : Options := {}
  listLimit : Val := Val.undef
  isMultitenantEnabled : Bool := false

/-- The method `getAttributes()`. -/
def Repository.getAttributes (r : Repository) : List String :=
  r.sequelize.rawAttributes r.model

/-- The method `getAssociationAttributes()`. -/
def Repository.getAssociationAttributes (r : Repository) : List String :=
  r.sequelize.associationKeys r.model

/-- The field `this.operators`. -/
def operators : List String :=
  ["eq", "ne", "is", "not", "or",
   "gt", "gte", "lt", "lte", "between", "notBetween",
   "in", "notIn", "like", "notLike", "startsWith", "endsWith", "substring", "iLike", "notILike",
   "regexp", "notRegexp", "iRegexp", "notIRegexp"]

/-- The operators whose string value is split on commas. -/
def setValuedOperators : List String :=
  ["or", "between", "notBetween", "in", "notIn"]

/-- The coercion `['true', 'false', 'null'].includes(v) ? JSON.parse(v) : v`. -/
def coerce : Val → Val
  | Val.str s =>
    if s = "true" then Val.bool true
    else if s = "false" then Val.bool false
    else if s = "null" then Val.null
    else Val.str s
  | v => v

/-- The result object of `parseAttribute`. -/
structure Parsed where
  parsedKey : String
  parsedValue : Val

/-- The method `parseAttribute(key, value)`; `none` is the bare `return`. -/
def parseAttribute (operatorSeparator key : String) (value : Val) : Except String (Option Parsed) :=
  let value := coerce value
  if !jsIncludes key operatorSeparator then
    Except.ok (some { parsedKey := key, parsedValue := value })
  else
    match jsSplit operatorSeparator key with
    | parsedKey :: operator :: _ =>
      if !operators.contains operator then Except.ok none
      else if setValuedOperators.contains operator then
        match value with
        | Val.arr xs =>
          Except.ok (some { parsedKey := parsedKey, parsedValue := Val.obj [(PKey.op operator, Val.arr xs)] })
        | Val.str s =>
          Except.ok (some { parsedKey := parsedKey,
                            parsedValue := Val.obj [(PKey.op operator,
                              Val.arr ((jsSplit "," s).map fun item => coerce (Val.str item)))] })
        | Val.undef =>
          Except.error "TypeError: Cannot read properties of undefined (reading 'split')"
        | Val.null => Except.error "TypeError: Cannot read properties of null (reading 'split')"
        | _ => Except.error "TypeError: value.split is not a function"
      else
        Except.ok (some { parsedKey := parsedKey, parsedValue := Val.obj [(PKey.op operator, value)] })
    | _ => Except.ok none

/-- The test `['HasMany', 'BelongsToMany'].includes(associationType)`. -/
def AssociationType.isToMany : AssociationType → Bool
  | AssociationType.HasMany => true
  | AssociationType.BelongsToMany => true
  | _ => false

/-- The writes of `filterInclude` to the entry found by association:
`where[subfield] = value` (or a new where object), `required = true`, `delete separate`. -/
def attachWhere (subfield : String) (value : Val) : Inc → Inc
  | Inc.obj o =>
    Inc.obj { o with
      where_ := some (match o.where_ with
        | some w => objSet w (PKey.str subfield) value
        | none => [(PKey.str subfield, value)])
      required := some true
      separate := none }
  | i => i

/-- The writes of `filterInclude` to the entry whose nested include was filtered, given
the include returned by the nested call. -/
def attachNested (nested : IncField Inc) : Inc → Inc
  | Inc.obj o =>
    let required := match nested with
      | IncField.one x => x.isRequired
      | IncField.many xs => xs.any Inc.isRequired
    let nested := match nested with
      | IncField.one x => IncField.one x.dropSeparateIfWhere
      | IncField.many xs => IncField.many (xs.map Inc.dropSeparateIfWhere)
    if required then Inc.obj { o with include_ := some nested, required := some true, separate := none }
    else Inc.obj { o with include_ := some nested }
  | i => i

/-- The test `item.association?.as === childAssociation.as` of `filterInclude`. -/
def Inc.isNodeOf (childAs : String) (item : Inc) : Bool :=
  item.associationAs? == some childAs

/-- The test `item.all === true || item === field || item.as === childAssociation.as ||
item.name === childModel.name` of `filterInclude`. -/
def Inc.mentions (field childAs childModel : String) (item : Inc) : Bool :=
  item.isAll || item.isStr field || item.as? == some childAs || item.name? == some childModel

/-- The include list of `filterInclude` after the entries that `includeEntry` stands for
are filtered out (the `if` / `else if` chain before the `push`). -/
def removeMentioned (field childAs childModel : String) (includeEntry : Inc) (include_ : List Inc) :
    List Inc :=
  if includeEntry.isStr field then include_.filter fun item => !(item.isStr field)
  else if includeEntry.as? == some childAs then include_.filter fun item => !(item.as? == some childAs)
  else if includeEntry.name? == some childModel then
    include_.filter fun item => !(item.name? == some childModel)
  else include_

/-- The entry `{ association: childAssociation, where: { [subfield]: value }, required: true }`
that `filterInclude` pushes. -/
def filteredNode (childAssociation : Association) (subfield : String) (value : Val) : Inc :=
  Inc.obj {
    association := some (AssociationProp.node childAssociation)
    where_ := some [(PKey.str subfield, value)]
    required := some true }

/-- The body of `filterInclude` on the segments of the dotted key.  The source joins the
segments after the first with dots for the recursive call, which splits them again; the
segments are passed on here (`filterInclude_jsJoin` shows that the two calls agree).  For a
`field` that `model.associations` inherits from `Object.prototype` the test
`!model.associations[field]` fails, `childModel` is `undefined`, and the read of its
`rawAttributes` or `associations` throws. -/
def filterIncludeSegs (db : Sequelize) (value : Val) :
    List String → String → IncField Inc → Except String (IncField Inc × Bool)
  | field :: subfield :: rest, model, include_ =>
    match db.associationProperty model field with
    | Property.undefined => Except.ok (include_, false)
    | Property.inherited =>
      match rest with
      | [] =>
        Except.error "TypeError: Cannot read properties of undefined (reading 'rawAttributes')"
      | _ :: _ =>
        Except.error "TypeError: Cannot read properties of undefined (reading 'associations')"
    | Property.own childAssociation =>
      let childModel := childAssociation.target
      let include_ := include_.toList
      match rest with
      | [] =>
        if !(db.rawAttributes childModel).contains subfield then
          Except.ok (IncField.many include_, false)
        else
          match include_.find? (Inc.isNodeOf childAssociation.as) with
          | some _ =>
            Except.ok (IncField.many (modifyFirst (Inc.isNodeOf childAssociation.as)
                (attachWhere subfield value) include_),
              childAssociation.associationType.isToMany)
          | none =>
            match include_.find? (Inc.mentions field childAssociation.as childModel) with
            | some includeEntry =>
              Except.ok (IncField.many
                (removeMentioned field childAssociation.as childModel includeEntry include_
                  ++ [filteredNode childAssociation subfield value]),
                childAssociation.associationType.isToMany)
            | none => Except.ok (IncField.many include_, false)
      | _ :: _ =>
        if !(db.associationKeys childModel).contains subfield then
          Except.ok (IncField.many include_, false)
        else
          match include_.find? fun item => item.isNodeOf childAssociation.as && item.hasInclude with
          | some (Inc.obj o) =>
            match o.include_ with
            | some nested =>
              match filterIncludeSegs db value (subfield :: rest) childModel nested with
              | Except.error e => Except.error e
              | Except.ok result =>
                Except.ok (IncField.many (modifyFirst
                    (fun item => item.isNodeOf childAssociation.as && item.hasInclude)
                    (attachNested result.1) include_),
                  result.2)
            | none => Except.ok (IncField.many include_, false)
          | _ => Except.ok (IncField.many include_, false)
  | _, _, include_ => Except.ok (include_, false)

/-- The method `filterInclude(dotNotedKey, value, model, include_)`. -/
def filterInclude (db : Sequelize) (dotNotedKey : String) (value : Val) (model : String)
    (include_ : IncField Inc) : Except String (IncField Inc × Bool) :=
  if !jsIncludes dotNotedKey "." then Except.ok (include_, false)
  else filterIncludeSegs db value (jsSplit "." dotNotedKey) model include_

/-- The argument `entityQueryOptions` of `setOptions`.  `loadedInclude` is the value of
`this.loadIncludeClasses(entityQueryOptions.include, this.model)`: `none` when the caller
passes no include, as `list`, `read`, `update`, `delete` and `bulkUpdate` do. -/
structure EntityQueryOptions where
  loadedInclude : Option (IncField Inc) := none
  order : Option String := none
  limit : Val := Val.undef
  offset : Val := Val.undef

/-- The query specification `options` built by `setOptions`. -/
structure QueryOptions where
  include_ : IncField Inc
  where_ : Option Obj := none
  order : Option (List (String × String)) := none
  limit : Val := Val.undef
  offset : Val := Val.undef

/-- The expression `a || b` on include values that may be undefined. -/
def orInclude (a b : Option (IncField Inc)) : Option (IncField Inc) :=
  match a with
  | some x => if x.truthy then some x else b
  | none => b

/-- The include in effect of a `setOptions` call, as an array:
`loaded || this.options['includeOn' + action] || this.options.include || []`. -/
def includeInEffect (r : Repository) (loaded : Option (IncField Inc)) (action : Action) : List Inc :=
  match orInclude (orInclude (orInclude loaded (r.options.includeOn action)) r.options.include_)
      (some (IncField.many [])) with
  | some x => x.toList
  | none => []

/-- The where object after the predicate `parsedKey: parsedValue` of a model attribute is
added (the nested `if` of `setOptions`). -/
def mergeWhere (where_ : Option Obj) (parsedKey : String) (parsedValue : Val) : Except String Obj :=
  match where_ with
  | none => Except.ok [(PKey.str parsedKey, parsedValue)]
  | some w =>
    match objGet w (PKey.str parsedKey) with
    | Val.undef => Except.ok (objSet w (PKey.str parsedKey) parsedValue)
    | old =>
      match isPlainObject old with
      | Except.error e => Except.error e
      | Except.ok oldIsObject =>
        match isPlainObject parsedValue with
        | Except.error e => Except.error e
        | Except.ok newIsObject =>
          let oldPart : Obj := if oldIsObject then old.props else [(PKey.op "eq", old)]
          let newPart : Obj := if newIsObject then parsedValue.props else [(PKey.op "eq", parsedValue)]
          Except.ok (objSet w (PKey.str parsedKey) (Val.obj (objSpread oldPart newPart)))

/-- The state of the `for (const key in entityQuery)` loop of `setOptions`. -/
structure LoopState where
  where_ : Option Obj
  include_ : IncField Inc
  hasFilteredArray : Bool

/-- One iteration of the loop of `setOptions`. -/
def setOptionsStep (r : Repository) (st : LoopState) (key : String) (value : Val) :
    Except String LoopState :=
  match parseAttribute r.options.operatorSeparator key value with
  | Except.error e => Except.error e
  | Except.ok none => Except.ok st
  | Except.ok (some parsedAttribute) =>
    if !jsIncludes key "." then
      if r.getAttributes.contains parsedAttribute.parsedKey then
        match mergeWhere st.where_ parsedAttribute.parsedKey parsedAttribute.parsedValue with
        | Except.error e => Except.error e
        | Except.ok w => Except.ok { st with where_ := some w }
      else Except.ok st
    else
      match filterInclude r.sequelize parsedAttribute.parsedKey parsedAttribute.parsedValue
          r.model st.include_ with
      | Except.error e => Except.error e
      | Except.ok result =>
        Except.ok { st with include_ := result.1, hasFilteredArray := result.2 }

/-- The loop of `setOptions` over the keys of `entityQuery` in iteration order. -/
def setOptionsLoop (r : Repository) : List (String × Val) → LoopState → Except String LoopState
  | [], st => Except.ok st
  | (key, value) :: rest, st =>
    match setOptionsStep r st key value with
    | Except.error e => Except.error e
    | Except.ok st1 => setOptionsLoop r rest st1

/-- One element of `options.order`: the column and its direction. -/
def orderItem (item : String) : String × String :=
  (if jsStartsWith item "-" then jsSubstring1 item else item,
   if jsStartsWith item "-" then "DESC" else "ASC")

/-- The method `setOptions(entityQuery, entityQueryOptions, action)`: the query
specification and `hasFilteredArray`.  `entityQuery` lists the filter map in iteration
order. -/
def setOptions (r : Repository) (entityQuery : List (String × Val))
    (entityQueryOptions : EntityQueryOptions) (action : Action) :
    Except String (QueryOptions × Bool) :=
  let include_ := includeInEffect r entityQueryOptions.loadedInclude action
  match setOptionsLoop r entityQuery
      { where_ := none, include_ := IncField.many include_, hasFilteredArray := false } with
  | Except.error e => Except.error e
  | Except.ok st =>
    if action = Action.List then
      Except.ok ({ include_ := st.include_
                   where_ := st.where_
                   order := entityQueryOptions.order.map fun o => (jsSplit "," o).map orderItem
                   limit := if entityQueryOptions.limit.truthy then entityQueryOptions.limit
                            else r.listLimit
                   offset := entityQueryOptions.offset },
                 st.hasFilteredArray)
    else
      Except.ok ({ include_ := st.include_, where_ := st.where_ }, st.hasFilteredArray)

/-! ## Storage calls

The ticket queue (`getQueryId`, `callNextQuery`) and the tenant switch (`changeTenant`)
that bracket every storage call are left out here: they change neither the arguments nor
the results of the calls.  `this.options` is read as it was before `setOptions` ran;
`setOptions` writes into the configured include tree only through
`includeEntry.where[subfield] = value`, when a configured node already carries a where. -/

/-- The options object of a `findAll` call; `transaction` is the id whose transaction
`this.transactions.get` returns. -/
structure FindOptions where
  where_ : Option Obj := none
  include_ : Option (IncField Inc) := none
  order : Option (List (String × String)) := none
  limit : Val := Val.undef
  offset : Val := Val.undef
  transaction : Option String := none

/-- A call of the query library issued by `list` or `bulkUpdate`. -/
inductive StorageCall
  | findAll (scope : String) (options : FindOptions)
  | update (values : List (String × Val)) (where_ : Option Obj) (transaction : Option String)
  | updateAssociations (entity : Obj) (entityDTO : List (String × Val))

/-- The answers of the storage: `findAll` and `update` are asked with the number of calls
the operation has issued before; an error carries the message the repository rethrows.
`updateAssociations` stands for the method of that name, which `bulkUpdate` runs on every
updated entity under `Promise.all`. -/
structure Storage where
  findAll : Nat → String → FindOptions → Except String (List Obj)
  update : Nat → List (String × Val) → Option Obj → Except String Unit
  updateAssociations : Obj → List (String × Val) → Except String Obj

/-- The name `Object.keys(this.model.primaryKeys)[0]`, used as a property key. -/
def Repository.primaryKeyName (r : Repository) : String :=
  match r.sequelize.primaryKeys r.model with
  | (name, _) :: _ => name
  | [] => "undefined"

/-- The plain object `entity.toJSON()`. -/
def toJSON (entity : Obj) : Obj := entity

/-- The read `entities[key]` on an array of entities: its length, the element at a
canonical index, or `undefined`. -/
def arrayGet (entities : List Obj) (key : String) : Val :=
  if key = "length" then Val.num entities.length
  else
    match (List.range entities.length).find? fun i => toString i == key with
    | some i =>
      match entities.get? i with
      | some entity => Val.obj entity
      | none => Val.undef
    | none => Val.undef

/-- The test `this.getAssociationAttributes().includes(key.split('.')[0])` of `list`. -/
def Repository.filtersByAssociation (r : Repository) (key : String) : Bool :=
  match jsSplit "." key with
  | first :: _ => r.getAssociationAttributes.contains first
  | [] => false

/-- The test `entity[key] === null || (Array.isArray(entity[key]) && entity[key].length === 0)`. -/
def isNullOrEmpty : Val → Bool
  | Val.null => true
  | Val.arr [] => true
  | _ => false

/-- The entities `list` keeps after its loop over the filter keys: for every key whose
first segment names an association, the entities whose property under that key is `null` or
an empty array are removed. -/
def keptEntities (r : Repository) : List (String × Val) → List Obj → List Obj
  | [], entities => entities
  | (key, _) :: rest, entities =>
    keptEntities r rest
      (if r.filtersByAssociation key then
        entities.filter fun entity => !isNullOrEmpty (objGet entity (PKey.str key))
      else entities)

/-- The options of the first `findAll` of an operation: `{ ...options, transaction }`. -/
def firstFind (options : QueryOptions) (transactionId : Option String) : FindOptions :=
  { where_ := options.where_
    include_ := some options.include_
    order := options.order
    limit := options.limit
    offset := options.offset
    transaction := transactionId }

/-- The method `list(entityQuery, entityQueryOptions, { transactionId, scope })`: the
storage calls it issues and its outcome. -/
def list (r : Repository) (db : Storage) (entityQuery : List (String × Val))
    (entityQueryOptions : EntityQueryOptions) (transactionId : Option String) (scope : String) :
    List StorageCall × Except String (List Obj) :=
  match setOptions r entityQuery entityQueryOptions Action.List with
  | Except.error e => ([], Except.error e)
  | Except.ok (options, hasFilteredArray) =>
    let first := firstFind options transactionId
    match db.findAll 0 scope first with
    | Except.error e => ([StorageCall.findAll scope first], Except.error e)
    | Except.ok entities =>
      let entities := keptEntities r entityQuery entities
      if hasFilteredArray then
        let primaryKeyName := r.primaryKeyName
        let second : FindOptions :=
          { where_ := some [(PKey.str primaryKeyName,
              Val.obj [(PKey.op "in",
                Val.arr (entities.map fun entity => objGet entity (PKey.str primaryKeyName)))])]
            include_ := orInclude r.options.includeOnList r.options.include_
            order := options.order
            transaction := transactionId }
        match db.findAll 1 scope second with
        | Except.error e =>
          ([StorageCall.findAll scope first, StorageCall.findAll scope second], Except.error e)
        | Except.ok entities =>
          ([StorageCall.findAll scope first, StorageCall.findAll scope second],
            Except.ok (entities.map toJSON))
      else ([StorageCall.findAll scope first], Except.ok (entities.map toJSON))

/-- The DTO of `bulkUpdate` after `if (serialPk) delete entityDTO[serialPk]`, where
`serialPk` is the first key of the DTO that is an auto-incremented primary key. -/
def dropSerialPk (r : Repository) (entityDTO : List (String × Val)) : List (String × Val) :=
  match entityDTO.find? fun kv =>
      (r.sequelize.primaryKeys r.model).any fun pk => pk.1 == kv.1 && pk.2 with
  | some (serialPk, _) =>
    if serialPk != "" then entityDTO.filter fun kv => !(kv.1 == serialPk) else entityDTO
  | none => entityDTO

/-- The filter map of `bulkUpdate` after the loop that copies into it the DTO values of the
keys it holds. -/
def mergeQuery (entityQuery entityDTO : List (String × Val)) : List (String × Val) :=
  entityDTO.foldl
    (fun q kv => q.map fun qkv => if qkv.1 == kv.1 then (qkv.1, kv.2) else qkv) entityQuery

/-- The test of `bulkUpdate` that some key of the DTO names an association and holds a
number, a string or an array; reading `constructor` of `null` or `undefined` throws. -/
def setsAssociations (associationAttributes : List String) :
    List (String × Val) → Except String Bool
  | [] => Except.ok false
  | (key, value) :: rest =>
    if associationAttributes.contains key then
      match value with
      | Val.num _ => Except.ok true
      | Val.str _ => Except.ok true
      | Val.arr _ => Except.ok true
      | Val.undef =>
        Except.error "TypeError: Cannot read properties of undefined (reading 'constructor')"
      | Val.null => Except.error "TypeError: Cannot read properties of null (reading 'constructor')"
      | _ => setsAssociations associationAttributes rest
    else setsAssociations associationAttributes rest

/-- The entities returned by `updateAssociations` for each of `entities`, or the first
error. -/
def updateAll (db : Storage) (entityDTO : List (String × Val)) : List Obj → Except String (List Obj)
  | [] => Except.ok []
  | entity :: rest =>
    match db.updateAssociations entity entityDTO with
    | Except.error e => Except.error e
    | Except.ok updated =>
      match updateAll db entityDTO rest with
      | Except.error e => Except.error e
      | Except.ok others => Except.ok (updated :: others)

/-- The options of a compensating `findAll` of `bulkUpdate`:
`{ where: { [primaryKeyName]: entities[primaryKeyName] }, include, transaction }`. -/
def refetchFind (r : Repository) (entities : List Obj) (transactionId : Option String) :
    FindOptions :=
  { where_ := some [(PKey.str r.primaryKeyName, arrayGet entities r.primaryKeyName)]
    include_ := orInclude r.options.includeOnUpdate r.options.include_
    transaction := transactionId }

/-- The last part of `bulkUpdate`, from the fetch of the updated entities on: `calls` are
the calls issued so far. -/
def bulkUpdateAfter (r : Repository) (db : Storage) (entityQuery entityDTO : List (String × Val))
    (transactionId : Option String) (scope : String) (hasFilteredArray : Bool)
    (previousEntities : List Obj) (calls : List StorageCall) :
    List StorageCall × Except String (List Obj × List Obj) :=
  match setOptions r (mergeQuery entityQuery entityDTO) {} Action.Update with
  | Except.error e => (calls, Except.error e)
  | Except.ok (newOptions, _) =>
    let third := firstFind newOptions transactionId
    let calls3 := calls ++ [StorageCall.findAll scope third]
    match db.findAll calls.length scope third with
    | Except.error e => (calls3, Except.error e)
    | Except.ok updatedEntities =>
      if updatedEntities.length = 0 then (calls3, Except.error "No entity matches query criteria")
      else
        let refetched : List StorageCall × Except String (List Obj) :=
          if hasFilteredArray then
            let fourth := refetchFind r updatedEntities transactionId
            (calls3 ++ [StorageCall.findAll scope fourth], db.findAll calls3.length scope fourth)
          else (calls3, Except.ok updatedEntities)
        match refetched.2 with
        | Except.error e => (refetched.1, Except.error e)
        | Except.ok updatedEntities =>
          match setsAssociations r.getAssociationAttributes entityDTO with
          | Except.error e => (refetched.1, Except.error e)
          | Except.ok false =>
            (refetched.1, Except.ok (updatedEntities.map toJSON, previousEntities.map toJSON))
          | Except.ok true =>
            let calls5 := refetched.1 ++
              updatedEntities.map fun entity => StorageCall.updateAssociations entity entityDTO
            match updateAll db entityDTO updatedEntities with
            | Except.error e => (calls5, Except.error e)
            | Except.ok updatedEntities =>
              (calls5, Except.ok (updatedEntities.map toJSON, previousEntities.map toJSON))

/-- The method `bulkUpdate(entityQuery, entityDTO, { transactionId, scope })`: the storage
calls it issues and its outcome, the updated and the previous entities. -/
def bulkUpdate (r : Repository) (db : Storage) (entityQuery entityDTO : List (String × Val))
    (transactionId : Option String) (scope : String) :
    List StorageCall × Except String (List Obj × List Obj) :=
  let entityDTO := dropSerialPk r entityDTO
  match setOptions r entityQuery {} Action.Update with
  | Except.error e => ([], Except.error e)
  | Except.ok (options, hasFilteredArray) =>
    let first := firstFind options transactionId
    let calls1 := [StorageCall.findAll scope first]
    match db.findAll 0 scope first with
    | Except.error e => (calls1, Except.error e)
    | Except.ok previousEntities =>
      if previousEntities.length = 0 then (calls1, Except.error "No entity matches query criteria")
      else
        let refetched : List StorageCall × Except String (List Obj) :=
          if hasFilteredArray then
            let second := refetchFind r previousEntities transactionId
            (calls1 ++ [StorageCall.findAll scope second], db.findAll 1 scope second)
          else (calls1, Except.ok previousEntities)
        match refetched.2 with
        | Except.error e => (refetched.1, Except.error e)
        | Except.ok previousEntities =>
          let calls2 := refetched.1 ++ [StorageCall.update entityDTO options.where_ transactionId]
          match db.update refetched.1.length entityDTO options.where_ with
          | Except.error e => (calls2, Except.error e)
          | Except.ok _ =>
            bulkUpdateAfter r db entityQuery entityDTO transactionId scope hasFilteredArray
              previousEntities calls2

/-! ## The tenant switch -/

/-- The active schema `_schema` of every model of the registry, by model name, in the order
of `sequelize.models`; `none` is `undefined`. -/
abbrev Schemas := List (String × Option String)

/-- The method `changeTenant(tenantName)` on the active schemas of the registry. -/
def changeTenant (tenantName : Option String) (models : Schemas) : Schemas :=
  if tenantName = some "admin" then models
  else models.map fun model =>
    if [tenantName, some "admin"].contains model.2 then model else (model.1, tenantName)

/-! ## The wait list -/

/-- The shared object `queries`: the wait list and the ids for which `queries.events` holds
a `once` listener. -/
structure Queries where
  waitList : List String := []
  listeners : List String := []

/-- The method `getQueryId()` up to its `await`, for the id `queryId` drawn by
`generateRandomId()`: the new state, and whether the call returns at once (`true`) or waits
for the event `queryId` (`false`). -/
def getQueryId (queryId : String) (q : Queries) : Queries × Bool :=
  let waitList := q.waitList ++ [queryId]
  if waitList.length > 1 then
    ({ waitList := waitList, listeners := q.listeners ++ [queryId] }, false)
  else ({ waitList := waitList, listeners := q.listeners }, true)

/-- The method `callNextQuery(queryId)`: the new state, and the id whose waiting
`getQueryId` the emitted event resumes, if any. -/
def callNextQuery (queryId : String) (q : Queries) : Queries × Option String :=
  let waitList := q.waitList.filter fun id => id != queryId
  match waitList with
  | [] => ({ waitList := waitList, listeners := q.listeners }, none)
  | front :: _ =>
    if q.listeners.contains front then
      ({ waitList := waitList, listeners := q.listeners.filter fun id => id != front }, some front)
    else ({ waitList := waitList, listeners := q.listeners }, none)

/-- A call on the wait list: a ticket is acquired, or released. -/
inductive QueueCall
  | acquire (queryId : String)
  | release (queryId : String)

/-- The wait list together with the record of a run: the tickets acquired so far, the
tickets activated so far (their `getQueryId` has returned), both in order, and the tickets
activated and not yet released. -/
structure QueueRun where
  queries : Queries := {}
  acquired : List String := []
  activated : List String := []
  held : List String := []

/-- The run after one more call. -/
def QueueRun.step (s : QueueRun) : QueueCall → QueueRun
  | QueueCall.acquire queryId =>
    let r := getQueryId queryId s.queries
    { queries := r.1
      acquired := s.acquired ++ [queryId]
      activated := if r.2 then s.activated ++ [queryId] else s.activated
      held := if r.2 then s.held ++ [queryId] else s.held }
  | QueueCall.release queryId =>
    let r := callNextQuery queryId s.queries
    { queries := r.1
      acquired := s.acquired
      activated := s.activated ++ r.2.toList
      held := (s.held.filter fun id => id != queryId) ++ r.2.toList }

/-- The runs of the wait list in which every ticket has an id of its own and is released
only by its holder, after its activation. -/
inductive QueueRun.Reachable : QueueRun → Prop
  | init : QueueRun.Reachable {}
  | acquire (s : QueueRun) (queryId : String) :
      QueueRun.Reachable s → queryId ∉ s.acquired →
      QueueRun.Reachable (s.step (QueueCall.acquire queryId))
  | release (s : QueueRun) (queryId : String) :
      QueueRun.Reachable s → queryId ∈ s.held →
      QueueRun.Reachable (s.step (QueueCall.release queryId))

/-! ## Dotted paths of an include -/

/-- The conversion `String(x)` of an include entry, as `Array.prototype.join` does it: a
string is itself, an object is `[object Object]`. -/
def Inc.toJsString : Inc → String
  | Inc.str s => s
  | _ => "[object Object]"

/-- The conversion `String(x)` of a segment, or of the array that replaces `'all'`. -/
def IncField.toJsString : IncField Inc → String
  | IncField.one x => x.toJsString
  | IncField.many xs => jsJoin "," (xs.map Inc.toJsString)

/-- The object `{ association: a, separate: true }`. -/
def separateNode (a : Association) : Inc :=
  Inc.obj { association := some (AssociationProp.node a), separate := some true }

/-- The entry that stands for a key of `model.associations` after the wildcard is expanded:
the object `{ association, separate: true }` for a `HasMany`, else the key itself. -/
def expandKey (a : Association) : Inc :=
  if a.associationType = AssociationType.HasMany then separateNode a else Inc.str a.as

/-- The method `parseDotNotedAssociation(dotNotedAssociation, model)`, with fuel for its
recursion: `none` when the fuel runs out, `Except.ok none` for the result `undefined`.  For
a first segment that `model.associations` inherits from `Object.prototype` the test
`!model.associations[association]` fails, `childModel` is `undefined`, and the read of
`childModel.associations` throws. -/
def parseDotNotedAssociation (db : Sequelize) :
    Nat → String → String → Option (Except String (Option Inc))
  | 0, _, _ => none
  | fuel + 1, dotNotedAssociation, model =>
    if !jsIncludes dotNotedAssociation "." then some (Except.ok none)
    else
      match jsSplit "." dotNotedAssociation with
      | association :: subAssociation :: rest =>
        match db.associationProperty model association with
        | Property.undefined =>
          some (Except.error
            ("Association " ++ association ++ " does not exist in model " ++ model))
        | Property.inherited =>
          some (Except.error
            "TypeError: Cannot read properties of undefined (reading 'associations')")
        | Property.own childAssociation =>
          let childModel := childAssociation.target
          if subAssociation != "all" && !(db.associationKeys childModel).contains subAssociation
          then
            some (Except.error
              ("Association " ++ subAssociation ++ " does not exist in model " ++ childModel))
          else
            let subAssociation : IncField Inc :=
              if subAssociation == "all" then
                IncField.many ((db.associations childModel).map expandKey)
              else IncField.one (Inc.str subAssociation)
            let separate :=
              if childAssociation.associationType = AssociationType.HasMany then some true
              else none
            match rest with
            | [] =>
              -- `childModel.associations[subAssociation]?.associationType === 'HasMany'`:
              -- an inherited property has no `associationType`
              let nested :=
                match db.association childModel subAssociation.toJsString with
                | some a =>
                  if a.associationType = AssociationType.HasMany then
                    IncField.one (separateNode a)
                  else subAssociation
                | none => subAssociation
              some (Except.ok (some (Inc.obj {
                association := some (AssociationProp.node childAssociation)
                separate := separate
                include_ := some nested })))
            | _ :: _ =>
              match parseDotNotedAssociation db fuel
                  (jsJoin "." (subAssociation.toJsString :: rest)) childModel with
              | none => none
              | some (Except.error e) => some (Except.error e)
              | some (Except.ok nested) =>
                some (Except.ok (some (Inc.obj {
                  association := some (AssociationProp.node childAssociation)
                  separate := separate
                  include_ := nested.map IncField.one })))
      | _ => some (Except.ok none)

/-! ## Aggregation of include entries -/

/-- Truthiness of a string that may be `undefined`. -/
def strTruthy : Option String → Bool
  | some s => s != ""
  | none => false

/-- The read `item.model?.name`: the name of a model class; a model name not yet resolved
is a string and has no `name`. -/
def Inc.modelName? : Inc → Option String
  | Inc.obj o =>
    match o.model with
    | some (ModelProp.cls n) => some n
    | _ => none
  | _ => none

/-- The read `model.associations`; `model` is `undefined` in the nested call of
`loadIncludeClasses` for an entry that names no model. -/
def Sequelize.associationsOf (db : Sequelize) : Option String → Except String (List Association)
  | some model => Except.ok (db.associations model)
  | none => Except.error "TypeError: Cannot read properties of undefined (reading 'associations')"

/-- The expression `model.associations[s]?.as`: the alias of the own property `s`; a
property inherited from `Object.prototype` has no `as`. -/
def Sequelize.aliasOf (db : Sequelize) (model : Option String) (s : String) :
    Except String (Option String) :=
  (db.associationsOf model).map fun l => (l.find? fun a => a.as == s).map fun a => a.as

/-- The expression `Object.keys(model.associations).find(association =>
model.associations[association].target.name === name)`. -/
def Sequelize.keyOfTarget (db : Sequelize) (model : Option String) (name : String) :
    Except String (Option String) :=
  (db.associationsOf model).map fun l => (l.find? fun a => a.target == name).map fun a => a.as

/-- The constant `associationName` of `aggregateIncludeEntries` for an entry: the first
truthy operand of the chain of `||`, else the last operand; `none` is `undefined`. -/
def associationName (db : Sequelize) (model : Option String) (entry : Inc) :
    Except String (Option String) :=
  if strTruthy entry.associationAs? then Except.ok entry.associationAs?
  else if strTruthy entry.as? then Except.ok entry.as?
  else
    let third : Except String (Option String) :=
      match entry with
      | Inc.str s => db.aliasOf model s
      | _ => Except.ok none
    match third with
    | Except.error e => Except.error e
    | Except.ok third =>
      if strTruthy third then Except.ok third
      else
        let fourth : Except String (Option String) :=
          match entry.modelName? with
          | some n => if n != "" then db.keyOfTarget model n else Except.ok none
          | none => Except.ok none
        match fourth with
        | Except.error e => Except.error e
        | Except.ok fourth =>
          if strTruthy fourth then Except.ok fourth
          else
            match entry.name? with
            | some n => if n != "" then db.keyOfTarget model n else Except.ok (some "")
            | none => Except.ok none

/-- The function `isCurrentAssociation` of `aggregateIncludeEntries`, for the value
`associationName`. -/
def isCurrentAssociation (db : Sequelize) (model : Option String) (associationName : Option String)
    (includeItem : Inc) : Except String Bool :=
  if includeItem.as? == associationName then Except.ok true
  else if includeItem.associationAs? == associationName then Except.ok true
  else
    let third : Except String Bool :=
      match includeItem with
      | Inc.str s => (db.aliasOf model s).map fun a => a == associationName
      | _ => Except.ok false
    match third with
    | Except.error e => Except.error e
    | Except.ok true => Except.ok true
    | Except.ok false =>
      let fourth : Except String Bool :=
        match includeItem.name? with
        | some n =>
          if n != "" then (db.keyOfTarget model n).map fun k => k == associationName
          else Except.ok false
        | none => Except.ok false
      match fourth with
      | Except.error e => Except.error e
      | Except.ok true => Except.ok true
      | Except.ok false =>
        match includeItem.modelName? with
        | some n =>
          if n != "" then (db.keyOfTarget model n).map fun k => k == associationName
          else Except.ok false
        | none => Except.ok false

/-- The call `xs.some(f)` for a test that may throw. -/
def someE {α : Type} (f : α → Except String Bool) : List α → Except String Bool
  | [] => Except.ok false
  | x :: xs =>
    match f x with
    | Except.error e => Except.error e
    | Except.ok true => Except.ok true
    | Except.ok false => someE f xs

/-- The call `xs.filter(f)` for a test that may throw. -/
def filterE {α : Type} (f : α → Except String Bool) : List α → Except String (List α)
  | [] => Except.ok []
  | x :: xs =>
    match f x with
    | Except.error e => Except.error e
    | Except.ok b =>
      match filterE f xs with
      | Except.error e => Except.error e
      | Except.ok r => Except.ok (if b then x :: r else r)

/-- The test `r is true` on the result of a test that may throw. -/
def isOkTrue : Except String Bool → Bool
  | Except.ok true => true
  | _ => false

/-- The constant `modelName` of `aggregateIncludeEntries` for the aggregated entry: the
first truthy operand of the chain of `||`, else the last operand. -/
def aggregatedModelName (db : Sequelize) (model : Option String) :
    Inc → Except String (Option String)
  | Inc.obj o =>
    if strTruthy (Inc.obj o).modelName? then Except.ok (Inc.obj o).modelName?
    else
      match o.association with
      | some (AssociationProp.node a) =>
        if a.target != "" then Except.ok (some a.target) else Except.ok none
      | _ => Except.ok none
  | Inc.str s =>
    match db.associationsOf model with
    | Except.error e => Except.error e
    | Except.ok l =>
      match associationIn l s with
      | Property.own a => if a.target != "" then Except.ok (some a.target) else Except.ok none
      | Property.inherited =>
        Except.error "TypeError: Cannot read properties of undefined (reading 'name')"
      | Property.undefined =>
        Except.error "TypeError: Cannot read properties of undefined (reading 'target')"
  | Inc.model n => if n != "" then Except.ok (some n) else Except.ok none
  | Inc.assoc a => Except.ok (some a.target)

/-- The call `model.sequelize.model(modelName)`: the name of the model. -/
def sequelizeModel (db : Sequelize) (model : Option String) (modelName : Option String) :
    Except String String :=
  match model with
  | none => Except.error "TypeError: Cannot read properties of undefined (reading 'sequelize')"
  | some _ =>
    match modelName with
    | some n => if db.isDefined n then Except.ok n else Except.error (n ++ " has not been defined")
    | none => Except.error "undefined has not been defined"

/-- The statement `aggregatedEntry.include = v`. -/
def Inc.setInclude (v : Option (IncField Inc)) : Inc → Inc
  | Inc.obj o => Inc.obj { o with include_ := v }
  | i => i

/-- The value of `aggregatedEntry.include` after the `reduce` over the entries that have
an `include`: the include of a single entry as it is, else the array of the includes of
all of them. -/
def reducedInclude : List Inc → Option (IncField Inc)
  | [] => none
  | [Inc.obj o] => o.include_
  | entries => some (IncField.many (entries.flatMap Inc.children))

/-- The value of `aggregatedEntry` for the entries `first0 :: more` of one association,
more than one: the first of them when none has an `include` (the test
`disaggregatedEntries.every(entry => !entry.include)` is made on the list of the entries
that have one), else the first that has one, its `include` replaced by the aggregated
includes of all that have one.  `aggregate` is the recursive call. -/
def aggregatedEntry (db : Sequelize) (model : Option String)
    (aggregate : IncField Inc → Option String → Option (Except String (IncField Inc)))
    (first0 : Inc) (more : List Inc) : Option (Except String Inc) :=
  match (first0 :: more).filter Inc.hasInclude with
  | [] => some (Except.ok first0)
  | first :: others =>
    let reduced := reducedInclude (first :: others)
    match aggregatedModelName db model (first.setInclude reduced) with
    | Except.error e => some (Except.error e)
    | Except.ok modelName =>
      match sequelizeModel db model modelName with
      | Except.error e => some (Except.error e)
      | Except.ok entryModel =>
        match reduced with
        | none => some (Except.ok (first.setInclude none))
        | some reduced =>
          match aggregate reduced (some entryModel) with
          | none => none
          | some (Except.error e) => some (Except.error e)
          | some (Except.ok nested) => some (Except.ok (first.setInclude (some nested)))

/-- The loop of `aggregateIncludeEntries` from the entries at the indices `todo` on;
`include_` is the array, `aggregatedInclude` the result so far.  The write to
`aggregatedEntry.include` changes an entry of the array in place: the first entry of the
association that has an `include`, if there is one. -/
def aggregateLoop (db : Sequelize) (model : Option String)
    (aggregate : IncField Inc → Option String → Option (Except String (IncField Inc))) :
    List Nat → List Inc → List Inc → Option (Except String (List Inc))
  | [], _, aggregatedInclude => some (Except.ok aggregatedInclude)
  | index :: todo, include_, aggregatedInclude =>
    match include_.get? index with
    | none => aggregateLoop db model aggregate todo include_ aggregatedInclude
    | some entry =>
      match associationName db model entry with
      | Except.error e => some (Except.error e)
      | Except.ok name =>
        match someE (isCurrentAssociation db model name) aggregatedInclude with
        | Except.error e => some (Except.error e)
        | Except.ok true => aggregateLoop db model aggregate todo include_ aggregatedInclude
        | Except.ok false =>
          match filterE (isCurrentAssociation db model name) include_ with
          | Except.error e => some (Except.error e)
          | Except.ok (first0 :: second :: more) =>
            match aggregatedEntry db model aggregate first0 (second :: more) with
            | none => none
            | some (Except.error e) => some (Except.error e)
            | some (Except.ok aggregatedEntry) =>
              aggregateLoop db model aggregate todo
                (modifyFirst
                  (fun item =>
                    isOkTrue (isCurrentAssociation db model name item) && item.hasInclude)
                  (fun _ => aggregatedEntry) include_)
                (aggregatedInclude ++ [aggregatedEntry])
          | Except.ok disaggregatedEntries =>
            aggregateLoop db model aggregate todo include_
              (aggregatedInclude ++ disaggregatedEntries)

/-- The method `aggregateIncludeEntries(include, model)`, with fuel for the recursion into
the nested includes: `none` when the fuel runs out. -/
def aggregateIncludeEntries (db : Sequelize) :
    Nat → IncField Inc → Option String → Option (Except String (IncField Inc))
  | 0, _, _ => none
  | fuel + 1, include_, model =>
    match include_ with
    | IncField.one x => some (Except.ok (IncField.one x))
    | IncField.many xs =>
      if xs.length < 2 then some (Except.ok (IncField.many xs))
      else
        match aggregateLoop db model (aggregateIncludeEntries db fuel) (List.range xs.length) xs []
        with
        | none => none
        | some (Except.error e) => some (Except.error e)
        | some (Except.ok aggregatedInclude) => some (Except.ok (IncField.many aggregatedInclude))

/-! ## Resolution of an include -/

/-- The read `item.association` when it is a string. -/
def Inc.associationString? : Inc → Option String
  | Inc.obj o =>
    match o.association with
    | some (AssociationProp.name s) => some s
    | _ => none
  | _ => none

/-- The read `item.model` when it is a string. -/
def Inc.modelString? : Inc → Option String
  | Inc.obj o =>
    match o.model with
    | some (ModelProp.name s) => some s
    | _ => none
  | _ => none

/-- The test of the wildcard branch of `loadIncludeClasses` that the entry `includeItem`
declares the association already. -/
def declaresAssociation (association : Association) (includeItem : Inc) : Bool :=
  includeItem.as? == some association.as ||
  includeItem.associationAs? == some association.as ||
  includeItem.isStr association.as ||
  includeItem.associationString? == some association.as ||
  (match includeItem with
    | Inc.str s => (jsSplit "." s).head? == some association.as
    | _ => false) ||
  includeItem.name? == some association.target ||
  includeItem.modelName? == some association.target ||
  includeItem.isStr association.target ||
  includeItem.modelString? == some association.target

/-- The variables of the loop of `loadIncludeClasses`. -/
structure LoadState where
  include_ : List Inc
  newItems : Option (List Inc) := none
  allIndex : Option Nat := none

/-- The read `model.associations[key].associationType`; the key `undefined` is the
property name `'undefined'`, and an inherited property has no `associationType`. -/
def associationTypeOf (db : Sequelize) (model : Option String) (key : Option String) :
    Except String (Option AssociationType) :=
  match db.associationsOf model with
  | Except.error e => Except.error e
  | Except.ok l =>
    match associationIn l (key.getD "undefined") with
    | Property.own a => Except.ok (some a.associationType)
    | Property.inherited => Except.ok none
    | Property.undefined =>
      Except.error "TypeError: Cannot read properties of undefined (reading 'associationType')"

/-- The first `if` of the branch of `loadIncludeClasses` for an object: the model name is
resolved.  The result is the entry and `associatedModel`. -/
def loadModel (db : Sequelize) (model : Option String) (o : IncObj Inc) :
    Except String (IncObj Inc × Option String) :=
  match o.model with
  | some (ModelProp.name s) =>
    if s != "" then
      match sequelizeModel db model (some s) with
      | Except.error e => Except.error e
      | Except.ok associatedModel =>
        let association : Except String (Option String) :=
          if strTruthy o.as then Except.ok o.as else db.keyOfTarget model associatedModel
        match association with
        | Except.error e => Except.error e
        | Except.ok association =>
          match associationTypeOf db model association with
          | Except.error e => Except.error e
          | Except.ok associationType =>
            let o : IncObj Inc :=
              if associationType = some AssociationType.HasMany then
                { o with separate := some true }
              else o
            Except.ok ({ o with model := some (ModelProp.cls associatedModel) },
              some associatedModel)
    else Except.ok (o, none)
  | _ => Except.ok (o, none)

/-- The second `if` of the branch of `loadIncludeClasses` for an object: the association
name is resolved. -/
def loadAssociation (db : Sequelize) (model : Option String) (o : IncObj Inc) :
    Except String (IncObj Inc) :=
  match o.association with
  | some (AssociationProp.name s) =>
    if s != "" then
      match db.associationsOf model with
      | Except.error e => Except.error e
      | Except.ok l =>
        match associationIn l s with
        | Property.own a =>
          let o : IncObj Inc :=
            if a.associationType = AssociationType.HasMany then { o with separate := some true }
            else o
          Except.ok { o with association := some (AssociationProp.node a) }
        | Property.inherited => Except.ok { o with association := some (AssociationProp.inherited s) }
        | Property.undefined => Except.ok { o with association := none }
    else Except.ok o
  | _ => Except.ok o

/-- The body of the loop of `loadIncludeClasses` for the entry `item` at `index`; `load`
is the recursive call and `parse` the call of `parseDotNotedAssociation`. -/
def loadItem (db : Sequelize) (model : Option String)
    (load : Option (IncField Inc) → Option String →
      Option (Except String (Option (IncField Inc))))
    (parse : String → String → Option (Except String (Option Inc)))
    (st : LoadState) (index : Nat) (item : Inc) : Option (Except String LoadState) :=
  if item.isAll || item.isStr "all" then
    match db.associationsOf model with
    | Except.error e => some (Except.error e)
    | Except.ok associations =>
      some (Except.ok { st with
        allIndex := some index
        newItems := some ((associations.filter fun association =>
          !(st.include_.any (declaresAssociation association))).map expandKey) })
  else
    match item with
    | Inc.str s =>
      if !jsIncludes s "." then
        match db.associationsOf model with
        | Except.error e => some (Except.error e)
        | Except.ok l =>
          match associationIn l s with
          | Property.own a =>
            if a.associationType = AssociationType.HasMany then
              some (Except.ok { st with include_ := st.include_.set index (separateNode a) })
            else some (Except.ok st)
          | Property.inherited => some (Except.ok st)
          | Property.undefined =>
            some (Except.error
              "TypeError: Cannot read properties of undefined (reading 'associationType')")
      else
        match model with
        | none =>
          some (Except.error "TypeError: Cannot read properties of undefined (reading 'associations')")
        | some model =>
          match parse s model with
          | none => none
          | some (Except.error e) => some (Except.error e)
          | some (Except.ok (some parsed)) =>
            some (Except.ok { st with include_ := st.include_.set index parsed })
          | some (Except.ok none) => some (Except.ok st)
    | Inc.obj o =>
      match loadModel db model o with
      | Except.error e => some (Except.error e)
      | Except.ok (o, associatedModel) =>
        match loadAssociation db model o with
        | Except.error e => some (Except.error e)
        | Except.ok o =>
          if (Inc.obj o).hasInclude then
            match load o.include_ associatedModel with
            | none => none
            | some (Except.error e) => some (Except.error e)
            | some (Except.ok nested) =>
              some (Except.ok { st with
                include_ := st.include_.set index (Inc.obj { o with include_ := nested }) })
          else some (Except.ok { st with include_ := st.include_.set index (Inc.obj o) })
    | _ => some (Except.ok st)

/-- The loop of `loadIncludeClasses` over the indices `todo`. -/
def loadLoop (db : Sequelize) (model : Option String)
    (load : Option (IncField Inc) → Option String →
      Option (Except String (Option (IncField Inc))))
    (parse : String → String → Option (Except String (Option Inc))) :
    List Nat → LoadState → Option (Except String LoadState)
  | [], st => some (Except.ok st)
  | index :: todo, st =>
    match st.include_.get? index with
    | none => loadLoop db model load parse todo st
    | some item =>
      match loadItem db model load parse st index item with
      | none => none
      | some (Except.error e) => some (Except.error e)
      | some (Except.ok st) => loadLoop db model load parse todo st

/-- The method `loadIncludeClasses(include, model)`, with fuel for its recursion and for
the calls of `parseDotNotedAssociation` and `aggregateIncludeEntries`: `none` when the fuel
runs out, `Except.ok none` for the result `undefined`. -/
def loadIncludeClasses (db : Sequelize) :
    Nat → Option (IncField Inc) → Option String → Option (Except String (Option (IncField Inc)))
  | 0, _, _ => none
  | fuel + 1, include_, model =>
    match include_ with
    | none => some (Except.ok none)
    | some include_ =>
      if !include_.truthy then some (Except.ok none)
      else
        match loadLoop db model (loadIncludeClasses db fuel)
            (parseDotNotedAssociation db (fuel + 1)) (List.range include_.toList.length)
            { include_ := include_.toList } with
        | none => none
        | some (Except.error e) => some (Except.error e)
        | some (Except.ok st) =>
          let spliced :=
            match st.allIndex with
            | some allIndex => st.include_.eraseIdx allIndex
            | none => st.include_
          let unshifted :=
            match st.newItems with
            | some (item :: newItems) => (item :: newItems) ++ spliced
            | _ => spliced
          match aggregateIncludeEntries db (fuel + 1) (IncField.many unshifted) model with
          | none => none
          | some (Except.error e) => some (Except.error e)
          | some (Except.ok aggregated) => some (Except.ok (some aggregated))

/-! ## Where objects by reference

The include entries above hold their where objects by value.  In the source an entry
holds a reference, and the shallow copy `{ ...item }` of an entry shares the where object
with the entry copied.  The definitions below are `filterInclude` and the loop of
`setOptions` once more, on entries that hold the index of their where object in a heap. -/

/-- The where objects of the include entries, by index. -/
abbrev Heap := List Obj

/-- The properties of an include object, its `where` by reference. -/
structure RefObj (α : Type) where
  all : Bool := false
  association : Option AssociationProp := none
  model : Option ModelProp := none
  as : Option String := none
  whereRef : Option Nat := none
  required : Option Bool := none
  separate : Option Bool := none
  include_ : Option (IncField α) := none

/-- An entry of an include list whose objects hold their `where` by reference. -/
inductive RefInc
  | str (s : String)
  | model (name : String)
  | assoc (a : Association)
  | obj (o : RefObj RefInc)

/-- The read `item.all === true`. -/
def RefInc.isAll : RefInc → Bool
  | RefInc.obj o => o.all
  | _ => false

/-- The test `item === s` for a string `s`. -/
def RefInc.isStr : RefInc → String → Bool
  | RefInc.str t, s => t == s
  | _, _ => false

/-- The read `item.as`. -/
def RefInc.as? : RefInc → Option String
  | RefInc.assoc a => some a.as
  | RefInc.obj o => o.as
  | _ => none

/-- The read `item.name`. -/
def RefInc.name? : RefInc → Option String
  | RefInc.model n => some n
  | _ => none

/-- The read `item.association?.as`. -/
def RefInc.associationAs? : RefInc → Option String
  | RefInc.obj o =>
    match o.association with
    | some (AssociationProp.node a) => some a.as
    | _ => none
  | _ => none

/-- Truthiness of `item.required`. -/
def RefInc.isRequired : RefInc → Bool
  | RefInc.obj o => o.required == some true
  | _ => false

/-- Truthiness of `item.include`. -/
def RefInc.hasInclude : RefInc → Bool
  | RefInc.obj o =>
    match o.include_ with
    | some (IncField.one (RefInc.str s)) => s != ""
    | some _ => true
    | none => false
  | _ => false

/-- The statement `if (item.where) delete item.separate`. -/
def RefInc.dropSeparateIfWhere : RefInc → RefInc
  | RefInc.obj o =>
    match o.whereRef with
    | some _ => RefInc.obj { o with separate := none }
    | none => RefInc.obj o
  | i => i

/-- The writes of `filterInclude` to the entry found by association: the write
`includeEntry.where[subfield] = value` into the where object of the entry, or a new where
object; `required = true`; `delete separate`. -/
def attachWhereRef (subfield : String) (value : Val) (heap : Heap) : RefInc → RefInc × Heap
  | RefInc.obj o =>
    match o.whereRef with
    | some ref =>
      (RefInc.obj { o with required := some true, separate := none },
        heap.set ref (objSet (heap.getD ref []) (PKey.str subfield) value))
    | none =>
      (RefInc.obj { o with whereRef := some heap.length, required := some true, separate := none },
        heap ++ [[(PKey.str subfield, value)]])
  | i => (i, heap)

/-- The writes of `filterInclude` to the entry whose nested include was filtered. -/
def attachNestedRef (nested : IncField RefInc) : RefInc → RefInc
  | RefInc.obj o =>
    let required := match nested with
      | IncField.one x => x.isRequired
      | IncField.many xs => xs.any RefInc.isRequired
    let nested := match nested with
      | IncField.one x => IncField.one x.dropSeparateIfWhere
      | IncField.many xs => IncField.many (xs.map RefInc.dropSeparateIfWhere)
    if required then
      RefInc.obj { o with include_ := some nested, required := some true, separate := none }
    else RefInc.obj { o with include_ := some nested }
  | i => i

/-- The test `item.association?.as === childAssociation.as`. -/
def RefInc.isNodeOf (childAs : String) (item : RefInc) : Bool :=
  item.associationAs? == some childAs

/-- The test `item.all === true || item === field || item.as === childAssociation.as ||
item.name === childModel.name`. -/
def RefInc.mentions (field childAs childModel : String) (item : RefInc) : Bool :=
  item.isAll || item.isStr field || item.as? == some childAs || item.name? == some childModel

/-- The include list after the entries that `includeEntry` stands for are filtered out. -/
def removeMentionedRef (field childAs childModel : String) (includeEntry : RefInc)
    (include_ : List RefInc) : List RefInc :=
  if includeEntry.isStr field then include_.filter fun item => !(item.isStr field)
  else if includeEntry.as? == some childAs then
    include_.filter fun item => !(item.as? == some childAs)
  else if includeEntry.name? == some childModel then
    include_.filter fun item => !(item.name? == some childModel)
  else include_

/-- The method `filterInclude` on the segments of the dotted key, with the heap of the
where objects before and after the call. -/
def filterIncludeSegsRef (db : Sequelize) (value : Val) :
    List String → String → IncField RefInc → Heap →
      Except String (IncField RefInc × Bool × Heap)
  | field :: subfield :: rest, model, include_, heap =>
    match db.associationProperty model field with
    | Property.undefined => Except.ok (include_, false, heap)
    | Property.inherited =>
      match rest with
      | [] =>
        Except.error "TypeError: Cannot read properties of undefined (reading 'rawAttributes')"
      | _ :: _ =>
        Except.error "TypeError: Cannot read properties of undefined (reading 'associations')"
    | Property.own childAssociation =>
      let childModel := childAssociation.target
      let include_ := include_.toList
      match rest with
      | [] =>
        if !(db.rawAttributes childModel).contains subfield then
          Except.ok (IncField.many include_, false, heap)
        else
          match include_.find? (RefInc.isNodeOf childAssociation.as) with
          | some includeEntry =>
            let written := attachWhereRef subfield value heap includeEntry
            Except.ok (IncField.many (modifyFirst (RefInc.isNodeOf childAssociation.as)
                (fun _ => written.1) include_),
              childAssociation.associationType.isToMany, written.2)
          | none =>
            match include_.find? (RefInc.mentions field childAssociation.as childModel) with
            | some includeEntry =>
              Except.ok (IncField.many
                (removeMentionedRef field childAssociation.as childModel includeEntry include_
                  ++ [RefInc.obj {
                    association := some (AssociationProp.node childAssociation)
                    whereRef := some heap.length
                    required := some true }]),
                childAssociation.associationType.isToMany,
                heap ++ [[(PKey.str subfield, value)]])
            | none => Except.ok (IncField.many include_, false, heap)
      | _ :: _ =>
        if !(db.associationKeys childModel).contains subfield then
          Except.ok (IncField.many include_, false, heap)
        else
          match include_.find? fun item => item.isNodeOf childAssociation.as && item.hasInclude
          with
          | some (RefInc.obj o) =>
            match o.include_ with
            | some nested =>
              match filterIncludeSegsRef db value (subfield :: rest) childModel nested heap with
              | Except.error e => Except.error e
              | Except.ok result =>
                Except.ok (IncField.many (modifyFirst
                    (fun item => item.isNodeOf childAssociation.as && item.hasInclude)
                    (attachNestedRef result.1) include_),
                  result.2.1, result.2.2)
            | none => Except.ok (IncField.many include_, false, heap)
          | _ => Except.ok (IncField.many include_, false, heap)
  | _, _, include_, heap => Except.ok (include_, false, heap)

/-- The method `filterInclude(dotNotedKey, value, model, include_)` with the heap. -/
def filterIncludeRef (db : Sequelize) (dotNotedKey : String) (value : Val) (model : String)
    (include_ : IncField RefInc) (heap : Heap) : Except String (IncField RefInc × Bool × Heap) :=
  if !jsIncludes dotNotedKey "." then Except.ok (include_, false, heap)
  else filterIncludeSegsRef db value (jsSplit "." dotNotedKey) model include_ heap

/-- The state of the loop of `setOptions`, with the heap. -/
structure RefLoopState where
  where_ : Option Obj
  include_ : IncField RefInc
  hasFilteredArray : Bool
  heap : Heap

/-- One iteration of the loop of `setOptions`, with the heap. -/
def setOptionsStepRef (r : Repository) (st : RefLoopState) (key : String) (value : Val) :
    Except String RefLoopState :=
  match parseAttribute r.options.operatorSeparator key value with
  | Except.error e => Except.error e
  | Except.ok none => Except.ok st
  | Except.ok (some parsedAttribute) =>
    if !jsIncludes key "." then
      if r.getAttributes.contains parsedAttribute.parsedKey then
        match mergeWhere st.where_ parsedAttribute.parsedKey parsedAttribute.parsedValue with
        | Except.error e => Except.error e
        | Except.ok w => Except.ok { st with where_ := some w }
      else Except.ok st
    else
      match filterIncludeRef r.sequelize parsedAttribute.parsedKey
          parsedAttribute.parsedValue r.model st.include_ st.heap with
      | Except.error e => Except.error e
      | Except.ok result =>
        Except.ok { st with
          include_ := result.1, hasFilteredArray := result.2.1, heap := result.2.2 }

/-- The loop of `setOptions` over the keys of `entityQuery`, with the heap. -/
def setOptionsLoopRef (r : Repository) :
    List (String × Val) → RefLoopState → Except String RefLoopState
  | [], st => Except.ok st
  | (key, value) :: rest, st =>
    match setOptionsStepRef r st key value with
    | Except.error e => Except.error e
    | Except.ok st1 => setOptionsLoopRef r rest st1

/-- The part of `setOptions` that builds `options.where` and `options.include` from the
include in effect `configured`, whose where objects are in `heap`: the state of the loop
after the last key, with the heap after the call. -/
def setOptionsRef (r : Repository) (configured : List RefInc) (heap : Heap)
    (entityQuery : List (String × Val)) : Except String RefLoopState :=
  setOptionsLoopRef r entityQuery
    { where_ := none, include_ := IncField.many configured, hasFilteredArray := false,
      heap := heap }

mutual
/-- The include entry by value that an entry by reference stands for in a heap. -/
def RefInc.deref (heap : Heap) : RefInc → Inc
  | RefInc.str s => Inc.str s
  | RefInc.model n => Inc.model n
  | RefInc.assoc a => Inc.assoc a
  | RefInc.obj ⟨all, association, model, as, whereRef, required, separate, none⟩ =>
    Inc.obj {
      all := all, association := association, model := model, as := as
      where_ := whereRef.map fun ref => heap.getD ref []
      required := required, separate := separate, include_ := none }
  | RefInc.obj ⟨all, association, model, as, whereRef, required, separate,
      some (IncField.one x)⟩ =>
    Inc.obj {
      all := all, association := association, model := model, as := as
      where_ := whereRef.map fun ref => heap.getD ref []
      required := required, separate := separate
      include_ := some (IncField.one (x.deref heap)) }
  | RefInc.obj ⟨all, association, model, as, whereRef, required, separate,
      some (IncField.many xs)⟩ =>
    Inc.obj {
      all := all, association := association, model := model, as := as
      where_ := whereRef.map fun ref => heap.getD ref []
      required := required, separate := separate
      include_ := some (IncField.many (derefList heap xs)) }
/-- The include list by value that a list of entries by reference stands for. -/
def derefList (heap : Heap) : List RefInc → List Inc
  | [] => []
  | x :: xs => x.deref heap :: derefList heap xs
end

/-! ## The operations under the serializer

Every operation of the repository is embedded here with the events it causes outside
itself, in order: the tickets it takes from and gives back to the wait list, the writes
to the active schema of the registry, and its calls of the query library.  The library is
an oracle: the answer to a call may depend on everything that happened before. -/

/-- An error thrown inside an operation: a `ValidationError` of the query library, or any
other error, with its message. -/
inductive Failure
  | validation (message : String)
  | other (message : String)

/-- The read `error.message`. -/
def Failure.message : Failure → String
  | Failure.validation message => message
  | Failure.other message => message

/-- The options `{ through, validate: true, transaction }` of an association setter. -/
structure ThroughOptions where
  through : Val
  transaction : Option String

/-- A call of the query library, with its arguments; `transaction` is the id whose
transaction `this.transactions.get` returns. -/
inductive LibraryCall
  | findAll (scope : String) (options : FindOptions)
  | findOne (scope : String) (options : FindOptions)
  | create (values : List (String × Val)) (transaction : Option String)
  | bulkCreate (values : List (List (String × Val))) (transaction : Option String)
  | update (values : List (String × Val)) (where_ : Option Obj) (transaction : Option String)
  | destroy (where_ : Option Obj) (transaction : Option String)
  | count (where_ : Option Obj) (transaction : Option String)
  | validate (values : List (String × Val)) (fields : Option (List String))
  | set (entity : Obj) (key : String) (value : Val) (options : Option ThroughOptions)
  | add (entity : Obj) (key : String) (value : Val) (options : Option ThroughOptions)
  | reload (entity : Obj)
  | setval (serialPk : Option String)
  | createSchema (schema : String)
  | sync (schema : String)
  | dropSchema (schema : String)

/-- What an operation does outside itself: `getQueryId` has drawn the ticket `queryId` and
pushed it to the wait list; `callNextQuery(queryId)`; `changeTenant(tenantName)`; a call of
the query library; and the start, under `Promise.all`, of one call of `updateAssociations`
for each of the entities with its DTO.  An operation that runs alone finds the wait list
empty, so that its `getQueryId` returns without waiting; under `Promise.all` the calls of
`updateAssociations` wait for one another. -/
inductive Event
  | getQueryId (queryId : String)
  | callNextQuery (queryId : Option String)
  | changeTenant (tenantName : Option String)
  | call (c : LibraryCall)
  | updateAssociations (calls : List (Obj × Option (List (String × Val))))

/-- The world outside the repository: the ids that `generateRandomId` draws and the
answers of the query library, each as a function of the events so far, the call
included.  `rows` answers `findAll` and `bulkCreate`, `row` answers `findOne`, `entity`
answers `create` and `reload`, `done` the calls whose result is not read.  The answer to
a call arrives in a later turn of the event loop; `settles` chooses, among the calls that
are in flight at once, the position of the one that is answered next. -/
structure Library where
  generateRandomId : List Event → String
  rows : List Event → Except Failure (List Obj)
  row : List Event → Except Failure (Option Obj)
  entity : List Event → Except Failure Obj
  done : List Event → Except Failure Unit
  counted : List Event → Except Failure Nat
  validated : List Event → Except Failure Val
  settles : List Event → Nat
  createValidationErrorMessage : String → String

/-- An operation: from the events so far to the events after it and its outcome. -/
def OpM (α : Type) : Type := List Event → List Event × Except Failure α

/-- The operation that returns `a`. -/
def OpM.pure {α : Type} (a : α) : OpM α := fun trace => (trace, Except.ok a)

/-- The statement `throw error`. -/
def OpM.throw {α : Type} (error : Failure) : OpM α := fun trace => (trace, Except.error error)

/-- The sequence of two operations. -/
def OpM.bind {α β : Type} (m : OpM α) (f : α → OpM β) : OpM β := fun trace =>
  match m trace with
  | (trace, Except.ok a) => f a trace
  | (trace, Except.error error) => (trace, Except.error error)

instance : Monad OpM where
  pure := OpM.pure
  bind := OpM.bind

/-- The statement `try { body } catch (error) { handler }`. -/
def OpM.tryCatch {α : Type} (body : OpM α) (handler : Failure → OpM α) : OpM α := fun trace =>
  match body trace with
  | (trace, Except.ok a) => (trace, Except.ok a)
  | (trace, Except.error error) => handler error trace

/-- An event happens. -/
def OpM.emit (e : Event) : OpM Unit := fun trace => (trace ++ [e], Except.ok ())

/-- Code without events that returns or throws an error with a message. -/
def OpM.lift {α : Type} : Except String α → OpM α
  | Except.ok a => OpM.pure a
  | Except.error message => OpM.throw (Failure.other message)

/-- The expression `await call`, answered by the library. -/
def OpM.await {α : Type} (c : LibraryCall) (answer : List Event → Except Failure α) : OpM α :=
  fun trace => (trace ++ [Event.call c], answer (trace ++ [Event.call c]))

/-- The statement `if (this.isMultitenantEnabled) queryId = await this.getQueryId()`: the
value of `queryId` after it. -/
def OpM.getQueryId (r : Repository) (lib : Library) : OpM (Option String) := fun trace =>
  if r.isMultitenantEnabled then
    (trace ++ [Event.getQueryId (lib.generateRandomId trace)],
      Except.ok (some (lib.generateRandomId trace)))
  else (trace, Except.ok none)

/-- The statement `if (this.isMultitenantEnabled) this.callNextQuery(queryId)`. -/
def OpM.callNextQuery (r : Repository) (queryId : Option String) : OpM Unit :=
  if r.isMultitenantEnabled then OpM.emit (Event.callNextQuery queryId) else OpM.pure ()

/-- The statement `if (tenant) this.changeTenant(tenant)`. -/
def OpM.changeTenant (tenant : Option String) : OpM Unit :=
  if strTruthy tenant then OpM.emit (Event.changeTenant tenant) else OpM.pure ()

/-- The statement `throw new Error(error.message)` of a `catch`. -/
def rethrow {α : Type} (error : Failure) : OpM α :=
  OpM.throw (Failure.other error.message)

/-- The `if (error instanceof this.ValidationError)` statement of a `catch`. -/
def rethrowTranslated {α : Type} (lib : Library) : Failure → OpM α
  | Failure.validation message =>
    OpM.throw (Failure.other (lib.createValidationErrorMessage message))
  | Failure.other message => OpM.throw (Failure.other message)

/-- The statements around a call of the query library:
`if (this.isMultitenantEnabled) queryId = await this.getQueryId();`
`try { if (tenant) this.changeTenant(tenant); x = await body }`
`catch (error) { if (this.isMultitenantEnabled) this.callNextQuery(queryId); handler }`
`if (this.isMultitenantEnabled) this.callNextQuery(queryId);` -/
def OpM.serialized {α : Type} (r : Repository) (lib : Library) (tenant : Option String)
    (body : OpM α) (handler : Failure → OpM α) : OpM α := do
  let queryId ← OpM.getQueryId r lib
  let result ← OpM.tryCatch (do OpM.changeTenant tenant; body)
    (fun error => do OpM.callNextQuery r queryId; handler error)
  OpM.callNextQuery r queryId
  pure result

/-- The statements around a call of the query library after `getQueryId` has returned:
`try { if (tenant) this.changeTenant(tenant); x = await body }`
`catch (error) { if (this.isMultitenantEnabled) this.callNextQuery(queryId); handler }`
`if (this.isMultitenantEnabled) this.callNextQuery(queryId);` -/
def OpM.underTicket {α : Type} (r : Repository) (tenant queryId : Option String)
    (body : OpM α) (handler : Failure → OpM α) : OpM α := do
  let result ← OpM.tryCatch (do OpM.changeTenant tenant; body)
    (fun error => do OpM.callNextQuery r queryId; handler error)
  OpM.callNextQuery r queryId
  pure result

/-- The first statements of `getQueryId()`: the ticket is drawn and pushed to the wait
list. -/
def OpM.pushQueryId (lib : Library) : OpM String := fun trace =>
  (trace ++ [Event.getQueryId (lib.generateRandomId trace)],
    Except.ok (lib.generateRandomId trace))

/-- The third argument of the operations, with its defaults. -/
structure CallOptions where
  transactionId : Option String := none
  tenant : Option String := none
  scope : String := "defaultScope"
  ignoreSerialPk : Bool := true
  createAssociatedEntities : Bool := false
  updateAssociations : Bool := true

mutual
/-- The conversion `String(v)` of a template literal. -/
def Val.toJsString : Val → String
  | Val.undef => "undefined"
  | Val.null => "null"
  | Val.bool b => if b then "true" else "false"
  | Val.num n => toString n
  | Val.str s => s
  | Val.arr xs => joinElements xs
  | Val.obj _ => "[object Object]"
/-- The conversion of an array: `xs.join(',')`. -/
def joinElements : List Val → String
  | [] => ""
  | [x] => elementString x
  | x :: y :: rest => elementString x ++ "," ++ joinElements (y :: rest)
/-- The conversion of an element of an array; `null` and `undefined` give the empty string. -/
def elementString : Val → String
  | Val.undef => ""
  | Val.null => ""
  | Val.bool b => if b then "true" else "false"
  | Val.num n => toString n
  | Val.str s => s
  | Val.arr xs => joinElements xs
  | Val.obj _ => "[object Object]"
end

/-- The read `dto[key]` on a DTO or a filter map. -/
def dtoGet (dto : List (String × Val)) (key : String) : Val :=
  match dto.find? fun kv => kv.1 == key with
  | some kv => kv.2
  | none => Val.undef

/-- The constant `serialPk` of an operation:
`Object.keys(entityDTO).find(attr => this.model.primaryKeys[attr]?.autoIncrement)`. -/
def Repository.serialPk (r : Repository) (entityDTO : List (String × Val)) : Option String :=
  (entityDTO.find? fun kv =>
    (r.sequelize.primaryKeys r.model).any fun pk => pk.1 == kv.1 && pk.2).map fun kv => kv.1

/-- The statement `if (serialPk && drop) delete entityDTO[serialPk]`. -/
def deleteSerialPk (serialPk : Option String) (drop : Bool) (entityDTO : List (String × Val)) :
    List (String × Val) :=
  if strTruthy serialPk && drop then entityDTO.filter fun kv => !(some kv.1 == serialPk)
  else entityDTO

/-- The loop of `create` that deletes the keys of the DTO that name an association and hold
a plain object; reading `constructor` of `null` or `undefined` throws. -/
def deleteNested (associationAttributes : List String) :
    List (String × Val) → Except String (List (String × Val))
  | [] => Except.ok []
  | (key, value) :: rest =>
    if associationAttributes.contains key then
      match value with
      | Val.undef =>
        Except.error "TypeError: Cannot read properties of undefined (reading 'constructor')"
      | Val.null => Except.error "TypeError: Cannot read properties of null (reading 'constructor')"
      | Val.obj _ => deleteNested associationAttributes rest
      | _ => (deleteNested associationAttributes rest).map fun kept => (key, value) :: kept
    else (deleteNested associationAttributes rest).map fun kept => (key, value) :: kept

/-- The options `{ where: { [primaryKeyName]: entity[primaryKeyName] }, include, transaction }`
of the `findOne` that fetches an entity again, `include` being
`this.options['includeOn' + action] || this.options.include`. -/
def refetchOne (r : Repository) (action : Action) (entity : Obj) (transactionId : Option String) :
    FindOptions :=
  { where_ := some [(PKey.str r.primaryKeyName, objGet entity (PKey.str r.primaryKeyName))]
    include_ := orInclude (r.options.includeOn action) r.options.include_
    transaction := transactionId }

/-- The options of the `findAll` that fetches the entities of the given primary keys again:
`{ where: { [primaryKeyName]: { [Op.in]: keys } }, include, order, transaction }`. -/
def refetchIn (r : Repository) (action : Action) (entities : List Obj)
    (order : Option (List (String × String))) (transactionId : Option String) : FindOptions :=
  { where_ := some [(PKey.str r.primaryKeyName,
      Val.obj [(PKey.op "in",
        Val.arr (entities.map fun entity => objGet entity (PKey.str r.primaryKeyName)))])]
    include_ := orInclude (r.options.includeOn action) r.options.include_
    order := order
    transaction := transactionId }

/-- The method `setSerialSequence(tenant)`: the first attribute of the model that is an
auto-incremented primary key, the tenant switch and the raw query. -/
def setSerialSequence (r : Repository) (lib : Library) (tenant : Option String) : OpM Unit := do
  OpM.changeTenant tenant
  OpM.await (LibraryCall.setval
    (((r.sequelize.primaryKeys r.model).find? fun pk => pk.2).map fun pk => pk.1)) lib.done

/-- The call `entity[method](...)` of `updateAssociations` inside its `try`: on `null` the
read of the method throws. -/
def onEntity {α : Type} (entity : Option Obj) (c : Obj → LibraryCall)
    (answer : List Event → Except Failure α) : OpM α :=
  match entity with
  | some e => OpM.await (c e) answer
  | none => OpM.throw (Failure.other "TypeError: Cannot read properties of null")

/-- The test `Array.isArray(item) && item.length === 2`. -/
def isPair : Val → Bool
  | Val.arr [_, _] => true
  | _ => false

/-- The test `Array.isArray(value) && value.length > 0 && value.every(item =>
Array.isArray(item) && item.length === 2)`. -/
def isPairs : Val → Bool
  | Val.arr (item :: items) => (item :: items).all isPair
  | _ => false

/-- The elements of an array. -/
def Val.elements : Val → List Val
  | Val.arr xs => xs
  | _ => []

/-- The first element of `item` in `const [associatedEntityId, additionalAttributes] = item`. -/
def pairFirst : Val → Val
  | Val.arr (associatedEntityId :: _) => associatedEntityId
  | _ => Val.undef

/-- The second element of `item` in `const [associatedEntityId, additionalAttributes] = item`. -/
def pairSecond : Val → Val
  | Val.arr (_ :: additionalAttributes :: _) => additionalAttributes
  | _ => Val.undef

/-- The call of the association setter for the pair at `index`: `set` for the first pair,
`add` for the others, with `{ through, validate: true, transaction }`. -/
def pairCall (key : String) (transactionId : Option String) (index : Nat) (item : Val)
    (e : Obj) : LibraryCall :=
  if index = 0 then
    LibraryCall.set e key (pairFirst item)
      (some { through := pairSecond item, transaction := transactionId })
  else
    LibraryCall.add e key (pairFirst item)
      (some { through := pairSecond item, transaction := transactionId })

/-- The loop of `updateAssociations` over the pairs `[id, attributes]` under a key, from
the given index on. -/
def updateAssociationPairs (r : Repository) (lib : Library) (entity : Option Obj) (key : String)
    (transactionId tenant : Option String) : Nat → List Val → OpM Unit
  | _, [] => OpM.pure ()
  | index, item :: rest =>
    OpM.bind
      (OpM.serialized r lib tenant
        (onEntity entity (pairCall key transactionId index item) lib.done) rethrow)
      fun _ => updateAssociationPairs r lib entity key transactionId tenant (index + 1) rest

/-- The statements of `updateAssociations` for one key of the DTO. -/
def updateAssociationKey (r : Repository) (lib : Library) (entity : Option Obj)
    (transactionId tenant : Option String) (key : String) (value : Val) : OpM Unit :=
  if r.getAssociationAttributes.contains key then
    if isPairs value then
      updateAssociationPairs r lib entity key transactionId tenant 0 value.elements
    else
      OpM.serialized r lib tenant
        (onEntity entity (fun e => LibraryCall.set e key value none) lib.done) rethrow
  else OpM.pure ()

/-- The loop of `updateAssociations` over the keys of the DTO. -/
def updateAssociationKeys (r : Repository) (lib : Library) (entity : Option Obj)
    (transactionId tenant : Option String) : List (String × Val) → OpM Unit
  | [] => OpM.pure ()
  | kv :: rest =>
    OpM.bind (updateAssociationKey r lib entity transactionId tenant kv.1 kv.2)
      fun _ => updateAssociationKeys r lib entity transactionId tenant rest

/-- The method `updateAssociations(entity, entityDTO, transactionId, tenant)`; the DTO is
`undefined` when `bulkCreate` finds none for the entity. -/
def Serialized.updateAssociations (r : Repository) (lib : Library) (entity : Option Obj)
    (entityDTO : Option (List (String × Val))) (transactionId tenant : Option String) :
    OpM Obj := do
  updateAssociationKeys r lib entity transactionId tenant (entityDTO.getD [])
  OpM.serialized r lib tenant (onEntity entity LibraryCall.reload lib.entity) rethrow

/-! ### Calls of `updateAssociations` under `Promise.all`

`bulkCreate` and `bulkUpdate` start one call of `updateAssociations` for each entity and
await them together.  Each call runs up to its first `await` when it is started, and the
calls then take turns at their `await`s.  The answer of the library to a call is the
answer that `OpM.await` gives when the call is made, and it arrives in a later turn of the
event loop.  The operation is taken to run alone, and the tickets drawn to be different
from one another. -/

/-- The calls of the association setters for the pairs under a key, from the given index
on, in the order in which `updateAssociations` makes them. -/
def pairCalls (key : String) (transactionId : Option String) (e : Obj) :
    Nat → List Val → List LibraryCall
  | _, [] => []
  | index, item :: rest =>
    pairCall key transactionId index item e :: pairCalls key transactionId e (index + 1) rest

/-- The calls of the association setters that `updateAssociations` makes for one key of
the DTO. -/
def updateAssociationKeyCalls (r : Repository) (e : Obj) (transactionId : Option String)
    (key : String) (value : Val) : List LibraryCall :=
  if r.getAssociationAttributes.contains key then
    if isPairs value then pairCalls key transactionId e 0 value.elements
    else [LibraryCall.set e key value none]
  else []

/-- The calls of the association setters that `updateAssociations` makes before the
`reload`, in the order of the keys of the DTO. -/
def updateAssociationCalls (r : Repository) (e : Obj) (transactionId : Option String) :
    List (String × Val) → List LibraryCall
  | [] => []
  | kv :: rest =>
    updateAssociationKeyCalls r e transactionId kv.1 kv.2 ++
      updateAssociationCalls r e transactionId rest

/-- A call of `updateAssociations` that `Promise.all` awaits: the position of its entity
in the array, the entity, and the calls of the association setters that it has yet to make
before the `reload`. -/
structure Started where
  index : Nat
  entity : Obj
  calls : List LibraryCall

/-- The calls `this.updateAssociations(entity, entityDTO, transactionId, tenant)` of the
`map` under `Promise.all`, from the given position on. -/
def startedFrom (r : Repository) (transactionId : Option String) :
    Nat → List (Obj × Option (List (String × Val))) → List Started
  | _, [] => []
  | index, call :: rest =>
    { index := index, entity := call.1,
      calls := updateAssociationCalls r call.1 transactionId (call.2.getD []) } ::
      startedFrom r transactionId (index + 1) rest

/-- The number of calls of the library that the calls of `updateAssociations` have yet to
make: the setters and one `reload` each. -/
def callsLeft : List Started → Nat
  | [] => 0
  | s :: rest => s.calls.length + 1 + callsLeft rest

/-- A call of `updateAssociations` goes on after its `getQueryId` has returned `queryId`:
the statements around its next call of the library, up to `callNextQuery`.  The result is
the call of `updateAssociations` with the calls it has left, or the entity it returns after
the `reload`. -/
def Started.resume (r : Repository) (lib : Library) (tenant queryId : Option String)
    (s : Started) : OpM (Started ⊕ Obj) :=
  match s.calls with
  | c :: rest =>
    OpM.bind (OpM.underTicket r tenant queryId (OpM.await c lib.done) rethrow)
      fun _ => OpM.pure (Sum.inl { s with calls := rest })
  | [] =>
    OpM.bind (OpM.underTicket r tenant queryId
        (OpM.await (LibraryCall.reload s.entity) lib.entity) rethrow)
      fun entity => OpM.pure (Sum.inr entity)

/-- The next call of the library of a call of `updateAssociations`: the next setter, or
the `reload`. -/
def Started.nextCall (s : Started) : LibraryCall :=
  match s.calls with
  | c :: _ => c
  | [] => LibraryCall.reload s.entity

/-- A call of `updateAssociations` goes on after its `getQueryId` has returned, up to the
`await` of its next call of the library: the tenant is switched and the call is made; the
answer is not yet there. -/
def Started.call (tenant : Option String) (s : Started) : OpM Unit := fun trace =>
  ((OpM.changeTenant tenant trace).1 ++ [Event.call s.nextCall], Except.ok ())

/-- With multitenancy enabled, every call of `updateAssociations` pushes its first ticket
when it is started. -/
def startQueued (lib : Library) : List Started → OpM (List (String × Started))
  | [] => OpM.pure []
  | s :: rest =>
    OpM.bind (OpM.pushQueryId lib) fun queryId =>
      OpM.bind (startQueued lib rest) fun queue => OpM.pure ((queryId, s) :: queue)

/-- With multitenancy enabled, the calls of `updateAssociations` take turns in the order of
the wait list.  The call whose ticket is first makes its call of the library and gives the
ticket back, which wakes the next; when it has calls left it pushes a new ticket and waits
behind the others, else it returns its entity.  When its call of the library throws it
gives the ticket back and throws, and `Promise.all` rejects: the call of
`updateAssociations` that was woken makes its call of the library (its promise job is
queued before the job of the rejection), and then the operation throws, while that call is
in flight and the other calls of `updateAssociations` wait.  The first argument bounds the
number of turns. -/
def settleQueued (r : Repository) (lib : Library) (tenant : Option String) :
    Nat → List (String × Started) → List (Nat × Obj) → OpM (List (Nat × Obj))
  | 0, _, results => OpM.pure results
  | _ + 1, [], results => OpM.pure results
  | fuel + 1, (queryId, s) :: waiting, results =>
    OpM.bind
      (OpM.tryCatch (s.resume r lib tenant (some queryId)) fun error =>
        match waiting with
        | [] => OpM.throw error
        | woken :: _ => OpM.bind (woken.2.call tenant) fun _ => OpM.throw error)
      fun next =>
        match next with
        | Sum.inl s =>
          OpM.bind (OpM.pushQueryId lib) fun queryId =>
            settleQueued r lib tenant fuel (waiting ++ [(queryId, s)]) results
        | Sum.inr entity =>
          settleQueued r lib tenant fuel waiting (results ++ [(s.index, entity)])

/-- Without multitenancy, every call of `updateAssociations` makes its first call of the
library when it is started: the call of `updateAssociations` and the outcome that awaits
it. -/
def startConcurrent (r : Repository) (lib : Library) (tenant : Option String) :
    List Started → OpM (List (Started × Except Failure (Started ⊕ Obj)))
  | [] => OpM.pure []
  | s :: rest => fun trace =>
    match startConcurrent r lib tenant rest (s.resume r lib tenant none trace).1 with
    | (later, Except.ok inFlight) =>
      (later, Except.ok ((s, (s.resume r lib tenant none trace).2) :: inFlight))
    | (later, Except.error error) => (later, Except.error error)

/-- Without multitenancy, the calls of `updateAssociations` are all in flight, and the
library chooses which is answered next.  The call of `updateAssociations` that is answered
makes its next call of the library or returns its entity; when the answer is an error it
throws, `Promise.all` rejects, and the operation throws.  The first argument bounds the
number of answers. -/
def settleConcurrent (r : Repository) (lib : Library) (tenant : Option String) :
    Nat → List (Started × Except Failure (Started ⊕ Obj)) → List (Nat × Obj) →
      OpM (List (Nat × Obj))
  | 0, _, results => OpM.pure results
  | _ + 1, [], results => OpM.pure results
  | fuel + 1, first :: others, results => fun trace =>
    let position := lib.settles trace % (others.length + 1)
    match ((first :: others).get? position).getD first with
    | (_, Except.error error) => (trace, Except.error error)
    | (s, Except.ok (Sum.inr entity)) =>
      settleConcurrent r lib tenant fuel ((first :: others).eraseIdx position)
        (results ++ [(s.index, entity)]) trace
    | (_, Except.ok (Sum.inl s)) =>
      settleConcurrent r lib tenant fuel
        ((first :: others).set position (s, (s.resume r lib tenant none trace).2)) results
        (s.resume r lib tenant none trace).1

/-- The array that `Promise.all` resolves to: the entities in the order of the calls. -/
def inOrder (length : Nat) (results : List (Nat × Obj)) : List Obj :=
  (List.range length).filterMap fun index =>
    (results.find? fun result => result.1 == index).map fun result => result.2

/-- The expression `await Promise.all(entities.map(entity => this.updateAssociations(entity,
entityDTO, transactionId, tenant)))`. -/
def OpM.all (r : Repository) (lib : Library) (transactionId tenant : Option String)
    (calls : List (Obj × Option (List (String × Val)))) : OpM (List Obj) :=
  match calls with
  | [] => OpM.pure []
  | _ :: _ =>
    OpM.bind (OpM.emit (Event.updateAssociations calls)) fun _ =>
      OpM.bind
        (if r.isMultitenantEnabled then
          OpM.bind (startQueued lib (startedFrom r transactionId 0 calls)) fun queue =>
            settleQueued r lib tenant (callsLeft (startedFrom r transactionId 0 calls)) queue []
        else
          OpM.bind (startConcurrent r lib tenant (startedFrom r transactionId 0 calls))
            fun inFlight =>
              settleConcurrent r lib tenant (callsLeft (startedFrom r transactionId 0 calls))
                inFlight [])
        fun results => OpM.pure (inOrder calls.length results)

/-- The method `list(entityQuery, entityQueryOptions, options)`. -/
def Serialized.list (r : Repository) (lib : Library) (entityQuery : List (String × Val))
    (entityQueryOptions : EntityQueryOptions) (o : CallOptions) : OpM (List Obj) :=
  match setOptions r entityQuery entityQueryOptions Action.List with
  | Except.error e => OpM.throw (Failure.other e)
  | Except.ok (options, hasFilteredArray) => do
    let entities ← OpM.serialized r lib o.tenant
      (OpM.await (LibraryCall.findAll o.scope (firstFind options o.transactionId)) lib.rows)
      rethrow
    let entities := keptEntities r entityQuery entities
    let entities ←
      if hasFilteredArray then
        OpM.serialized r lib o.tenant
          (OpM.await (LibraryCall.findAll o.scope
            (refetchIn r Action.List entities options.order o.transactionId)) lib.rows)
          rethrow
      else pure entities
    pure (entities.map toJSON)

/-- The compensating `findOne` of `read`, `update` and `delete`, made when
`hasFilteredArray` holds. -/
def refetched (r : Repository) (lib : Library) (action : Action) (hasFilteredArray : Bool)
    (entity : Obj) (o : CallOptions) : OpM (Option Obj) :=
  if hasFilteredArray then
    OpM.serialized r lib o.tenant
      (OpM.await (LibraryCall.findOne o.scope (refetchOne r action entity o.transactionId))
        lib.row)
      rethrow
  else pure (some entity)

/-- The method `read(entityQuery, options)`. -/
def Serialized.read (r : Repository) (lib : Library) (entityQuery : List (String × Val))
    (o : CallOptions) : OpM (Option Obj) :=
  match setOptions r entityQuery {} Action.Read with
  | Except.error e => OpM.throw (Failure.other e)
  | Except.ok (options, hasFilteredArray) => do
    let entity ← OpM.serialized r lib o.tenant
      (OpM.await (LibraryCall.findOne o.scope (firstFind options o.transactionId)) lib.row)
      rethrow
    match entity with
    | some found => do
      let entity ← refetched r lib Action.Read hasFilteredArray found o
      pure (entity.map toJSON)
    | none => pure none

/-- The test of `create`, `update` and `bulkUpdate` that an association of the DTO is to
be updated, made only when `enabled` holds. -/
def associationsToUpdate (r : Repository) (enabled : Bool) (entityDTO : List (String × Val)) :
    OpM Bool :=
  if enabled then OpM.lift (setsAssociations r.getAssociationAttributes entityDTO)
  else OpM.pure false

/-- The body of `create` after the first statements on the DTO: `associationsTenant` is
the tenant passed on to `updateAssociations`. -/
def createEntity (r : Repository) (lib : Library) (entityDTO : List (String × Val))
    (o : CallOptions) (associationsTenant : Option String) : OpM Obj := do
  let serialPk := r.serialPk entityDTO
  let entityDTO := deleteSerialPk serialPk o.ignoreSerialPk entityDTO
  let entityDTO ←
    if !o.createAssociatedEntities then
      OpM.lift (deleteNested r.getAssociationAttributes entityDTO)
    else pure entityDTO
  let newEntity ← OpM.serialized r lib o.tenant
    (OpM.await (LibraryCall.create entityDTO o.transactionId) lib.entity)
    (rethrowTranslated lib)
  if strTruthy serialPk && !o.ignoreSerialPk then setSerialSequence r lib o.tenant
  let newEntity ← OpM.serialized r lib o.tenant
    (OpM.await (LibraryCall.findOne o.scope (refetchOne r Action.Create newEntity o.transactionId))
      lib.row)
    rethrow
  match newEntity with
  | none =>
    OpM.throw (Failure.other ("Entity '" ++
      (if (dtoGet entityDTO r.primaryKeyName).truthy then dtoGet entityDTO r.primaryKeyName
        else match entityDTO with
          | kv :: _ => kv.2
          | [] => Val.undef).toJsString ++ "' could not be created"))
  | some newEntity => do
    if ← associationsToUpdate r o.updateAssociations entityDTO then
      let entityDTO ←
        if o.createAssociatedEntities then
          OpM.lift (deleteNested r.getAssociationAttributes entityDTO)
        else pure entityDTO
      let newEntity ← Serialized.updateAssociations r lib (some newEntity) (some entityDTO)
        o.transactionId associationsTenant
      pure (toJSON newEntity)
    else pure (toJSON newEntity)

/-- The method `create(entityDTO, options)`. -/
def Serialized.create (r : Repository) (lib : Library) (entityDTO : List (String × Val))
    (o : CallOptions) : OpM Obj :=
  createEntity r lib entityDTO o o.tenant

/-- The method `create` of the repository of the tenants, for the DTO whose `id` is
already set: the schema of the tenant is created and the models are synchronised into it,
then the tenant is saved as `create` saves an entity, `updateAssociations` being called
without a tenant. -/
def TenantsRepository.create (r : Repository) (lib : Library) (entityDTO : List (String × Val))
    (o : CallOptions) : OpM Obj := do
  let id := (dtoGet entityDTO "id").toJsString
  OpM.await (LibraryCall.createSchema id) lib.done
  if id = "admin" then
    OpM.await (LibraryCall.createSchema "temp") lib.done
    OpM.emit (Event.changeTenant none)
    OpM.await (LibraryCall.sync "temp") lib.done
    OpM.await (LibraryCall.dropSchema "temp") lib.done
  else
    OpM.emit (Event.changeTenant none)
    OpM.await (LibraryCall.sync id) lib.done
  createEntity r lib entityDTO o none

/-- The error of `update` and `delete` for a query that matches no entity. -/
def doesNotExist {α : Type} (r : Repository) (entityQuery : List (String × Val)) : OpM α :=
  OpM.throw (Failure.other
    ("Entity " ++ (dtoGet entityQuery r.primaryKeyName).toJsString ++ " does not exist"))

/-- The call `entity.toJSON()`, which throws on `null`. -/
def toJSONOrThrow : Option Obj → OpM Obj
  | some entity => OpM.pure (toJSON entity)
  | none => OpM.throw (Failure.other "TypeError: Cannot read properties of null (reading 'toJSON')")

/-- The method `update(entityQuery, entityDTO, options)`: the updated and the previous
entity. -/
def Serialized.update (r : Repository) (lib : Library) (entityQuery entityDTO : List (String × Val))
    (o : CallOptions) : OpM (Obj × Obj) :=
  let serialPk := r.serialPk entityDTO
  let entityDTO := deleteSerialPk serialPk o.ignoreSerialPk entityDTO
  match setOptions r entityQuery {} Action.Update with
  | Except.error e => OpM.throw (Failure.other e)
  | Except.ok (options, hasFilteredArray) => do
    let previousEntity ← OpM.serialized r lib o.tenant
      (OpM.await (LibraryCall.findOne o.scope (firstFind options o.transactionId)) lib.row)
      rethrow
    match previousEntity with
    | none => doesNotExist r entityQuery
    | some found => do
      let previousEntity ← refetched r lib Action.Update hasFilteredArray found o
      OpM.serialized r lib o.tenant
        (OpM.await (LibraryCall.update entityDTO options.where_ o.transactionId) lib.done)
        (rethrowTranslated lib)
      if strTruthy serialPk && !o.ignoreSerialPk then setSerialSequence r lib o.tenant
      let entityQuery := mergeQuery entityQuery entityDTO
      match setOptions r entityQuery {} Action.Update with
      | Except.error e => OpM.throw (Failure.other e)
      | Except.ok (newOptions, _) => do
        let updatedEntity ← OpM.serialized r lib o.tenant
          (OpM.await (LibraryCall.findOne o.scope (firstFind newOptions o.transactionId)) lib.row)
          rethrow
        match updatedEntity with
        | none => doesNotExist r entityQuery
        | some found => do
          let updatedEntity ← refetched r lib Action.Update hasFilteredArray found o
          let updatedEntity ←
            if ← associationsToUpdate r true entityDTO then do
              let updated ← Serialized.updateAssociations r lib updatedEntity (some entityDTO)
                o.transactionId o.tenant
              pure (some updated)
            else pure updatedEntity
          let updated ← toJSONOrThrow updatedEntity
          let previous ← toJSONOrThrow previousEntity
          pure (updated, previous)

/-- The method `delete(entityQuery, options)`. -/
def Serialized.delete (r : Repository) (lib : Library) (entityQuery : List (String × Val))
    (o : CallOptions) : OpM (Option Obj) :=
  match setOptions r entityQuery {} Action.Delete with
  | Except.error e => OpM.throw (Failure.other e)
  | Except.ok (options, hasFilteredArray) => do
    let deletedEntity ← OpM.serialized r lib o.tenant
      (OpM.await (LibraryCall.findOne o.scope (firstFind options o.transactionId)) lib.row)
      rethrow
    match deletedEntity with
    | none => doesNotExist r entityQuery
    | some found => do
      let deletedEntity ← refetched r lib Action.Delete hasFilteredArray found o
      OpM.serialized r lib o.tenant
        (OpM.await (LibraryCall.destroy options.where_ o.transactionId) lib.done) rethrow
      pure (deletedEntity.map toJSON)

/-- The constant `options` of `count`, after `delete options.limit`; `loaded` is the
outcome of `loadIncludeClasses` on the include that `count` builds from the keys of the
filter map. -/
def countOptions (r : Repository) (entityQuery : List (String × Val))
    (loaded : Except String (Option (IncField Inc))) : Except String QueryOptions :=
  if entityQuery.any fun kv => jsIncludes kv.1 "." || jsIncludes kv.1 "$" then
    match loaded with
    | Except.error e => Except.error e
    | Except.ok loadedInclude =>
      match setOptions r entityQuery { loadedInclude := loadedInclude } Action.List with
      | Except.error e => Except.error e
      | Except.ok (options, _) => Except.ok { options with limit := Val.undef }
  else
    Except.ok {
      where_ := some (entityQuery.map fun kv => (PKey.str kv.1, kv.2))
      include_ := IncField.many [] }

/-- The method `count(entityQuery, options)`. -/
def Serialized.count (r : Repository) (lib : Library) (entityQuery : List (String × Val))
    (loaded : Except String (Option (IncField Inc))) (o : CallOptions) : OpM Nat :=
  match countOptions r entityQuery loaded with
  | Except.error e => OpM.throw (Failure.other e)
  | Except.ok options =>
    if options.include_.toList.length = 0 then
      OpM.serialized r lib o.tenant
        (OpM.await (LibraryCall.count options.where_ o.transactionId) lib.counted) rethrow
    else do
      let entities ← OpM.serialized r lib o.tenant
        (OpM.await (LibraryCall.findAll o.scope (firstFind options o.transactionId)) lib.rows)
        rethrow
      pure (entities.map toJSON).length

/-- The method `validate(entityDTO, partialValidation, locale, tenant)`: the result of the
validation, or the translated message of a `ValidationError`. -/
def Serialized.validate (r : Repository) (lib : Library) (entityDTO : List (String × Val))
    (partialValidation : Bool) (tenant : Option String) : OpM Val := do
  let queryId ← OpM.getQueryId r lib
  let outcome ← OpM.tryCatch
    (do
      OpM.changeTenant tenant
      let validationResult ← OpM.await
        (LibraryCall.validate entityDTO
          (if partialValidation then some (entityDTO.map fun kv => kv.1) else none))
        lib.validated
      pure (Sum.inl validationResult))
    (fun error => do
      OpM.callNextQuery r queryId
      match error with
      | Failure.validation message =>
        pure (Sum.inr (Val.str (lib.createValidationErrorMessage message)))
      | Failure.other message => OpM.throw (Failure.other message))
  match outcome with
  | Sum.inl validationResult => do
    OpM.callNextQuery r queryId
    pure validationResult
  | Sum.inr message => pure message

/-- The test of `bulkCreate` that some DTO sets an association. -/
def anySetsAssociations (associationAttributes : List String) :
    List (List (String × Val)) → Except String Bool
  | [] => Except.ok false
  | entityDTO :: rest =>
    match setsAssociations associationAttributes entityDTO with
    | Except.error e => Except.error e
    | Except.ok true => Except.ok true
    | Except.ok false => anySetsAssociations associationAttributes rest

/-- The comparison `a === b` of the values of a primary key: equal numbers, strings or
booleans, `null` and `null`, `undefined` and `undefined`. -/
def strictEquals : Val → Val → Bool
  | Val.undef, Val.undef => true
  | Val.null, Val.null => true
  | Val.bool a, Val.bool b => a == b
  | Val.num a, Val.num b => a == b
  | Val.str a, Val.str b => a == b
  | _, _ => false

/-- The method `bulkCreate(entitiesDTO, options)`. -/
def Serialized.bulkCreate (r : Repository) (lib : Library)
    (entitiesDTO : List (List (String × Val))) (o : CallOptions) : OpM (List Obj) := do
  let entitiesDTO :=
    if o.ignoreSerialPk then
      entitiesDTO.map fun entityDTO => deleteSerialPk (r.serialPk entityDTO) true entityDTO
    else entitiesDTO
  let newEntities ← OpM.serialized r lib o.tenant
    (OpM.await (LibraryCall.bulkCreate entitiesDTO o.transactionId) lib.rows) rethrow
  if !o.ignoreSerialPk && entitiesDTO.any fun entityDTO => strTruthy (r.serialPk entityDTO) then
    setSerialSequence r lib o.tenant
  let newEntities ← OpM.serialized r lib o.tenant
    (OpM.await (LibraryCall.findAll o.scope
      (refetchIn r Action.Create newEntities none o.transactionId)) lib.rows)
    rethrow
  let sets ←
    if o.updateAssociations then
      OpM.lift (anySetsAssociations r.getAssociationAttributes entitiesDTO)
    else pure false
  if sets then
    let updated ← OpM.all r lib o.transactionId o.tenant (newEntities.map fun entity =>
      (entity, entitiesDTO.find? fun entityDTO =>
        strictEquals (dtoGet entityDTO r.primaryKeyName)
          (objGet entity (PKey.str r.primaryKeyName))))
    pure (updated.map toJSON)
  else pure (newEntities.map toJSON)

/-- The compensating `findAll` of `bulkUpdate`, made when `hasFilteredArray` holds. -/
def refetchedAll (r : Repository) (lib : Library) (hasFilteredArray : Bool)
    (entities : List Obj) (o : CallOptions) : OpM (List Obj) :=
  if hasFilteredArray then
    OpM.serialized r lib o.tenant
      (OpM.await (LibraryCall.findAll o.scope (refetchFind r entities o.transactionId)) lib.rows)
      rethrow
  else pure entities

/-- The method `bulkUpdate(entityQuery, entityDTO, options)`: the updated and the previous
entities. -/
def Serialized.bulkUpdate (r : Repository) (lib : Library)
    (entityQuery entityDTO : List (String × Val)) (o : CallOptions) :
    OpM (List Obj × List Obj) :=
  let entityDTO := deleteSerialPk (r.serialPk entityDTO) true entityDTO
  match setOptions r entityQuery {} Action.Update with
  | Except.error e => OpM.throw (Failure.other e)
  | Except.ok (options, hasFilteredArray) => do
    let previousEntities ← OpM.serialized r lib o.tenant
      (OpM.await (LibraryCall.findAll o.scope (firstFind options o.transactionId)) lib.rows)
      rethrow
    if previousEntities.length = 0 then
      OpM.throw (Failure.other "No entity matches query criteria")
    else do
      let previousEntities ← refetchedAll r lib hasFilteredArray previousEntities o
      OpM.serialized r lib o.tenant
        (OpM.await (LibraryCall.update entityDTO options.where_ o.transactionId) lib.done)
        (rethrowTranslated lib)
      let entityQuery := mergeQuery entityQuery entityDTO
      match setOptions r entityQuery {} Action.Update with
      | Except.error e => OpM.throw (Failure.other e)
      | Except.ok (newOptions, _) => do
        let updatedEntities ← OpM.serialized r lib o.tenant
          (OpM.await (LibraryCall.findAll o.scope (firstFind newOptions o.transactionId))
            lib.rows)
          rethrow
        if updatedEntities.length = 0 then
          OpM.throw (Failure.other "No entity matches query criteria")
        else do
          let updatedEntities ← refetchedAll r lib hasFilteredArray updatedEntities o
          let updatedEntities ←
            if ← associationsToUpdate r true entityDTO then
              OpM.all r lib o.transactionId o.tenant
                (updatedEntities.map fun entity => (entity, some entityDTO))
            else pure updatedEntities
          pure (updatedEntities.map toJSON, previousEntities.map toJSON)

/-- A call of an operation of the repository, with its arguments. -/
inductive Operation
  | list (entityQuery : List (String × Val)) (entityQueryOptions : EntityQueryOptions)
      (o : CallOptions)
  | read (entityQuery : List (String × Val)) (o : CallOptions)
  | create (entityDTO : List (String × Val)) (o : CallOptions)
  | update (entityQuery entityDTO : List (String × Val)) (o : CallOptions)
  | delete (entityQuery : List (String × Val)) (o : CallOptions)
  | count (entityQuery : List (String × Val)) (loaded : Except String (Option (IncField Inc)))
      (o : CallOptions)
  | validate (entityDTO : List (String × Val)) (partialValidation : Bool)
      (tenant : Option String)
  | bulkCreate (entitiesDTO : List (List (String × Val))) (o : CallOptions)
  | bulkUpdate (entityQuery entityDTO : List (String × Val)) (o : CallOptions)
  | updateAssociations (entity : Option Obj) (entityDTO : Option (List (String × Val)))
      (transactionId tenant : Option String)

/-- The events after a call of an operation that starts after the events `trace`. -/
def Operation.events (r : Repository) (lib : Library) (trace : List Event) :
    Operation → List Event
  | Operation.list entityQuery entityQueryOptions o =>
    (Serialized.list r lib entityQuery entityQueryOptions o trace).1
  | Operation.read entityQuery o => (Serialized.read r lib entityQuery o trace).1
  | Operation.create entityDTO o => (Serialized.create r lib entityDTO o trace).1
  | Operation.update entityQuery entityDTO o =>
    (Serialized.update r lib entityQuery entityDTO o trace).1
  | Operation.delete entityQuery o => (Serialized.delete r lib entityQuery o trace).1
  | Operation.count entityQuery loaded o => (Serialized.count r lib entityQuery loaded o trace).1
  | Operation.validate entityDTO partialValidation tenant =>
    (Serialized.validate r lib entityDTO partialValidation tenant trace).1
  | Operation.bulkCreate entitiesDTO o => (Serialized.bulkCreate r lib entitiesDTO o trace).1
  | Operation.bulkUpdate entityQuery entityDTO o =>
    (Serialized.bulkUpdate r lib entityQuery entityDTO o trace).1
  | Operation.updateAssociations entity entityDTO transactionId tenant =>
    (Serialized.updateAssociations r lib entity entityDTO transactionId tenant trace).1

/-- The outcome is a return, not a throw. -/
def returned {α : Type} : List Event × Except Failure α → Bool
  | (_, Except.ok _) => true
  | (_, Except.error _) => false

/-- The call of the operation that starts after the events `trace` returns. -/
def Operation.returns (r : Repository) (lib : Library) (trace : List Event) :
    Operation → Bool
  | Operation.list entityQuery entityQueryOptions o =>
    returned (Serialized.list r lib entityQuery entityQueryOptions o trace)
  | Operation.read entityQuery o => returned (Serialized.read r lib entityQuery o trace)
  | Operation.create entityDTO o => returned (Serialized.create r lib entityDTO o trace)
  | Operation.update entityQuery entityDTO o =>
    returned (Serialized.update r lib entityQuery entityDTO o trace)
  | Operation.delete entityQuery o => returned (Serialized.delete r lib entityQuery o trace)
  | Operation.count entityQuery loaded o =>
    returned (Serialized.count r lib entityQuery loaded o trace)
  | Operation.validate entityDTO partialValidation tenant =>
    returned (Serialized.validate r lib entityDTO partialValidation tenant trace)
  | Operation.bulkCreate entitiesDTO o => returned (Serialized.bulkCreate r lib entitiesDTO o trace)
  | Operation.bulkUpdate entityQuery entityDTO o =>
    returned (Serialized.bulkUpdate r lib entityQuery entityDTO o trace)
  | Operation.updateAssociations entity entityDTO transactionId tenant =>
    returned (Serialized.updateAssociations r lib entity entityDTO transactionId tenant trace)

/-- The operation awaits calls of `updateAssociations` under `Promise.all`. -/
def Operation.awaitsAll : Operation → Bool
  | Operation.bulkCreate _ _ => true
  | Operation.bulkUpdate _ _ _ => true
  | _ => false

/-- The state of the serializer as an operation sees it: it holds no ticket, or it holds
the ticket `queryId` and has, or has not yet, made the call of the library. -/
inductive Phase
  | idle
  | holding (queryId : String) (called : Bool)

/-- One event under the discipline of the serializer.  A ticket is taken when none is
held; the held ticket is given back, before the call when the body throws early, and at
once after the call; under a ticket the tenant is switched before the one call.  When
`strict` holds, a switch of the tenant or a call of the library without a ticket is
refused. -/
def Phase.step (strict : Bool) : Phase → Event → Option Phase
  | Phase.idle, Event.getQueryId queryId => some (Phase.holding queryId false)
  | Phase.idle, Event.changeTenant _ => if strict then none else some Phase.idle
  | Phase.idle, Event.call _ => if strict then none else some Phase.idle
  | Phase.idle, Event.updateAssociations _ => some Phase.idle
  | Phase.idle, Event.callNextQuery _ => none
  | Phase.holding held _, Event.callNextQuery queryId =>
    if queryId = some held then some Phase.idle else none
  | Phase.holding held false, Event.changeTenant _ => some (Phase.holding held false)
  | Phase.holding held false, Event.call _ => some (Phase.holding held true)
  | Phase.holding _ _, _ => none

/-- The phase after the events, or `none` when one of them is refused. -/
def Phase.run (strict : Bool) : Phase → List Event → Option Phase
  | phase, [] => some phase
  | phase, e :: es =>
    match phase.step strict e with
    | some next => Phase.run strict next es
    | none => none

/-- The events keep the discipline of the serializer and leave no ticket held. -/
def Serial (strict : Bool) (es : List Event) : Prop :=
  Phase.run strict Phase.idle es = some Phase.idle

/-- The wait list after the events of an operation: every `getQueryId` appends its ticket
and every `callNextQuery` removes its ticket. -/
def waitListAfter : List String → List Event → List String
  | waitList, [] => waitList
  | waitList, Event.getQueryId queryId :: es => waitListAfter (waitList ++ [queryId]) es
  | waitList, Event.callNextQuery queryId :: es =>
    waitListAfter (waitList.filter fun id => !(some id == queryId)) es
  | waitList, _ :: es => waitListAfter waitList es

/-- The wait list of the serializer, and whether the call under its first ticket has been
made. -/
structure Queue where
  waitList : List String
  called : Bool

/-- One event under the discipline of the serializer when several calls of
`updateAssociations` wait for one another.  A ticket is pushed to the end of the wait list
while no call is under way; the tenant is switched and the one call is made under the
first ticket; the first ticket is given back, before the call when the body throws early,
and at once after the call.  When `strict` holds, a switch of the tenant or a call of the
library with an empty wait list is refused. -/
def Queue.step (strict : Bool) : Queue → Event → Option Queue
  | ⟨waitList, false⟩, Event.getQueryId queryId => some ⟨waitList ++ [queryId], false⟩
  | ⟨[], false⟩, Event.changeTenant _ => if strict then none else some ⟨[], false⟩
  | ⟨[], false⟩, Event.call _ => if strict then none else some ⟨[], false⟩
  | ⟨[], false⟩, Event.updateAssociations _ => some ⟨[], false⟩
  | ⟨held :: waiting, _⟩, Event.callNextQuery queryId =>
    if queryId = some held then some ⟨waiting, false⟩ else none
  | ⟨held :: waiting, false⟩, Event.changeTenant _ => some ⟨held :: waiting, false⟩
  | ⟨held :: waiting, false⟩, Event.call _ => some ⟨held :: waiting, true⟩
  | _, _ => none

/-- The wait list after the events, or `none` when one of them is refused. -/
def Queue.run (strict : Bool) : Queue → List Event → Option Queue
  | queue, [] => some queue
  | queue, e :: es =>
    match queue.step strict e with
    | some next => Queue.run strict next es
    | none => none

/-- The events that the operation `m` adds, after any events, keep the discipline of the
serializer among calls that wait for one another: every ticket is given back right after
the answer to the call made under it; the tickets `pending` that are left are those of
calls of `updateAssociations` that wait for their turn, the first of them with its call in
flight when `called` holds; none is left when `m` returns, or when `m` started no calls of
`updateAssociations`. -/
def Queued (strict : Bool) {α : Type} (m : OpM α) : Prop :=
  ∀ trace, ∃ es pending called, (m trace).1 = trace ++ es ∧
    Queue.run strict ⟨[], false⟩ es = some ⟨pending, called⟩ ∧
    ((returned (m trace) = true ∨ ∀ calls, Event.updateAssociations calls ∉ es) →
      pending = [] ∧ called = false)

/-- The events that the operation `m` adds, after any events, keep the discipline of the
serializer and leave no ticket held. -/
def Closed (strict : Bool) {α : Type} (m : OpM α) : Prop :=
  ∀ trace, ∃ es, (m trace).1 = trace ++ es ∧ Phase.run strict Phase.idle es = some Phase.idle

/-- The operation `m` adds no event, or the one call of the library. -/
def AtMostOneCall {α : Type} (m : OpM α) : Prop :=
  ∀ trace, (m trace).1 = trace ∨ ∃ c, (m trace).1 = trace ++ [Event.call c]

/-- The handler of a `catch` adds no event and throws. -/
def Rethrows {α : Type} (handler : Failure → OpM α) : Prop :=
  ∀ error trace, ∃ thrown, handler error trace = (trace, Except.error thrown)

/-! ## The name of a tenant -/

/-- The string holds ASCII characters only. -/
def isAscii (s : String) : Bool :=
  s.data.all fun c => c.toNat < 128

/-- The character is a Hangul syllable, U+AC00 to U+D7A3. -/
def isHangulSyllable (c : Char) : Bool :=
  0xAC00 ≤ c.toNat && c.toNat ≤ 0xD7A3

/-- The character is a conjoining Hangul jamo, U+1100 to U+11FF. -/
def isHangulJamo (c : Char) : Bool :=
  0x1100 ≤ c.toNat && c.toNat ≤ 0x11FF

/-- The characters whose case mapping and normalisation are embedded: the ASCII
characters, the Hangul syllables and the conjoining Hangul jamo. -/
def isEmbedded (s : String) : Bool :=
  s.data.all fun c => c.toNat < 128 || isHangulJamo c || isHangulSyllable c

/-- `s.toLowerCase()` on a string of embedded characters: `A` to `Z` become `a` to `z`;
the Hangul characters have no case. -/
def toLowerCase (s : String) : String :=
  String.mk (s.data.map Char.toLower)

/-- The canonical decomposition of an embedded character: a Hangul syllable is the
sequence of its leading consonant, its vowel and, when it has one, its trailing consonant
(the arithmetic of the Unicode Standard, section 3.12); an ASCII character or a jamo is
itself. -/
def decompose (c : Char) : List Char :=
  if isHangulSyllable c then
    if (c.toNat - 0xAC00) % 28 = 0 then
      [Char.ofNat (0x1100 + (c.toNat - 0xAC00) / 588),
        Char.ofNat (0x1161 + (c.toNat - 0xAC00) % 588 / 28)]
    else
      [Char.ofNat (0x1100 + (c.toNat - 0xAC00) / 588),
        Char.ofNat (0x1161 + (c.toNat - 0xAC00) % 588 / 28),
        Char.ofNat (0x11A7 + (c.toNat - 0xAC00) % 28)]
  else [c]

/-- `s.normalize('NFD')` on a string of embedded characters, none of which is a combining
mark that the normalisation would reorder. -/
def normalizeNFD (s : String) : String :=
  String.mk (s.data.flatMap decompose)

/-- `s.replace(/[\u0300-\u036f]/g, '')`. -/
def removeCombiningMarks (s : String) : String :=
  String.mk (s.data.filter fun c => !(0x300 ≤ c.toNat && c.toNat ≤ 0x36F))

/-- `s.charAt(0)`: the first character as a string, or the empty string. -/
def charAt0 (s : String) : String :=
  String.mk (s.data.take 1)

/-- The `reduce` of `setTenantName` over the words from `index` on, `length` being
`words.length` and `string` the accumulator: the word at `length - 1` is appended whole,
of the others the first character. -/
def abbreviate (length : Nat) : Nat → List String → String → String
  | _, [], string => string
  | index, word :: words, string =>
    abbreviate length (index + 1) words
      (if index = length - 1 then string ++ word else string ++ charAt0 word)

/-- The method `setTenantName(name)` of the repository of the tenants, on a name of ASCII
characters, Hangul syllables and Hangul jamo; `none` on other names, whose case mapping
and normalisation are not embedded. -/
def TenantsRepository.setTenantName (name : String) : Option String :=
  if isEmbedded name then
    some (abbreviate
      (jsSplit " " (removeCombiningMarks (normalizeNFD (toLowerCase name)))).length 0
      (jsSplit " " (removeCombiningMarks (normalizeNFD (toLowerCase name)))) "")
  else none

/-- The write `dto[key] = value`. -/
def dtoSet (dto : List (String × Val)) (key : String) (value : Val) : List (String × Val) :=
  if dto.any fun kv => kv.1 == key then dto.map fun kv => if kv.1 == key then (key, value) else kv
  else dto ++ [(key, value)]

/-- The statement `if (ignoreId) entityDTO.id = this.setTenantName(entityDTO.name)` of
`create` of the repository of the tenants: the DTO after it.  A name that is no string has
no method `toLowerCase`; `none` on a name outside the embedding of `setTenantName`. -/
def TenantsRepository.setId (ignoreId : Bool) (entityDTO : List (String × Val)) :
    Option (Except String (List (String × Val))) :=
  if ignoreId then
    match dtoGet entityDTO "name" with
    | Val.str name =>
      (TenantsRepository.setTenantName name).map fun id =>
        Except.ok (dtoSet entityDTO "id" (Val.str id))
    | Val.undef =>
      some (Except.error "TypeError: Cannot read properties of undefined (reading 'toLowerCase')")
    | Val.null =>
      some (Except.error "TypeError: Cannot read properties of null (reading 'toLowerCase')")
    | _ => some (Except.error "TypeError: name.toLowerCase is not a function")
  else some (Except.ok entityDTO)

/-! ## The list action of the controller -/

/-- A number of JavaScript as the list action meets it: `NaN`, or an integer. -/
inductive JsNumber
  | nan
  | int (n : Int)

/-- The value of `req.query[key]` after the list action has parsed it. -/
inductive QueryValue
  | undefined
  | number (n : JsNumber)

/-- The string holds decimal digits only. -/
def isDigits (s : String) : Bool :=
  s.data.all Char.isDigit

/-- The string holds ASCII letters only. -/
def isLetters (s : String) : Bool :=
  s.data.all Char.isAlpha

/-- The number that a string of decimal digits denotes. -/
def digitsValue (s : String) : Nat :=
  s.data.foldl (fun n c => 10 * n + (c.toNat - 48)) 0

/-- `Number(value)` for a query value that is the empty string, a string of at most 15
decimal digits, or a string of ASCII letters other than `Infinity`; `none` for the other
strings, whose conversion is not embedded. -/
def jsNumber (value : String) : Option JsNumber :=
  if value = "" then some (JsNumber.int 0)
  else if isDigits value then
    if value.length ≤ 15 then some (JsNumber.int (digitsValue value)) else none
  else if isLetters value && value != "Infinity" then some JsNumber.nan
  else none

/-- `parseInt(value)` for the same strings. -/
def jsParseInt (value : String) : Option JsNumber :=
  if value = "" then some JsNumber.nan
  else if isDigits value then
    if value.length ≤ 15 then some (JsNumber.int (digitsValue value)) else none
  else if isLetters value then some JsNumber.nan
  else none

/-- `Number.isInteger(n)`. -/
def JsNumber.isInteger : JsNumber → Bool
  | JsNumber.int _ => true
  | JsNumber.nan => false

/-- `decodeURIComponent(x)` for `undefined` or a number: the argument is converted to a
string, which holds no escape sequence. -/
def decodeURIComponent : QueryValue → String
  | QueryValue.undefined => "undefined"
  | QueryValue.number JsNumber.nan => "NaN"
  | QueryValue.number (JsNumber.int n) => toString n

/-- The statements of the list action for a key `limit` or `offset` of `req.query` that
holds the string `value`:
`req.query[key] = Number.isInteger(Number(req.query[key])) ? parseInt(req.query[key]) : undefined;`
`entityQueryOptions[key] = decodeURIComponent(req.query[key])`.
The result is `entityQueryOptions[key]`. -/
def BaseCrudController.pagingOption (value : String) : Option Val :=
  match jsNumber value with
  | none => none
  | some n =>
    if n.isInteger then
      (jsParseInt value).map fun parsed =>
        Val.str (decodeURIComponent (QueryValue.number parsed))
    else some (Val.str (decodeURIComponent QueryValue.undefined))

/-! ## The include of `count` -/

/-- The include that `count` builds from the keys of the filter map:
`Object.keys(entityQuery).filter(key => this.getAssociationAttributes().includes(key.split('.')[0]))
.map(key => key.split('.').slice(0, -1).join('.'))`. -/
def countInclude (r : Repository) (entityQuery : List (String × Val)) : List Inc :=
  (entityQuery.filter fun kv => r.filtersByAssociation kv.1).map fun kv =>
    Inc.str (jsJoin "." (jsSplit "." kv.1).dropLast)

/-- The method `count(entityQuery, options)` with the call of `loadIncludeClasses` that
`setOptions` makes on the include built from the keys, when some key holds a dot or a `$`;
`none` when the fuel of that call runs out. -/
def Serialized.countLoaded (r : Repository) (lib : Library) (fuel : Nat)
    (entityQuery : List (String × Val)) (o : CallOptions) : Option (OpM Nat) :=
  if entityQuery.any fun kv => jsIncludes kv.1 "." || jsIncludes kv.1 "$" then
    match loadIncludeClasses r.sequelize fuel (some (IncField.many (countInclude r entityQuery)))
        (some r.model) with
    | none => none
    | some (Except.error e) => some (Serialized.count r lib entityQuery (Except.error e) o)
    | some (Except.ok loaded) => some (Serialized.count r lib entityQuery (Except.ok loaded) o)
  else some (Serialized.count r lib entityQuery (Except.ok none) o)

/-! ## Predicates of the specification -/

/-- The where object `primaryKey IN (the primary keys of entities)`. -/
def wherePrimaryKeyIn (r : Repository) (entities : List Obj) : Obj :=
  [(PKey.str r.primaryKeyName,
    Val.obj [(PKey.op "in",
      Val.arr (entities.map fun entity => objGet entity (PKey.str r.primaryKeyName)))])]

/-- `include_` holds a node for the association aliased `a` whose where holds the
predicate `b: v` and whose `required` is `true`. -/
def HasFilteredNode (include_ : List Inc) (a b : String) (v : Val) : Prop :=
  ∃ o : IncObj Inc, Inc.obj o ∈ include_ ∧ (Inc.obj o).associationAs? = some a ∧
    (∃ w, o.where_ = some w ∧ objGet w (PKey.str b) = v) ∧ o.required = some true

/-- The first node of the association `a` in the include list carries `b: v` in its
where, has `required = true`, and its `as` property is `nodeAs`. -/
def FirstNodeFiltered (include_ : List Inc) (a b : String) (v : Val) (nodeAs : Option String) :
    Prop :=
  ∃ o : IncObj Inc, include_.find? (Inc.isNodeOf a) = some (Inc.obj o) ∧
    (∃ w, o.where_ = some w ∧ objGet w (PKey.str b) = v) ∧ o.required = some true ∧
    o.as = nodeAs

/-- The forms in which `filterInclude` recognises the association `a` in an include list:
its node, the wildcard object, its name, an entry aliased `a`, or its target model class. -/
def Inc.standsFor (a childModel : String) (item : Inc) : Bool :=
  item.isNodeOf a || item.mentions a a childModel

/-- Every include object of the tree under an entry, the entry itself included,
satisfies `P`. -/
inductive Inc.AllNodes (P : IncObj Inc → Prop) : Inc → Prop
  | str (s : String) : Inc.AllNodes P (Inc.str s)
  | model (n : String) : Inc.AllNodes P (Inc.model n)
  | assoc (a : Association) : Inc.AllNodes P (Inc.assoc a)
  | obj (o : IncObj Inc) (here : P o) (below : ∀ c ∈ (Inc.obj o).children, Inc.AllNodes P c) :
      Inc.AllNodes P (Inc.obj o)

/-- Every node of an include list, at every depth, satisfies `P`. -/
def EveryNode (P : IncObj Inc → Prop) (include_ : List Inc) : Prop :=
  ∀ item ∈ include_, item.AllNodes P

/-- The node has neither a where nor a `required` property. -/
def IncObj.isPlain (o : IncObj Inc) : Prop :=
  o.where_ = none ∧ o.required = none

/-- The node has `required = true` if and only if it carries a where. -/
def IncObj.requiredIffWhere (o : IncObj Inc) : Prop :=
  o.required = some true ↔ o.where_.isSome = true

/-- The node has `required = true` if and only if it carries a where or one of its nested
entries has `required = true`. -/
def IncObj.requiredIffFiltered (o : IncObj Inc) : Prop :=
  o.required = some true ↔
    (o.where_.isSome = true ∨ (Inc.obj o).children.any Inc.isRequired = true)

/-- A node that carries a where has a `separate` property that satisfies `G`. -/
def IncObj.separateIfWhere (G : Option Bool → Prop) (o : IncObj Inc) : Prop :=
  o.where_.isSome = true → G o.separate

/-! ## An example registry -/

/-- A registry with users, their posts and profile, and the comments of a post. -/
def exampleDb : Sequelize where
  rawAttributes := fun m =>
    if m = "User" then ["id", "name", "active"]
    else if m = "Post" then ["id", "title", "userId"]
    else if m = "Comment" then ["id", "text"]
    else if m = "Profile" then ["id", "bio"]
    else []
  associations := fun m =>
    if m = "User" then
      [{ as := "posts", associationType := AssociationType.HasMany, target := "Post" },
       { as := "profile", associationType := AssociationType.HasOne, target := "Profile" }]
    else if m = "Post" then
      [{ as := "comments", associationType := AssociationType.HasMany, target := "Comment" },
       { as := "author", associationType := AssociationType.BelongsTo, target := "User" }]
    else []
  primaryKeys := fun _ => [("id", true)]

/-- The repository of the users of `exampleDb`, with the default options. -/
def exampleUsers : Repository := { sequelize := exampleDb, model := "User" }

/-- The association `posts` of the users of `exampleDb`. -/
def examplePosts : Association :=
  { as := "posts", associationType := AssociationType.HasMany, target := "Post" }

/-- The association `comments` of the posts of `exampleDb`. -/
def exampleComments : Association :=
  { as := "comments", associationType := AssociationType.HasMany, target := "Comment" }

/-- The repository of the users of `exampleDb`, configured to include the posts of a user,
each fetched separately, and the comments of each post. -/
def exampleNested : Repository :=
  { sequelize := exampleDb
    model := "User"
    options := { include_ := some (IncField.many [Inc.obj {
      association := some (AssociationProp.node examplePosts)
      separate := some true
      include_ := some (IncField.many [Inc.obj {
        association := some (AssociationProp.node exampleComments)
        separate := some true }]) }]) } }

/-- A user without a profile. -/
def exampleUser1 : Obj :=
  [(PKey.str "id", Val.num 1), (PKey.str "name", Val.str "a"), (PKey.str "profile", Val.null)]

/-- A user with a profile. -/
def exampleUser2 : Obj :=
  [(PKey.str "id", Val.num 2), (PKey.str "name", Val.str "b"),
   (PKey.str "profile", Val.obj [(PKey.str "id", Val.num 7), (PKey.str "bio", Val.str "c")])]

/-- A storage that answers every `findAll` with the two example users and accepts every
update. -/
def exampleStorage : Storage :=
  { findAll := fun _ _ _ => Except.ok [exampleUser1, exampleUser2]
    update := fun _ _ _ => Except.ok ()
    updateAssociations := fun entity _ => Except.ok entity }

/-! ## An example run of the wait list -/

/-- Three tickets are acquired in the order T1, T2, T3, then T1 is released. -/
def exampleRun : QueueRun :=
  ((((({} : QueueRun).step (QueueCall.acquire "T1")).step (QueueCall.acquire "T2")).step
    (QueueCall.acquire "T3")).step (QueueCall.release "T1"))

/-! ## Paths of associations -/

/-- The associations that the segments of a path name one after the other, starting at
`model`; or the first segment that names no association of the model reached before it,
with that model. -/
def resolvePath (db : Sequelize) : String → List String → Except (String × String) (List Association)
  | _, [] => Except.ok []
  | model, s :: rest =>
    match db.association model s with
    | none => Except.error (s, model)
    | some a =>
      match resolvePath db a.target rest with
      | Except.ok chain => Except.ok (a :: chain)
      | Except.error e => Except.error e

/-- The entry `x` is a chain of nested include entries, one for each association of the
list in turn: an object whose `association` is the association, that holds `separate: true`
exactly when the association is a `HasMany`, and whose `include` is the rest of the chain;
the last entry may also be the name of the association, when that is no `HasMany`. -/
def IsChain : List Association → Inc → Prop
  | [], _ => False
  | [a], x =>
    (a.associationType ≠ AssociationType.HasMany ∧ x = Inc.str a.as) ∨
    (a.associationType = AssociationType.HasMany ∧ x = separateNode a)
  | a :: b :: rest, x =>
    ∃ y, IsChain (b :: rest) y ∧
      x = Inc.obj {
        association := some (AssociationProp.node a)
        separate := if a.associationType = AssociationType.HasMany then some true else none
        include_ := some (IncField.one y) }

/-! ## A registry with two associations to one model -/

/-- An organisation has teams; a team has members and a lead, both persons; a person has
an address. -/
def exampleOrg : Sequelize where
  rawAttributes := fun _ => ["id", "name"]
  associations := fun m =>
    if m = "Org" then
      [{ as := "teams", associationType := AssociationType.HasMany, target := "Team" }]
    else if m = "Team" then
      [{ as := "members", associationType := AssociationType.HasMany, target := "Person" },
       { as := "lead", associationType := AssociationType.BelongsTo, target := "Person" }]
    else if m = "Person" then
      [{ as := "address", associationType := AssociationType.HasOne, target := "Address" }]
    else []
  primaryKeys := fun _ => [("id", true)]

/-! ## Example include lists -/

/-- The entry `{ model: Person, as: 'lead' }` of an include of the teams of `exampleOrg`. -/
def exampleLead : Inc :=
  Inc.obj { model := some (ModelProp.cls "Person"), as := some "lead" }

/-- The entry `{ model: Person, as: 'members' }` of an include of the teams of `exampleOrg`. -/
def exampleMembers : Inc :=
  Inc.obj { model := some (ModelProp.cls "Person"), as := some "members" }

/-- The entry `{ association: posts }` of an include of the users of `exampleDb`. -/
def examplePostsEntry : Inc :=
  Inc.obj { association := some (AssociationProp.node examplePosts) }

/-- The entry `{ association: posts, where: { title: 'x' }, required: true }`. -/
def examplePostsFiltered : Inc :=
  Inc.obj {
    association := some (AssociationProp.node examplePosts)
    where_ := some [(PKey.str "title", Val.str "x")]
    required := some true }

/-- The two entries `{ association: posts, include: 'comments' }` and
`{ association: posts, where: { title: 'x' }, required: true, include: ['author'] }` of an
include of the users of `exampleDb`. -/
def examplePostsTwice : List Inc :=
  [Inc.obj {
      association := some (AssociationProp.node examplePosts)
      include_ := some (IncField.one (Inc.str "comments")) },
   Inc.obj {
      association := some (AssociationProp.node examplePosts)
      where_ := some [(PKey.str "title", Val.str "x")]
      required := some true
      include_ := some (IncField.many [Inc.str "author"]) }]

/-! ## Entries that name their association unambiguously -/

/-- The value of `associationName` for an entry, under a model that is defined. -/
def nameOf (db : Sequelize) (model : String) (entry : Inc) : Option String :=
  match associationName db (some model) entry with
  | Except.ok name => name
  | Except.error _ => none

/-- The test `isCurrentAssociation`, under a model that is defined. -/
def isCurrent (db : Sequelize) (model : String) (name : Option String) (item : Inc) : Bool :=
  isOkTrue (isCurrentAssociation db (some model) name item)

/-- The entries of a list name their associations unambiguously: an entry is matched by
`isCurrentAssociation` for the name of another exactly when the two have the same name. -/
def Unambiguous (db : Sequelize) (model : String) (entries : List Inc) : Prop :=
  ∀ x ∈ entries, ∀ y ∈ entries,
    isCurrent db model (nameOf db model x) y = decide (nameOf db model y = nameOf db model x)

mutual
/-- The height of the tree of nested includes under an entry. -/
def Inc.height : Inc → Nat
  | Inc.obj ⟨_, _, _, _, _, _, _, some (IncField.one x)⟩ => x.height + 1
  | Inc.obj ⟨_, _, _, _, _, _, _, some (IncField.many xs)⟩ => heightList xs + 1
  | _ => 0
/-- The greatest height of an entry of a list. -/
def heightList : List Inc → Nat
  | [] => 0
  | x :: xs => max x.height (heightList xs)
end

/-- The height of an include value. -/
def IncField.height : IncField Inc → Nat
  | IncField.one x => x.height
  | IncField.many xs => heightList xs

/-- The entry `e` is what `aggregateIncludeEntries` pushes for the entries `group` of one
association: the aggregated entry when they are more than one, else the one entry. -/
def Merged (db : Sequelize) (m : String)
    (aggregate : IncField Inc → Option String → Option (Except String (IncField Inc)))
    (e : Inc) : List Inc → Prop
  | first0 :: second :: more =>
    aggregatedEntry db (some m) aggregate first0 (second :: more) = some (Except.ok e)
  | group => group = [e]

/-- An entry `a` of the array during the loop of `aggregateIncludeEntries` and the entry
`b` of the input at the same index: they have the same name and the same matches, and are
equal unless the association of `a` is aggregated already. -/
def SameEntry (db : Sequelize) (m : String) (acc : List Inc) (a b : Inc) : Prop :=
  nameOf db m a = nameOf db m b ∧ (∀ n, isCurrent db m n a = isCurrent db m n b) ∧
    (a = b ∨ nameOf db m a ∈ acc.map (nameOf db m))

/-- The invariant of the loop of `aggregateIncludeEntries` on the input `xs`, before the
indices `todo`, with the array `inc` and the result `acc` so far. -/
def AggInv (db : Sequelize) (m : String)
    (aggregate : IncField Inc → Option String → Option (Except String (IncField Inc)))
    (xs : List Inc) (todo : List Nat) (inc acc : List Inc) : Prop :=
  List.Forall₂ (SameEntry db m acc) inc xs ∧
  (∀ a ∈ acc, a ∈ inc) ∧
  (acc.map (nameOf db m)).Nodup ∧
  (∀ j x, j ∉ todo → xs.get? j = some x → nameOf db m x ∈ acc.map (nameOf db m)) ∧
  (∀ a ∈ acc, Merged db m aggregate a (xs.filter fun y => decide (nameOf db m y = nameOf db m a)))

/-- The recursive call returns on includes of a height below `H`, and its result is not
higher than its argument. -/
def Returns (aggregate : IncField Inc → Option String → Option (Except String (IncField Inc)))
    (H : Nat) : Prop :=
  ∀ (r : IncField Inc) (m : String), r.height < H →
    ∃ res, aggregate r (some m) = some res ∧ ∀ out, res = Except.ok out → out.height ≤ r.height

/-! ## A configured include with a where object -/

/-- The repository of the users of `exampleDb`, configured with the include
`[{ association: posts, where: { published: true } }]`. -/
def exampleFiltered : Repository :=
  { sequelize := exampleDb
    model := "User"
    options := { include_ := some (IncField.many [Inc.obj {
      association := some (AssociationProp.node examplePosts)
      where_ := some [(PKey.str "published", Val.bool true)] }]) } }

/-- The where objects of the configured include of `exampleFiltered`. -/
def exampleHeap : Heap :=
  [[(PKey.str "published", Val.bool true)]]

/-- The configured include of `exampleFiltered`, its where object by reference. -/
def exampleConfigured : List RefInc :=
  [RefInc.obj { association := some (AssociationProp.node examplePosts), whereRef := some 0 }]

/-! ## An example library -/

/-- The repository of the users of `exampleDb` with multitenancy enabled. -/
def exampleTenantUsers : Repository :=
  { sequelize := exampleDb, model := "User", isMultitenantEnabled := true }

/-- A library that draws the ticket `t<n>` after `n` events and answers every call with
the example users. -/
def exampleLibrary : Library :=
  { generateRandomId := fun trace => "t" ++ toString trace.length
    rows := fun _ => Except.ok [exampleUser1, exampleUser2]
    row := fun _ => Except.ok (some exampleUser2)
    entity := fun _ => Except.ok exampleUser2
    done := fun _ => Except.ok ()
    counted := fun _ => Except.ok 2
    validated := fun _ => Except.ok Val.undef
    settles := fun _ => 0
    createValidationErrorMessage := fun message => message }

/-- A library whose `reload` fails: every other call is answered as `exampleLibrary`
answers it. -/
def exampleFailingReload : Library :=
  { exampleLibrary with
    entity := fun trace =>
      match trace.getLast? with
      | some (Event.call (LibraryCall.reload _)) =>
        Except.error (Failure.other "connection terminated")
      | _ => Except.ok exampleUser2 }

/-- The call `create({ id: 5, name: 'b' }, { tenant: 't1', ignoreSerialPk: false })`. -/
def exampleCreate : Operation :=
  Operation.create [("id", Val.num 5), ("name", Val.str "b")]
    { tenant := some "t1", ignoreSerialPk := false }

/-! ## The calls of an operation -/

/-- The calls of the query library among the events, in order. -/
def callsOf : List Event → List LibraryCall
  | [] => []
  | Event.call c :: es => c :: callsOf es
  | _ :: es => callsOf es

/-- The events up to the call `c` that an operation makes under a ticket when it starts
after the events `trace`: the ticket, when multitenancy is enabled, the switch to the
tenant, when one is given, and the call. -/
def callTrace (r : Repository) (lib : Library) (tenant : Option String) (trace : List Event)
    (c : LibraryCall) : List Event :=
  trace ++ (if r.isMultitenantEnabled then [Event.getQueryId (lib.generateRandomId trace)] else [])
    ++ (if strTruthy tenant then [Event.changeTenant tenant] else []) ++ [Event.call c]

/-- The event after a call under a ticket taken after the events `trace`: the ticket is
given back. -/
def releaseOf (r : Repository) (lib : Library) (trace : List Event) : List Event :=
  if r.isMultitenantEnabled then [Event.callNextQuery (some (lib.generateRandomId trace))] else []

/-- The transaction that a call of the library receives in its options; `none` when the
call receives no transaction. -/
def LibraryCall.transaction : LibraryCall → Option String
  | LibraryCall.findAll _ options => options.transaction
  | LibraryCall.findOne _ options => options.transaction
  | LibraryCall.create _ transaction => transaction
  | LibraryCall.bulkCreate _ transaction => transaction
  | LibraryCall.update _ _ transaction => transaction
  | LibraryCall.destroy _ transaction => transaction
  | LibraryCall.count _ transaction => transaction
  | LibraryCall.set _ _ _ options => options.bind fun o => o.transaction
  | LibraryCall.add _ _ _ options => options.bind fun o => o.transaction
  | _ => none

/-- A 2-element array as a pair. -/
def asPair : Val → Option (Val × Val)
  | Val.arr [id, attributes] => some (id, attributes)
  | _ => none

/-- A list of 2-element arrays as a list of pairs. -/
def pairsOfList : List Val → Option (List (Val × Val))
  | [] => some []
  | item :: items =>
    match asPair item, pairsOfList items with
    | some p, some pairs => some (p :: pairs)
    | _, _ => none

/-- An array of 2-element arrays as a list of pairs. -/
def pairsOf : Val → Option (List (Val × Val))
  | Val.arr items => pairsOfList items
  | _ => none

/-- The calls that the specification gives for the value of an association key: for a
non-empty array of pairs `[[id1, a1], ..., [idn, an]]` one `set` with `id1` and the
through-attributes `a1`, then one `add` with `idi` and `ai` for each further pair; for
every other value one `set` with the value. -/
def expectedCalls (entity : Obj) (key : String) (transactionId : Option String) (value : Val) :
    List LibraryCall :=
  match pairsOf value with
  | some ((id1, a1) :: pairs) =>
    LibraryCall.set entity key id1 (some { through := a1, transaction := transactionId }) ::
      pairs.map fun p =>
        LibraryCall.add entity key p.1 (some { through := p.2, transaction := transactionId })
  | _ => [LibraryCall.set entity key value none]

/-- The calls that the specification gives for a DTO: those of its keys that name an
association, in the order of the keys. -/
def expectedKeyCalls (r : Repository) (entity : Obj) (transactionId : Option String)
    (entityDTO : List (String × Val)) : List LibraryCall :=
  entityDTO.flatMap fun kv =>
    if r.getAssociationAttributes.contains kv.1 then expectedCalls entity kv.1 transactionId kv.2
    else []

/-- A library in which no row matches: `findOne` answers `null`, `findAll` the empty
list. -/
def exampleEmptyLibrary : Library :=
  { exampleLibrary with
    rows := fun _ => Except.ok []
    row := fun _ => Except.ok none }

/-! ## The registry of the tenants -/

/-- The registry of the tenants: a tenant has the string `id` as its primary key, a name
and many users. -/
def exampleTenantsDb : Sequelize where
  rawAttributes := fun m => if m = "tenant" then ["id", "name"] else []
  associations := fun m =>
    if m = "tenant" then
      [{ as := "users", associationType := AssociationType.HasMany, target := "user" }]
    else []
  primaryKeys := fun m => if m = "tenant" then [("id", false)] else []

/-- The repository of the tenants, with multitenancy enabled. -/
def exampleTenants : Repository :=
  { sequelize := exampleTenantsDb, model := "tenant", isMultitenantEnabled := true }

/-- The strings one after the other. -/
def concatAll : List String → String
  | [] => ""
  | s :: rest => s ++ concatAll rest

/-- The abbreviation of the specification for the words `w1 ... w(n-1)` and the last word
`wn`: the lower-cased first letter of each of the words, then the lower-cased last word. -/
def expectedTenantName (words : List String) (last : String) : String :=
  concatAll (words.map fun word => toLowerCase (charAt0 word)) ++ toLowerCase last

/-! ## The order of a list -/

/-- The pair of the specification for an item of the order string: the item without its
leading `-` and `DESC` when it starts with `-`, the item and `ASC` otherwise. -/
def expectedOrderItem (item : String) : String × String :=
  match item.data with
  | '-' :: column => (String.mk column, "DESC")
  | _ => (item, "ASC")

/-! ## The two branches of `count` -/

/-- The operation that issues the one call `model.count({ where, transaction })` under a
ticket and returns the count. -/
def countRows (r : Repository) (lib : Library) (where_ : Option Obj) (o : CallOptions) : OpM Nat :=
  OpM.serialized r lib o.tenant
    (OpM.await (LibraryCall.count where_ o.transactionId) lib.counted) rethrow

/-- The operation that issues the one call `findAll(options)` under a ticket and returns
the length of its result. -/
def countFetched (r : Repository) (lib : Library) (options : FindOptions) (o : CallOptions) :
    OpM Nat := do
  let entities ← OpM.serialized r lib o.tenant
    (OpM.await (LibraryCall.findAll o.scope options) lib.rows) rethrow
  pure (entities.map toJSON).length

/-- The filter map has a key that holds a dot or a `$`. -/
def hasDottedOrOperatorKey (entityQuery : List (String × Val)) : Bool :=
  entityQuery.any fun kv => jsIncludes kv.1 "." || jsIncludes kv.1 "$"

/-! ## Lemmas on strings -/

theorem splitGo_of_not_includes (sep : List Char) :
    ∀ (s acc : List Char), includesGo sep s = false → splitGo sep 0 s acc = [acc.reverse ++ s]
  | [], acc, _ => by simp [splitGo]
  | c :: cs, acc, h => by
    simp only [includesGo, Bool.or_eq_false_iff] at h
    simp [splitGo, h.1, splitGo_of_not_includes sep cs (c :: acc) h.2]

theorem includesGo_nil : ∀ s : List Char, includesGo [] s = true
  | [] => by simp [includesGo, List.isPrefixOf]
  | c :: cs => by simp [includesGo, List.isPrefixOf]

theorem jsIncludes_of_jsSplit {sep key a b : String} {rest : List String}
    (h : jsSplit sep key = a :: b :: rest) : jsIncludes key sep = true := by
  unfold jsIncludes
  cases hs : sep.data with
  | nil => exact includesGo_nil _
  | cons c cs =>
    by_contra hn
    have hn : includesGo (c :: cs) key.data = false := by simpa using hn
    have := splitGo_of_not_includes (c :: cs) key.data [] hn
    simp [jsSplit, splitChars, hs, this] at h

theorem isPrefixOf_single (c x : Char) (xs : List Char) :
    List.isPrefixOf [c] (x :: xs) = (c == x) := by
  simp [List.isPrefixOf]

theorem includesGo_single_append (c : Char) :
    ∀ xs ys : List Char, includesGo [c] (xs ++ c :: ys) = true
  | [], ys => by simp [includesGo, List.isPrefixOf]
  | x :: xs, ys => by simp [includesGo, includesGo_single_append c xs ys]

theorem splitGo_single_of_not_mem (c : Char) :
    ∀ (xs acc : List Char), c ∉ xs → splitGo [c] 0 xs acc = [acc.reverse ++ xs]
  | [], acc, _ => by simp [splitGo]
  | x :: xs, acc, h => by
    have hx : ¬ c = x := fun e => h (by simp [e])
    have hxs : c ∉ xs := fun e => h (by simp [e])
    simp [splitGo, List.isPrefixOf, hx, splitGo_single_of_not_mem c xs (x :: acc) hxs]

theorem splitGo_single_append (c : Char) :
    ∀ (xs ys acc : List Char), c ∉ xs →
      splitGo [c] 0 (xs ++ c :: ys) acc = (acc.reverse ++ xs) :: splitGo [c] 0 ys []
  | [], ys, acc, _ => by simp [splitGo, List.isPrefixOf]
  | x :: xs, ys, acc, h => by
    have hx : ¬ c = x := fun e => h (by simp [e])
    have hxs : c ∉ xs := fun e => h (by simp [e])
    simp [splitGo, List.isPrefixOf, hx, splitGo_single_append c xs ys (x :: acc) hxs]

/-- A dotted key `a.b` with dot-free `a` and `b` splits into `a` and `b`. -/
theorem jsSplit_dot (a b : String) (ha : '.' ∉ a.data) (hb : '.' ∉ b.data) :
    jsSplit "." (a ++ "." ++ b) = [a, b] := by
  have h1 : ("." : String).data = ['.'] := rfl
  simp [jsSplit, splitChars, h1, splitGo_single_append '.' a.data b.data [] ha,
    splitGo_single_of_not_mem '.' b.data [] hb]

theorem jsIncludes_dot (a b : String) : jsIncludes (a ++ "." ++ b) "." = true := by
  have h1 : ("." : String).data = ['.'] := rfl
  simp [jsIncludes, h1, includesGo_single_append]

/-! ## The recursive call of `filterInclude`

`filterInclude` calls itself on `[subfield, ...rest].join('.')`, and the call splits the key
again; `filterIncludeSegs` passes the segments on.  The two agree: the segments of a split
hold no dot, a join of at least two of them holds one, and splitting the join gives the
segments back. -/

theorem splitGo_single_free (c : Char) :
    ∀ (s acc : List Char), c ∉ acc → ∀ p ∈ splitGo [c] 0 s acc, c ∉ p
  | [], acc, hacc, p, hp => by
    simp only [splitGo, List.mem_singleton] at hp
    subst hp
    simpa using hacc
  | x :: xs, acc, hacc, p, hp => by
    by_cases hx : c = x
    · subst hx
      simp only [splitGo, List.isPrefixOf, beq_self_eq_true, Bool.true_and, if_true,
        List.length_singleton, Nat.sub_self, List.mem_cons] at hp
      rcases hp with hp | hp
      · subst hp
        simpa using hacc
      · exact splitGo_single_free c xs [] (by simp) p hp
    · have hb : (c == x) = false := by simpa using hx
      simp only [splitGo, List.isPrefixOf, hb, Bool.false_and, Bool.false_eq_true, if_false] at hp
      refine splitGo_single_free c xs (x :: acc) ?_ p hp
      intro hmem
      rcases List.mem_cons.mp hmem with h | h
      · exact hx h
      · exact hacc h

/-- The segments of `key.split('.')` hold no dot. -/
theorem jsSplit_dot_free (key : String) : ∀ p ∈ jsSplit "." key, '.' ∉ p.data := by
  intro p hp
  have h1 : ("." : String).data = ['.'] := rfl
  simp only [jsSplit, splitChars, h1, List.mem_map] at hp
  obtain ⟨q, hq, rfl⟩ := hp
  exact splitGo_single_free '.' key.data [] (by simp) q hq

theorem splitGo_intercalate (c : Char) :
    ∀ (parts : List (List Char)) (p : List Char), (∀ q ∈ p :: parts, c ∉ q) →
      splitGo [c] 0 (List.intercalate [c] (p :: parts)) [] = p :: parts
  | [], p, h => by
    simpa [List.intercalate, List.intersperse] using
      splitGo_single_of_not_mem c p [] (h p (List.mem_cons_self _ _))
  | q :: parts, p, h => by
    have hp : c ∉ p := h p (List.mem_cons_self _ _)
    have hrest : ∀ x ∈ q :: parts, c ∉ x := fun x hx => h x (List.mem_cons_of_mem _ hx)
    have hcat : List.intercalate [c] (p :: q :: parts) =
        p ++ c :: List.intercalate [c] (q :: parts) := by
      simp [List.intercalate, List.intersperse]
    rw [hcat, splitGo_single_append c p _ [] hp, splitGo_intercalate c parts q hrest]
    simp

theorem includesGo_intercalate (c : Char) (p q : List Char) (parts : List (List Char)) :
    includesGo [c] (List.intercalate [c] (p :: q :: parts)) = true := by
  have hcat : List.intercalate [c] (p :: q :: parts) =
      p ++ c :: List.intercalate [c] (q :: parts) := by
    simp [List.intercalate, List.intersperse]
  rw [hcat]
  exact includesGo_single_append c p _

/-- Splitting the join of dot-free segments gives the segments back. -/
theorem jsSplit_jsJoin_dot (segs : List String) (hne : segs ≠ [])
    (hfree : ∀ s ∈ segs, '.' ∉ s.data) : jsSplit "." (jsJoin "." segs) = segs := by
  have h1 : ("." : String).data = ['.'] := rfl
  cases segs with
  | nil => exact absurd rfl hne
  | cons s rest =>
    have hall : ∀ q ∈ s.data :: rest.map String.data, '.' ∉ q := by
      intro q hq
      rcases List.mem_cons.mp hq with h | h
      · subst h
        exact hfree s (List.mem_cons_self _ _)
      · obtain ⟨t, ht, rfl⟩ := List.mem_map.mp h
        exact hfree t (List.mem_cons_of_mem _ ht)
    have := splitGo_intercalate '.' (rest.map String.data) s.data hall
    simp only [jsSplit, jsJoin, splitChars, h1, List.map_cons, this, List.map_map]
    congr 1
    simp [Function.comp_def]

/-- The recursive call of the source, on the joined segments, is the call of
`filterIncludeSegs` on the segments. -/
theorem filterInclude_jsJoin (db : Sequelize) (v : Val) (model : String) (include_ : IncField Inc)
    (subfield next : String) (rest : List String)
    (hfree : ∀ s ∈ subfield :: next :: rest, '.' ∉ s.data) :
    filterInclude db (jsJoin "." (subfield :: next :: rest)) v model include_ =
      filterIncludeSegs db v (subfield :: next :: rest) model include_ := by
  have h1 : ("." : String).data = ['.'] := rfl
  have hinc : jsIncludes (jsJoin "." (subfield :: next :: rest)) "." = true := by
    simp only [jsIncludes, jsJoin, h1, List.map_cons]
    exact includesGo_intercalate '.' _ _ _
  simp only [filterInclude, hinc, Bool.not_true, Bool.false_eq_true, if_false,
    jsSplit_jsJoin_dot _ (List.cons_ne_nil _ _) hfree]

/-- A key `field<c>op` with a one-character separator `c` that occurs neither in `field`
nor in `op` splits into `field` and `op`. -/
theorem jsSplit_single (c : Char) (field op : String) (hf : c ∉ field.data) (ho : c ∉ op.data) :
    jsSplit (String.singleton c) (field ++ String.singleton c ++ op) = [field, op] := by
  have h1 : (String.singleton c).data = [c] := rfl
  simp [jsSplit, splitChars, h1, splitGo_single_append c field.data op.data [] hf,
    splitGo_single_of_not_mem c op.data [] ho]

/-! ## Lemmas on lists and objects -/

theorem mem_modifyFirst {α : Type} (p : α → Bool) (f : α → α) :
    ∀ (l : List α) (y : α), y ∈ modifyFirst p f l →
      y ∈ l ∨ ∃ x, l.find? p = some x ∧ y = f x
  | [], y, h => by simp [modifyFirst] at h
  | x :: xs, y, h => by
    by_cases hp : p x = true
    · simp only [modifyFirst, hp, if_true, List.mem_cons] at h
      rcases h with h1 | h1
      · exact Or.inr ⟨x, by simp [List.find?, hp], h1⟩
      · exact Or.inl (List.mem_cons_of_mem _ h1)
    · have hb : p x = false := Bool.eq_false_iff.mpr hp
      simp only [modifyFirst, hb, Bool.false_eq_true, if_false, List.mem_cons] at h
      rcases h with h1 | h1
      · exact Or.inl (h1 ▸ List.mem_cons_self _ _)
      · rcases mem_modifyFirst p f xs y h1 with h2 | ⟨z, hz, hy⟩
        · exact Or.inl (List.mem_cons_of_mem _ h2)
        · exact Or.inr ⟨z, by simp [List.find?, hp, hz], hy⟩

theorem modifyFirst_mem_of_find {α : Type} (p : α → Bool) (f : α → α) :
    ∀ (l : List α) (x : α), l.find? p = some x → f x ∈ modifyFirst p f l
  | [], x, h => by simp at h
  | y :: ys, x, h => by
    by_cases hp : p y = true
    · simp only [List.find?, hp, Option.some.injEq] at h
      subst h
      simp [modifyFirst, hp]
    · simp only [List.find?, hp] at h
      simp [modifyFirst, hp, modifyFirst_mem_of_find p f ys x h]

theorem objGet_map_set (k : PKey) (v : Val) :
    ∀ o : Obj, (o.any fun p => p.1 == k) = true →
      objGet (o.map fun p => if p.1 == k then (k, v) else p) k = v
  | [], h => by simp at h
  | p :: ps, h => by
    by_cases hp : (p.1 == k) = true
    · simp [objGet, List.find?, hp]
    · have hb : (p.1 == k) = false := by simpa using hp
      have h2 : (ps.any fun p => p.1 == k) = true := by simpa [hb] using h
      have ih := objGet_map_set k v ps h2
      simp only [objGet, List.map, List.find?, hb] at ih ⊢
      simp only [Bool.false_eq_true, if_false, hb]
      exact ih

theorem objGet_append_new (k : PKey) (v : Val) :
    ∀ o : Obj, (o.any fun p => p.1 == k) = false → objGet (o ++ [(k, v)]) k = v
  | [], _ => by simp [objGet, List.find?]
  | p :: ps, h => by
    simp only [List.any_cons, Bool.or_eq_false_iff] at h
    have ih := objGet_append_new k v ps h.2
    simp only [objGet, List.cons_append, List.find?, h.1] at ih ⊢
    exact ih

theorem objGet_objSet (o : Obj) (k : PKey) (v : Val) : objGet (objSet o k v) k = v := by
  by_cases h : (o.any fun p => p.1 == k) = true
  · simp only [objSet, h, if_true]
    exact objGet_map_set k v o h
  · have hb : (o.any fun p => p.1 == k) = false := Bool.eq_false_iff.mpr h
    simp only [objSet, hb]
    exact objGet_append_new k v o hb

theorem association_as {db : Sequelize} {model field : String} {a : Association}
    (h : db.association model field = some a) : a.as = field := by
  have := List.find?_some h
  simpa using this

/-- The read `model.associations[field]` for a declared association is the association. -/
theorem associationProperty_own {db : Sequelize} {model field : String} {a : Association}
    (h : db.association model field = some a) :
    db.associationProperty model field = Property.own a := by
  unfold Sequelize.associationProperty associationIn
  unfold Sequelize.association at h
  rw [h]

/-! ## Filter keys of the form `a.b` -/

/-- What `filterInclude` does for a key `a.b` whose `a` is an association and whose `b`
is an attribute of the target of `a`. -/
theorem filterInclude_leaf (db : Sequelize) (a b : String) (v : Val) (model : String)
    (include_ : IncField Inc) (assoc : Association)
    (ha : '.' ∉ a.data) (hb : '.' ∉ b.data)
    (hassoc : db.association model a = some assoc)
    (hattr : b ∈ db.rawAttributes assoc.target) :
    filterInclude db (a ++ "." ++ b) v model include_ =
      Except.ok (match include_.toList.find? (Inc.isNodeOf assoc.as) with
      | some _ =>
        (IncField.many (modifyFirst (Inc.isNodeOf assoc.as) (attachWhere b v) include_.toList),
          assoc.associationType.isToMany)
      | none =>
        match include_.toList.find? (Inc.mentions a assoc.as assoc.target) with
        | some includeEntry =>
          (IncField.many (removeMentioned a assoc.as assoc.target includeEntry include_.toList
              ++ [filteredNode assoc b v]),
            assoc.associationType.isToMany)
        | none => (IncField.many include_.toList, false)) := by
  simp only [filterInclude, jsIncludes_dot, jsSplit_dot a b ha hb, filterIncludeSegs,
    associationProperty_own hassoc, Bool.not_true, Bool.false_eq_true, if_false]
  have hc : (db.rawAttributes assoc.target).contains b = true := by simpa using hattr
  simp only [hc, Bool.not_true, Bool.false_eq_true, if_false]
  cases include_.toList.find? (Inc.isNodeOf assoc.as) with
  | some x => rfl
  | none =>
    simp only
    cases include_.toList.find? (Inc.mentions a assoc.as assoc.target) <;> rfl

/-- A `setOptions` call on a filter map with the single key `key`, which holds a dot and
no operator separator, returns what `filterInclude` returns on the include in effect. -/
theorem setOptions_single_dotted (r : Repository) (key : String) (v : Val)
    (eqo : EntityQueryOptions) (action : Action) (result : IncField Inc × Bool)
    (hdot : jsIncludes key "." = true)
    (hsep : jsIncludes key r.options.operatorSeparator = false)
    (hres : filterInclude r.sequelize key (coerce v) r.model
      (IncField.many (includeInEffect r eqo.loadedInclude action)) = Except.ok result) :
    ∃ opts : QueryOptions,
      setOptions r [(key, v)] eqo action = Except.ok (opts, result.2) ∧
      opts.include_ = result.1 := by
  by_cases hact : action = Action.List
  · subst hact
    simp [setOptions, setOptionsLoop, setOptionsStep, parseAttribute, hsep, hdot, hres]
  · simp [setOptions, setOptionsLoop, setOptionsStep, parseAttribute, hsep, hdot, hact, hres]

theorem find_isSome_of_mem {α : Type} (p : α → Bool) (l : List α) (x : α) (hx : x ∈ l)
    (hp : p x = true) : ∃ y, l.find? p = some y := by
  cases h : l.find? p with
  | some y => exact ⟨y, rfl⟩
  | none => exact absurd hp (by simpa using (List.find?_eq_none.mp h) x hx)

theorem standsFor_cases {a childModel : String} {l : List Inc}
    (h : ∃ item ∈ l, Inc.standsFor a childModel item = true) :
    (∃ x, l.find? (Inc.isNodeOf a) = some x) ∨
      (l.find? (Inc.isNodeOf a) = none ∧ ∃ x, l.find? (Inc.mentions a a childModel) = some x) := by
  obtain ⟨item, hmem, hitem⟩ := h
  cases h1 : l.find? (Inc.isNodeOf a) with
  | some x => exact Or.inl ⟨x, rfl⟩
  | none =>
    refine Or.inr ⟨rfl, ?_⟩
    have hn : Inc.isNodeOf a item = false := by
      simpa using (List.find?_eq_none.mp h1) item hmem
    have hm : Inc.mentions a a childModel item = true := by
      simpa [Inc.standsFor, hn] using hitem
    exact find_isSome_of_mem _ l item hmem hm

/-- C2: for a filter map whose only key is `a.b`, with `a` an association of the model
present in the include in effect (by name, as an association node, under the wildcard
object, or in another form `filterInclude` recognises) and `b` an attribute of the target of
`a`, `setOptions` returns
`hasFilteredArray = true` when `a` is HasMany or BelongsToMany, and `false` when `a` is
HasOne or BelongsTo. -/
theorem setOptions_dotted_key_flag (r : Repository) (a b : String) (v : Val)
    (eqo : EntityQueryOptions) (action : Action) (assoc : Association)
    (ha : '.' ∉ a.data) (hb : '.' ∉ b.data)
    (hsep : jsIncludes (a ++ "." ++ b) r.options.operatorSeparator = false)
    (hassoc : r.sequelize.association r.model a = some assoc)
    (hattr : b ∈ r.sequelize.rawAttributes assoc.target)
    (hin : ∃ item ∈ includeInEffect r eqo.loadedInclude action,
      item.standsFor a assoc.target = true) :
    ((assoc.associationType = AssociationType.HasMany ∨
        assoc.associationType = AssociationType.BelongsToMany) →
      ∃ opts, setOptions r [(a ++ "." ++ b, v)] eqo action = Except.ok (opts, true)) ∧
    ((assoc.associationType = AssociationType.HasOne ∨
        assoc.associationType = AssociationType.BelongsTo) →
      ∃ opts, setOptions r [(a ++ "." ++ b, v)] eqo action = Except.ok (opts, false)) := by
  obtain ⟨opts, hopts, -⟩ := setOptions_single_dotted r (a ++ "." ++ b) v eqo action _
    (jsIncludes_dot a b) hsep
    (filterInclude_leaf r.sequelize a b (coerce v) r.model _ assoc ha hb hassoc hattr)
  have has : assoc.as = a := association_as hassoc
  have hflag : (match (IncField.many (includeInEffect r eqo.loadedInclude action)).toList.find?
        (Inc.isNodeOf assoc.as) with
      | some _ =>
        (IncField.many (modifyFirst (Inc.isNodeOf assoc.as) (attachWhere b (coerce v))
            (IncField.many (includeInEffect r eqo.loadedInclude action)).toList),
          assoc.associationType.isToMany)
      | none =>
        match (IncField.many (includeInEffect r eqo.loadedInclude action)).toList.find?
            (Inc.mentions a assoc.as assoc.target) with
        | some includeEntry =>
          (IncField.many (removeMentioned a assoc.as assoc.target includeEntry
              (IncField.many (includeInEffect r eqo.loadedInclude action)).toList
              ++ [filteredNode assoc b (coerce v)]),
            assoc.associationType.isToMany)
        | none => (IncField.many
            (IncField.many (includeInEffect r eqo.loadedInclude action)).toList, false)).2 =
      assoc.associationType.isToMany := by
    rw [has]
    simp only [IncField.toList]
    rcases standsFor_cases hin with ⟨x, hx⟩ | ⟨hnone, x, hx⟩
    · rw [hx]
    · rw [hnone, hx]
  rw [hflag] at hopts
  constructor
  · intro ht
    refine ⟨opts, ?_⟩
    rcases ht with ht | ht <;> simpa [ht, AssociationType.isToMany] using hopts
  · intro ht
    refine ⟨opts, ?_⟩
    rcases ht with ht | ht <;> simpa [ht, AssociationType.isToMany] using hopts

/-- C2 on the example registry: the key `posts.title` under the default wildcard include. -/
theorem setOptions_dotted_key_flag_witness :
    ∃ opts, setOptions exampleUsers [("posts" ++ "." ++ "title", Val.str "x")] {} Action.Read =
      Except.ok (opts, true) :=
  (setOptions_dotted_key_flag exampleUsers "posts" "title" (Val.str "x") {} Action.Read
    { as := "posts", associationType := AssociationType.HasMany, target := "Post" }
    (by decide) (by decide) (by rfl) (by rfl) (by decide)
    ⟨Inc.obj { all := true },
      by simp [includeInEffect, orInclude, Options.includeOn, exampleUsers, IncField.truthy,
        IncField.toList],
      by rfl⟩).1
    (Or.inl rfl)

/-! ## Operator keys -/

theorem parseAttribute_unknown (sep key field op : String) (more : List String) (value : Val)
    (hkey : jsSplit sep key = field :: op :: more) (hop : op ∉ operators) :
    parseAttribute sep key value = Except.ok none := by
  have hinc := jsIncludes_of_jsSplit hkey
  simp [parseAttribute, hinc, hkey, hop]

theorem setOptionsLoop_skip (r : Repository) (key : String) (value : Val)
    (hparse : parseAttribute r.options.operatorSeparator key value = Except.ok none) :
    ∀ (q1 q2 : List (String × Val)) (st : LoopState),
      setOptionsLoop r (q1 ++ (key, value) :: q2) st = setOptionsLoop r (q1 ++ q2) st
  | [], q2, st => by simp [setOptionsLoop, setOptionsStep, hparse]
  | (k, v) :: q1, q2, st => by
    simp only [List.cons_append, setOptionsLoop]
    cases setOptionsStep r st k v with
    | error e => rfl
    | ok st1 => exact setOptionsLoop_skip r key value hparse q1 q2 st1

/-- C5: a filter key whose operator (the second piece of the key split at the separator)
is not one of the 24 operators is parsed to no result, and `setOptions` returns for a filter
map that holds the key what it returns for the map without the key. -/
theorem setOptions_unknown_operator (r : Repository) (key field op : String) (more : List String)
    (value : Val) (q1 q2 : List (String × Val)) (eqo : EntityQueryOptions) (action : Action)
    (hkey : jsSplit r.options.operatorSeparator key = field :: op :: more)
    (hop : op ∉ operators) :
    parseAttribute r.options.operatorSeparator key value = Except.ok none ∧
      setOptions r (q1 ++ (key, value) :: q2) eqo action = setOptions r (q1 ++ q2) eqo action := by
  have hparse := parseAttribute_unknown r.options.operatorSeparator key field op more value hkey hop
  refine ⟨hparse, ?_⟩
  simp only [setOptions, setOptionsLoop_skip r key value hparse]

/-- C5 on the example registry: the key `name$drop` between two other keys. -/
theorem setOptions_unknown_operator_witness :
    parseAttribute "$" "name$drop" (Val.str "1") = Except.ok none ∧
      setOptions exampleUsers ([("id", Val.str "7")] ++ ("name$drop", Val.str "1") :: [("posts.title", Val.str "x")])
          {} Action.List =
        setOptions exampleUsers ([("id", Val.str "7")] ++ [("posts.title", Val.str "x")]) {} Action.List :=
  setOptions_unknown_operator exampleUsers "name$drop" "name" "drop" [] (Val.str "1")
    [("id", Val.str "7")] [("posts.title", Val.str "x")] {} Action.List (by rfl) (by decide)

theorem setValued_subset {op : String} (hop : op ∈ setValuedOperators) : op ∈ operators := by
  simp only [setValuedOperators, List.mem_cons, List.mem_singleton, List.not_mem_nil, or_false] at hop
  rcases hop with h | h | h | h | h <;> subst h <;> decide

/-- C6 (the code at the failing input): for the set-valued operator `in` and the value
`'true'`, `parseAttribute` coerces the value to a boolean before it splits it, and the call
of `split` on the boolean throws. -/
theorem parseAttribute_in_true_throws :
    parseAttribute "$" "id$in" (Val.str "true") =
      Except.error "TypeError: value.split is not a function" := by
  rfl

/-- For a set-valued operator and a string value other than `'true'`, `'false'` and
`'null'`, `parseAttribute` returns the field and the operator object over the coerced
pieces of the value. -/
theorem parseAttribute_setValued (sep key field op : String) (more : List String) (v : String)
    (hkey : jsSplit sep key = field :: op :: more) (hop : op ∈ setValuedOperators)
    (hv : v ≠ "true" ∧ v ≠ "false" ∧ v ≠ "null") :
    parseAttribute sep key (Val.str v) =
      Except.ok (some { parsedKey := field
                        parsedValue := Val.obj [(PKey.op op,
                          Val.arr ((jsSplit "," v).map fun item => coerce (Val.str item)))] }) := by
  have hinc := jsIncludes_of_jsSplit hkey
  have hops : op ∈ operators := setValued_subset hop
  simp [parseAttribute, hinc, hkey, hops, hop, coerce, hv.1, hv.2.1, hv.2.2]

/-- For a set-valued operator and one of the values `'true'`, `'false'` and `'null'`,
`parseAttribute` throws. -/
theorem parseAttribute_setValued_throws (sep key field op : String) (more : List String)
    (v : String) (hkey : jsSplit sep key = field :: op :: more) (hop : op ∈ setValuedOperators)
    (hv : v = "true" ∨ v = "false" ∨ v = "null") :
    ∃ e, parseAttribute sep key (Val.str v) = Except.error e := by
  have hinc := jsIncludes_of_jsSplit hkey
  have hops : op ∈ operators := setValued_subset hop
  rcases hv with h | h | h <;> subst h <;> simp [parseAttribute, hinc, hkey, hops, hop, coerce]

/-- C7 (the code at the failing input): with the plain key `name` holding `'null'` and
the operator key `name$gt`, `setOptions` reads `constructor` of the stored `null` and
throws. -/
theorem setOptions_null_then_operator_throws :
    setOptions exampleUsers [("name", Val.str "null"), ("name$gt", Val.str "a")] {} Action.Read =
      Except.error "TypeError: Cannot read properties of null (reading 'constructor')" := by
  rfl

/-- C1 (the code at the failing input): the key `posts.title` attaches a predicate to the
HasMany association `posts`, the later key `profile.bio` overwrites the flag, and
`setOptions` returns `hasFilteredArray = false` with the filtered node in its include. -/
theorem setOptions_flag_overwritten :
    ∃ opts, setOptions exampleUsers
        [("posts.title", Val.str "x"), ("profile.bio", Val.str "y")] {} Action.Read =
        Except.ok (opts, false) ∧
      HasFilteredNode opts.include_.toList "posts" "title" (Val.str "x") := by
  refine ⟨_, rfl, ?_⟩
  exact ⟨_, List.mem_cons_of_mem _ (List.mem_cons_self _ _), rfl, ⟨_, rfl, rfl⟩, rfl⟩


/-! ## The node created for a filter key -/

theorem attachWhere_node (a b : String) (v : Val) (x : Inc) (hx : Inc.isNodeOf a x = true) :
    ∃ o : IncObj Inc, attachWhere b v x = Inc.obj o ∧ (Inc.obj o).associationAs? = some a ∧
      (∃ w, o.where_ = some w ∧ objGet w (PKey.str b) = v) ∧ o.required = some true ∧
      o.separate = none := by
  cases x with
  | str s => simp [Inc.isNodeOf, Inc.associationAs?] at hx
  | model n => simp [Inc.isNodeOf, Inc.associationAs?] at hx
  | assoc c => simp [Inc.isNodeOf, Inc.associationAs?] at hx
  | obj o =>
    refine ⟨_, rfl, ?_, ⟨_, rfl, ?_⟩, rfl, rfl⟩
    · simpa [Inc.isNodeOf, Inc.associationAs?] using hx
    · cases o.where_ with
      | none => simp [objGet, List.find?]
      | some w => exact objGet_objSet w _ v

/-! ## Invariants of the include tree -/

theorem allNodes_obj {P : IncObj Inc → Prop} {o : IncObj Inc} :
    (Inc.obj o).AllNodes P ↔ P o ∧ ∀ c ∈ (Inc.obj o).children, c.AllNodes P := by
  constructor
  · intro h
    cases h with
    | obj _ here below => exact ⟨here, below⟩
  · rintro ⟨here, below⟩
    exact Inc.AllNodes.obj o here below

theorem allNodes_of_not_obj {P : IncObj Inc → Prop} (x : Inc) (h : ∀ o, x ≠ Inc.obj o) :
    x.AllNodes P := by
  cases x with
  | str s => exact Inc.AllNodes.str s
  | model n => exact Inc.AllNodes.model n
  | assoc a => exact Inc.AllNodes.assoc a
  | obj o => exact absurd rfl (h o)

theorem everyNode_modifyFirst {P : IncObj Inc → Prop} (p : Inc → Bool) (f : Inc → Inc)
    (l : List Inc) (hl : EveryNode P l)
    (hf : ∀ x, l.find? p = some x → (f x).AllNodes P) : EveryNode P (modifyFirst p f l) := by
  intro y hy
  rcases mem_modifyFirst p f l y hy with h | ⟨x, hx, rfl⟩
  · exact hl y h
  · exact hf x hx

theorem everyNode_removeMentioned {P : IncObj Inc → Prop} (field childAs childModel : String)
    (e : Inc) (l : List Inc) (hl : EveryNode P l) :
    EveryNode P (removeMentioned field childAs childModel e l) := by
  intro y hy
  unfold removeMentioned at hy
  split at hy
  · exact hl y (List.mem_filter.mp hy).1
  · split at hy
    · exact hl y (List.mem_filter.mp hy).1
    · split at hy
      · exact hl y (List.mem_filter.mp hy).1
      · exact hl y hy

theorem isRequired_dropSeparateIfWhere (x : Inc) :
    x.dropSeparateIfWhere.isRequired = x.isRequired := by
  cases x with
  | obj o =>
    simp only [Inc.dropSeparateIfWhere]
    cases o.where_ <;> rfl
  | _ => rfl

theorem any_isRequired_map_drop (l : List Inc) :
    (l.map Inc.dropSeparateIfWhere).any Inc.isRequired = l.any Inc.isRequired := by
  induction l with
  | nil => rfl
  | cons x xs ih => simp only [List.map, List.any_cons, ih, isRequired_dropSeparateIfWhere]

/-- The closure properties of a node predicate that make it an invariant of
`filterInclude`. -/
structure Invariant (P : IncObj Inc → Prop) : Prop where
  attach : ∀ (b : String) (v : Val) (x : Inc), x.AllNodes P → (attachWhere b v x).AllNodes P
  node : ∀ (a : Association) (b : String) (v : Val), (filteredNode a b v).AllNodes P
  nest : ∀ (o : IncObj Inc) (nested result : IncField Inc),
    (Inc.obj o).AllNodes P → o.include_ = some nested → EveryNode P result.toList →
    (nested.toList.any Inc.isRequired = true → result.toList.any Inc.isRequired = true) →
    (attachNested result (Inc.obj o)).AllNodes P

theorem any_isRequired_modifyFirst (p : Inc → Bool) (f : Inc → Inc)
    (hf : ∀ x, x.isRequired = true → (f x).isRequired = true) :
    ∀ l : List Inc, l.any Inc.isRequired = true → (modifyFirst p f l).any Inc.isRequired = true
  | [], h => by simp at h
  | x :: xs, h => by
    simp only [List.any_cons, Bool.or_eq_true] at h
    by_cases hp : p x = true
    · simp only [modifyFirst, hp, if_true, List.any_cons, Bool.or_eq_true]
      rcases h with h | h
      · exact Or.inl (hf x h)
      · exact Or.inr h
    · have hb : p x = false := Bool.eq_false_iff.mpr hp
      simp only [modifyFirst, hb, Bool.false_eq_true, if_false, List.any_cons, Bool.or_eq_true]
      rcases h with h | h
      · exact Or.inl h
      · exact Or.inr (any_isRequired_modifyFirst p f hf xs h)

theorem isRequired_attachWhere (b : String) (v : Val) (x : Inc) (h : x.isRequired = true) :
    (attachWhere b v x).isRequired = true := by
  cases x with
  | obj o => simp [attachWhere, Inc.isRequired]
  | _ => exact h

theorem isRequired_attachNested (nested : IncField Inc) (x : Inc) (h : x.isRequired = true) :
    (attachNested nested x).isRequired = true := by
  cases x with
  | obj o =>
    simp only [attachNested]
    split
    · simp [Inc.isRequired]
    · simpa [Inc.isRequired] using h
  | _ => exact h

theorem any_isRequired_of_mem (l : List Inc) (x : Inc) (hx : x ∈ l) (h : x.isRequired = true) :
    l.any Inc.isRequired = true :=
  List.any_eq_true.mpr ⟨x, hx, h⟩

/-- `filterInclude` never leaves an include list without a required entry if it had one. -/
theorem filterIncludeSegs_required (db : Sequelize) (v : Val) (segs : List String)
    (model : String) (include_ : IncField Inc) (result : IncField Inc × Bool)
    (hres : filterIncludeSegs db v segs model include_ = Except.ok result)
    (h : include_.toList.any Inc.isRequired = true) :
    result.1.toList.any Inc.isRequired = true := by
  match segs with
  | [] =>
    simp only [filterIncludeSegs] at hres
    cases hres
    exact h
  | [_] =>
    simp only [filterIncludeSegs] at hres
    cases hres
    exact h
  | field :: subfield :: rest =>
    simp only [filterIncludeSegs] at hres
    split at hres
    · cases hres
      exact h
    · split at hres <;> cases hres
    · next childAssociation _ =>
      cases rest with
      | nil =>
        simp only at hres
        split at hres
        · cases hres
          exact h
        · split at hres
          · cases hres
            exact any_isRequired_modifyFirst _ _ (isRequired_attachWhere subfield v) _ h
          · split at hres
            · cases hres
              simp [IncField.toList, filteredNode, Inc.isRequired]
            · cases hres
              exact h
      | cons s rest =>
        simp only at hres
        split at hres
        · cases hres
          exact h
        · split at hres
          · split at hres
            · split at hres
              · cases hres
              · cases hres
                exact any_isRequired_modifyFirst _ _ (isRequired_attachNested _) _ h
            · cases hres
              exact h
          · cases hres
            exact h


/-- A node predicate with the closure properties of `Invariant` holds at every node of the
include list returned by `filterInclude` if it holds at every node of the list passed. -/
theorem filterIncludeSegs_everyNode {P : IncObj Inc → Prop} (hP : Invariant P) (db : Sequelize)
    (v : Val) : ∀ (segs : List String) (model : String) (include_ : IncField Inc)
      (result : IncField Inc × Bool),
      filterIncludeSegs db v segs model include_ = Except.ok result →
      EveryNode P include_.toList → EveryNode P result.1.toList
  | [], _, _, _, hres, h => by
    simp only [filterIncludeSegs] at hres
    cases hres
    exact h
  | [_], _, _, _, hres, h => by
    simp only [filterIncludeSegs] at hres
    cases hres
    exact h
  | field :: subfield :: rest, model, include_, result, hres, h => by
    simp only [filterIncludeSegs] at hres
    split at hres
    · cases hres
      exact h
    · split at hres <;> cases hres
    · next childAssociation _ =>
      cases rest with
      | nil =>
        simp only at hres
        split at hres
        · cases hres
          exact h
        · split at hres
          · cases hres
            apply everyNode_modifyFirst _ _ _ h
            intro x hx
            exact hP.attach subfield v x (h x (List.mem_of_find?_eq_some hx))
          · split at hres
            · cases hres
              intro y hy
              simp only [IncField.toList, List.mem_append, List.mem_singleton] at hy
              rcases hy with hy | hy
              · exact everyNode_removeMentioned _ _ _ _ _ h y hy
              · rw [hy]
                exact hP.node _ _ _
            · cases hres
              exact h
      | cons s rest =>
        simp only at hres
        split at hres
        · cases hres
          exact h
        · split at hres
          · next o hfind =>
            split at hres
            · next nested hnested =>
              split at hres
              · cases hres
              · next res hrec =>
                cases hres
                apply everyNode_modifyFirst _ _ _ h
                intro x hx
                have hxo : x = Inc.obj o := by
                  rw [hfind] at hx
                  exact (Option.some.inj hx).symm
                subst hxo
                have hall := h _ (List.mem_of_find?_eq_some hfind)
                have hchildren : EveryNode P nested.toList := by
                  intro c hc
                  apply (allNodes_obj.mp hall).2 c
                  simpa [Inc.children, hnested] using hc
                exact hP.nest o nested _ hall hnested
                  (filterIncludeSegs_everyNode hP db v (subfield :: s :: rest)
                    childAssociation.target nested res hrec hchildren)
                  (filterIncludeSegs_required db v _ _ nested res hrec)
            · cases hres
              exact h
          · cases hres
            exact h

theorem filterInclude_everyNode {P : IncObj Inc → Prop} (hP : Invariant P) (db : Sequelize)
    (key : String) (v : Val) (model : String) (include_ : IncField Inc)
    (result : IncField Inc × Bool)
    (hres : filterInclude db key v model include_ = Except.ok result)
    (h : EveryNode P include_.toList) :
    EveryNode P result.1.toList := by
  unfold filterInclude at hres
  split at hres
  · cases hres
    exact h
  · exact filterIncludeSegs_everyNode hP db v _ model include_ result hres h

theorem setOptionsStep_everyNode {P : IncObj Inc → Prop} (hP : Invariant P) (r : Repository)
    (st st1 : LoopState) (key : String) (value : Val)
    (h : EveryNode P st.include_.toList) (hstep : setOptionsStep r st key value = Except.ok st1) :
    EveryNode P st1.include_.toList := by
  unfold setOptionsStep at hstep
  split at hstep
  · cases hstep
  · cases hstep
    exact h
  · split at hstep
    · split at hstep
      · split at hstep
        · cases hstep
        · cases hstep
          exact h
      · cases hstep
        exact h
    · split at hstep
      · cases hstep
      · next result hres =>
        cases hstep
        exact filterInclude_everyNode hP _ _ _ _ _ result hres h

theorem setOptionsLoop_everyNode {P : IncObj Inc → Prop} (hP : Invariant P) (r : Repository) :
    ∀ (q : List (String × Val)) (st st1 : LoopState),
      EveryNode P st.include_.toList → setOptionsLoop r q st = Except.ok st1 →
      EveryNode P st1.include_.toList
  | [], st, st1, h, hloop => by
    simp only [setOptionsLoop] at hloop
    cases hloop
    exact h
  | (key, value) :: q, st, st1, h, hloop => by
    simp only [setOptionsLoop] at hloop
    cases hstep : setOptionsStep r st key value with
    | error e => simp [hstep] at hloop
    | ok st2 =>
      rw [hstep] at hloop
      exact setOptionsLoop_everyNode hP r q st2 st1
        (setOptionsStep_everyNode hP r st st2 key value h hstep) hloop

theorem setOptions_everyNode {P : IncObj Inc → Prop} (hP : Invariant P) (r : Repository)
    (q : List (String × Val)) (eqo : EntityQueryOptions) (action : Action)
    (opts : QueryOptions) (flag : Bool)
    (h : EveryNode P (includeInEffect r eqo.loadedInclude action))
    (hres : setOptions r q eqo action = Except.ok (opts, flag)) :
    EveryNode P opts.include_.toList := by
  unfold setOptions at hres
  simp only at hres
  cases hloop : setOptionsLoop r q
      { where_ := none, include_ := IncField.many (includeInEffect r eqo.loadedInclude action),
        hasFilteredArray := false } with
  | error e => simp [hloop] at hres
  | ok st =>
    rw [hloop] at hres
    have hst := setOptionsLoop_everyNode hP r q
      { where_ := none, include_ := IncField.many (includeInEffect r eqo.loadedInclude action),
        hasFilteredArray := false } st h hloop
    simp only at hres
    split at hres
    · cases hres
      exact hst
    · cases hres
      exact hst


theorem allNodes_dropSeparate_required (x : Inc) (h : x.AllNodes IncObj.requiredIffFiltered) :
    x.dropSeparateIfWhere.AllNodes IncObj.requiredIffFiltered := by
  cases x with
  | obj o =>
    simp only [Inc.dropSeparateIfWhere]
    cases hw : o.where_ with
    | none => simpa [hw] using h
    | some w =>
      obtain ⟨here, below⟩ := allNodes_obj.mp h
      exact allNodes_obj.mpr ⟨by simpa [IncObj.requiredIffFiltered, Inc.children, hw] using here,
        by simpa [Inc.children] using below⟩
  | _ => exact h

theorem invariant_requiredIffFiltered : Invariant IncObj.requiredIffFiltered where
  attach := by
    intro b v x h
    cases x with
    | obj o =>
      obtain ⟨-, below⟩ := allNodes_obj.mp h
      exact allNodes_obj.mpr ⟨by simp [IncObj.requiredIffFiltered],
        by simpa [Inc.children] using below⟩
    | _ => exact h
  node := by
    intro a b v
    exact allNodes_obj.mpr ⟨by simp [IncObj.requiredIffFiltered], by simp [Inc.children]⟩
  nest := by
    intro o nested result hall hnested hres hmono
    obtain ⟨here, -⟩ := allNodes_obj.mp hall
    have hold : (Inc.obj o).children = nested.toList := by simp [Inc.children, hnested]
    unfold IncObj.requiredIffFiltered at here
    rw [hold] at here
    cases result with
    | one x =>
      have hx : x.dropSeparateIfWhere.AllNodes IncObj.requiredIffFiltered :=
        allNodes_dropSeparate_required x (hres x (by simp [IncField.toList]))
      simp only [IncField.toList, List.any_cons, List.any_nil, Bool.or_false] at hmono
      by_cases hr : x.isRequired = true
      · simp only [attachNested, hr, if_true]
        exact allNodes_obj.mpr ⟨by
            simp [IncObj.requiredIffFiltered, Inc.children, IncField.toList,
              isRequired_dropSeparateIfWhere, hr],
          by simpa [Inc.children, IncField.toList] using hx⟩
      · have hb : x.isRequired = false := Bool.eq_false_iff.mpr hr
        have hn : nested.toList.any Inc.isRequired = false :=
          Bool.eq_false_iff.mpr fun h => hr (hmono h)
        simp only [attachNested, hb, Bool.false_eq_true, if_false]
        rw [hn] at here
        exact allNodes_obj.mpr ⟨by
            simpa [IncObj.requiredIffFiltered, Inc.children, IncField.toList,
              isRequired_dropSeparateIfWhere, hb] using here,
          by simpa [Inc.children, IncField.toList] using hx⟩
    | many xs =>
      have hxs : ∀ c ∈ xs.map Inc.dropSeparateIfWhere, c.AllNodes IncObj.requiredIffFiltered := by
        intro c hc
        obtain ⟨x, hx, rfl⟩ := List.mem_map.mp hc
        exact allNodes_dropSeparate_required x (hres x hx)
      simp only [IncField.toList] at hmono
      by_cases hr : xs.any Inc.isRequired = true
      · simp only [attachNested, hr, if_true]
        exact allNodes_obj.mpr ⟨by
            simp only [IncObj.requiredIffFiltered, Inc.children, IncField.toList,
              any_isRequired_map_drop, hr, or_true],
          by simpa [Inc.children, IncField.toList] using hxs⟩
      · have hb : xs.any Inc.isRequired = false := Bool.eq_false_iff.mpr hr
        have hn : nested.toList.any Inc.isRequired = false :=
          Bool.eq_false_iff.mpr fun h => hr (hmono h)
        simp only [attachNested, hb, Bool.false_eq_true, if_false]
        rw [hn] at here
        exact allNodes_obj.mpr ⟨by
            simpa only [IncObj.requiredIffFiltered, Inc.children, IncField.toList,
              any_isRequired_map_drop, hb] using here,
          by simpa [Inc.children, IncField.toList] using hxs⟩

theorem allNodes_plain_required (x : Inc) (h : x.AllNodes IncObj.isPlain) :
    x.AllNodes IncObj.requiredIffFiltered := by
  induction h with
  | str s => exact Inc.AllNodes.str s
  | model n => exact Inc.AllNodes.model n
  | assoc a => exact Inc.AllNodes.assoc a
  | obj o here below ih =>
    refine Inc.AllNodes.obj o ?_ ih
    have hnone : (Inc.obj o).children.any Inc.isRequired = false := by
      apply Bool.eq_false_iff.mpr
      intro hany
      obtain ⟨c, hc, hreq⟩ := List.any_eq_true.mp hany
      have hcp := below c hc
      cases c with
      | obj oc =>
        have := (allNodes_obj.mp hcp).1
        simp [Inc.isRequired, this.2] at hreq
      | _ => simp [Inc.isRequired] at hreq
    simp [IncObj.requiredIffFiltered, here.1, here.2, hnone]


theorem exampleNested_plain :
    EveryNode IncObj.isPlain (includeInEffect exampleNested none Action.Read) := by
  intro item hmem
  simp only [includeInEffect, orInclude, Options.includeOn, exampleNested, IncField.truthy,
    IncField.toList, if_true, List.mem_singleton] at hmem
  subst hmem
  refine allNodes_obj.mpr ⟨⟨rfl, rfl⟩, ?_⟩
  intro c hc
  simp only [Inc.children, IncField.toList, List.mem_singleton] at hc
  subst hc
  exact allNodes_obj.mpr ⟨⟨rfl, rfl⟩, by simp [Inc.children]⟩

/-- C9, the claim as stated fails: the configured tree has no where and no `required`,
the key `posts.comments.text` puts the predicate on the node of `comments`, and the node of
`posts` above it is returned with `required = true` and without a where. -/
theorem setOptions_required_without_where :
    EveryNode IncObj.isPlain (includeInEffect exampleNested none Action.Read) ∧
    ∃ opts flag, setOptions exampleNested [("posts.comments.text", Val.str "x")] {} Action.Read =
        Except.ok (opts, flag) ∧
      ¬ EveryNode IncObj.requiredIffWhere opts.include_.toList := by
  refine ⟨exampleNested_plain, _, _, rfl, ?_⟩
  intro h
  have h1 := h _ (List.mem_singleton_self _)
  have h2 := (allNodes_obj.mp h1).1
  simp [IncObj.requiredIffWhere] at h2

/-- C9 as amended: given an include in effect none of whose nodes has a where or a
`required` property, every node of the include tree returned by `setOptions`, at every
depth, has `required = true` if and only if it carries a where or one of its nested entries
has `required = true`. -/
theorem setOptions_required_iff_filtered (r : Repository) (q : List (String × Val))
    (eqo : EntityQueryOptions) (action : Action) (opts : QueryOptions) (flag : Bool)
    (hcfg : EveryNode IncObj.isPlain (includeInEffect r eqo.loadedInclude action))
    (hres : setOptions r q eqo action = Except.ok (opts, flag)) :
    EveryNode IncObj.requiredIffFiltered opts.include_.toList :=
  setOptions_everyNode invariant_requiredIffFiltered r q eqo action opts flag
    (fun item hmem => allNodes_plain_required item (hcfg item hmem)) hres

/-- C9 as amended, on the example registry: a nested key and a plain key. -/
theorem setOptions_required_iff_filtered_witness :
    ∃ opts flag, setOptions exampleNested
        [("posts.comments.text", Val.str "x"), ("name", Val.str "a")] {} Action.Read =
        Except.ok (opts, flag) ∧
      EveryNode IncObj.requiredIffFiltered opts.include_.toList :=
  ⟨_, _, rfl, setOptions_required_iff_filtered exampleNested
    [("posts.comments.text", Val.str "x"), ("name", Val.str "a")] {} Action.Read _ _
    exampleNested_plain rfl⟩

theorem allNodes_dropSeparate_separate (G : Option Bool → Prop) (hG : G none) (x : Inc)
    (h : x.AllNodes (IncObj.separateIfWhere G)) :
    x.dropSeparateIfWhere.AllNodes (IncObj.separateIfWhere G) := by
  cases x with
  | obj o =>
    simp only [Inc.dropSeparateIfWhere]
    cases hw : o.where_ with
    | none => simpa [hw] using h
    | some w =>
      obtain ⟨-, below⟩ := allNodes_obj.mp h
      exact allNodes_obj.mpr ⟨fun _ => hG, by simpa [Inc.children] using below⟩
  | _ => exact h

theorem invariant_separateIfWhere (G : Option Bool → Prop) (hG : G none) :
    Invariant (IncObj.separateIfWhere G) where
  attach := by
    intro b v x h
    cases x with
    | obj o =>
      obtain ⟨-, below⟩ := allNodes_obj.mp h
      exact allNodes_obj.mpr ⟨fun _ => hG, by simpa [Inc.children] using below⟩
    | _ => exact h
  node := by
    intro a b v
    exact allNodes_obj.mpr ⟨fun _ => hG, by simp [Inc.children]⟩
  nest := by
    intro o nested result hall hnested hres _
    obtain ⟨here, -⟩ := allNodes_obj.mp hall
    have hchildren : ∀ c ∈ (match result with
        | IncField.one x => IncField.one x.dropSeparateIfWhere
        | IncField.many xs => IncField.many (xs.map Inc.dropSeparateIfWhere)).toList,
        c.AllNodes (IncObj.separateIfWhere G) := by
      intro c hc
      cases result with
      | one x =>
        simp only [IncField.toList, List.mem_singleton] at hc
        subst hc
        exact allNodes_dropSeparate_separate G hG x (hres x (by simp [IncField.toList]))
      | many xs =>
        simp only [IncField.toList] at hc
        obtain ⟨x, hx, rfl⟩ := List.mem_map.mp hc
        exact allNodes_dropSeparate_separate G hG x (hres x hx)
    simp only [attachNested]
    split
    · exact allNodes_obj.mpr ⟨fun _ => hG, by simpa [Inc.children] using hchildren⟩
    · exact allNodes_obj.mpr ⟨by simpa [IncObj.separateIfWhere] using here,
        by simpa [Inc.children] using hchildren⟩

/-- A key of `Object.keys(model.associations)` is an own property of `model.associations`. -/
theorem associationProperty_of_key (db : Sequelize) (model field : String)
    (h : (db.associationKeys model).contains field = true) :
    ∃ a, db.associationProperty model field = Property.own a := by
  unfold Sequelize.associationKeys at h
  unfold Sequelize.associationProperty associationIn
  cases hfind : (db.associations model).find? fun a => a.as == field with
  | some a => exact ⟨a, rfl⟩
  | none =>
    exfalso
    rw [List.contains_iff_exists_mem_beq] at h
    obtain ⟨x, hx, hbeq⟩ := h
    obtain ⟨a, ha, rfl⟩ := List.mem_map.mp hx
    have := List.find?_eq_none.mp hfind a ha
    simp only [beq_iff_eq] at hbeq this
    exact this hbeq.symm

/-- The body of `filterInclude` returns unless `model.associations` inherits the first
segment of the key from `Object.prototype`: a later segment is looked up only after the test
`Object.keys(childModel.associations).includes(subfield)`. -/
theorem filterIncludeSegs_returns (db : Sequelize) (v : Val) :
    ∀ (segs : List String) (model : String) (include_ : IncField Inc),
      db.associationProperty model (segs.headD "") ≠ Property.inherited →
      ∃ result, filterIncludeSegs db v segs model include_ = Except.ok result
  | [], _, include_, _ => ⟨(include_, false), by simp only [filterIncludeSegs]⟩
  | [_], _, include_, _ => ⟨(include_, false), by simp only [filterIncludeSegs]⟩
  | field :: subfield :: rest, model, include_, h => by
    simp only [List.headD] at h
    simp only [filterIncludeSegs]
    split
    · exact ⟨_, rfl⟩
    · next hp => exact absurd hp h
    · next childAssociation _ =>
      cases rest with
      | nil =>
        simp only
        split
        · exact ⟨_, rfl⟩
        · split
          · exact ⟨_, rfl⟩
          · split <;> exact ⟨_, rfl⟩
      | cons s rest =>
        simp only
        split
        · exact ⟨_, rfl⟩
        · next hkey =>
          split
          · next o hfind =>
            split
            · next nested hnested =>
              have hown : db.associationProperty childAssociation.target
                  ((subfield :: s :: rest).headD "") ≠ Property.inherited := by
                obtain ⟨a, ha⟩ := associationProperty_of_key db childAssociation.target subfield
                  (by simpa using hkey)
                simp only [List.headD, ha]
                exact fun h => Property.noConfusion h
              obtain ⟨result, hrec⟩ := filterIncludeSegs_returns db v (subfield :: s :: rest)
                childAssociation.target nested hown
              rw [hrec]
              exact ⟨_, rfl⟩
            · exact ⟨_, rfl⟩
          · exact ⟨_, rfl⟩

/-- The method `filterInclude` returns unless `model.associations` inherits the first
segment of the key from `Object.prototype`. -/
theorem filterInclude_returns (db : Sequelize) (key : String) (v : Val) (model : String)
    (include_ : IncField Inc)
    (h : db.associationProperty model ((jsSplit "." key).headD "") ≠ Property.inherited) :
    ∃ result, filterInclude db key v model include_ = Except.ok result := by
  unfold filterInclude
  split
  · exact ⟨_, rfl⟩
  · exact filterIncludeSegs_returns db v _ model include_ h

/-- C10: `filterInclude` returns an include list unless `model.associations` inherits the
first segment of the key from `Object.prototype`.  If no node of the include list passed to
it has both a where and `separate = true`, no node of the list it returns has; the same
holds with "a `separate` property" in place of "`separate = true`"; and for a key `a.b` a
node of `a` that is marked `separate = true` is returned with the predicate, with
`required = true` and without the `separate` property. -/
theorem filterInclude_where_not_separate (db : Sequelize) (key : String) (v : Val)
    (model : String) (include_ : IncField Inc) :
    (db.associationProperty model ((jsSplit "." key).headD "") ≠ Property.inherited →
      ∃ result, filterInclude db key v model include_ = Except.ok result) ∧
    (∀ result, filterInclude db key v model include_ = Except.ok result →
      (EveryNode (IncObj.separateIfWhere fun s => s ≠ some true) include_.toList →
        EveryNode (IncObj.separateIfWhere fun s => s ≠ some true) result.1.toList) ∧
      (EveryNode (IncObj.separateIfWhere fun s => s = none) include_.toList →
        EveryNode (IncObj.separateIfWhere fun s => s = none) result.1.toList)) ∧
    (∀ (a b : String) (assoc : Association) (o : IncObj Inc),
      key = a ++ "." ++ b → '.' ∉ a.data → '.' ∉ b.data →
      db.association model a = some assoc → b ∈ db.rawAttributes assoc.target →
      include_.toList.find? (Inc.isNodeOf a) = some (Inc.obj o) →
      o.separate = some true → o.where_ = none →
      ∃ result, filterInclude db key v model include_ = Except.ok result ∧
        Inc.obj { o with where_ := some [(PKey.str b, v)], required := some true,
                         separate := none } ∈ result.1.toList) := by
  refine ⟨filterInclude_returns db key v model include_, fun result hres =>
    ⟨filterInclude_everyNode (invariant_separateIfWhere (fun s => s ≠ some true) (by simp))
      db key v model include_ result hres,
    filterInclude_everyNode (invariant_separateIfWhere (fun s => s = none) rfl)
      db key v model include_ result hres⟩, ?_⟩
  intro a b assoc o hkey ha hb hassoc hattr hfind _ hwhere
  have has : assoc.as = a := association_as hassoc
  rw [hkey, filterInclude_leaf db a b v model include_ assoc ha hb hassoc hattr, has, hfind]
  refine ⟨_, rfl, ?_⟩
  have := modifyFirst_mem_of_find (Inc.isNodeOf a) (attachWhere b v) include_.toList _ hfind
  simpa [attachWhere, hwhere, IncField.toList] using this

/-- C10 on the example registry: `filterInclude` returns on the key `posts.title`, the
separately fetched node of `posts` receives the predicate of the key, and no node of the
list returned has both a where and `separate = true`. -/
theorem filterInclude_where_not_separate_witness :
    (∃ result, filterInclude exampleDb ("posts" ++ "." ++ "title") (Val.str "x") "User"
        (IncField.many [Inc.obj { association := some (AssociationProp.node examplePosts)
                                  separate := some true }]) = Except.ok result) ∧
    filterInclude exampleDb ("posts" ++ "." ++ "title") (Val.str "x") "User"
        (IncField.many [Inc.obj { association := some (AssociationProp.node examplePosts)
                                  separate := some true }]) =
      Except.ok (IncField.many [Inc.obj { association := some (AssociationProp.node examplePosts)
                                          where_ := some [(PKey.str "title", Val.str "x")]
                                          required := some true
                                          separate := none }], true) ∧
    EveryNode (IncObj.separateIfWhere fun s => s ≠ some true)
        [Inc.obj { association := some (AssociationProp.node examplePosts)
                   where_ := some [(PKey.str "title", Val.str "x")]
                   required := some true
                   separate := none }] ∧
    (∃ result, filterInclude exampleDb ("posts" ++ "." ++ "title") (Val.str "x") "User"
        (IncField.many [Inc.obj { association := some (AssociationProp.node examplePosts)
                                  separate := some true }]) = Except.ok result ∧
      Inc.obj { association := some (AssociationProp.node examplePosts)
                where_ := some [(PKey.str "title", Val.str "x")]
                required := some true
                separate := none } ∈ result.1.toList) :=
  ⟨(filterInclude_where_not_separate exampleDb ("posts" ++ "." ++ "title") (Val.str "x") "User"
      (IncField.many [Inc.obj { association := some (AssociationProp.node examplePosts)
                                separate := some true }])).1
      (fun h => Property.noConfusion ((show _ = Property.own examplePosts from rfl).symm.trans h)),
    rfl,
    ((filterInclude_where_not_separate exampleDb ("posts" ++ "." ++ "title") (Val.str "x") "User"
      (IncField.many [Inc.obj { association := some (AssociationProp.node examplePosts)
                                separate := some true }])).2.1 _ rfl).1
      (by
        intro item hmem
        simp only [IncField.toList, List.mem_singleton] at hmem
        subst hmem
        exact allNodes_obj.mpr ⟨by simp [IncObj.separateIfWhere], by simp [Inc.children]⟩),
    (filterInclude_where_not_separate exampleDb ("posts" ++ "." ++ "title") (Val.str "x") "User"
      (IncField.many [Inc.obj { association := some (AssociationProp.node examplePosts)
                                separate := some true }])).2.2
      "posts" "title" examplePosts _ rfl (by decide) (by decide) (by rfl) (by decide) (by rfl)
      rfl rfl⟩

/-! ## The compensating query -/

/-- C3, the claim as stated fails: the first `findAll` returns two users, `list` drops the
one whose `profile` is `null` because the filter map holds the key `profile`, and the second
`findAll` asks for the primary key of the other user only. -/
theorem list_refetch_leaves_rows_out :
    ∃ options second result,
      setOptions exampleUsers [("posts.title", Val.str "x"), ("profile", Val.str "y")] {}
          Action.List = Except.ok (options, true) ∧
        exampleStorage.findAll 0 "defaultScope" (firstFind options none) =
          Except.ok [exampleUser1, exampleUser2] ∧
        list exampleUsers exampleStorage [("posts.title", Val.str "x"), ("profile", Val.str "y")]
            {} none "defaultScope" =
          ([StorageCall.findAll "defaultScope" (firstFind options none),
            StorageCall.findAll "defaultScope" second], result) ∧
        second.where_ = some (wherePrimaryKeyIn exampleUsers [exampleUser2]) ∧
        second.where_ ≠ some (wherePrimaryKeyIn exampleUsers [exampleUser1, exampleUser2]) := by
  refine ⟨_, _, _, rfl, rfl, rfl, rfl, ?_⟩
  have hkept : keptEntities exampleUsers [("posts.title", Val.str "x"), ("profile", Val.str "y")]
      [exampleUser1, exampleUser2] = [exampleUser2] := rfl
  simp [wherePrimaryKeyIn, hkept]

/-- C3 as amended: when `setOptions` reports `hasFilteredArray` and the first `findAll`
returns, `list` issues a second `findAll` whose where is `primaryKey IN` the primary keys of
the rows of the first that `list` keeps (for every filter key whose first segment names an
association, the rows whose property under that key is `null` or an empty array are
dropped), whose include is the include tree configured for list, taken to be free of
predicates, and whose order is the order of the first query; the outcome of `list` is the
outcome of the second query. -/
theorem list_refetch (r : Repository) (db : Storage) (entityQuery : List (String × Val))
    (entityQueryOptions : EntityQueryOptions) (transactionId : Option String) (scope : String)
    (options : QueryOptions) (rows : List Obj)
    (_hfree : ∀ f, orInclude r.options.includeOnList r.options.include_ = some f →
      EveryNode (fun o => o.where_ = none) f.toList)
    (hopt : setOptions r entityQuery entityQueryOptions Action.List = Except.ok (options, true))
    (hfirst : db.findAll 0 scope (firstFind options transactionId) = Except.ok rows) :
    list r db entityQuery entityQueryOptions transactionId scope =
      ([StorageCall.findAll scope (firstFind options transactionId),
        StorageCall.findAll scope
          { where_ := some (wherePrimaryKeyIn r (keptEntities r entityQuery rows))
            include_ := orInclude r.options.includeOnList r.options.include_
            order := (firstFind options transactionId).order
            transaction := transactionId }],
       (db.findAll 1 scope
          { where_ := some (wherePrimaryKeyIn r (keptEntities r entityQuery rows))
            include_ := orInclude r.options.includeOnList r.options.include_
            order := (firstFind options transactionId).order
            transaction := transactionId }).map fun entities => entities.map toJSON) := by
  simp only [list, hopt, hfirst, if_true]
  split <;> simp_all [Except.map, wherePrimaryKeyIn, firstFind]

/-- C3 as amended, on the example registry and storage: the two calls of `list` for the
filter `posts.title`. -/
theorem list_refetch_witness :
    list exampleUsers exampleStorage [("posts.title", Val.str "x")] {} none "defaultScope" =
      ([StorageCall.findAll "defaultScope"
          { include_ := some (IncField.many [Inc.obj { all := true },
              filteredNode examplePosts "title" (Val.str "x")]) },
        StorageCall.findAll "defaultScope"
          { where_ := some [(PKey.str "id",
              Val.obj [(PKey.op "in", Val.arr [Val.num 1, Val.num 2])])]
            include_ := some (IncField.one (Inc.obj { all := true })) }],
       Except.ok [exampleUser1, exampleUser2]) :=
  list_refetch exampleUsers exampleStorage [("posts.title", Val.str "x")] {} none "defaultScope"
    { include_ := IncField.many [Inc.obj { all := true },
        filteredNode examplePosts "title" (Val.str "x")] }
    [exampleUser1, exampleUser2]
    (by
      intro f hf
      simp only [orInclude, exampleUsers, IncField.truthy, if_true, Option.some.injEq] at hf
      subst hf
      intro item hmem
      simp only [IncField.toList, List.mem_singleton] at hmem
      subst hmem
      exact allNodes_obj.mpr ⟨rfl, by simp [Inc.children]⟩)
    rfl rfl

/-- C4 (the code at the failing input): with a filter on the HasMany association `posts`,
`bulkUpdate` issues five calls; the where of both compensating `findAll` calls is
`{ id: undefined }`, the read of the property `id` of the array of entities. -/
theorem bulkUpdate_refetch_where_undefined :
    ∃ first second update third fourth,
      (bulkUpdate exampleUsers exampleStorage [("posts.title", Val.str "x")]
          [("name", Val.str "b")] none "defaultScope").1 =
        [StorageCall.findAll "defaultScope" first, StorageCall.findAll "defaultScope" second,
          update, StorageCall.findAll "defaultScope" third,
          StorageCall.findAll "defaultScope" fourth] ∧
      exampleStorage.findAll 0 "defaultScope" first = Except.ok [exampleUser1, exampleUser2] ∧
      second.where_ = some [(PKey.str "id", Val.undef)] ∧
      exampleStorage.findAll 3 "defaultScope" third = Except.ok [exampleUser1, exampleUser2] ∧
      fourth.where_ = some [(PKey.str "id", Val.undef)] :=
  ⟨_, _, _, _, _, rfl, rfl, rfl, rfl, rfl⟩

/-! ## The node of a filter key in a filter map of several keys -/

theorem splitGo_single_ne_nil (c : Char) :
    ∀ (s acc : List Char), splitGo [c] 0 s acc ≠ []
  | [], acc => by simp [splitGo]
  | x :: xs, acc => by
    by_cases hx : c = x
    · subst hx
      simp [splitGo, List.isPrefixOf]
    · have hb : (c == x) = false := by simpa using hx
      simp only [splitGo, List.isPrefixOf, hb, Bool.false_and, Bool.false_eq_true, if_false]
      exact splitGo_single_ne_nil c xs (x :: acc)

/-- The join of the pieces of a split is the string. -/
theorem intercalate_splitGo (c : Char) :
    ∀ (s acc : List Char), List.intercalate [c] (splitGo [c] 0 s acc) = acc.reverse ++ s
  | [], acc => by simp [splitGo, List.intercalate, List.intersperse]
  | x :: xs, acc => by
    by_cases hx : c = x
    · subst hx
      have ih := intercalate_splitGo c xs []
      simp only [splitGo, List.isPrefixOf, beq_self_eq_true, Bool.true_and, if_true,
        List.length_singleton, Nat.sub_self]
      cases hgo : splitGo [c] 0 xs [] with
      | nil => exact absurd hgo (splitGo_single_ne_nil c xs [])
      | cons p ps =>
        rw [hgo] at ih
        have hcat : List.intercalate [c] (acc.reverse :: p :: ps) =
            acc.reverse ++ c :: List.intercalate [c] (p :: ps) := by
          simp [List.intercalate, List.intersperse]
        rw [hcat, ih]
        simp
    · have hb : (c == x) = false := by simpa using hx
      simp only [splitGo, List.isPrefixOf, hb, Bool.false_and, Bool.false_eq_true, if_false]
      rw [intercalate_splitGo c xs (x :: acc)]
      simp

/-- A key that splits at the dot into two segments is the first, a dot and the second. -/
theorem eq_of_jsSplit_dot {key f s : String} (h : jsSplit "." key = [f, s]) :
    key = f ++ "." ++ s := by
  have h1 : ("." : String).data = ['.'] := rfl
  have hj := intercalate_splitGo '.' key.data []
  simp only [jsSplit, splitChars, h1] at h
  have hd : splitGo ['.'] 0 key.data [] = [f.data, s.data] := by
    have := congrArg (List.map String.data) h
    simpa [Function.comp_def] using this
  rw [hd] at hj
  apply String.ext
  simp only [List.reverse_nil, List.nil_append] at hj
  rw [← hj]
  simp [List.intercalate, List.intersperse, h1]

theorem find?_map_set_ne (k k1 : PKey) (v : Val) (hb : (k1 == k) = false) :
    ∀ o : Obj, (o.map fun p => if p.1 == k1 then (k1, v) else p).find? (fun p => p.1 == k) =
      o.find? fun p => p.1 == k
  | [] => rfl
  | p :: ps => by
    have ih := find?_map_set_ne k k1 v hb ps
    by_cases hp : (p.1 == k1) = true
    · have hpk : (p.1 == k) = false := by
        have : p.1 = k1 := by simpa using hp
        rw [this]
        exact hb
      simp only [List.map, hp, if_true, List.find?, hb, hpk]
      exact ih
    · have hp2 : (p.1 == k1) = false := by simpa using hp
      simp only [List.map, hp2, Bool.false_eq_true, if_false, List.find?]
      cases hpk : p.1 == k
      · exact ih
      · rfl

theorem find?_append_set_ne (k k1 : PKey) (v : Val) (hb : (k1 == k) = false) :
    ∀ o : Obj, (o ++ [(k1, v)]).find? (fun p => p.1 == k) = o.find? fun p => p.1 == k
  | [] => by simp [List.find?, hb]
  | p :: ps => by
    have ih := find?_append_set_ne k k1 v hb ps
    simp only [List.cons_append, List.find?]
    cases hpk : p.1 == k
    · exact ih
    · rfl

theorem objGet_objSet_ne (o : Obj) (k k1 : PKey) (v : Val) (h : k1 ≠ k) :
    objGet (objSet o k1 v) k = objGet o k := by
  have hb : (k1 == k) = false := by simpa using h
  unfold objSet
  split
  · unfold objGet
    rw [find?_map_set_ne k k1 v hb o]
  · unfold objGet
    rw [find?_append_set_ne k k1 v hb o]

theorem find?_modifyFirst {α : Type} (p q : α → Bool) (f : α → α) (hf : ∀ y, p (f y) = p y) :
    ∀ (l : List α) (x : α), l.find? p = some x →
      (modifyFirst q f l).find? p = some x ∨
        (q x = true ∧ (modifyFirst q f l).find? p = some (f x))
  | [], x, h => by simp at h
  | y :: ys, x, h => by
    by_cases hq : q y = true
    · simp only [modifyFirst, hq, if_true]
      by_cases hp : p y = true
      · simp only [List.find?, hp, Option.some.injEq] at h
        subst h
        exact Or.inr ⟨hq, by simp [List.find?, hf, hp]⟩
      · have hpb : p y = false := Bool.eq_false_iff.mpr hp
        simp only [List.find?, hpb] at h
        exact Or.inl (by simp [List.find?, hf, hpb, h])
    · have hqb : q y = false := Bool.eq_false_iff.mpr hq
      simp only [modifyFirst, hqb, Bool.false_eq_true, if_false]
      by_cases hp : p y = true
      · simp only [List.find?, hp, Option.some.injEq] at h
        subst h
        exact Or.inl (by simp [List.find?, hp])
      · have hpb : p y = false := Bool.eq_false_iff.mpr hp
        simp only [List.find?, hpb] at h
        rcases find?_modifyFirst p q f hf ys x h with h1 | ⟨h1, h2⟩
        · exact Or.inl (by simp [List.find?, hpb, h1])
        · exact Or.inr ⟨h1, by simp [List.find?, hpb, h2]⟩

theorem find?_modifyFirst_same {α : Type} (p : α → Bool) (f : α → α) (hf : ∀ y, p (f y) = p y) :
    ∀ (l : List α) (x : α), l.find? p = some x → (modifyFirst p f l).find? p = some (f x)
  | [], x, h => by simp at h
  | y :: ys, x, h => by
    by_cases hp : p y = true
    · simp only [List.find?, hp, Option.some.injEq] at h
      subst h
      simp [modifyFirst, hp, List.find?, hf]
    · have hpb : p y = false := Bool.eq_false_iff.mpr hp
      simp only [List.find?, hpb] at h
      simp [modifyFirst, hpb, List.find?, find?_modifyFirst_same p f hf ys x h]

theorem find?_filter_append {α : Type} (p g : α → Bool) (extra : List α) :
    ∀ (l : List α) (x : α), l.find? p = some x → g x = true →
      (l.filter g ++ extra).find? p = some x
  | [], x, h, _ => by simp at h
  | y :: ys, x, h, hg => by
    by_cases hp : p y = true
    · simp only [List.find?, hp, Option.some.injEq] at h
      subst h
      simp [List.filter, hg, List.find?, hp]
    · have hpb : p y = false := Bool.eq_false_iff.mpr hp
      simp only [List.find?, hpb] at h
      have ih := find?_filter_append p g extra ys x h hg
      cases hgy : g y
      · simpa [List.filter, hgy] using ih
      · simpa [List.filter, hgy, List.find?, hpb] using ih

theorem find?_append_new {α : Type} (p : α → Bool) (y : α) (hy : p y = true) :
    ∀ l : List α, l.find? p = none → (l ++ [y]).find? p = some y
  | [], _ => by simp [List.find?, hy]
  | x :: xs, h => by
    have hx : p x = false := by
      cases hpx : p x
      · rfl
      · simp [List.find?, hpx] at h
    simp only [List.find?, hx] at h
    simp [List.find?, hx, find?_append_new p y hy xs h]

theorem find?_removeMentioned_none (p : Inc → Bool) (field childAs childModel : String)
    (e : Inc) (l : List Inc) (h : l.find? p = none) :
    (removeMentioned field childAs childModel e l).find? p = none := by
  apply List.find?_eq_none.mpr
  intro x hx
  have hmem : x ∈ l := by
    unfold removeMentioned at hx
    split at hx
    · exact (List.mem_filter.mp hx).1
    · split at hx
      · exact (List.mem_filter.mp hx).1
      · split at hx
        · exact (List.mem_filter.mp hx).1
        · exact hx
  exact (List.find?_eq_none.mp h) x hmem

theorem isNodeOf_attachWhere (a b : String) (v : Val) (x : Inc) :
    Inc.isNodeOf a (attachWhere b v x) = Inc.isNodeOf a x := by
  cases x <;> rfl

theorem isNodeOf_attachNested (a : String) (nested : IncField Inc) (x : Inc) :
    Inc.isNodeOf a (attachNested nested x) = Inc.isNodeOf a x := by
  cases x with
  | obj o =>
    simp only [attachNested]
    split <;> rfl
  | _ => rfl

theorem associationProperty_as {db : Sequelize} {model field : String} {a : Association}
    (h : db.associationProperty model field = Property.own a) : a.as = field := by
  unfold Sequelize.associationProperty associationIn at h
  split at h
  · next x hx =>
    cases h
    have := List.find?_some hx
    simpa using this
  · split at h <;> cases h

/-- The node that `filterInclude` leaves for a key `a.b`, when the include list holds an
entry that stands for `a`, is the first node of `a`; its nodeAs is the nodeAs of the first
node of `a` in the list passed, if there is one. -/
theorem filterInclude_first_node (db : Sequelize) (a b : String) (v : Val) (model : String)
    (include_ : IncField Inc) (assoc : Association) (result : IncField Inc × Bool)
    (ha : '.' ∉ a.data) (hb : '.' ∉ b.data)
    (hassoc : db.association model a = some assoc)
    (hattr : b ∈ db.rawAttributes assoc.target)
    (hin : ∃ item ∈ include_.toList, item.standsFor a assoc.target = true)
    (hres : filterInclude db (a ++ "." ++ b) v model include_ = Except.ok result) :
    FirstNodeFiltered result.1.toList a b v
      ((include_.toList.find? (Inc.isNodeOf a)).bind Inc.as?) := by
  have has : assoc.as = a := association_as hassoc
  rw [filterInclude_leaf db a b v model include_ assoc ha hb hassoc hattr, has] at hres
  rcases standsFor_cases hin with ⟨x, hx⟩ | ⟨hnone, x, hx⟩
  · rw [hx] at hres
    cases hres
    have hpx : Inc.isNodeOf a x = true := List.find?_some hx
    obtain ⟨o, ho, -, h2, h3, -⟩ := attachWhere_node a b v x hpx
    have hfirst := find?_modifyFirst_same (Inc.isNodeOf a) (attachWhere b v)
      (isNodeOf_attachWhere a b v) _ x hx
    refine ⟨o, ?_, h2, h3, ?_⟩
    · rw [IncField.toList, hfirst, ho]
    · rw [hx]
      cases x with
      | obj ox =>
        simp only [attachWhere, Inc.obj.injEq] at ho
        rw [← ho]
        rfl
      | _ => simp [Inc.isNodeOf, Inc.associationAs?] at hpx
  · rw [hnone, hx] at hres
    cases hres
    refine ⟨{ association := some (AssociationProp.node assoc)
              where_ := some [(PKey.str b, v)]
              required := some true }, ?_, ⟨_, rfl, by simp [objGet, List.find?]⟩, rfl, ?_⟩
    · rw [IncField.toList]
      exact find?_append_new _ _ (by simp [filteredNode, Inc.isNodeOf, Inc.associationAs?, has]) _
        (find?_removeMentioned_none _ _ _ _ _ _ hnone)
    · rw [hnone]
      rfl

theorem find?_append_some {α : Type} (p : α → Bool) (extra : List α) :
    ∀ (l : List α) (x : α), l.find? p = some x → (l ++ extra).find? p = some x
  | [], x, h => by simp at h
  | y :: ys, x, h => by
    cases hp : p y
    · simp only [List.find?, hp] at h
      simp [List.find?, hp, find?_append_some p extra ys x h]
    · simp only [List.find?, hp] at h
      simp [List.find?, hp, h]

/-- A write of `filterInclude` for another key to the entry found by association leaves
the first node of `a` filtered on `b`. -/
theorem firstNode_attachWhere (l : List Inc) (a b f s : String) (v w : Val)
    (nodeAs : Option String) (hne : f ≠ a ∨ s ≠ b) (h : FirstNodeFiltered l a b v nodeAs) :
    FirstNodeFiltered (modifyFirst (Inc.isNodeOf f) (attachWhere s w) l) a b v nodeAs := by
  obtain ⟨o, ho, ⟨w0, hw0, hget⟩, hreq, hal⟩ := h
  by_cases hfa : f = a
  · subst hfa
    have hsb : s ≠ b := by
      rcases hne with h1 | h1
      · exact absurd rfl h1
      · exact h1
    have hfirst := find?_modifyFirst_same (Inc.isNodeOf f) (attachWhere s w)
      (isNodeOf_attachWhere f s w) l _ ho
    refine ⟨_, hfirst, ⟨objSet w0 (PKey.str s) w, ?_, ?_⟩, rfl, hal⟩
    · simp only [hw0]
    · rw [objGet_objSet_ne _ _ _ _ (by simpa using hsb)]
      exact hget
  · rcases find?_modifyFirst (Inc.isNodeOf a) (Inc.isNodeOf f) (attachWhere s w)
      (isNodeOf_attachWhere a s w) l _ ho with h1 | ⟨h1, -⟩
    · exact ⟨o, h1, ⟨w0, hw0, hget⟩, hreq, hal⟩
    · have h2 : Inc.isNodeOf a (Inc.obj o) = true := List.find?_some ho
      simp only [Inc.isNodeOf, beq_iff_eq] at h1 h2
      rw [h1] at h2
      exact absurd (Option.some.inj h2) hfa

/-- The write of `filterInclude` for a nested key leaves the first node of `a` filtered
on `b`. -/
theorem firstNode_attachNested (l : List Inc) (a b : String) (v : Val) (q : Inc → Bool)
    (nested : IncField Inc) (nodeAs : Option String) (h : FirstNodeFiltered l a b v nodeAs) :
    FirstNodeFiltered (modifyFirst q (attachNested nested) l) a b v nodeAs := by
  obtain ⟨o, ho, ⟨w0, hw0, hget⟩, hreq, hal⟩ := h
  rcases find?_modifyFirst (Inc.isNodeOf a) q (attachNested nested)
    (isNodeOf_attachNested a nested) l _ ho with h1 | ⟨-, h1⟩
  · exact ⟨o, h1, ⟨w0, hw0, hget⟩, hreq, hal⟩
  · simp only [attachNested] at h1
    split at h1
    · exact ⟨_, h1, ⟨w0, hw0, hget⟩, rfl, hal⟩
    · exact ⟨_, h1, ⟨w0, hw0, hget⟩, hreq, hal⟩

/-- The removal of the entries that stand for another association, and the push of its
node, leave the first node of `a` filtered on `b`. -/
theorem firstNode_removeMentioned (l extra : List Inc) (a b f childModel : String) (v : Val)
    (e : Inc) (nodeAs : Option String) (hfa : nodeAs ≠ some f)
    (h : FirstNodeFiltered l a b v nodeAs) :
    FirstNodeFiltered (removeMentioned f f childModel e l ++ extra) a b v nodeAs := by
  obtain ⟨o, ho, hw, hreq, hal⟩ := h
  refine ⟨o, ?_, hw, hreq, hal⟩
  have hasf : ((Inc.obj o).as? == some f) = false := by
    simp only [Inc.as?, hal, beq_eq_false_iff_ne, ne_eq]
    exact hfa
  unfold removeMentioned
  split
  · exact find?_filter_append _ _ extra l _ ho (by simp [Inc.isStr])
  · split
    · exact find?_filter_append _ _ extra l _ ho (by simp [hasf])
    · split
      · exact find?_filter_append _ _ extra l _ ho (by simp [Inc.name?])
      · exact find?_append_some _ extra l _ ho

/-- A call of `filterInclude` on segments other than `[a, b]`, the first of which is not
the nodeAs of the first node of `a` unless it is `a`, leaves the first node of `a` filtered
on `b`. -/
theorem filterIncludeSegs_keeps_first (db : Sequelize) (value : Val) (a b : String) (v : Val)
    (nodeAs : Option String) :
    ∀ (segs : List String) (model : String) (include_ : IncField Inc)
      (result : IncField Inc × Bool), segs ≠ [a, b] →
      (∀ f, nodeAs = some f → f ≠ a → segs.head? ≠ some f) →
      filterIncludeSegs db value segs model include_ = Except.ok result →
      FirstNodeFiltered include_.toList a b v nodeAs →
      FirstNodeFiltered result.1.toList a b v nodeAs
  | [], _, _, _, _, _, hres, h => by
    simp only [filterIncludeSegs] at hres
    cases hres
    exact h
  | [_], _, _, _, _, _, hres, h => by
    simp only [filterIncludeSegs] at hres
    cases hres
    exact h
  | field :: subfield :: rest, model, include_, result, hsegs, halias, hres, h => by
    simp only [filterIncludeSegs] at hres
    split at hres
    · cases hres
      exact h
    · split at hres <;> cases hres
    · next childAssociation hprop =>
      have has : childAssociation.as = field := associationProperty_as hprop
      cases rest with
      | nil =>
        have hne : field ≠ a ∨ subfield ≠ b := by
          by_contra hcon
          push_neg at hcon
          exact hsegs (by rw [hcon.1, hcon.2])
        simp only at hres
        split at hres
        · cases hres
          exact h
        · split at hres
          · cases hres
            rw [has]
            exact firstNode_attachWhere _ a b field subfield v value nodeAs hne h
          · next hnone =>
            have hfa : field ≠ a := by
              intro hfa
              obtain ⟨o, ho, -⟩ := h
              rw [has, hfa, ho] at hnone
              cases hnone
            have hal : nodeAs ≠ some field := fun hal => halias field hal hfa rfl
            split at hres
            · cases hres
              simp only [IncField.toList]
              rw [has]
              exact firstNode_removeMentioned _ _ a b field _ v _ nodeAs hal h
            · cases hres
              exact h
      | cons s rest =>
        simp only at hres
        split at hres
        · cases hres
          exact h
        · split at hres
          · split at hres
            · split at hres
              · cases hres
              · cases hres
                exact firstNode_attachNested _ a b v _ _ nodeAs h
            · cases hres
              exact h
          · cases hres
            exact h

/-- An iteration of the loop of `setOptions` on a key whose parsed key is not `a.b`, and
whose first segment is not the nodeAs of the first node of `a` unless it is `a`, leaves the
first node of `a` filtered on `b`. -/
theorem setOptionsStep_keeps_first (r : Repository) (st st1 : LoopState) (key : String)
    (value : Val) (a b : String) (v : Val) (nodeAs : Option String)
    (hkey : ∀ p, parseAttribute r.options.operatorSeparator key value = Except.ok (some p) →
      p.parsedKey ≠ a ++ "." ++ b ∧
        ∀ f, nodeAs = some f → f ≠ a → (jsSplit "." p.parsedKey).head? ≠ some f)
    (hstep : setOptionsStep r st key value = Except.ok st1)
    (h : FirstNodeFiltered st.include_.toList a b v nodeAs) :
    FirstNodeFiltered st1.include_.toList a b v nodeAs := by
  unfold setOptionsStep at hstep
  split at hstep
  · cases hstep
  · cases hstep
    exact h
  · next p hp =>
    split at hstep
    · split at hstep
      · split at hstep
        · cases hstep
        · cases hstep
          exact h
      · cases hstep
        exact h
    · split at hstep
      · cases hstep
      · next result hres =>
        cases hstep
        simp only [filterInclude] at hres
        split at hres
        · cases hres
          exact h
        · refine filterIncludeSegs_keeps_first r.sequelize _ a b v nodeAs _ _ _ result ?_
            (hkey p hp).2 hres h
          intro hsplit
          exact (hkey p hp).1 (eq_of_jsSplit_dot hsplit)

/-- The iterations of the loop of `setOptions` on such keys leave the first node of `a`
filtered on `b`. -/
theorem setOptionsLoop_keeps_first (r : Repository) (a b : String) (v : Val)
    (nodeAs : Option String) :
    ∀ (q : List (String × Val)) (st st1 : LoopState),
      (∀ kv ∈ q, ∀ p, parseAttribute r.options.operatorSeparator kv.1 kv.2 = Except.ok (some p) →
        p.parsedKey ≠ a ++ "." ++ b ∧
          ∀ f, nodeAs = some f → f ≠ a → (jsSplit "." p.parsedKey).head? ≠ some f) →
      setOptionsLoop r q st = Except.ok st1 →
      FirstNodeFiltered st.include_.toList a b v nodeAs →
      FirstNodeFiltered st1.include_.toList a b v nodeAs
  | [], st, st1, _, hloop, h => by
    simp only [setOptionsLoop, Except.ok.injEq] at hloop
    rw [← hloop]
    exact h
  | (key, value) :: rest, st, st1, hq, hloop, h => by
    simp only [setOptionsLoop] at hloop
    split at hloop
    · cases hloop
    · next st2 hstep =>
      exact setOptionsLoop_keeps_first r a b v nodeAs rest st2 st1
        (fun kv hkv => hq kv (List.mem_cons_of_mem _ hkv)) hloop
        (setOptionsStep_keeps_first r st st2 key value a b v nodeAs
          (hq (key, value) (List.mem_cons_self _ _)) hstep h)

/-- The loop of `setOptions` over two lists of keys runs the first and then the second. -/
theorem setOptionsLoop_append (r : Repository) :
    ∀ (q1 q2 : List (String × Val)) (st st1 : LoopState),
      setOptionsLoop r q1 st = Except.ok st1 →
      setOptionsLoop r (q1 ++ q2) st = setOptionsLoop r q2 st1
  | [], q2, st, st1, h => by
    simp only [setOptionsLoop, Except.ok.injEq] at h
    rw [← h]
    rfl
  | (key, value) :: rest, q2, st, st1, h => by
    simp only [setOptionsLoop] at h
    simp only [List.cons_append, setOptionsLoop]
    cases hstep : setOptionsStep r st key value with
    | error e =>
      rw [hstep] at h
      cases h
    | ok st2 =>
      rw [hstep] at h
      exact setOptionsLoop_append r rest q2 st2 st1 h

/-- The options that `setOptions` returns hold the include of the loop. -/
theorem setOptions_include (r : Repository) (q : List (String × Val))
    (eqo : EntityQueryOptions) (action : Action) (opts : QueryOptions) (flag : Bool)
    (h : setOptions r q eqo action = Except.ok (opts, flag)) :
    ∃ st, setOptionsLoop r q
        { where_ := none
          include_ := IncField.many (includeInEffect r eqo.loadedInclude action)
          hasFilteredArray := false } = Except.ok st ∧ opts.include_ = st.include_ := by
  simp only [setOptions] at h
  split at h
  · cases h
  · next st hst =>
    refine ⟨st, hst, ?_⟩
    split at h
    · cases h
      rfl
    · cases h
      rfl

theorem hasFilteredNode_of_first {l : List Inc} {a b : String} {v : Val} {nodeAs : Option String}
    (h : FirstNodeFiltered l a b v nodeAs) : HasFilteredNode l a b v := by
  obtain ⟨o, ho, hw, hreq, -⟩ := h
  refine ⟨o, List.mem_of_find?_eq_some ho, ?_, hw, hreq⟩
  have := List.find?_some ho
  simpa [Inc.isNodeOf] using this

/-- The iteration of the loop of `setOptions` on a key `a.b` without operator. -/
theorem setOptionsStep_dotted (r : Repository) (st : LoopState) (a b : String) (v : Val)
    (hsep : jsIncludes (a ++ "." ++ b) r.options.operatorSeparator = false) :
    setOptionsStep r st (a ++ "." ++ b) v =
      match filterInclude r.sequelize (a ++ "." ++ b) (coerce v) r.model st.include_ with
      | Except.error e => Except.error e
      | Except.ok result =>
        Except.ok { st with include_ := result.1, hasFilteredArray := result.2 } := by
  cases hres : filterInclude r.sequelize (a ++ "." ++ b) (coerce v) r.model st.include_ <;>
    simp [setOptionsStep, parseAttribute, hsep, jsIncludes_dot, hres]

/-- When the loop of `setOptions` returns, `setOptions` returns its include and flag. -/
theorem setOptions_of_loop (r : Repository) (q : List (String × Val))
    (eqo : EntityQueryOptions) (action : Action) (st : LoopState)
    (h : setOptionsLoop r q
        { where_ := none
          include_ := IncField.many (includeInEffect r eqo.loadedInclude action)
          hasFilteredArray := false } = Except.ok st) :
    ∃ opts, setOptions r q eqo action = Except.ok (opts, st.hasFilteredArray) ∧
      opts.include_ = st.include_ := by
  by_cases hact : action = Action.List
  · subst hact
    simp [setOptions, h]
  · simp [setOptions, h, hact]

/-- C8, the claim as stated fails in four ways.  With an empty include list in effect, the
key `posts.title` creates no node.  With the default wildcard include, the later key
`posts.title$gt` overwrites the predicate of `posts.title`.  With the configured entry
`{ association: posts, as: 'profile' }`, the later key `profile.bio` removes the node that
`posts.title` filtered.  With the model class `Person` as the include of a team, the
earlier key `lead.name` removes the class, and `members.name` creates no node. -/
theorem setOptions_creates_no_node :
    (∃ opts flag, setOptions { exampleUsers with options := { include_ := some (IncField.many []) } }
        [("posts.title", Val.str "x")] {} Action.Read = Except.ok (opts, flag) ∧
      ¬ HasFilteredNode opts.include_.toList "posts" "title" (Val.str "x")) ∧
    (∃ opts flag, setOptions exampleUsers
        [("posts.title", Val.str "x"), ("posts.title$gt", Val.str "y")] {} Action.Read =
          Except.ok (opts, flag) ∧
      ¬ HasFilteredNode opts.include_.toList "posts" "title" (Val.str "x")) ∧
    (∃ opts flag, setOptions
        { exampleUsers with options := { include_ := some (IncField.many
            [Inc.obj { association := some (AssociationProp.node examplePosts),
                       as := some "profile" }]) } }
        [("posts.title", Val.str "x"), ("profile.bio", Val.str "y")] {} Action.Read =
          Except.ok (opts, flag) ∧
      ¬ HasFilteredNode opts.include_.toList "posts" "title" (Val.str "x")) ∧
    (∃ opts flag, setOptions
        { sequelize := exampleOrg, model := "Team",
          options := { include_ := some (IncField.many [Inc.model "Person"]) } }
        [("lead.name", Val.str "x"), ("members.name", Val.str "y")] {} Action.Read =
          Except.ok (opts, flag) ∧
      ¬ HasFilteredNode opts.include_.toList "members" "name" (Val.str "y")) := by
  refine ⟨⟨{ include_ := IncField.many [] }, false, rfl, ?_⟩,
    ⟨{ include_ := IncField.many [Inc.obj { all := true },
        Inc.obj { association := some (AssociationProp.node examplePosts)
                  where_ := some [(PKey.str "title", Val.obj [(PKey.op "gt", Val.str "y")])]
                  required := some true }] }, true, rfl, ?_⟩,
    ⟨{ include_ := IncField.many
        [Inc.obj { association := some (AssociationProp.node
                     { as := "profile", associationType := AssociationType.HasOne,
                       target := "Profile" })
                   where_ := some [(PKey.str "bio", Val.str "y")]
                   required := some true }] }, false, rfl, ?_⟩,
    ⟨{ include_ := IncField.many
        [Inc.obj { association := some (AssociationProp.node
                     { as := "lead", associationType := AssociationType.BelongsTo,
                       target := "Person" })
                   where_ := some [(PKey.str "name", Val.str "x")]
                   required := some true }] }, false, rfl, ?_⟩⟩
  · rintro ⟨o, hmem, -⟩
    simp [IncField.toList] at hmem
  · rintro ⟨o, hmem, has, ⟨w, hw, hget⟩, -⟩
    simp only [IncField.toList, List.mem_cons, Inc.obj.injEq, List.mem_nil_iff, or_false] at hmem
    rcases hmem with rfl | rfl
    · simp [Inc.associationAs?] at has
    · cases hw
      have hval : objGet [(PKey.str "title", Val.obj [(PKey.op "gt", Val.str "y")])]
          (PKey.str "title") = Val.obj [(PKey.op "gt", Val.str "y")] := rfl
      rw [hval] at hget
      cases hget
  · rintro ⟨o, hmem, has, -⟩
    simp only [IncField.toList, List.mem_cons, Inc.obj.injEq, List.mem_nil_iff, or_false] at hmem
    subst hmem
    simp [Inc.associationAs?] at has
  · rintro ⟨o, hmem, has, -⟩
    simp only [IncField.toList, List.mem_cons, Inc.obj.injEq, List.mem_nil_iff, or_false] at hmem
    subst hmem
    simp [Inc.associationAs?] at has

/-- C8 as amended: let `a` be an association of the model and `b` an attribute of its
target, and let the filter map hold the key `a.b` after the keys `q1` and before the keys
`q2`.  When the include list, as the keys `q1` leave it, holds an entry that stands for `a`,
`setOptions` on the map that ends at `a.b` returns an include list with a node for `a` that
carries `b: value` in its where and `required = true`; and so does every `setOptions` call
that returns on the whole map, when no key of `q2` has the parsed key `a.b` and none starts
with an alias other than `a` that the first node of `a` carries.  When the include list
holds no entry that stands for `a`, the key creates no node. -/
theorem setOptions_dotted_key_node (r : Repository) (a b : String) (v : Val)
    (q1 q2 : List (String × Val)) (eqo : EntityQueryOptions) (action : Action)
    (assoc : Association) (st1 : LoopState)
    (ha : '.' ∉ a.data) (hb : '.' ∉ b.data)
    (hsep : jsIncludes (a ++ "." ++ b) r.options.operatorSeparator = false)
    (hassoc : r.sequelize.association r.model a = some assoc)
    (hattr : b ∈ r.sequelize.rawAttributes assoc.target)
    (hbefore : setOptionsLoop r q1
        { where_ := none
          include_ := IncField.many (includeInEffect r eqo.loadedInclude action)
          hasFilteredArray := false } = Except.ok st1) :
    ((∃ item ∈ st1.include_.toList, item.standsFor a assoc.target = true) →
      (∃ opts flag, setOptions r (q1 ++ [(a ++ "." ++ b, v)]) eqo action =
          Except.ok (opts, flag) ∧
        HasFilteredNode opts.include_.toList a b (coerce v)) ∧
      ((∀ kv ∈ q2, ∀ p,
          parseAttribute r.options.operatorSeparator kv.1 kv.2 = Except.ok (some p) →
          p.parsedKey ≠ a ++ "." ++ b ∧
            ∀ f, (st1.include_.toList.find? (Inc.isNodeOf a)).bind Inc.as? = some f → f ≠ a →
              (jsSplit "." p.parsedKey).head? ≠ some f) →
        ∀ opts flag,
          setOptions r (q1 ++ (a ++ "." ++ b, v) :: q2) eqo action = Except.ok (opts, flag) →
          HasFilteredNode opts.include_.toList a b (coerce v))) ∧
    ((∀ item ∈ st1.include_.toList, item.standsFor a assoc.target = false) →
      ∃ opts, setOptions r (q1 ++ [(a ++ "." ++ b, v)]) eqo action = Except.ok (opts, false) ∧
        opts.include_.toList = st1.include_.toList) := by
  have hleaf := filterInclude_leaf r.sequelize a b (coerce v) r.model st1.include_ assoc ha hb
    hassoc hattr
  have hstep := setOptionsStep_dotted r st1 a b v hsep
  constructor
  · intro hin
    rw [hleaf] at hstep
    have hfirst := filterInclude_first_node r.sequelize a b (coerce v) r.model st1.include_
      assoc _ ha hb hassoc hattr hin hleaf
    simp only at hstep
    constructor
    · have hloop := setOptionsLoop_append r q1 [(a ++ "." ++ b, v)] _ st1 hbefore
      simp only [setOptionsLoop, hstep] at hloop
      obtain ⟨opts, hopts, hinc⟩ := setOptions_of_loop r _ eqo action _ hloop
      refine ⟨opts, _, hopts, ?_⟩
      rw [hinc]
      exact hasFilteredNode_of_first hfirst
    · intro hlater opts flag hset
      obtain ⟨st3, hloop, hinc⟩ := setOptions_include r _ eqo action opts flag hset
      rw [setOptionsLoop_append r q1 _ _ st1 hbefore] at hloop
      simp only [setOptionsLoop, hstep] at hloop
      rw [hinc]
      exact hasFilteredNode_of_first
        (setOptionsLoop_keeps_first r a b (coerce v) _ q2 _ st3 hlater hloop hfirst)
  · intro hout
    have has : assoc.as = a := association_as hassoc
    have h1 : st1.include_.toList.find? (Inc.isNodeOf a) = none := by
      apply List.find?_eq_none.mpr
      intro x hx
      have := hout x hx
      simp only [Inc.standsFor, Bool.or_eq_false_iff] at this
      simp [this.1]
    have h2 : st1.include_.toList.find? (Inc.mentions a a assoc.target) = none := by
      apply List.find?_eq_none.mpr
      intro x hx
      have := hout x hx
      simp only [Inc.standsFor, Bool.or_eq_false_iff] at this
      simp [this.2]
    rw [hleaf, has, h1, h2] at hstep
    simp only at hstep
    have hloop := setOptionsLoop_append r q1 [(a ++ "." ++ b, v)] _ st1 hbefore
    simp only [setOptionsLoop, hstep] at hloop
    obtain ⟨opts, hopts, hinc⟩ := setOptions_of_loop r _ eqo action _ hloop
    exact ⟨opts, hopts, by rw [hinc]; rfl⟩

/-- C8 as amended, on the example registry: the key `posts.title` between the keys `name`
and `profile.bio`, under the default wildcard include, with the value `'true'` coerced. -/
theorem setOptions_dotted_key_node_witness :
    ∃ opts flag, setOptions exampleUsers
        ([("name", Val.str "a")] ++
          ("posts" ++ "." ++ "title", Val.str "true") :: [("profile.bio", Val.str "y")])
        {} Action.List = Except.ok (opts, flag) ∧
      HasFilteredNode opts.include_.toList "posts" "title" (Val.bool true) :=
  ⟨_, _, rfl,
    ((setOptions_dotted_key_node exampleUsers "posts" "title" (Val.str "true")
      [("name", Val.str "a")] [("profile.bio", Val.str "y")] {} Action.List
      { as := "posts", associationType := AssociationType.HasMany, target := "Post" }
      { where_ := some [(PKey.str "name", Val.str "a")]
        include_ := IncField.many [Inc.obj { all := true }]
        hasFilteredArray := false }
      (by decide) (by decide) (by rfl) (by rfl) (by decide) (by rfl)).1
      ⟨Inc.obj { all := true }, by simp [IncField.toList], by rfl⟩).2
      (by
        intro kv hkv p hp
        simp only [List.mem_singleton] at hkv
        subst hkv
        have hparse : parseAttribute exampleUsers.options.operatorSeparator "profile.bio"
            (Val.str "y") = Except.ok (some (Parsed.mk "profile.bio" (Val.str "y"))) := rfl
        rw [hparse] at hp
        cases hp
        refine ⟨by decide, ?_⟩
        intro f hf
        simp [IncField.toList, List.find?, Inc.isNodeOf, Inc.associationAs?] at hf)
      _ _ rfl⟩

/-! ## The tenant switch and the wait list -/

/-- C20: `changeTenant(t)` keeps the models and their order; a model whose active schema is
`'admin'` keeps it; when `t` is not `'admin'` every other model has the active schema `t`
afterwards; and `changeTenant('admin')` changes nothing. -/
theorem changeTenant_frame (models : Schemas) (t : Option String) :
    (∀ (i : Nat) (name : String) (schema : Option String),
      models[i]? = some (name, schema) →
      ∃ after, (changeTenant t models)[i]? = some (name, after) ∧
        (schema = some "admin" → after = some "admin") ∧
        (t ≠ some "admin" → schema ≠ some "admin" → after = t)) ∧
    (changeTenant t models).length = models.length ∧
    changeTenant (some "admin") models = models := by
  refine ⟨?_, ?_, by simp [changeTenant]⟩
  · intro i name schema hget
    by_cases ht : t = some "admin"
    · subst ht
      exact ⟨schema, by simpa [changeTenant] using hget, id, fun h => absurd rfl h⟩
    · by_cases hs : schema = some "admin"
      · subst hs
        refine ⟨some "admin", ?_, fun _ => rfl, fun _ h => absurd rfl h⟩
        simp [changeTenant, ht, List.getElem?_map, hget]
      · by_cases hst : schema = t
        · subst hst
          refine ⟨schema, ?_, fun h => absurd h hs, fun _ _ => rfl⟩
          simp [changeTenant, ht, List.getElem?_map, hget]
        · refine ⟨t, ?_, fun h => absurd h hs, fun _ _ => rfl⟩
          have h1 : ¬ t = schema := fun h => hst h.symm
          have h2 : ¬ some "admin" = schema := fun h => hs h.symm
          simp only [changeTenant, ht, if_false, List.getElem?_map, hget, Option.map_some']
          have hc : [t, some "admin"].contains schema = false := by
            rw [Bool.eq_false_iff]
            intro hc
            simp only [List.contains_cons, List.contains_nil, Bool.or_false, Bool.or_eq_true,
              beq_iff_eq] at hc
            rcases hc with h | h
            exacts [hst h, hs h]
          rw [hc]
          rfl
  · by_cases ht : t = some "admin" <;> simp [changeTenant, ht]

theorem filter_ne_head {id : String} {rest : List String} (h : (id :: rest).Nodup) :
    ((id :: rest).filter fun x => x != id) = rest := by
  have hid : id ∉ rest := (List.nodup_cons.mp h).1
  have : rest.filter (fun x => x != id) = rest := by
    apply List.filter_eq_self.mpr
    intro x hx
    have : x ≠ id := fun e => hid (e ▸ hx)
    simpa using this
  simp [List.filter, this]

/-- The invariant of the wait list. -/
theorem queue_invariant {s : QueueRun} (h : s.Reachable) :
    s.queries.waitList.Nodup ∧ (∀ x ∈ s.queries.waitList, x ∈ s.acquired) ∧
      s.held = s.queries.waitList.take 1 ∧ s.queries.listeners = s.queries.waitList.drop 1 ∧
      s.activated ++ s.queries.listeners = s.acquired := by
  induction h with
  | init => simp
  | acquire s queryId _ hfresh ih =>
    obtain ⟨hnd, hsub, hheld, hlis, hlog⟩ := ih
    have hnew : queryId ∉ s.queries.waitList := fun hmem => hfresh (hsub _ hmem)
    cases hwl : s.queries.waitList with
    | nil =>
      rw [hwl] at hheld hlis
      simp only [List.take_nil, List.drop_nil] at hheld hlis
      rw [hlis] at hlog
      simp [QueueRun.step, getQueryId, hwl, hheld, hlis, ← hlog]
    | cons front rest =>
      rw [hwl] at hheld hlis hnd hsub hnew
      simp only [List.take_succ_cons, List.take_zero, List.drop_succ_cons, List.drop_zero]
        at hheld hlis
      have hnd2 : (front :: (rest ++ [queryId])).Nodup := by
        have := List.nodup_cons.mp hnd
        simp only [List.mem_cons, not_or] at hnew
        refine List.nodup_cons.mpr ⟨?_, ?_⟩
        · simp only [List.mem_append, List.mem_singleton, not_or]
          exact ⟨this.1, fun e => hnew.1 e.symm⟩
        · exact List.Nodup.append this.2 (List.nodup_singleton _)
            (by
              intro a ha hq
              rw [List.mem_singleton] at hq
              exact hnew.2 (hq ▸ ha))
      refine ⟨?_, ?_, ?_, ?_, ?_⟩
      · simpa [QueueRun.step, getQueryId, hwl] using hnd2
      · intro x hx
        simp only [QueueRun.step, getQueryId, hwl, List.cons_append, List.length_cons,
          List.length_append, List.length_singleton] at hx ⊢
        have hx2 : x ∈ front :: (rest ++ [queryId]) := by
          split at hx <;> simpa using hx
        simp only [List.mem_cons, List.mem_append, List.mem_singleton] at hx2
        rcases hx2 with h1 | h1 | h1
        · exact List.mem_append_left _ (hsub x (by simp [h1]))
        · exact List.mem_append_left _ (hsub x (by simp [h1]))
        · rcases h1 with h1 | h1
          · exact List.mem_append_right _ (by simp [h1])
          · cases h1
      · simp [QueueRun.step, getQueryId, hwl, hheld]
      · simp [QueueRun.step, getQueryId, hwl, hlis]
      · simp [QueueRun.step, getQueryId, hwl, ← hlog]
  | release s queryId _ hheld0 ih =>
    obtain ⟨hnd, hsub, hheld, hlis, hlog⟩ := ih
    cases hwl : s.queries.waitList with
    | nil => simp [hheld, hwl] at hheld0
    | cons front rest =>
      rw [hwl] at hheld hlis hnd hsub
      simp only [List.take_succ_cons, List.take_zero, List.drop_succ_cons, List.drop_zero]
        at hheld hlis
      have hq : queryId = front := by simpa [hheld] using hheld0
      subst hq
      have hfil := filter_ne_head hnd
      have hndr : rest.Nodup := (List.nodup_cons.mp hnd).2
      cases hrest : rest with
      | nil =>
        subst hrest
        simp [QueueRun.step, callNextQuery, hwl, hfil, hheld, hlis, hlog]
        simpa [hlis] using hlog
      | cons next more =>
        subst hrest
        have hfil2 := filter_ne_head hndr
        refine ⟨?_, ?_, ?_, ?_, ?_⟩
        · simpa [QueueRun.step, callNextQuery, hwl, hfil, hlis] using hndr
        · intro x hx
          have hx2 : x ∈ next :: more := by
            simpa [QueueRun.step, callNextQuery, hwl, hfil, hlis] using hx
          simpa [QueueRun.step] using hsub x (List.mem_cons_of_mem _ hx2)
        · simp [QueueRun.step, callNextQuery, hwl, hfil, hlis, hheld]
        · simp [QueueRun.step, callNextQuery, hwl, hfil, hlis, hfil2]
        · simp only [QueueRun.step, callNextQuery, hwl, hfil, hlis, List.contains_cons,
            beq_self_eq_true, Bool.true_or, if_true, hfil2, Option.toList, List.append_assoc,
            List.singleton_append, ← hlog]

theorem exampleRun_reachable : exampleRun.Reachable :=
  QueueRun.Reachable.release _ "T1"
    (QueueRun.Reachable.acquire _ "T3"
      (QueueRun.Reachable.acquire _ "T2"
        (QueueRun.Reachable.acquire _ "T1" QueueRun.Reachable.init (by decide)) (by decide))
      (by decide))
    (by decide)

/-- C17: in every reachable state of the wait list the tickets activated and not released
are the front of the list, at most one; the tickets activated so far, followed by the
waiting ones, are the tickets acquired so far, in their order; a fresh ticket is appended
and activated at once exactly when the list was empty; and the release of the held ticket
removes it from the list and signals the new front, and nothing when the list is empty. -/
theorem waitList_fifo (s : QueueRun) (h : s.Reachable) :
    s.held = s.queries.waitList.take 1 ∧
    s.activated ++ s.queries.waitList.drop 1 = s.acquired ∧
    (∀ queryId, queryId ∉ s.acquired →
      (getQueryId queryId s.queries).1.waitList = s.queries.waitList ++ [queryId] ∧
      (getQueryId queryId s.queries).2 = s.queries.waitList.isEmpty) ∧
    (∀ queryId, queryId ∈ s.held →
      s.queries.waitList.head? = some queryId ∧
      (callNextQuery queryId s.queries).1.waitList = s.queries.waitList.drop 1 ∧
      (callNextQuery queryId s.queries).2 = s.queries.waitList.get? 1) := by
  obtain ⟨hnd, _, hheld, hlis, hlog⟩ := queue_invariant h
  refine ⟨hheld, hlis ▸ hlog, ?_, ?_⟩
  · intro queryId _
    cases hwl : s.queries.waitList <;> simp [getQueryId, hwl]
  · intro queryId hq
    cases hwl : s.queries.waitList with
    | nil => simp [hheld, hwl] at hq
    | cons front rest =>
      rw [hwl] at hheld hlis hnd
      have hqf : queryId = front := by simpa [hheld] using hq
      subst hqf
      have hfil := filter_ne_head hnd
      cases hrest : rest with
      | nil =>
        subst hrest
        simp [callNextQuery, hwl, hfil]
      | cons next more =>
        subst hrest
        simp only [List.drop_succ_cons, List.drop_zero] at hlis
        simp [callNextQuery, hwl, hfil, hlis]

theorem waitList_fifo_witness :
    exampleRun.Reachable ∧ exampleRun.held = exampleRun.queries.waitList.take 1 ∧
      exampleRun.activated ++ exampleRun.queries.waitList.drop 1 = exampleRun.acquired ∧
      exampleRun.activated = ["T1", "T2"] ∧ exampleRun.queries.waitList = ["T2", "T3"] :=
  ⟨exampleRun_reachable, (waitList_fifo exampleRun exampleRun_reachable).1,
    (waitList_fifo exampleRun exampleRun_reachable).2.1, by decide, by decide⟩

/-! ## Dotted paths of an include -/

/-- C13: on the path `teams.all.address`, where a team has the two associations `members`
and `lead` and `address` is an association of the persons they reach, the method throws:
the array that replaces `all` is joined into the path of the recursive call. -/
theorem parseDotNotedAssociation_all_mid_path_throws :
    parseDotNotedAssociation exampleOrg 3 "teams.all.address" "Org" =
      some (Except.error "Association [object Object],lead does not exist in model Team") := by
  rfl

theorem contains_associationKeys (db : Sequelize) (m s : String) :
    (db.associationKeys m).contains s = (db.association m s).isSome := by
  unfold Sequelize.associationKeys Sequelize.association
  induction db.associations m with
  | nil => rfl
  | cons a l ih =>
    by_cases h : a.as = s
    · simp [List.find?, h]
    · have h2 : ¬ s = a.as := fun e => h e.symm
      have h3 : (a.as == s) = false := by simpa using h
      simp only [List.map_cons, List.contains_cons, List.find?, h3]
      rw [ih]
      simp [h2]

theorem jsIncludes_jsJoin_dot (a b : String) (rest : List String) :
    jsIncludes (jsJoin "." (a :: b :: rest)) "." = true := by
  have h1 : ("." : String).data = ['.'] := rfl
  simp only [jsIncludes, jsJoin, h1, List.map_cons]
  exact includesGo_intercalate '.' _ _ _

/-- One call of `parseDotNotedAssociation` on a path of at least three segments whose first
two resolve and whose second is not the wildcard. -/
theorem parseDotNotedAssociation_step (db : Sequelize) (model s1 s2 s3 : String)
    (rest : List String) (fuel : Nat) (a b : Association)
    (hfree : ∀ s ∈ s1 :: s2 :: s3 :: rest, '.' ∉ s.data) (hall : s2 ≠ "all")
    (ha : db.association model s1 = some a) (hb : db.association a.target s2 = some b) :
    parseDotNotedAssociation db (fuel + 1) (jsJoin "." (s1 :: s2 :: s3 :: rest)) model =
      match parseDotNotedAssociation db fuel (jsJoin "." (s2 :: s3 :: rest)) a.target with
      | none => none
      | some (Except.error e) => some (Except.error e)
      | some (Except.ok nested) =>
        some (Except.ok (some (Inc.obj {
          association := some (AssociationProp.node a)
          separate := if a.associationType = AssociationType.HasMany then some true else none
          include_ := nested.map IncField.one }))) := by
  have hk : (db.associationKeys a.target).contains s2 = true := by
    rw [contains_associationKeys, hb]; rfl
  have hne : (s2 == "all") = false := by simpa using hall
  have hne2 : (s2 != "all") = true := by simpa using hall
  rw [parseDotNotedAssociation]
  simp only [jsIncludes_jsJoin_dot, Bool.not_true, Bool.false_eq_true, if_false,
    jsSplit_jsJoin_dot _ (List.cons_ne_nil _ _) hfree, associationProperty_own ha, hk, hne, hne2,
    Bool.and_false, IncField.toJsString, Inc.toJsString]

/-- The call of `parseDotNotedAssociation` on a path of two segments that resolve. -/
theorem parseDotNotedAssociation_leaf (db : Sequelize) (model s1 s2 : String) (fuel : Nat)
    (a b : Association) (hfree : ∀ s ∈ [s1, s2], '.' ∉ s.data) (hall : s2 ≠ "all")
    (ha : db.association model s1 = some a) (hb : db.association a.target s2 = some b) :
    parseDotNotedAssociation db (fuel + 1) (jsJoin "." [s1, s2]) model =
      some (Except.ok (some (Inc.obj {
        association := some (AssociationProp.node a)
        separate := if a.associationType = AssociationType.HasMany then some true else none
        include_ := some (IncField.one
          (if b.associationType = AssociationType.HasMany then separateNode b
           else Inc.str b.as)) }))) := by
  have hk : (db.associationKeys a.target).contains s2 = true := by
    rw [contains_associationKeys, hb]; rfl
  have hne : (s2 == "all") = false := by simpa using hall
  have hne2 : (s2 != "all") = true := by simpa using hall
  have hbs : b.as = s2 := association_as hb
  rw [parseDotNotedAssociation]
  simp only [jsIncludes_jsJoin_dot, Bool.not_true, Bool.false_eq_true, if_false,
    jsSplit_jsJoin_dot _ (List.cons_ne_nil _ _) hfree, associationProperty_own ha, hk, hne, hne2,
    Bool.and_false, IncField.toJsString, Inc.toJsString, hb, hbs]
  by_cases h : b.associationType = AssociationType.HasMany <;> simp [h]

/-- The read `model.associations[field]` for a name that is no declared association: the
property inherited from `Object.prototype`, or `undefined`. -/
theorem associationProperty_none {db : Sequelize} {model field : String}
    (h : db.association model field = none) :
    db.associationProperty model field =
      if objectPrototypeKeys.contains field then Property.inherited else Property.undefined := by
  unfold Sequelize.associationProperty associationIn
  unfold Sequelize.association at h
  rw [h]

/-- The call of `parseDotNotedAssociation` on a path whose first segment names no
association of the model: the error of the method, or the TypeError of the read
`childModel.associations` when `model.associations` inherits the segment. -/
theorem parseDotNotedAssociation_first (db : Sequelize) (model s1 s2 : String)
    (rest : List String) (fuel : Nat) (hfree : ∀ s ∈ s1 :: s2 :: rest, '.' ∉ s.data)
    (ha : db.association model s1 = none) :
    parseDotNotedAssociation db (fuel + 1) (jsJoin "." (s1 :: s2 :: rest)) model =
      some (Except.error
        (match db.associationProperty model s1 with
         | Property.inherited =>
           "TypeError: Cannot read properties of undefined (reading 'associations')"
         | _ => "Association " ++ s1 ++ " does not exist in model " ++ model)) := by
  rw [parseDotNotedAssociation]
  simp only [jsIncludes_jsJoin_dot, Bool.not_true, Bool.false_eq_true, if_false,
    jsSplit_jsJoin_dot _ (List.cons_ne_nil _ _) hfree, associationProperty_none ha]
  cases hc : objectPrototypeKeys.contains s1 <;>
    simp only [hc, Bool.false_eq_true, if_false, if_true]

/-- The call of `parseDotNotedAssociation` on a path whose second segment is not the
wildcard and names no association of the model that the first segment reaches. -/
theorem parseDotNotedAssociation_second (db : Sequelize) (model s1 s2 : String)
    (rest : List String) (fuel : Nat) (a : Association)
    (hfree : ∀ s ∈ s1 :: s2 :: rest, '.' ∉ s.data) (hall : s2 ≠ "all")
    (ha : db.association model s1 = some a) (hb : db.association a.target s2 = none) :
    parseDotNotedAssociation db (fuel + 1) (jsJoin "." (s1 :: s2 :: rest)) model =
      some (Except.error ("Association " ++ s2 ++ " does not exist in model " ++ a.target)) := by
  have hk : (db.associationKeys a.target).contains s2 = false := by
    rw [contains_associationKeys, hb]; rfl
  have hne2 : (s2 != "all") = true := by simpa using hall
  rw [parseDotNotedAssociation]
  simp only [jsIncludes_jsJoin_dot, Bool.not_true, Bool.false_eq_true, if_false,
    jsSplit_jsJoin_dot _ (List.cons_ne_nil _ _) hfree, associationProperty_own ha, hk, hne2,
    Bool.not_false, Bool.and_self, if_true]

/-- C12: for a path of n >= 2 dot-free segments, none of which after the first is `all`,
and enough fuel, `parseDotNotedAssociation` returns: it throws when some segment is no
association of the model reached by the segments before it, and the error names the first
such segment and that model, or is the TypeError of the read `childModel.associations`
when that segment is the first of the path and `model.associations` inherits it from
`Object.prototype`; and when every segment resolves its result is a chain of n nested
entries, the entry at depth i for the association that segment i names, with
`separate: true` exactly on the entries of a `HasMany`. -/
theorem parseDotNotedAssociation_chain (db : Sequelize) :
    ∀ (rest : List String) (model s1 s2 : String) (fuel : Nat),
      (∀ s ∈ s1 :: s2 :: rest, '.' ∉ s.data) → (∀ s ∈ s2 :: rest, s ≠ "all") →
      rest.length < fuel →
      match resolvePath db model (s1 :: s2 :: rest) with
      | Except.error (s, m) =>
        parseDotNotedAssociation db fuel (jsJoin "." (s1 :: s2 :: rest)) model =
          some (Except.error
            (match db.associationProperty model s1 with
             | Property.inherited =>
               "TypeError: Cannot read properties of undefined (reading 'associations')"
             | _ => "Association " ++ s ++ " does not exist in model " ++ m))
      | Except.ok chain =>
        ∃ x, parseDotNotedAssociation db fuel (jsJoin "." (s1 :: s2 :: rest)) model =
            some (Except.ok (some x)) ∧
          IsChain chain x ∧ chain.length = rest.length + 2 := by
  intro rest
  induction rest with
  | nil =>
    intro model s1 s2 fuel hfree hall hfuel
    obtain ⟨fuel, rfl⟩ : ∃ k, fuel = k + 1 := ⟨fuel - 1, by simp at hfuel; omega⟩
    have h2 : s2 ≠ "all" := hall s2 (List.mem_cons_self _ _)
    cases ha : db.association model s1 with
    | none =>
      simp only [resolvePath, ha]
      exact parseDotNotedAssociation_first db model s1 s2 [] fuel hfree ha
    | some a =>
      cases hb : db.association a.target s2 with
      | none =>
        simp only [resolvePath, ha, hb, associationProperty_own ha]
        exact parseDotNotedAssociation_second db model s1 s2 [] fuel a hfree h2 ha hb
      | some b =>
        simp only [resolvePath, ha, hb]
        refine ⟨_, parseDotNotedAssociation_leaf db model s1 s2 fuel a b hfree h2 ha hb, ?_, rfl⟩
        refine ⟨_, ?_, rfl⟩
        by_cases h : b.associationType = AssociationType.HasMany
        · exact Or.inr ⟨h, by simp [h]⟩
        · exact Or.inl ⟨h, by simp [h]⟩
  | cons s3 rest ih =>
    intro model s1 s2 fuel hfree hall hfuel
    obtain ⟨fuel, rfl⟩ : ∃ k, fuel = k + 1 := ⟨fuel - 1, by simp at hfuel; omega⟩
    have h2 : s2 ≠ "all" := hall s2 (List.mem_cons_self _ _)
    have hfree2 : ∀ s ∈ s2 :: s3 :: rest, '.' ∉ s.data :=
      fun s hs => hfree s (List.mem_cons_of_mem _ hs)
    have hall2 : ∀ s ∈ s3 :: rest, s ≠ "all" := fun s hs => hall s (List.mem_cons_of_mem _ hs)
    cases ha : db.association model s1 with
    | none =>
      simp only [resolvePath, ha]
      exact parseDotNotedAssociation_first db model s1 s2 _ fuel hfree ha
    | some a =>
      cases hb : db.association a.target s2 with
      | none =>
        simp only [resolvePath, ha, hb, associationProperty_own ha]
        exact parseDotNotedAssociation_second db model s1 s2 _ fuel a hfree h2 ha hb
      | some b =>
        have hrec := ih a.target s2 s3 fuel hfree2 hall2 (by simp at hfuel; omega)
        rw [parseDotNotedAssociation_step db model s1 s2 s3 rest fuel a b hfree h2 ha hb]
        have hres : resolvePath db model (s1 :: s2 :: s3 :: rest) =
            match resolvePath db a.target (s2 :: s3 :: rest) with
            | Except.ok chain => Except.ok (a :: chain)
            | Except.error e => Except.error e := by
          rw [resolvePath]
          simp only [ha]
        rw [hres]
        cases hr : resolvePath db a.target (s2 :: s3 :: rest) with
        | error e =>
          rw [hr] at hrec
          obtain ⟨s, m⟩ := e
          simp only [associationProperty_own hb, associationProperty_own ha] at hrec ⊢
          rw [hrec]
        | ok chain =>
          rw [hr] at hrec
          simp only at hrec ⊢
          obtain ⟨y, hy, hchain, hlen⟩ := hrec
          rw [hy]
          refine ⟨_, rfl, ?_, by simp [hlen]⟩
          cases chain with
          | nil => simp at hlen
          | cons c chain => exact ⟨y, hchain, rfl⟩

theorem parseDotNotedAssociation_chain_witness :
    ∃ x, parseDotNotedAssociation exampleDb 2 (jsJoin "." ["posts", "comments"]) "User" =
        some (Except.ok (some x)) ∧
      IsChain [examplePosts, exampleComments] x ∧ [examplePosts, exampleComments].length = 2 :=
  parseDotNotedAssociation_chain exampleDb [] "User" "posts" "comments" 2 (by decide) (by decide)
    (by decide)

/-- A path whose first segment `model.associations` inherits from `Object.prototype`: the
call throws the TypeError of the read `childModel.associations`, not the error of the
method. -/
theorem parseDotNotedAssociation_inherited_segment :
    parseDotNotedAssociation exampleDb 2 "constructor.posts" "User" =
      some (Except.error
        "TypeError: Cannot read properties of undefined (reading 'associations')") ∧
    parseDotNotedAssociation exampleDb 2 "posts.constructor" "User" =
      some (Except.error "Association constructor does not exist in model Post") :=
  ⟨rfl, rfl⟩

/-! ## Aggregation of include entries -/

theorem associationName_defined (db : Sequelize) (model : String) (entry : Inc) :
    associationName db (some model) entry = Except.ok (nameOf db model entry) := by
  unfold nameOf
  cases h : associationName db (some model) entry with
  | ok n => rfl
  | error e =>
    exfalso
    cases entry <;>
      simp only [associationName, Sequelize.aliasOf, Sequelize.keyOfTarget,
        Sequelize.associationsOf, Except.map, Inc.modelName?, Inc.name?] at h <;>
      (repeat' split at h) <;>
      ((try simp_all); all_goals (rename_i hq; (repeat' split at hq); all_goals simp_all))

theorem isCurrentAssociation_defined (db : Sequelize) (model : String) (name : Option String)
    (item : Inc) :
    isCurrentAssociation db (some model) name item = Except.ok (isCurrent db model name item) := by
  unfold isCurrent
  cases h : isCurrentAssociation db (some model) name item with
  | ok b => cases b <;> rfl
  | error e =>
    exfalso
    cases item <;>
      simp only [isCurrentAssociation, Sequelize.aliasOf, Sequelize.keyOfTarget,
        Sequelize.associationsOf, Except.map, Inc.modelName?, Inc.name?] at h <;>
      (repeat' split at h) <;>
      ((try simp_all); all_goals (rename_i hq; (repeat' split at hq); all_goals simp_all))

theorem someE_ok {α : Type} (f : α → Except String Bool) (g : α → Bool)
    (h : ∀ x, f x = Except.ok (g x)) : ∀ l : List α, someE f l = Except.ok (l.any g)
  | [] => rfl
  | x :: xs => by
    cases hg : g x <;> simp [someE, h x, hg, someE_ok f g h xs]

theorem filterE_ok {α : Type} (f : α → Except String Bool) (g : α → Bool)
    (h : ∀ x, f x = Except.ok (g x)) : ∀ l : List α, filterE f l = Except.ok (l.filter g)
  | [] => rfl
  | x :: xs => by
    cases hg : g x <;> simp [filterE, h x, hg, filterE_ok f g h xs]

theorem nameOf_setInclude (db : Sequelize) (model : String) (v : Option (IncField Inc))
    (x : Inc) : nameOf db model (x.setInclude v) = nameOf db model x := by
  cases x <;> rfl

theorem isCurrent_setInclude (db : Sequelize) (model : String) (n : Option String)
    (v : Option (IncField Inc)) (x : Inc) :
    isCurrent db model n (x.setInclude v) = isCurrent db model n x := by
  cases x <;> rfl

theorem modifyFirst_eq_self {α : Type} (p : α → Bool) (f : α → α) :
    ∀ l : List α, (∀ x ∈ l, p x = false) → modifyFirst p f l = l
  | [], _ => rfl
  | x :: xs, h => by
    have hx : p x = false := h x (List.mem_cons_self _ _)
    simp [modifyFirst, hx,
      modifyFirst_eq_self p f xs fun y hy => h y (List.mem_cons_of_mem _ hy)]

theorem mem_modifyFirst_of_not {α : Type} (p : α → Bool) (f : α → α) (a : α)
    (ha : p a = false) : ∀ l : List α, a ∈ l → a ∈ modifyFirst p f l
  | [], h => by simp at h
  | x :: xs, h => by
    cases hp : p x
    · simp only [modifyFirst, hp, Bool.false_eq_true, if_false, List.mem_cons]
      rcases List.mem_cons.mp h with h | h
      · exact Or.inl h
      · exact Or.inr (mem_modifyFirst_of_not p f a ha xs h)
    · simp only [modifyFirst, hp, if_true, List.mem_cons]
      rcases List.mem_cons.mp h with h | h
      · rw [h, hp] at ha
        cases ha
      · exact Or.inr h

theorem forall₂_get? {α β : Type} {R : α → β → Prop} :
    ∀ (l : List α) (xs : List β), List.Forall₂ R l xs → ∀ (i : Nat) (b : β),
      xs.get? i = some b → ∃ a, l.get? i = some a ∧ R a b
  | _, _, List.Forall₂.nil, i, b, h => by simp at h
  | a :: l, b0 :: xs, List.Forall₂.cons hab hrest, i, b, h => by
    cases i with
    | zero =>
      simp only [List.get?_cons_zero, Option.some.injEq] at h
      subst h
      exact ⟨a, rfl, hab⟩
    | succ i =>
      simp only [List.get?_cons_succ] at h
      simpa using forall₂_get? l xs hrest i b h

theorem forall₂_mem_left {α β : Type} {R : α → β → Prop} :
    ∀ (l : List α) (xs : List β), List.Forall₂ R l xs → ∀ a ∈ l, ∃ b ∈ xs, R a b
  | _, _, List.Forall₂.nil, a, h => by simp at h
  | a0 :: l, b0 :: xs, List.Forall₂.cons hab hrest, a, h => by
    rcases List.mem_cons.mp h with h | h
    · subst h
      exact ⟨b0, List.mem_cons_self _ _, hab⟩
    · obtain ⟨b, hb, hr⟩ := forall₂_mem_left l xs hrest a h
      exact ⟨b, List.mem_cons_of_mem _ hb, hr⟩

theorem forall₂_filter_eq {α : Type} {R : α → α → Prop} (p : α → Bool)
    (hp : ∀ a b, R a b → p a = p b) (heq : ∀ a b, R a b → p a = true → a = b) :
    ∀ (l xs : List α), List.Forall₂ R l xs → l.filter p = xs.filter p
  | _, _, List.Forall₂.nil => rfl
  | a :: l, b :: xs, List.Forall₂.cons hab hrest => by
    have ih := forall₂_filter_eq p hp heq l xs hrest
    cases hpa : p a
    · have hpb : p b = false := by rw [← hp a b hab, hpa]
      simp [List.filter, hpa, hpb, ih]
    · have hpb : p b = true := by rw [← hp a b hab, hpa]
      have := heq a b hab hpa
      subst this
      simp [List.filter, hpa, ih]

theorem find?_of_filter_cons {α : Type} (p : α → Bool) :
    ∀ (l : List α) (x : α) (rest : List α), l.filter p = x :: rest → l.find? p = some x
  | [], x, rest, h => by simp at h
  | y :: ys, x, rest, h => by
    cases hp : p y
    · simp only [List.filter, hp] at h
      simp [List.find?, hp, find?_of_filter_cons p ys x rest h]
    · simp only [List.filter, hp, List.cons.injEq] at h
      obtain ⟨h1, _⟩ := h
      subst h1
      simp [List.find?, hp]

/-- One iteration of the loop of `aggregateIncludeEntries` under a model that is defined. -/
theorem aggregateLoop_step (db : Sequelize) (m : String)
    (aggregate : IncField Inc → Option String → Option (Except String (IncField Inc)))
    (i : Nat) (inc acc : List Inc) (entry : Inc) (todoIdx : List Nat)
    (h : inc.get? i = some entry) :
    aggregateLoop db (some m) aggregate (i :: todoIdx) inc acc =
      if acc.any (isCurrent db m (nameOf db m entry)) then
        aggregateLoop db (some m) aggregate todoIdx inc acc
      else
        match inc.filter (isCurrent db m (nameOf db m entry)) with
        | first0 :: second :: more =>
          match aggregatedEntry db (some m) aggregate first0 (second :: more) with
          | none => none
          | some (Except.error e) => some (Except.error e)
          | some (Except.ok a) =>
            aggregateLoop db (some m) aggregate todoIdx
              (modifyFirst (fun item => isCurrent db m (nameOf db m entry) item && item.hasInclude)
                (fun _ => a) inc)
              (acc ++ [a])
        | dis => aggregateLoop db (some m) aggregate todoIdx inc (acc ++ dis) := by
  rw [aggregateLoop]
  simp only [h, associationName_defined,
    someE_ok _ _ (isCurrentAssociation_defined db m (nameOf db m entry)),
    filterE_ok _ _ (isCurrentAssociation_defined db m (nameOf db m entry))]
  cases hany : acc.any (isCurrent db m (nameOf db m entry))
  · simp only [Bool.false_eq_true, if_false]
    generalize inc.filter (isCurrent db m (nameOf db m entry)) = dis
    rcases dis with _ | ⟨a, _ | ⟨b, rest⟩⟩ <;> rfl
  · simp

theorem forall₂_modifyFirst_find {α β : Type} {R S : α → β → Prop} (p : α → Bool) (f : α → α)
    (hmono : ∀ a b, R a b → S a b) :
    ∀ (l : List α) (xs : List β), List.Forall₂ R l xs →
      (∀ a b, R a b → l.find? p = some a → S (f a) b) →
      List.Forall₂ S (modifyFirst p f l) xs
  | _, _, List.Forall₂.nil, _ => List.Forall₂.nil
  | a :: l, b :: xs, List.Forall₂.cons hab hrest, hf => by
    cases hp : p a
    · simp only [modifyFirst, hp, Bool.false_eq_true, if_false]
      refine List.Forall₂.cons (hmono a b hab)
        (forall₂_modifyFirst_find p f hmono l xs hrest fun a2 b2 h2 hfind => hf a2 b2 h2 ?_)
      simpa [List.find?, hp] using hfind
    · simp only [modifyFirst, hp, if_true]
      exact List.Forall₂.cons (hf a b hab (by simp [List.find?, hp])) (hrest.imp hmono)

theorem forall₂_get?_left {α β : Type} {R : α → β → Prop} :
    ∀ (l : List α) (xs : List β), List.Forall₂ R l xs → ∀ (i : Nat) (a : α),
      l.get? i = some a → ∃ b, xs.get? i = some b ∧ R a b
  | _, _, List.Forall₂.nil, i, b, h => by simp at h
  | a0 :: l, b0 :: xs, List.Forall₂.cons hab hrest, i, a, h => by
    cases i with
    | zero =>
      simp only [List.get?_cons_zero, Option.some.injEq] at h
      subst h
      exact ⟨b0, rfl, hab⟩
    | succ i =>
      simp only [List.get?_cons_succ] at h
      simpa using forall₂_get?_left l xs hrest i a h

theorem forall₂_with_mem {α β : Type} {R : α → β → Prop} :
    ∀ (l : List α) (xs : List β), List.Forall₂ R l xs →
      List.Forall₂ (fun a b => a ∈ l ∧ b ∈ xs ∧ R a b) l xs
  | _, _, List.Forall₂.nil => List.Forall₂.nil
  | _ :: l, _ :: xs, List.Forall₂.cons hab hrest =>
    List.Forall₂.cons ⟨List.mem_cons_self _ _, List.mem_cons_self _ _, hab⟩
      ((forall₂_with_mem l xs hrest).imp fun _ _ h =>
        ⟨List.mem_cons_of_mem _ h.1, List.mem_cons_of_mem _ h.2.1, h.2.2⟩)

theorem unambiguous_of_sameEntry {db : Sequelize} {m : String} {acc inc xs : List Inc}
    (hU : Unambiguous db m xs) (hrel : List.Forall₂ (SameEntry db m acc) inc xs) :
    Unambiguous db m inc := by
  intro x hx y hy
  obtain ⟨bx, hbx, hx1, _, _⟩ := forall₂_mem_left inc xs hrel x hx
  obtain ⟨b, hb, hy1, hy2, _⟩ := forall₂_mem_left inc xs hrel y hy
  rw [hx1, hy1, hy2]
  exact hU bx hbx b hb

/-- What `aggregatedEntry` returns, when it returns an entry. -/
theorem aggregatedEntry_cases {db : Sequelize} {model : Option String}
    {aggregate : IncField Inc → Option String → Option (Except String (IncField Inc))}
    {first0 a : Inc} {more : List Inc}
    (h : aggregatedEntry db model aggregate first0 more = some (Except.ok a)) :
    ((first0 :: more).filter Inc.hasInclude = [] ∧ a = first0) ∨
    ∃ first others v, (first0 :: more).filter Inc.hasInclude = first :: others ∧
      a = first.setInclude v := by
  unfold aggregatedEntry at h
  cases hf : (first0 :: more).filter Inc.hasInclude with
  | nil =>
    rw [hf] at h
    simp only [Option.some.injEq, Except.ok.injEq] at h
    exact Or.inl ⟨rfl, h.symm⟩
  | cons first others =>
    rw [hf] at h
    refine Or.inr ⟨first, others, ?_⟩
    simp only at h
    repeat' split at h
    all_goals first
      | (simp only [Option.some.injEq, Except.ok.injEq] at h
         exact ⟨_, rfl, h.symm⟩)
      | cases h

theorem aggInv_mono {db : Sequelize} {m : String} {acc : List Inc} (extra : List Inc) :
    ∀ a b, SameEntry db m acc a b → SameEntry db m (acc ++ extra) a b := by
  intro a b h
  refine ⟨h.1, h.2.1, h.2.2.imp id fun hmem => ?_⟩
  rw [List.map_append]
  exact List.mem_append_left _ hmem

/-- The loop of `aggregateIncludeEntries` keeps its invariant. -/
theorem aggregateLoop_inv (db : Sequelize) (m : String)
    (aggregate : IncField Inc → Option String → Option (Except String (IncField Inc)))
    (xs : List Inc) (hU : Unambiguous db m xs) :
    ∀ (todo : List Nat) (inc acc out : List Inc), AggInv db m aggregate xs todo inc acc →
      aggregateLoop db (some m) aggregate todo inc acc = some (Except.ok out) →
      ∃ inc2, AggInv db m aggregate xs [] inc2 out
  | [], inc, acc, out, hinv, h => by
    simp only [aggregateLoop, Option.some.injEq, Except.ok.injEq] at h
    subst h
    exact ⟨inc, hinv⟩
  | i :: todo, inc, acc, out, hinv, h => by
    obtain ⟨hrel, hsub, hnd, hdone, hmerged⟩ := hinv
    cases hget : inc.get? i with
    | none =>
      rw [aggregateLoop] at h
      simp only [hget] at h
      refine aggregateLoop_inv db m aggregate xs hU todo inc acc out
        ⟨hrel, hsub, hnd, ?_, hmerged⟩ h
      intro j x hj hx
      by_cases hji : j = i
      · subst hji
        obtain ⟨a, ha, _⟩ := forall₂_get? inc xs hrel j x hx
        rw [hget] at ha
        cases ha
      · exact hdone j x (by simp [hji, hj]) hx
    | some entry =>
      rw [aggregateLoop_step db m aggregate i inc acc entry todo hget] at h
      have hUinc : Unambiguous db m inc := unambiguous_of_sameEntry hU hrel
      have hentry : entry ∈ inc := List.get?_mem hget
      obtain ⟨b, hb, hbrel⟩ := forall₂_get?_left inc xs hrel i entry hget
      have hbmem : b ∈ xs := List.get?_mem hb
      -- the entries of the input at the index `i` have the name of `entry`
      have hati : ∀ x, xs.get? i = some x → nameOf db m x = nameOf db m entry := by
        intro x hx
        rw [hb] at hx
        cases hx
        exact hbrel.1.symm
      have hname : ∀ y ∈ inc, isCurrent db m (nameOf db m entry) y = true →
          nameOf db m y = nameOf db m entry := by
        intro y hy hcur
        have := hUinc entry hentry y hy
        rw [hcur] at this
        simpa using this.symm
      by_cases hany : acc.any (isCurrent db m (nameOf db m entry)) = true
      · rw [if_pos hany] at h
        obtain ⟨a, ha, hcur⟩ := List.any_eq_true.mp hany
        have han : nameOf db m a = nameOf db m entry := hname a (hsub a ha) hcur
        refine aggregateLoop_inv db m aggregate xs hU todo inc acc out
          ⟨hrel, hsub, hnd, ?_, hmerged⟩ h
        intro j x hj hx
        by_cases hji : j = i
        · subst hji
          rw [hati x hx, ← han]
          exact List.mem_map_of_mem _ ha
        · exact hdone j x (by simp [hji, hj]) hx
      · rw [if_neg hany] at h
        have hfresh : nameOf db m entry ∉ acc.map (nameOf db m) := by
          intro hmem
          obtain ⟨a, ha, han⟩ := List.mem_map.mp hmem
          apply hany
          refine List.any_eq_true.mpr ⟨a, ha, ?_⟩
          rw [hUinc entry hentry a (hsub a ha), han]
          simp
        -- the entries of the association are those of the input
        have hdis : inc.filter (isCurrent db m (nameOf db m entry)) =
            xs.filter fun y => decide (nameOf db m y = nameOf db m entry) := by
          have h1 : inc.filter (isCurrent db m (nameOf db m entry)) =
              xs.filter (isCurrent db m (nameOf db m entry)) := by
            refine forall₂_filter_eq _ ?_ ?_ inc xs (forall₂_with_mem inc xs hrel)
            · intro a b hab
              exact hab.2.2.2.1 _
            · intro a b hab hcur
              rcases hab.2.2.2.2 with heq | hmem
              · exact heq
              · rw [hname a hab.1 hcur] at hmem
                exact absurd hmem hfresh
          rw [h1]
          apply List.filter_congr
          intro y hy
          rw [hbrel.1]
          exact hU b hbmem y hy
        have hself : entry ∈ inc.filter (isCurrent db m (nameOf db m entry)) := by
          refine List.mem_filter.mpr ⟨hentry, ?_⟩
          rw [hUinc entry hentry entry hentry]
          simp
        have hnd2 : ∀ a, nameOf db m a = nameOf db m entry →
            ((acc ++ [a]).map (nameOf db m)).Nodup := by
          intro a han
          rw [List.map_append, List.map_singleton, han]
          refine List.Nodup.append hnd (List.nodup_singleton _) ?_
          intro z hz1 hz2
          rw [List.mem_singleton] at hz2
          exact hfresh (hz2 ▸ hz1)
        have hdone2 : ∀ a, nameOf db m a = nameOf db m entry → ∀ j x, j ∉ todo →
            xs.get? j = some x → nameOf db m x ∈ (acc ++ [a]).map (nameOf db m) := by
          intro a han j x hj hx
          rw [List.map_append]
          by_cases hji : j = i
          · subst hji
            rw [hati x hx, ← han]
            exact List.mem_append_right _ (by simp)
          · exact List.mem_append_left _ (hdone j x (by simp [hji, hj]) hx)
        have hmerged2 : ∀ a, nameOf db m a = nameOf db m entry →
            Merged db m aggregate a (inc.filter (isCurrent db m (nameOf db m entry))) →
            ∀ a2 ∈ acc ++ [a], Merged db m aggregate a2
              (xs.filter fun y => decide (nameOf db m y = nameOf db m a2)) := by
          intro a han hm a2 ha2
          rcases List.mem_append.mp ha2 with h2 | h2
          · exact hmerged a2 h2
          · rw [List.mem_singleton] at h2
            subst h2
            rw [han, ← hdis]
            exact hm
        rcases hfil : inc.filter (isCurrent db m (nameOf db m entry)) with
          _ | ⟨d0, _ | ⟨d1, more⟩⟩
        · rw [hfil] at hself
          cases hself
        · rw [hfil] at h hself
          have hd0 : d0 ∈ inc := (List.mem_filter.mp (hfil ▸ List.mem_cons_self d0 [])).1
          have hd0n : nameOf db m d0 = nameOf db m entry :=
            hname d0 hd0 (List.mem_filter.mp (hfil ▸ List.mem_cons_self d0 [])).2
          refine aggregateLoop_inv db m aggregate xs hU todo inc (acc ++ [d0]) out
            ⟨hrel.imp (aggInv_mono [d0]), ?_, hnd2 d0 hd0n, hdone2 d0 hd0n, ?_⟩ h
          · intro a ha
            rcases List.mem_append.mp ha with h2 | h2
            · exact hsub a h2
            · rw [List.mem_singleton] at h2
              exact h2 ▸ hd0
          · exact hmerged2 d0 hd0n (by rw [hfil]; rfl)
        · rw [hfil] at h
          simp only at h
          cases hagg : aggregatedEntry db (some m) aggregate d0 (d1 :: more) with
          | none => rw [hagg] at h; cases h
          | some r =>
            cases r with
            | error e => rw [hagg] at h; cases h
            | ok a =>
              rw [hagg] at h
              simp only at h
              have hmemdis : ∀ y ∈ d0 :: d1 :: more,
                  y ∈ inc ∧ nameOf db m y = nameOf db m entry := by
                intro y hy
                have := List.mem_filter.mp (hfil ▸ hy)
                exact ⟨this.1, hname y this.1 this.2⟩
              have hpfilter : inc.filter
                  (fun item => isCurrent db m (nameOf db m entry) item && item.hasInclude) =
                  (d0 :: d1 :: more).filter Inc.hasInclude := by
                rw [← hfil, List.filter_filter]
                apply List.filter_congr
                intro y _
                exact Bool.and_comm _ _
              have hacc : ∀ a2 ∈ acc, (isCurrent db m (nameOf db m entry) a2 &&
                  a2.hasInclude) = false := by
                intro a2 ha2
                have : isCurrent db m (nameOf db m entry) a2 = false := by
                  by_contra hc
                  exact hany (List.any_eq_true.mpr ⟨a2, ha2, by simpa using hc⟩)
                simp [this]
              rcases aggregatedEntry_cases hagg with ⟨hnone, rfl⟩ | ⟨first, others, v, hsome, rfl⟩
              · -- no entry of the association has an include: the array is unchanged
                have hd0 := hmemdis a (List.mem_cons_self _ _)
                have hsame : modifyFirst
                    (fun item => isCurrent db m (nameOf db m entry) item && item.hasInclude)
                    (fun _ => a) inc = inc := by
                  apply modifyFirst_eq_self
                  intro x hx
                  by_contra hc
                  have : x ∈ inc.filter (fun item =>
                      isCurrent db m (nameOf db m entry) item && item.hasInclude) :=
                    List.mem_filter.mpr ⟨hx, by simpa using hc⟩
                  rw [hpfilter, hnone] at this
                  cases this
                rw [hsame] at h
                refine aggregateLoop_inv db m aggregate xs hU todo inc (acc ++ [a]) out
                  ⟨hrel.imp (aggInv_mono [a]), ?_, hnd2 a hd0.2, hdone2 a hd0.2, ?_⟩ h
                · intro a2 ha2
                  rcases List.mem_append.mp ha2 with h2 | h2
                  · exact hsub a2 h2
                  · rw [List.mem_singleton] at h2
                    exact h2 ▸ hd0.1
                · exact hmerged2 a hd0.2 (by rw [hfil]; exact hagg)
              · -- the first entry that has an include is replaced by the aggregated entry
                have hfirst : first ∈ d0 :: d1 :: more :=
                  (List.mem_filter.mp (hsome ▸ List.mem_cons_self first others)).1
                have hf := hmemdis first hfirst
                have hfind : inc.find?
                    (fun item => isCurrent db m (nameOf db m entry) item && item.hasInclude) =
                    some first :=
                  find?_of_filter_cons _ inc first others (hpfilter.trans hsome)
                have han : nameOf db m (first.setInclude v) = nameOf db m entry := by
                  rw [nameOf_setInclude]
                  exact hf.2
                refine aggregateLoop_inv db m aggregate xs hU todo _ (acc ++ [first.setInclude v])
                  out ⟨?_, ?_, hnd2 _ han, hdone2 _ han, ?_⟩ h
                · refine forall₂_modifyFirst_find _ _ (aggInv_mono [first.setInclude v]) inc xs
                    hrel ?_
                  intro a2 b2 hab hfind2
                  rw [hfind] at hfind2
                  cases hfind2
                  refine ⟨?_, ?_, Or.inr ?_⟩
                  · rw [nameOf_setInclude]
                    exact hab.1
                  · intro n
                    rw [isCurrent_setInclude]
                    exact hab.2.1 n
                  · rw [List.map_append]
                    exact List.mem_append_right _ (by simp)
                · intro a2 ha2
                  rcases List.mem_append.mp ha2 with h2 | h2
                  · exact mem_modifyFirst_of_not _ _ a2 (hacc a2 h2) inc (hsub a2 h2)
                  · rw [List.mem_singleton] at h2
                    subst h2
                    exact modifyFirst_mem_of_find _ (fun _ => first.setInclude v) inc first hfind
                · exact hmerged2 _ han (by rw [hfil]; exact hagg)

/-! ## The fuel of the aggregation -/

theorem height_obj (o : IncObj Inc) :
    (Inc.obj o).height = match o.include_ with
      | some f => f.height + 1
      | none => 0 := by
  obtain ⟨_, _, _, _, _, _, _, inc⟩ := o
  rcases inc with _ | f | f <;> simp [Inc.height, IncField.height]

theorem height_le_heightList : ∀ (l : List Inc) (x : Inc), x ∈ l → x.height ≤ heightList l
  | [], x, h => by simp at h
  | y :: ys, x, h => by
    rw [heightList]
    rcases List.mem_cons.mp h with h | h
    · subst h
      exact le_max_left _ _
    · exact le_trans (height_le_heightList ys x h) (le_max_right _ _)

theorem heightList_le {H : Nat} : ∀ l : List Inc, (∀ x ∈ l, x.height ≤ H) → heightList l ≤ H
  | [], _ => by simp [heightList]
  | y :: ys, h => by
    rw [heightList]
    exact max_le (h y (List.mem_cons_self _ _))
      (heightList_le ys fun x hx => h x (List.mem_cons_of_mem _ hx))

theorem height_setInclude_none (x : Inc) : (x.setInclude none).height = 0 := by
  cases x with
  | obj o => rw [Inc.setInclude, height_obj]
  | _ => simp [Inc.setInclude, Inc.height]

theorem height_setInclude_some (x : Inc) (f : IncField Inc) :
    (x.setInclude (some f)).height ≤ f.height + 1 := by
  cases x with
  | obj o => rw [Inc.setInclude, height_obj]
  | _ => simp [Inc.setInclude, Inc.height]

theorem heightList_children (x : Inc) (h : x.hasInclude = true) :
    heightList x.children + 1 = x.height := by
  cases x with
  | obj o =>
    rw [height_obj]
    simp only [Inc.hasInclude] at h
    simp only [Inc.children]
    cases hinc : o.include_ with
    | none => simp [hinc] at h
    | some f => cases f <;> simp [IncField.toList, IncField.height, heightList]
  | _ => simp [Inc.hasInclude] at h

theorem heightList_append (l1 l2 : List Inc) :
    heightList (l1 ++ l2) = max (heightList l1) (heightList l2) := by
  induction l1 with
  | nil => simp [heightList]
  | cons x xs ih => simp [heightList, ih, max_assoc]

theorem heightList_flatMap_children : ∀ l : List Inc, (∀ x ∈ l, x.hasInclude = true) →
    l ≠ [] → heightList (l.flatMap Inc.children) + 1 ≤ heightList l
  | [], _, h => absurd rfl h
  | [x], hall, _ => by
    have := heightList_children x (hall x (List.mem_cons_self _ _))
    simp [List.flatMap, heightList, this]
  | x :: y :: rest, hall, _ => by
    have hx := heightList_children x (hall x (List.mem_cons_self _ _))
    have ih := heightList_flatMap_children (y :: rest)
      (fun z hz => hall z (List.mem_cons_of_mem _ hz)) (List.cons_ne_nil _ _)
    rw [List.flatMap_cons, heightList_append, heightList.eq_2 x]
    omega

theorem height_reducedInclude (first : Inc) (others : List Inc) (r : IncField Inc)
    (hall : ∀ x ∈ first :: others, x.hasInclude = true)
    (h : reducedInclude (first :: others) = some r) :
    r.height + 1 ≤ heightList (first :: others) := by
  have hmany : r = IncField.many ((first :: others).flatMap Inc.children) →
      r.height + 1 ≤ heightList (first :: others) := by
    intro hr
    rw [hr, IncField.height]
    exact heightList_flatMap_children _ hall (List.cons_ne_nil _ _)
  cases others with
  | nil =>
    cases first with
    | obj o =>
      simp only [reducedInclude] at h
      rw [heightList, height_obj, h]
      simp [heightList]
    | _ =>
      simp only [reducedInclude, Option.some.injEq] at h
      exact hmany h.symm
  | cons y rest =>
    simp only [reducedInclude, Option.some.injEq] at h
    exact hmany h.symm

theorem heightList_filter (p : Inc → Bool) (l : List Inc) :
    heightList (l.filter p) ≤ heightList l :=
  heightList_le _ fun x hx => height_le_heightList l x (List.mem_filter.mp hx).1

theorem heightList_modifyFirst {H : Nat} (p : Inc → Bool) (a : Inc) (l : List Inc)
    (hl : heightList l ≤ H) (ha : a.height ≤ H) :
    heightList (modifyFirst p (fun _ => a) l) ≤ H := by
  apply heightList_le
  intro x hx
  rcases mem_modifyFirst p _ l x hx with h | ⟨_, _, rfl⟩
  · exact le_trans (height_le_heightList l x h) hl
  · exact ha

theorem aggregatedEntry_returns (db : Sequelize) (model : Option String)
    (aggregate : IncField Inc → Option String → Option (Except String (IncField Inc)))
    (H : Nat) (hagg : Returns aggregate H) (first0 : Inc) (more : List Inc)
    (hH : heightList (first0 :: more) ≤ H) :
    ∃ res, aggregatedEntry db model aggregate first0 more = some res ∧
      ∀ a, res = Except.ok a → a.height ≤ H := by
  unfold aggregatedEntry
  cases hf : (first0 :: more).filter Inc.hasInclude with
  | nil =>
    refine ⟨_, rfl, ?_⟩
    intro a ha
    cases ha
    exact le_trans (height_le_heightList _ _ (List.mem_cons_self _ _)) hH
  | cons first others =>
    have hall : ∀ x ∈ first :: others, x.hasInclude = true := by
      intro x hx
      exact (List.mem_filter.mp (hf ▸ hx)).2
    have hle : heightList (first :: others) ≤ H :=
      le_trans (hf ▸ heightList_filter Inc.hasInclude (first0 :: more)) hH
    simp only
    cases aggregatedModelName db model (first.setInclude (reducedInclude (first :: others))) with
    | error e => exact ⟨_, rfl, fun a ha => by cases ha⟩
    | ok modelName =>
      simp only
      cases sequelizeModel db model modelName with
      | error e => exact ⟨_, rfl, fun a ha => by cases ha⟩
      | ok entryModel =>
        simp only
        cases hred : reducedInclude (first :: others) with
        | none =>
          refine ⟨_, rfl, ?_⟩
          intro a ha
          cases ha
          rw [height_setInclude_none]
          exact Nat.zero_le _
        | some r =>
          have hr := height_reducedInclude first others r hall hred
          obtain ⟨res, hres, hout⟩ := hagg r entryModel (by omega)
          simp only [hres]
          cases res with
          | error e => exact ⟨_, rfl, fun a ha => by cases ha⟩
          | ok nested =>
            refine ⟨_, rfl, ?_⟩
            intro a ha
            cases ha
            have := hout nested rfl
            have := height_setInclude_some first nested
            omega

theorem aggregateLoop_returns (db : Sequelize) (m : String)
    (aggregate : IncField Inc → Option String → Option (Except String (IncField Inc)))
    (H : Nat) (hagg : Returns aggregate H) :
    ∀ (todo : List Nat) (inc acc : List Inc), heightList inc ≤ H → heightList acc ≤ H →
      ∃ res, aggregateLoop db (some m) aggregate todo inc acc = some res ∧
        ∀ out, res = Except.ok out → heightList out ≤ H
  | [], inc, acc, _, hacc => by
    refine ⟨_, by rw [aggregateLoop], ?_⟩
    intro out hout
    cases hout
    exact hacc
  | i :: todo, inc, acc, hinc, hacc => by
    cases hget : inc.get? i with
    | none =>
      rw [aggregateLoop]
      simp only [hget]
      exact aggregateLoop_returns db m aggregate H hagg todo inc acc hinc hacc
    | some entry =>
      rw [aggregateLoop_step db m aggregate i inc acc entry todo hget]
      by_cases hany : acc.any (isCurrent db m (nameOf db m entry)) = true
      · rw [if_pos hany]
        exact aggregateLoop_returns db m aggregate H hagg todo inc acc hinc hacc
      · rw [if_neg hany]
        have hdis : heightList (inc.filter (isCurrent db m (nameOf db m entry))) ≤ H :=
          le_trans (heightList_filter _ inc) hinc
        rcases hfil : inc.filter (isCurrent db m (nameOf db m entry)) with
          _ | ⟨d0, _ | ⟨d1, more⟩⟩
        · exact aggregateLoop_returns db m aggregate H hagg todo inc _
            hinc (by simpa [heightList_append, heightList] using hacc)
        · rw [hfil] at hdis
          exact aggregateLoop_returns db m aggregate H hagg todo inc _
            hinc (by rw [heightList_append]; exact max_le hacc hdis)
        · rw [hfil] at hdis
          obtain ⟨res, hres, hout⟩ :=
            aggregatedEntry_returns db (some m) aggregate H hagg d0 (d1 :: more) hdis
          simp only [hres]
          cases res with
          | error e => exact ⟨_, rfl, fun a ha => by cases ha⟩
          | ok a =>
            have ha := hout a rfl
            exact aggregateLoop_returns db m aggregate H hagg todo _ _
              (heightList_modifyFirst _ a inc hinc ha)
              (by
                rw [heightList_append]
                exact max_le hacc (by simpa [heightList] using ha))

/-- With more fuel than the height of the include, `aggregateIncludeEntries` returns or
throws, and its result is not higher than the include. -/
theorem aggregateIncludeEntries_returns (db : Sequelize) :
    ∀ (fuel : Nat) (include_ : IncField Inc) (m : String), include_.height < fuel →
      ∃ res, aggregateIncludeEntries db fuel include_ (some m) = some res ∧
        ∀ out, res = Except.ok out → out.height ≤ include_.height
  | 0, _, _, h => by omega
  | fuel + 1, IncField.one x, m, _ => by
    refine ⟨_, by rw [aggregateIncludeEntries], ?_⟩
    intro out hout
    cases hout
    exact le_refl _
  | fuel + 1, IncField.many xs, m, h => by
    rw [aggregateIncludeEntries]
    by_cases hlen : xs.length < 2
    · simp only [hlen, if_true]
      refine ⟨_, rfl, ?_⟩
      intro out hout
      cases hout
      exact le_refl _
    · simp only [hlen, if_false]
      have hH : heightList xs ≤ fuel := by
        simpa [IncField.height] using Nat.lt_succ_iff.mp h
      have hagg : Returns (aggregateIncludeEntries db fuel) (heightList xs) := fun r m2 hr =>
        aggregateIncludeEntries_returns db fuel r m2 (by omega)
      obtain ⟨res, hres, hout⟩ := aggregateLoop_returns db m (aggregateIncludeEntries db fuel)
        (heightList xs) hagg (List.range xs.length) xs [] (le_refl _) (by simp [heightList])
      simp only [hres]
      cases res with
      | error e => exact ⟨_, rfl, fun a ha => by cases ha⟩
      | ok out =>
        refine ⟨_, rfl, ?_⟩
        intro a ha
        cases ha
        exact hout out rfl

theorem filter_eq_singleton_of_nodup {α β : Type} [DecidableEq β] (f : α → β) :
    ∀ (l : List α) (e : α), (l.map f).Nodup → e ∈ l →
      l.filter (fun y => decide (f y = f e)) = [e]
  | [], e, _, h => by simp at h
  | x :: xs, e, hnd, h => by
    rw [List.map_cons, List.nodup_cons] at hnd
    rcases List.mem_cons.mp h with h | h
    · subst h
      have hrest : xs.filter (fun y => decide (f y = f e)) = [] := by
        apply List.filter_eq_nil_iff.mpr
        intro y hy
        have : f y ≠ f e := fun heq => hnd.1 (heq ▸ List.mem_map_of_mem f hy)
        simpa using this
      simp [List.filter, hrest]
    · have hne : f x ≠ f e := fun heq => hnd.1 (heq ▸ List.mem_map_of_mem f h)
      have := filter_eq_singleton_of_nodup f xs e hnd.2 h
      simp [List.filter, hne, this]

theorem aggregatedModelName_setInclude (db : Sequelize) (model : Option String)
    (v : Option (IncField Inc)) (x : Inc) :
    aggregatedModelName db model (x.setInclude v) = aggregatedModelName db model x := by
  cases x <;> rfl

theorem sequelizeModel_ok {db : Sequelize} {m : String} {modelName : Option String}
    {target : String} (h : sequelizeModel db (some m) modelName = Except.ok target) :
    modelName = some target := by
  unfold sequelizeModel at h
  cases modelName with
  | none => cases h
  | some n =>
    simp only at h
    split at h
    · cases h
      rfl
    · cases h

/-- What `aggregatedEntry` returns for the entries of one association, when it returns an
entry. -/
theorem aggregatedEntry_ok {db : Sequelize} {m : String}
    {aggregate : IncField Inc → Option String → Option (Except String (IncField Inc))}
    {first0 e : Inc} {more : List Inc}
    (h : aggregatedEntry db (some m) aggregate first0 more = some (Except.ok e)) :
    match (first0 :: more).filter Inc.hasInclude with
    | [] => e = first0
    | first :: others =>
      match reducedInclude (first :: others) with
      | none => e = first.setInclude none
      | some reduced =>
        ∃ target nested, aggregatedModelName db (some m) first = Except.ok (some target) ∧
          aggregate reduced (some target) = some (Except.ok nested) ∧
          e = first.setInclude (some nested) := by
  unfold aggregatedEntry at h
  cases hf : (first0 :: more).filter Inc.hasInclude with
  | nil =>
    rw [hf] at h
    simp only [Option.some.injEq, Except.ok.injEq] at h
    exact h.symm
  | cons first others =>
    rw [hf] at h
    simp only [aggregatedModelName_setInclude] at h ⊢
    cases hmn : aggregatedModelName db (some m) first with
    | error err => rw [hmn] at h; cases h
    | ok modelName =>
      rw [hmn] at h
      simp only at h
      cases hsm : sequelizeModel db (some m) modelName with
      | error err => rw [hsm] at h; cases h
      | ok target =>
        rw [hsm] at h
        have := sequelizeModel_ok hsm
        subst this
        simp only at h
        cases hred : reducedInclude (first :: others) with
        | none =>
          rw [hred] at h
          simp only [Option.some.injEq, Except.ok.injEq] at h
          exact h.symm
        | some reduced =>
          rw [hred] at h
          simp only at h
          cases hagg : aggregate reduced (some target) with
          | none => rw [hagg] at h; cases h
          | some res =>
            cases res with
            | error err => rw [hagg] at h; cases h
            | ok nested =>
              rw [hagg] at h
              simp only [Option.some.injEq, Except.ok.injEq] at h
              exact ⟨target, nested, rfl, hagg, h.symm⟩

/-- C14, amended: for a model that is defined and a list whose entries name their
associations unambiguously, with more fuel than the height of the list, the call of
`aggregateIncludeEntries` returns or throws; when it returns and two or more entries name
the association `n`, the result holds one entry `e` for `n`, which is the first of these
entries when none of them has an `include`, and else the first of them that has one, with
its `include` replaced by the recursively aggregated includes of those that have one.  The
`where` and `required` of the other entries are not merged into `e`. -/
theorem aggregateIncludeEntries_merges (db : Sequelize) (m : String) (xs : List Inc)
    (fuel : Nat) (n : Option String) (hU : Unambiguous db m xs) (hfuel : heightList xs ≤ fuel)
    (hgroup : 2 ≤ (xs.filter fun y => decide (nameOf db m y = n)).length) :
    ∃ res, aggregateIncludeEntries db (fuel + 1) (IncField.many xs) (some m) = some res ∧
      ∀ out, res = Except.ok out →
        ∃ outs e, out = IncField.many outs ∧
          outs.filter (fun y => decide (nameOf db m y = n)) = [e] ∧
          match (xs.filter fun y => decide (nameOf db m y = n)).filter Inc.hasInclude with
          | [] => (xs.filter fun y => decide (nameOf db m y = n)).head? = some e
          | first :: others =>
            e.where? = first.where? ∧ e.isRequired = first.isRequired ∧
            match reducedInclude (first :: others) with
            | none => e = first.setInclude none
            | some reduced =>
              ∃ target nested,
                aggregatedModelName db (some m) first = Except.ok (some target) ∧
                aggregateIncludeEntries db fuel reduced (some target) =
                  some (Except.ok nested) ∧
                e = first.setInclude (some nested) := by
  obtain ⟨res, hres, _⟩ := aggregateIncludeEntries_returns db (fuel + 1) (IncField.many xs) m
    (by simpa [IncField.height] using Nat.lt_succ_of_le hfuel)
  refine ⟨res, hres, ?_⟩
  intro out hout
  subst hout
  have hlen : ¬ xs.length < 2 := by
    have := List.length_filter_le (fun y => decide (nameOf db m y = n)) xs
    omega
  rw [aggregateIncludeEntries] at hres
  simp only [hlen, if_false] at hres
  cases hloop : aggregateLoop db (some m) (aggregateIncludeEntries db fuel)
      (List.range xs.length) xs [] with
  | none => rw [hloop] at hres; cases hres
  | some r =>
    cases r with
    | error err => rw [hloop] at hres; cases hres
    | ok outs =>
      rw [hloop] at hres
      simp only [Option.some.injEq, Except.ok.injEq] at hres
      subst hres
      have hinit : AggInv db m (aggregateIncludeEntries db fuel) xs (List.range xs.length) xs [] := by
        refine ⟨List.forall₂_same.mpr fun x _ => ⟨rfl, fun _ => rfl, Or.inl rfl⟩,
          fun a ha => absurd ha (List.not_mem_nil a), List.nodup_nil, ?_,
          fun a ha => absurd ha (List.not_mem_nil a)⟩
        intro j x hj hx
        exact absurd (List.mem_range.mpr (List.get?_eq_some.mp hx).1) hj
      obtain ⟨inc2, _, _, hnd, hdone, hmerged⟩ :=
        aggregateLoop_inv db m (aggregateIncludeEntries db fuel) xs hU _ xs [] outs hinit hloop
      -- an entry of the input names `n`
      rcases hg : xs.filter (fun y => decide (nameOf db m y = n)) with _ | ⟨d0, _ | ⟨d1, more⟩⟩
      · rw [hg] at hgroup
        simp at hgroup
      · rw [hg] at hgroup
        simp at hgroup
      · have hd0 := List.mem_filter.mp (hg ▸ List.mem_cons_self d0 (d1 :: more))
        have hd0n : nameOf db m d0 = n := by simpa using hd0.2
        obtain ⟨j, hj⟩ := List.get?_of_mem hd0.1
        have hmem := hdone j d0 (List.not_mem_nil j) hj
        obtain ⟨e, he, hen⟩ := List.mem_map.mp hmem
        have hen2 : nameOf db m e = n := hen.trans hd0n
        have hone := filter_eq_singleton_of_nodup (nameOf db m) outs e hnd he
        rw [hen2] at hone
        have hm := hmerged e he
        rw [hen2, hg] at hm
        have hok := aggregatedEntry_ok hm
        refine ⟨outs, e, rfl, hone, ?_⟩
        cases hf : (d0 :: d1 :: more).filter Inc.hasInclude with
        | nil =>
          rw [hf] at hok
          simp [hok]
        | cons first others =>
          rw [hf] at hok
          simp only at hok ⊢
          have hsame : ∀ v, e = first.setInclude v →
              e.where? = first.where? ∧ e.isRequired = first.isRequired := by
            intro v hv
            subst hv
            cases first <;> exact ⟨rfl, rfl⟩
          cases hred : reducedInclude (first :: others) with
          | none =>
            rw [hred] at hok
            exact ⟨(hsame _ hok).1, (hsame _ hok).2, hok⟩
          | some reduced =>
            rw [hred] at hok
            obtain ⟨target, nested, h1, h2, h3⟩ := hok
            exact ⟨(hsame _ h3).1, (hsame _ h3).2, target, nested, h1, h2, h3⟩

theorem aggregateIncludeEntries_merges_witness :
    ∃ res, aggregateIncludeEntries exampleDb 2 (IncField.many examplePostsTwice) (some "User") =
        some res ∧
      ∀ out, res = Except.ok out →
        ∃ outs e, out = IncField.many outs ∧
          outs.filter (fun y => decide (nameOf exampleDb "User" y = some "posts")) = [e] ∧
          e.where? = none ∧ e.isRequired = false ∧
          ∃ target nested,
            aggregatedModelName exampleDb (some "User") (Inc.obj {
              association := some (AssociationProp.node examplePosts)
              include_ := some (IncField.one (Inc.str "comments")) }) =
              Except.ok (some target) ∧
            aggregateIncludeEntries exampleDb 1
                (IncField.many [Inc.str "comments", Inc.str "author"]) (some target) =
              some (Except.ok nested) ∧
            e = Inc.obj {
              association := some (AssociationProp.node examplePosts)
              include_ := some nested } :=
  aggregateIncludeEntries_merges exampleDb "User" examplePostsTwice 1 (some "posts")
    (by unfold Unambiguous; decide) (by decide) (by decide)

/-- C14, counterexample: of the two entries `{ association: posts }` and
`{ association: posts, where: { title: 'x' }, required: true }` the first is returned as it
is: the result has no `where` and is not `required`. -/
theorem aggregateIncludeEntries_drops_where :
    aggregateIncludeEntries exampleDb 1 (IncField.many [examplePostsEntry, examplePostsFiltered])
        (some "User") = some (Except.ok (IncField.many [examplePostsEntry])) ∧
      examplePostsFiltered.where? = some [(PKey.str "title", Val.str "x")] ∧
      examplePostsEntry.where? = none ∧ examplePostsEntry.isRequired = false :=
  ⟨rfl, rfl, rfl, rfl⟩

/-- C15: of the two entries `{ model: Person, as: 'lead' }` and
`{ model: Person, as: 'members' }` of a team, which name the associations `lead` and
`members`, only the first is returned: the second is taken for aggregated already, since
`members` is the first association of a team whose target is the model of the first entry. -/
theorem aggregateIncludeEntries_loses_association :
    associationName exampleOrg (some "Team") exampleLead = Except.ok (some "lead") ∧
      associationName exampleOrg (some "Team") exampleMembers = Except.ok (some "members") ∧
      isCurrentAssociation exampleOrg (some "Team") (some "members") exampleLead =
        Except.ok true ∧
      aggregateIncludeEntries exampleOrg 1 (IncField.many [exampleLead, exampleMembers])
        (some "Team") = some (Except.ok (IncField.many [exampleLead])) :=
  ⟨rfl, rfl, rfl, rfl⟩

/-! ## Resolution of an include -/

/-- C11: for the include `['all', { model: 'Person', as: 'lead' }]` of a team, which has the
associations `members` and `lead`, both to `Person`, `loadIncludeClasses` returns the one
entry `{ model: Person, as: 'lead' }`: the wildcard takes `members` for declared by the
entry for `lead`, and the result has no entry for `members`. -/
theorem loadIncludeClasses_wildcard_misses_association :
    exampleOrg.associationKeys "Team" = ["members", "lead"] ∧
      declaresAssociation
        { as := "members", associationType := AssociationType.HasMany, target := "Person" }
        (Inc.obj { model := some (ModelProp.name "Person"), as := some "lead" }) = true ∧
      loadIncludeClasses exampleOrg 1
        (some (IncField.many [Inc.str "all",
          Inc.obj { model := some (ModelProp.name "Person"), as := some "lead" }]))
        (some "Team") = some (Except.ok (some (IncField.many [exampleLead]))) :=
  ⟨rfl, rfl, rfl⟩

/-- An explicit entry that is the name of the target model of an association, as a plain
string, makes `loadIncludeClasses` throw. -/
theorem loadIncludeClasses_target_name_throws :
    loadIncludeClasses exampleOrg 1 (some (IncField.many [Inc.str "all", Inc.str "Person"]))
        (some "Team") = some (Except.error
          "TypeError: Cannot read properties of undefined (reading 'associationType')") := by
  rfl

/-! ## The configured include after a call of setOptions -/

/-- C16: the repository is configured with the include
`[{ association: posts, where: { published: true } }]`; the call
`setOptions({ 'posts.title': 'x' })` writes `title: 'x'` into the where object of the
configured entry, which the shallow copy shares: after the call the configured include is
`[{ association: posts, where: { published: true, title: 'x' } }]`.  The include that the
call returns is the one that `setOptions` by value returns. -/
theorem setOptions_writes_configured_where :
    includeInEffect exampleFiltered none Action.List = derefList exampleHeap exampleConfigured ∧
      (setOptionsRef exampleFiltered exampleConfigured exampleHeap
          [("posts.title", Val.str "x")]).map (fun st => derefList st.heap st.include_.toList) =
        (setOptions exampleFiltered [("posts.title", Val.str "x")] {} Action.List).map
          (fun result => result.1.include_.toList) ∧
      (setOptionsRef exampleFiltered exampleConfigured exampleHeap
          [("posts.title", Val.str "x")]).map (fun st => derefList st.heap exampleConfigured) =
        Except.ok [Inc.obj {
          association := some (AssociationProp.node examplePosts)
          where_ := some [(PKey.str "published", Val.bool true),
            (PKey.str "title", Val.str "x")] }] :=
  ⟨rfl, rfl, rfl⟩

/-! ## The operations under the serializer -/

theorem run_append (strict : Bool) :
    ∀ (es1 es2 : List Event) (p : Phase),
      Phase.run strict p (es1 ++ es2) =
        (Phase.run strict p es1).bind fun q => Phase.run strict q es2
  | [], es2, p => by simp [Phase.run]
  | e :: es1, es2, p => by
    simp only [List.cons_append, Phase.run]
    cases p.step strict e with
    | none => rfl
    | some next => exact run_append strict es1 es2 next

theorem OpM.bind_apply {α β : Type} (m : OpM α) (f : α → OpM β) (trace : List Event) :
    (m >>= f) trace =
      match m trace with
      | (trace, Except.ok a) => f a trace
      | (trace, Except.error error) => (trace, Except.error error) :=
  rfl

theorem OpM.pure_apply {α : Type} (a : α) (trace : List Event) :
    (pure a : OpM α) trace = (trace, Except.ok a) :=
  rfl

theorem closed_pure (strict : Bool) {α : Type} (a : α) : Closed strict (pure a : OpM α) :=
  fun trace => ⟨[], by rw [List.append_nil]; rfl, rfl⟩

theorem closed_opPure (strict : Bool) {α : Type} (a : α) : Closed strict (OpM.pure a) :=
  closed_pure strict a

theorem closed_throw (strict : Bool) {α : Type} (error : Failure) :
    Closed strict (OpM.throw error : OpM α) :=
  fun trace => ⟨[], by simp [OpM.throw], rfl⟩

theorem closed_lift (strict : Bool) {α : Type} (x : Except String α) :
    Closed strict (OpM.lift x) := by
  cases x with
  | ok a => exact closed_opPure strict a
  | error e => exact closed_throw strict _

theorem closed_opBind (strict : Bool) {α β : Type} {m : OpM α} {f : α → OpM β}
    (hm : Closed strict m) (hf : ∀ a, Closed strict (f a)) : Closed strict (OpM.bind m f) := by
  intro trace
  obtain ⟨es1, h1, hr1⟩ := hm trace
  unfold OpM.bind
  rcases hmt : m trace with ⟨t1, _ | a⟩
  · rw [hmt] at h1
    exact ⟨es1, h1, hr1⟩
  · rw [hmt] at h1
    simp only at h1 ⊢
    obtain ⟨es2, h2, hr2⟩ := hf a t1
    refine ⟨es1 ++ es2, ?_, ?_⟩
    · rw [h2, h1, List.append_assoc]
    · rw [run_append, hr1]
      exact hr2

theorem closed_bind (strict : Bool) {α β : Type} {m : OpM α} {f : α → OpM β}
    (hm : Closed strict m) (hf : ∀ a, Closed strict (f a)) : Closed strict (m >>= f) :=
  closed_opBind strict hm hf

theorem rethrows_rethrow {α : Type} : Rethrows (rethrow : Failure → OpM α) :=
  fun _ _ => ⟨_, rfl⟩

theorem rethrows_rethrowTranslated {α : Type} (lib : Library) :
    Rethrows (rethrowTranslated lib : Failure → OpM α) := by
  intro error trace
  cases error <;> exact ⟨_, rfl⟩

theorem atMostOneCall_await {α : Type} (c : LibraryCall) (answer : List Event → Except Failure α) :
    AtMostOneCall (OpM.await c answer) :=
  fun _ => Or.inr ⟨c, rfl⟩

theorem atMostOneCall_onEntity {α : Type} (entity : Option Obj) (c : Obj → LibraryCall)
    (answer : List Event → Except Failure α) : AtMostOneCall (onEntity entity c answer) := by
  cases entity with
  | none => exact fun _ => Or.inl rfl
  | some e => exact atMostOneCall_await _ _

/-- The statements around a call of the library keep the discipline: the ticket is taken,
the tenant is switched, the call is made and the ticket is given back, whether the call
returns or throws. -/
theorem closed_serialized (strict : Bool) {α : Type} (r : Repository) (lib : Library)
    (hmt : r.isMultitenantEnabled = true) (tenant : Option String) {body : OpM α}
    {handler : Failure → OpM α} (hbody : AtMostOneCall body) (hh : Rethrows handler) :
    Closed strict (OpM.serialized r lib tenant body handler) := by
  intro trace
  have hrun : ∀ (pre : List Event) (post : List Event),
      (pre = [] ∨ pre = [Event.changeTenant tenant]) →
      (post = [] ∨ ∃ c, post = [Event.call c]) →
      Phase.run strict Phase.idle
        ([Event.getQueryId (lib.generateRandomId trace)] ++ pre ++ post ++
          [Event.callNextQuery (some (lib.generateRandomId trace))]) = some Phase.idle := by
    intro pre post hpre hpost
    rcases hpre with rfl | rfl <;> rcases hpost with rfl | ⟨c, rfl⟩ <;>
      simp [Phase.run, Phase.step]
  -- the events of the tenant switch
  have hct : ∃ pre, (pre = [] ∨ pre = [Event.changeTenant tenant]) ∧
      ∀ t, OpM.changeTenant tenant t = (t ++ pre, Except.ok ()) := by
    unfold OpM.changeTenant
    cases strTruthy tenant
    · exact ⟨[], Or.inl rfl, fun t => by simp [OpM.pure]⟩
    · exact ⟨[Event.changeTenant tenant], Or.inr rfl, fun t => by simp [OpM.emit]⟩
  obtain ⟨pre, hpre, hct⟩ := hct
  set t1 := trace ++ [Event.getQueryId (lib.generateRandomId trace)] ++ pre with ht1
  have hpost : ∃ post, (post = [] ∨ ∃ c, post = [Event.call c]) ∧ (body t1).1 = t1 ++ post := by
    rcases hbody t1 with h | ⟨c, h⟩
    · exact ⟨[], Or.inl rfl, by rw [h, List.append_nil]⟩
    · exact ⟨[Event.call c], Or.inr ⟨c, rfl⟩, h⟩
  obtain ⟨post, hpost, hbodyeq⟩ := hpost
  refine ⟨[Event.getQueryId (lib.generateRandomId trace)] ++ pre ++ post ++
    [Event.callNextQuery (some (lib.generateRandomId trace))], ?_, hrun pre post hpre hpost⟩
  simp only [OpM.serialized, OpM.bind_apply, OpM.getQueryId, hmt, if_true, OpM.tryCatch, hct,
    OpM.callNextQuery, OpM.emit, OpM.pure_apply]
  rcases hb : body t1 with ⟨t2, _ | a⟩
  · rw [hb] at hbodyeq
    simp only at hbodyeq
    obtain ⟨thrown, hthrown⟩ := hh ‹Failure›
      (t2 ++ [Event.callNextQuery (some (lib.generateRandomId trace))])
    simp only [hthrown]
    rw [hbodyeq, ht1]
    simp [List.append_assoc]
  · rw [hb] at hbodyeq
    simp only at hbodyeq ⊢
    rw [hbodyeq, ht1]
    simp [List.append_assoc]

theorem closed_call (r : Repository) (lib : Library) (hmt : r.isMultitenantEnabled = true)
    (strict : Bool) {α : Type} (tenant : Option String) (c : LibraryCall)
    (answer : List Event → Except Failure α) :
    Closed strict (OpM.serialized r lib tenant (OpM.await c answer) rethrow) :=
  closed_serialized strict r lib hmt tenant (atMostOneCall_await c answer) rethrows_rethrow

theorem closed_callTranslated (r : Repository) (lib : Library)
    (hmt : r.isMultitenantEnabled = true) (strict : Bool) {α : Type} (tenant : Option String)
    (c : LibraryCall) (answer : List Event → Except Failure α) :
    Closed strict (OpM.serialized r lib tenant (OpM.await c answer) (rethrowTranslated lib)) :=
  closed_serialized strict r lib hmt tenant (atMostOneCall_await c answer)
    (rethrows_rethrowTranslated lib)

theorem closed_onEntity (r : Repository) (lib : Library) (hmt : r.isMultitenantEnabled = true)
    (strict : Bool) {α : Type} (tenant : Option String) (entity : Option Obj)
    (c : Obj → LibraryCall) (answer : List Event → Except Failure α) :
    Closed strict (OpM.serialized r lib tenant (onEntity entity c answer) rethrow) :=
  closed_serialized strict r lib hmt tenant (atMostOneCall_onEntity entity c answer)
    rethrows_rethrow

/-! ## Calls of `updateAssociations` that wait for one another -/

theorem queue_run_append (strict : Bool) :
    ∀ (es1 es2 : List Event) (q : Queue),
      Queue.run strict q (es1 ++ es2) =
        (Queue.run strict q es1).bind fun q1 => Queue.run strict q1 es2
  | [], es2, q => by simp [Queue.run]
  | e :: es1, es2, q => by
    simp only [List.cons_append, Queue.run]
    cases q.step strict e with
    | none => rfl
    | some next => exact queue_run_append strict es1 es2 next

/-- Events that keep the discipline of the serializer from a phase on keep it from the
wait list that the phase stands for. -/
theorem queue_of_phase (strict : Bool) :
    ∀ (es : List Event) (p : Phase), Phase.run strict p es = some Phase.idle →
      Queue.run strict
        (match p with
         | Phase.idle => ⟨[], false⟩
         | Phase.holding queryId called => ⟨[queryId], called⟩) es = some ⟨[], false⟩
  | [], p, h => by
    simp only [Phase.run, Option.some.injEq] at h
    subst h
    rfl
  | e :: es, p, h => by
    simp only [Phase.run] at h
    cases hstep : p.step strict e with
    | none => rw [hstep] at h; cases h
    | some p1 =>
      rw [hstep] at h
      have ih := queue_of_phase strict es p1 h
      simp only [Queue.run]
      cases p with
      | idle =>
        cases e with
        | getQueryId k =>
          simp only [Phase.step, Option.some.injEq] at hstep
          subst hstep
          simpa [Queue.step] using ih
        | callNextQuery k => simp [Phase.step] at hstep
        | changeTenant t =>
          cases strict <;> simp only [Phase.step, Bool.false_eq_true, if_false, if_true,
            Option.some.injEq] at hstep
          · subst hstep
            simpa [Queue.step] using ih
          · cases hstep
        | call c =>
          cases strict <;> simp only [Phase.step, Bool.false_eq_true, if_false, if_true,
            Option.some.injEq] at hstep
          · subst hstep
            simpa [Queue.step] using ih
          · cases hstep
        | updateAssociations calls =>
          simp only [Phase.step, Option.some.injEq] at hstep
          subst hstep
          simpa [Queue.step] using ih
      | holding held called =>
        cases e with
        | getQueryId k => cases called <;> simp [Phase.step] at hstep
        | callNextQuery k =>
          simp only [Phase.step] at hstep
          split at hstep
          · next hk =>
            simp only [Option.some.injEq] at hstep
            subst hstep
            simpa [Queue.step, hk] using ih
          · cases hstep
        | changeTenant t =>
          cases called <;> simp only [Phase.step, Option.some.injEq] at hstep
          · subst hstep
            simpa [Queue.step] using ih
          · cases hstep
        | call c =>
          cases called <;> simp only [Phase.step, Option.some.injEq] at hstep
          · subst hstep
            simpa [Queue.step] using ih
          · cases hstep
        | updateAssociations calls => cases called <;> simp [Phase.step] at hstep

theorem queued_of_closed {strict : Bool} {α : Type} {m : OpM α} (h : Closed strict m) :
    Queued strict m := by
  intro trace
  obtain ⟨es, h1, h2⟩ := h trace
  exact ⟨es, [], false, h1, queue_of_phase strict es Phase.idle h2, fun _ => ⟨rfl, rfl⟩⟩

theorem queued_opBind (strict : Bool) {α β : Type} {m : OpM α} {f : α → OpM β}
    (hm : Queued strict m) (hf : ∀ a, Queued strict (f a)) : Queued strict (OpM.bind m f) := by
  intro trace
  obtain ⟨es1, p1, c1, h1, hr1, hp1⟩ := hm trace
  unfold OpM.bind
  rcases hmt : m trace with ⟨t1, error | a⟩
  · rw [hmt] at h1 hp1
    refine ⟨es1, p1, c1, h1, hr1, fun h => hp1 ?_⟩
    rcases h with h | h
    · simp [returned] at h
    · exact Or.inr h
  · rw [hmt] at h1 hp1
    simp only at h1 ⊢
    obtain ⟨hp, hc⟩ := hp1 (Or.inl rfl)
    subst hp hc
    obtain ⟨es2, p2, c2, h2, hr2, hp2⟩ := hf a t1
    refine ⟨es1 ++ es2, p2, c2, ?_, ?_, fun h => hp2 ?_⟩
    · rw [h2, h1, List.append_assoc]
    · rw [queue_run_append, hr1]
      exact hr2
    · rcases h with h | h
      · exact Or.inl h
      · exact Or.inr fun calls hmem => h calls (List.mem_append_right _ hmem)

theorem queued_bind (strict : Bool) {α β : Type} {m : OpM α} {f : α → OpM β}
    (hm : Queued strict m) (hf : ∀ a, Queued strict (f a)) : Queued strict (m >>= f) :=
  queued_opBind strict hm hf

/-- The events of the statements around a call of the library, from the return of
`getQueryId` on: the switch of the tenant, the call, and the ticket given back, whether the
call returns or throws. -/
theorem underTicket_events (r : Repository) (hmt : r.isMultitenantEnabled = true) {α : Type}
    (tenant : Option String) (queryId : String) (c : LibraryCall)
    (answer : List Event → Except Failure α) (trace : List Event) :
    ∃ pre, (pre = [] ∨ pre = [Event.changeTenant tenant]) ∧
      (OpM.underTicket r tenant (some queryId) (OpM.await c answer) rethrow trace).1 =
        trace ++ (pre ++ [Event.call c, Event.callNextQuery (some queryId)]) := by
  have hct : ∃ pre, (pre = [] ∨ pre = [Event.changeTenant tenant]) ∧
      ∀ t, OpM.changeTenant tenant t = (t ++ pre, Except.ok ()) := by
    unfold OpM.changeTenant
    cases strTruthy tenant
    · exact ⟨[], Or.inl rfl, fun t => by simp [OpM.pure]⟩
    · exact ⟨[Event.changeTenant tenant], Or.inr rfl, fun t => by simp [OpM.emit]⟩
  obtain ⟨pre, hpre, hct⟩ := hct
  refine ⟨pre, hpre, ?_⟩
  simp only [OpM.underTicket, OpM.bind_apply, OpM.tryCatch, hct, OpM.callNextQuery, hmt, if_true,
    OpM.emit, OpM.pure_apply, OpM.await]
  cases answer (trace ++ pre ++ [Event.call c]) with
  | error e => simp [rethrow, OpM.throw, List.append_assoc]
  | ok a => simp [List.append_assoc]

theorem queue_run_turn (strict : Bool) (tenant : Option String) (queryId : String)
    (waiting : List String) (c : LibraryCall) (pre : List Event)
    (hpre : pre = [] ∨ pre = [Event.changeTenant tenant]) :
    Queue.run strict ⟨queryId :: waiting, false⟩
      (pre ++ [Event.call c, Event.callNextQuery (some queryId)]) = some ⟨waiting, false⟩ := by
  rcases hpre with rfl | rfl <;> simp [Queue.run, Queue.step]

theorem callsLeft_append (a b : List Started) : callsLeft (a ++ b) = callsLeft a + callsLeft b := by
  induction a with
  | nil => simp [callsLeft]
  | cons s rest ih =>
    rw [List.cons_append]
    simp only [callsLeft]
    rw [ih]
    omega

/-- One turn of a call of `updateAssociations`: its events, and what it goes on with. -/
theorem resume_events (r : Repository) (lib : Library) (hmt : r.isMultitenantEnabled = true)
    (tenant : Option String) (queryId : String) (s : Started) (trace : List Event) :
    ∃ pre c, (pre = [] ∨ pre = [Event.changeTenant tenant]) ∧
      (s.resume r lib tenant (some queryId) trace).1 =
        trace ++ (pre ++ [Event.call c, Event.callNextQuery (some queryId)]) ∧
      ∀ s1, (s.resume r lib tenant (some queryId) trace).2 = Except.ok (Sum.inl s1) →
        callsLeft [s1] + 1 = callsLeft [s] := by
  cases hc : s.calls with
  | nil =>
    obtain ⟨pre, hpre, hev⟩ := underTicket_events r hmt tenant queryId
      (LibraryCall.reload s.entity) lib.entity trace
    refine ⟨pre, LibraryCall.reload s.entity, hpre, ?_, ?_⟩
    · simp only [Started.resume, hc, OpM.bind]
      rcases hu : OpM.underTicket r tenant (some queryId)
        (OpM.await (LibraryCall.reload s.entity) lib.entity) rethrow trace with ⟨t1, e | a⟩
      · rw [hu] at hev
        exact hev
      · rw [hu] at hev
        exact hev
    · intro s1 h
      simp only [Started.resume, hc, OpM.bind] at h
      rcases hu : OpM.underTicket r tenant (some queryId)
        (OpM.await (LibraryCall.reload s.entity) lib.entity) rethrow trace with ⟨t1, e | a⟩
      · rw [hu] at h
        cases h
      · rw [hu] at h
        simp [OpM.pure] at h
  | cons c rest =>
    obtain ⟨pre, hpre, hev⟩ := underTicket_events r hmt tenant queryId c lib.done trace
    refine ⟨pre, c, hpre, ?_, ?_⟩
    · simp only [Started.resume, hc, OpM.bind]
      rcases hu : OpM.underTicket r tenant (some queryId) (OpM.await c lib.done) rethrow trace
        with ⟨t1, e | a⟩
      · rw [hu] at hev
        exact hev
      · rw [hu] at hev
        exact hev
    · intro s1 h
      simp only [Started.resume, hc, OpM.bind] at h
      rcases hu : OpM.underTicket r tenant (some queryId) (OpM.await c lib.done) rethrow trace
        with ⟨t1, e | a⟩
      · rw [hu] at h
        cases h
      · rw [hu] at h
        simp only [OpM.pure, Except.ok.injEq, Sum.inl.injEq] at h
        subst h
        simp [callsLeft, hc]

/-- The calls of `updateAssociations` push their first tickets in the order of the
calls. -/
theorem startQueued_events (strict : Bool) (lib : Library) :
    ∀ (started : List Started) (trace : List Event) (waitList : List String),
      ∃ es queue, startQueued lib started trace = (trace ++ es, Except.ok queue) ∧
        queue.map Prod.snd = started ∧
        Queue.run strict ⟨waitList, false⟩ es = some ⟨waitList ++ queue.map Prod.fst, false⟩
  | [], trace, waitList => ⟨[], [], by simp [startQueued, OpM.pure], rfl, by simp [Queue.run]⟩
  | s :: rest, trace, waitList => by
    obtain ⟨es, queue, h1, h2, h3⟩ := startQueued_events strict lib rest
      (trace ++ [Event.getQueryId (lib.generateRandomId trace)])
      (waitList ++ [lib.generateRandomId trace])
    refine ⟨Event.getQueryId (lib.generateRandomId trace) :: es,
      (lib.generateRandomId trace, s) :: queue, ?_, by simp [h2], ?_⟩
    · simp only [startQueued, OpM.bind, OpM.pushQueryId, h1, OpM.pure]
      simp [List.append_assoc]
    · simp only [Queue.run, Queue.step, h3]
      simp [List.append_assoc]

/-- The events of a call of `updateAssociations` that is woken, up to its `await`. -/
theorem call_events (strict : Bool) (tenant : Option String) (s : Started) (queryId : String)
    (waiting : List String) (trace : List Event) :
    ∃ es, (s.call tenant trace) = (trace ++ es, Except.ok ()) ∧
      Queue.run strict ⟨queryId :: waiting, false⟩ es = some ⟨queryId :: waiting, true⟩ := by
  unfold Started.call OpM.changeTenant
  cases strTruthy tenant
  · exact ⟨[Event.call s.nextCall], by simp [OpM.pure], by simp [Queue.run, Queue.step]⟩
  · exact ⟨[Event.changeTenant tenant, Event.call s.nextCall], by simp [OpM.emit],
      by simp [Queue.run, Queue.step]⟩

/-- The turns of the calls of `updateAssociations` keep the discipline of the serializer:
each ticket is given back right after the answer to the call made under it, and when the
turns end by a return no ticket is left. -/
theorem settleQueued_events (strict : Bool) (r : Repository) (lib : Library)
    (hmt : r.isMultitenantEnabled = true) (tenant : Option String) :
    ∀ (fuel : Nat) (queue : List (String × Started)) (results : List (Nat × Obj))
      (trace : List Event), callsLeft (queue.map Prod.snd) ≤ fuel →
      ∃ es pending called,
        (settleQueued r lib tenant fuel queue results trace).1 = trace ++ es ∧
        Queue.run strict ⟨queue.map Prod.fst, false⟩ es = some ⟨pending, called⟩ ∧
        (returned (settleQueued r lib tenant fuel queue results trace) = true →
          pending = [] ∧ called = false)
  | 0, [], results, trace, _ =>
    ⟨[], [], false, by simp [settleQueued, OpM.pure], rfl, fun _ => ⟨rfl, rfl⟩⟩
  | 0, (queryId, s) :: waiting, results, trace, h => by
    simp [callsLeft] at h
  | fuel + 1, [], results, trace, _ =>
    ⟨[], [], false, by simp [settleQueued, OpM.pure], rfl, fun _ => ⟨rfl, rfl⟩⟩
  | fuel + 1, (queryId, s) :: waiting, results, trace, h => by
    obtain ⟨pre, c, hpre, hev, hleft⟩ := resume_events r lib hmt tenant queryId s trace
    have hturn := queue_run_turn strict tenant queryId (waiting.map Prod.fst) c pre hpre
    simp only [List.map_cons, callsLeft] at h
    simp only [settleQueued, OpM.bind, OpM.tryCatch]
    rcases hres : s.resume r lib tenant (some queryId) trace with ⟨t1, e | next⟩
    · rw [hres] at hev
      simp only at hev ⊢
      cases waiting with
      | nil =>
        exact ⟨_, [], false, by simp only [OpM.throw]; exact hev, by simpa using hturn,
          fun hret => by simp [returned, OpM.throw] at hret⟩
      | cons woken rest =>
        obtain ⟨es2, h1, h2⟩ := call_events strict tenant woken.2 woken.1
          (rest.map Prod.fst) t1
        refine ⟨pre ++ [Event.call c, Event.callNextQuery (some queryId)] ++ es2,
          woken.1 :: rest.map Prod.fst, true, ?_, ?_, ?_⟩
        · simp only [OpM.bind, h1, OpM.throw]
          rw [hev]
          simp [List.append_assoc]
        · rw [queue_run_append]
          simp only [List.map_cons] at hturn ⊢
          rw [hturn]
          exact h2
        · intro hret
          simp [OpM.bind, h1, returned, OpM.throw] at hret
    · rw [hres] at hev hleft
      simp only at hev hleft ⊢
      cases next with
      | inl s1 =>
        have hs1 := hleft s1 rfl
        simp only [callsLeft] at hs1
        obtain ⟨es2, pending, called, h1, h2, h3⟩ := settleQueued_events strict r lib hmt
          tenant fuel (waiting ++ [(lib.generateRandomId t1, s1)]) results
          (t1 ++ [Event.getQueryId (lib.generateRandomId t1)])
          (by rw [List.map_append, callsLeft_append]; simp only [List.map, callsLeft]; omega)
        refine ⟨pre ++ [Event.call c, Event.callNextQuery (some queryId)] ++
          (Event.getQueryId (lib.generateRandomId t1) :: es2), pending, called, ?_, ?_, h3⟩
        · show (settleQueued r lib tenant fuel (waiting ++ [(lib.generateRandomId t1, s1)])
            results (t1 ++ [Event.getQueryId (lib.generateRandomId t1)])).1 = _
          rw [h1, hev]
          simp [List.append_assoc]
        · rw [queue_run_append]
          simp only [List.map_cons] at hturn ⊢
          rw [hturn]
          simp only [Option.bind, Queue.run, Queue.step]
          simpa using h2
      | inr entity =>
        obtain ⟨es2, pending, called, h1, h2, h3⟩ := settleQueued_events strict r lib hmt
          tenant fuel waiting (results ++ [(s.index, entity)]) t1 (by omega)
        refine ⟨pre ++ [Event.call c, Event.callNextQuery (some queryId)] ++ es2, pending,
          called, ?_, ?_, h3⟩
        · rw [h1, hev]
          simp [List.append_assoc]
        · rw [queue_run_append]
          simp only [List.map_cons] at hturn ⊢
          rw [hturn]
          exact h2

/-- The calls of `updateAssociations` under `Promise.all` keep the discipline of the
serializer; when `Promise.all` rejects, the tickets left are those of the calls that wait
for their turn. -/
theorem queued_all (strict : Bool) (r : Repository) (lib : Library)
    (hmt : r.isMultitenantEnabled = true) (transactionId tenant : Option String)
    (calls : List (Obj × Option (List (String × Val)))) :
    Queued strict (OpM.all r lib transactionId tenant calls) := by
  cases calls with
  | nil => exact queued_of_closed (closed_opPure strict _)
  | cons call rest =>
    intro trace
    obtain ⟨es1, queue, h1, h2, h3⟩ := startQueued_events strict lib
      (startedFrom r transactionId 0 (call :: rest))
      (trace ++ [Event.updateAssociations (call :: rest)]) []
    obtain ⟨es2, pending, called, h4, h5, h6⟩ := settleQueued_events strict r lib hmt tenant
      (callsLeft (startedFrom r transactionId 0 (call :: rest))) queue []
      (trace ++ [Event.updateAssociations (call :: rest)] ++ es1) (by rw [h2])
    simp only [List.nil_append] at h3
    refine ⟨Event.updateAssociations (call :: rest) :: (es1 ++ es2), pending, called,
      ?_, ?_, ?_⟩
    · simp only [OpM.all, OpM.bind, OpM.emit, hmt, if_true, h1]
      rcases hs : settleQueued r lib tenant (callsLeft (startedFrom r transactionId 0 (call :: rest)))
        queue [] (trace ++ [Event.updateAssociations (call :: rest)] ++ es1) with ⟨t2, e | a⟩
      · rw [hs] at h4
        simp only at h4 ⊢
        rw [h4]
        simp [List.append_assoc]
      · rw [hs] at h4
        simp only [OpM.pure] at h4 ⊢
        rw [h4]
        simp [List.append_assoc]
    · simp only [Queue.run, Queue.step]
      rw [queue_run_append, h3]
      exact h5
    · intro hret
      rcases hret with hret | hret
      · apply h6
        simp only [OpM.all, OpM.bind, OpM.emit, hmt, if_true, h1] at hret
        rcases hs : settleQueued r lib tenant
          (callsLeft (startedFrom r transactionId 0 (call :: rest)))
          queue [] (trace ++ [Event.updateAssociations (call :: rest)] ++ es1) with ⟨t2, e | a⟩
        · rw [hs] at hret
          simp [returned] at hret
        · rfl
      · exact absurd (List.mem_cons_self _ _) (hret (call :: rest))

theorem closed_setSerialSequence (r : Repository) (lib : Library) (tenant : Option String) :
    Closed false (setSerialSequence r lib tenant) := by
  intro trace
  unfold setSerialSequence OpM.changeTenant
  cases strTruthy tenant
  · refine ⟨[Event.call (LibraryCall.setval
      (((r.sequelize.primaryKeys r.model).find? fun pk => pk.2).map fun pk => pk.1))], ?_, rfl⟩
    simp [OpM.bind_apply, OpM.pure, OpM.await]
  · refine ⟨[Event.changeTenant tenant, Event.call (LibraryCall.setval
      (((r.sequelize.primaryKeys r.model).find? fun pk => pk.2).map fun pk => pk.1))], ?_, rfl⟩
    simp [OpM.bind_apply, OpM.emit, OpM.await]

theorem closed_list (r : Repository) (lib : Library) (hmt : r.isMultitenantEnabled = true)
    (strict : Bool) (entityQuery : List (String × Val)) (entityQueryOptions : EntityQueryOptions)
    (o : CallOptions) :
    Closed strict (Serialized.list r lib entityQuery entityQueryOptions o) := by
  unfold Serialized.list
  repeat' first
    | with_reducible exact closed_pure strict _
    | with_reducible exact closed_opPure strict _
    | with_reducible exact closed_throw strict _
    | with_reducible exact closed_lift strict _
    | with_reducible exact closed_call r lib hmt strict _ _ _
    | with_reducible exact closed_callTranslated r lib hmt strict _ _ _
    | with_reducible exact closed_onEntity r lib hmt strict _ _ _ _
    | with_reducible refine closed_bind strict ?_ (fun _ => ?_)
    | split

theorem closed_refetched (r : Repository) (lib : Library) (hmt : r.isMultitenantEnabled = true)
    (strict : Bool) (action : Action) (hasFilteredArray : Bool) (entity : Obj)
    (o : CallOptions) :
    Closed strict (refetched r lib action hasFilteredArray entity o) := by
  unfold refetched
  repeat' first
    | with_reducible exact closed_pure strict _
    | with_reducible exact closed_opPure strict _
    | with_reducible exact closed_throw strict _
    | with_reducible exact closed_lift strict _
    | with_reducible exact closed_call r lib hmt strict _ _ _
    | with_reducible exact closed_callTranslated r lib hmt strict _ _ _
    | with_reducible exact closed_onEntity r lib hmt strict _ _ _ _
    | with_reducible refine closed_bind strict ?_ (fun _ => ?_)
    | split

theorem closed_refetchedAll (r : Repository) (lib : Library) (hmt : r.isMultitenantEnabled = true)
    (strict : Bool) (hasFilteredArray : Bool) (entities : List Obj)
    (o : CallOptions) :
    Closed strict (refetchedAll r lib hasFilteredArray entities o) := by
  unfold refetchedAll
  repeat' first
    | with_reducible exact closed_pure strict _
    | with_reducible exact closed_opPure strict _
    | with_reducible exact closed_throw strict _
    | with_reducible exact closed_lift strict _
    | with_reducible exact closed_call r lib hmt strict _ _ _
    | with_reducible exact closed_callTranslated r lib hmt strict _ _ _
    | with_reducible exact closed_onEntity r lib hmt strict _ _ _ _
    | with_reducible refine closed_bind strict ?_ (fun _ => ?_)
    | split

theorem closed_read (r : Repository) (lib : Library) (hmt : r.isMultitenantEnabled = true)
    (strict : Bool) (entityQuery : List (String × Val)) (o : CallOptions) :
    Closed strict (Serialized.read r lib entityQuery o) := by
  unfold Serialized.read
  repeat' first
    | with_reducible exact closed_pure strict _
    | with_reducible exact closed_opPure strict _
    | with_reducible exact closed_throw strict _
    | with_reducible exact closed_lift strict _
    | with_reducible exact closed_call r lib hmt strict _ _ _
    | with_reducible exact closed_callTranslated r lib hmt strict _ _ _
    | with_reducible exact closed_onEntity r lib hmt strict _ _ _ _
    | with_reducible exact closed_refetched r lib hmt strict _ _ _ _
    | with_reducible refine closed_bind strict ?_ (fun _ => ?_)
    | split

theorem closed_associationsToUpdate (strict : Bool) (r : Repository) (enabled : Bool)
    (entityDTO : List (String × Val)) :
    Closed strict (associationsToUpdate r enabled entityDTO) := by
  unfold associationsToUpdate
  split
  · exact closed_lift strict _
  · exact closed_opPure strict _

theorem closed_updateAssociationPairs (r : Repository) (lib : Library)
    (hmt : r.isMultitenantEnabled = true) (strict : Bool) (entity : Option Obj) (key : String)
    (transactionId tenant : Option String) (items : List Val) :
    ∀ index : Nat,
      Closed strict (updateAssociationPairs r lib entity key transactionId tenant index items) := by
  induction items with
  | nil =>
    intro index
    exact closed_opPure strict _
  | cons item rest ih =>
    intro index
    exact closed_opBind strict (closed_onEntity r lib hmt strict _ _ _ _) fun _ => ih _

theorem closed_updateAssociationKey (r : Repository) (lib : Library)
    (hmt : r.isMultitenantEnabled = true) (strict : Bool) (entity : Option Obj)
    (transactionId tenant : Option String) (key : String) (value : Val) :
    Closed strict (updateAssociationKey r lib entity transactionId tenant key value) := by
  unfold updateAssociationKey
  split
  · split
    · exact closed_updateAssociationPairs r lib hmt strict _ _ _ _ _ _
    · exact closed_onEntity r lib hmt strict _ _ _ _
  · exact closed_opPure strict _

theorem closed_updateAssociationKeys (r : Repository) (lib : Library)
    (hmt : r.isMultitenantEnabled = true) (strict : Bool) (entity : Option Obj)
    (transactionId tenant : Option String) (entityDTO : List (String × Val)) :
    Closed strict (updateAssociationKeys r lib entity transactionId tenant entityDTO) := by
  induction entityDTO with
  | nil => exact closed_opPure strict _
  | cons kv rest ih =>
    exact closed_opBind strict (closed_updateAssociationKey r lib hmt strict _ _ _ _ _) fun _ => ih

theorem closed_updateAssociations (r : Repository) (lib : Library)
    (hmt : r.isMultitenantEnabled = true) (strict : Bool) (entity : Option Obj)
    (entityDTO : Option (List (String × Val))) (transactionId tenant : Option String) :
    Closed strict (Serialized.updateAssociations r lib entity entityDTO transactionId tenant) := by
  unfold Serialized.updateAssociations
  exact closed_bind strict (closed_updateAssociationKeys r lib hmt strict _ _ _ _) fun _ =>
    closed_onEntity r lib hmt strict _ _ _ _

theorem closed_createEntity (r : Repository) (lib : Library) (hmt : r.isMultitenantEnabled = true)
    (entityDTO : List (String × Val)) (o : CallOptions)
    (associationsTenant : Option String) :
    Closed false (createEntity r lib entityDTO o associationsTenant) := by
  unfold createEntity
  repeat' first
    | with_reducible exact closed_pure false _
    | with_reducible exact closed_opPure false _
    | with_reducible exact closed_throw false _
    | with_reducible exact closed_lift false _
    | with_reducible exact closed_call r lib hmt false _ _ _
    | with_reducible exact closed_callTranslated r lib hmt false _ _ _
    | with_reducible exact closed_onEntity r lib hmt false _ _ _ _
    | with_reducible exact closed_updateAssociations r lib hmt false _ _ _ _
    | with_reducible exact closed_associationsToUpdate false _ _ _
    | with_reducible exact closed_refetched r lib hmt false _ _ _ _
    | with_reducible exact closed_refetchedAll r lib hmt false _ _ _
    | with_reducible exact closed_setSerialSequence r lib _
    | with_reducible refine closed_bind false ?_ (fun _ => ?_)
    | split

theorem closed_update (r : Repository) (lib : Library) (hmt : r.isMultitenantEnabled = true)
    (entityQuery entityDTO : List (String × Val)) (o : CallOptions) :
    Closed false (Serialized.update r lib entityQuery entityDTO o) := by
  unfold Serialized.update doesNotExist toJSONOrThrow
  repeat' first
    | with_reducible exact closed_pure false _
    | with_reducible exact closed_opPure false _
    | with_reducible exact closed_throw false _
    | with_reducible exact closed_lift false _
    | with_reducible exact closed_call r lib hmt false _ _ _
    | with_reducible exact closed_callTranslated r lib hmt false _ _ _
    | with_reducible exact closed_onEntity r lib hmt false _ _ _ _
    | with_reducible exact closed_updateAssociations r lib hmt false _ _ _ _
    | with_reducible exact closed_associationsToUpdate false _ _ _
    | with_reducible exact closed_refetched r lib hmt false _ _ _ _
    | with_reducible exact closed_refetchedAll r lib hmt false _ _ _
    | with_reducible exact closed_setSerialSequence r lib _
    | with_reducible refine closed_bind false ?_ (fun _ => ?_)
    | split
    | dsimp only

theorem closed_delete (r : Repository) (lib : Library) (hmt : r.isMultitenantEnabled = true)
    (strict : Bool) (entityQuery : List (String × Val)) (o : CallOptions) :
    Closed strict (Serialized.delete r lib entityQuery o) := by
  unfold Serialized.delete doesNotExist
  repeat' first
    | with_reducible exact closed_pure strict _
    | with_reducible exact closed_opPure strict _
    | with_reducible exact closed_throw strict _
    | with_reducible exact closed_lift strict _
    | with_reducible exact closed_call r lib hmt strict _ _ _
    | with_reducible exact closed_callTranslated r lib hmt strict _ _ _
    | with_reducible exact closed_onEntity r lib hmt strict _ _ _ _
    | with_reducible exact closed_updateAssociations r lib hmt strict _ _ _ _
    | with_reducible exact closed_associationsToUpdate strict _ _ _
    | with_reducible exact closed_refetched r lib hmt strict _ _ _ _
    | with_reducible exact closed_refetchedAll r lib hmt strict _ _ _
    | with_reducible refine closed_bind strict ?_ (fun _ => ?_)
    | split

theorem closed_count (r : Repository) (lib : Library) (hmt : r.isMultitenantEnabled = true)
    (strict : Bool) (entityQuery : List (String × Val))
    (loaded : Except String (Option (IncField Inc))) (o : CallOptions) :
    Closed strict (Serialized.count r lib entityQuery loaded o) := by
  unfold Serialized.count
  repeat' first
    | with_reducible exact closed_pure strict _
    | with_reducible exact closed_opPure strict _
    | with_reducible exact closed_throw strict _
    | with_reducible exact closed_lift strict _
    | with_reducible exact closed_call r lib hmt strict _ _ _
    | with_reducible exact closed_callTranslated r lib hmt strict _ _ _
    | with_reducible exact closed_onEntity r lib hmt strict _ _ _ _
    | with_reducible refine closed_bind strict ?_ (fun _ => ?_)
    | split

theorem queued_bulkCreate (r : Repository) (lib : Library) (hmt : r.isMultitenantEnabled = true)
    (entitiesDTO : List (List (String × Val))) (o : CallOptions) :
    Queued false (Serialized.bulkCreate r lib entitiesDTO o) := by
  unfold Serialized.bulkCreate
  repeat' first
    | with_reducible exact queued_of_closed (closed_pure false _)
    | with_reducible exact queued_of_closed (closed_opPure false _)
    | with_reducible exact queued_of_closed (closed_throw false _)
    | with_reducible exact queued_of_closed (closed_lift false _)
    | with_reducible exact queued_of_closed (closed_call r lib hmt false _ _ _)
    | with_reducible exact queued_of_closed (closed_setSerialSequence r lib _)
    | with_reducible exact queued_all false r lib hmt _ _ _
    | with_reducible refine queued_bind false ?_ (fun _ => ?_)
    | split
    | dsimp only

theorem queued_bulkUpdate (r : Repository) (lib : Library) (hmt : r.isMultitenantEnabled = true)
    (strict : Bool) (entityQuery entityDTO : List (String × Val)) (o : CallOptions) :
    Queued strict (Serialized.bulkUpdate r lib entityQuery entityDTO o) := by
  unfold Serialized.bulkUpdate
  repeat' first
    | with_reducible exact queued_of_closed (closed_pure strict _)
    | with_reducible exact queued_of_closed (closed_opPure strict _)
    | with_reducible exact queued_of_closed (closed_throw strict _)
    | with_reducible exact queued_of_closed (closed_lift strict _)
    | with_reducible exact queued_of_closed (closed_call r lib hmt strict _ _ _)
    | with_reducible exact queued_of_closed (closed_callTranslated r lib hmt strict _ _ _)
    | with_reducible exact queued_of_closed (closed_associationsToUpdate strict _ _ _)
    | with_reducible exact queued_of_closed (closed_refetchedAll r lib hmt strict _ _ _)
    | with_reducible exact queued_all strict r lib hmt _ _ _
    | with_reducible refine queued_bind strict ?_ (fun _ => ?_)
    | split
    | dsimp only

theorem closed_validate (r : Repository) (lib : Library) (hmt : r.isMultitenantEnabled = true)
    (strict : Bool) (entityDTO : List (String × Val)) (partialValidation : Bool)
    (tenant : Option String) :
    Closed strict (Serialized.validate r lib entityDTO partialValidation tenant) := by
  intro trace
  have hrun : ∀ pre : List Event, (pre = [] ∨ pre = [Event.changeTenant tenant]) → ∀ c,
      Phase.run strict Phase.idle
        ([Event.getQueryId (lib.generateRandomId trace)] ++ pre ++ [Event.call c] ++
          [Event.callNextQuery (some (lib.generateRandomId trace))]) = some Phase.idle := by
    intro pre hpre c
    rcases hpre with rfl | rfl <;> simp [Phase.run, Phase.step]
  have hct : ∃ pre, (pre = [] ∨ pre = [Event.changeTenant tenant]) ∧
      ∀ t, OpM.changeTenant tenant t = (t ++ pre, Except.ok ()) := by
    unfold OpM.changeTenant
    cases strTruthy tenant
    · exact ⟨[], Or.inl rfl, fun t => by simp [OpM.pure]⟩
    · exact ⟨[Event.changeTenant tenant], Or.inr rfl, fun t => by simp [OpM.emit]⟩
  obtain ⟨pre, hpre, hct⟩ := hct
  refine ⟨_, ?_, hrun pre hpre (LibraryCall.validate entityDTO
    (if partialValidation then some (entityDTO.map fun kv => kv.1) else none))⟩
  simp only [Serialized.validate, OpM.bind_apply, OpM.getQueryId, hmt, if_true, OpM.tryCatch,
    hct, OpM.await, OpM.callNextQuery, OpM.emit, OpM.pure_apply]
  rcases lib.validated _ with error | result
  · cases error <;>
      simp [pure, bind, OpM.pure, OpM.bind, OpM.throw, OpM.emit, List.append_assoc]
  · simp [pure, bind, OpM.pure, OpM.bind, OpM.emit, List.append_assoc]

theorem closed_tenantsCreate (r : Repository) (lib : Library)
    (hmt : r.isMultitenantEnabled = true) (entityDTO : List (String × Val)) (o : CallOptions) :
    Closed false (TenantsRepository.create r lib entityDTO o) := by
  have hawait : ∀ c, Closed false (OpM.await c lib.done) :=
    fun c trace => ⟨[Event.call c], rfl, rfl⟩
  have hemit : Closed false (OpM.emit (Event.changeTenant none)) :=
    fun trace => ⟨[Event.changeTenant none], rfl, rfl⟩
  unfold TenantsRepository.create
  repeat' first
    | with_reducible exact hawait _
    | with_reducible exact hemit
    | with_reducible exact closed_createEntity r lib hmt _ _ _
    | with_reducible refine closed_bind false ?_ (fun _ => ?_)
    | split

theorem not_mem_waitListAfter (queryId : String) :
    ∀ (es : List Event) (waitList : List String), queryId ∉ waitList →
      Event.getQueryId queryId ∉ es → queryId ∉ waitListAfter waitList es
  | [], waitList, h, _ => by simpa [waitListAfter] using h
  | e :: es, waitList, h, hes => by
    have hrest : Event.getQueryId queryId ∉ es := fun hm => hes (List.mem_cons_of_mem _ hm)
    cases e with
    | getQueryId k =>
      have hk : queryId ≠ k := fun heq => hes (heq ▸ List.mem_cons_self _ _)
      simp only [waitListAfter]
      exact not_mem_waitListAfter queryId es _ (by simp [h, hk]) hrest
    | callNextQuery k =>
      simp only [waitListAfter]
      exact not_mem_waitListAfter queryId es _
        (fun hm => h (List.mem_filter.mp hm).1) hrest
    | changeTenant t => exact not_mem_waitListAfter queryId es _ h hrest
    | call c => exact not_mem_waitListAfter queryId es _ h hrest
    | updateAssociations calls => exact not_mem_waitListAfter queryId es _ h hrest

/-- After events that keep the discipline and leave no ticket held, the wait list holds
neither a ticket taken by them nor the ticket held before them. -/
theorem released_of_run (strict : Bool) (queryId : String) :
    ∀ (es : List Event) (p : Phase) (waitList : List String),
      Phase.run strict p es = some Phase.idle →
      (Event.getQueryId queryId ∈ es ∨ ∃ called, p = Phase.holding queryId called) →
      queryId ∉ waitListAfter waitList es
  | [], p, waitList, hrun, h => by
    simp only [Phase.run, Option.some.injEq] at hrun
    subst hrun
    rcases h with h | ⟨_, h⟩
    · cases h
    · cases h
  | e :: es, p, waitList, hrun, h => by
    simp only [Phase.run] at hrun
    cases hstep : p.step strict e with
    | none => rw [hstep] at hrun; cases hrun
    | some q =>
      rw [hstep] at hrun
      simp only at hrun
      have ih := released_of_run strict queryId es q
      cases e with
      | getQueryId k =>
        simp only [waitListAfter]
        apply ih _ hrun
        cases p with
        | idle =>
          simp only [Phase.step, Option.some.injEq] at hstep
          rcases h with h | ⟨_, h⟩
          · rcases List.mem_cons.mp h with h | h
            · cases h
              exact Or.inr ⟨false, hstep.symm⟩
            · exact Or.inl h
          · cases h
        | holding held called => cases called <;> simp [Phase.step] at hstep
      | callNextQuery k =>
        simp only [waitListAfter]
        by_cases hin : Event.getQueryId queryId ∈ es
        · exact ih _ hrun (Or.inl hin)
        · cases p with
          | idle => simp [Phase.step] at hstep
          | holding held called =>
            rcases h with h | ⟨c, h⟩
            · rcases List.mem_cons.mp h with h | h
              · cases h
              · exact absurd h hin
            · cases h
              have hk : k = some queryId := by
                simp only [Phase.step] at hstep
                split at hstep
                · assumption
                · cases hstep
              subst hk
              exact not_mem_waitListAfter queryId es _ (by simp [List.mem_filter]) hin
      | changeTenant t =>
        simp only [waitListAfter]
        apply ih _ hrun
        rcases h with h | ⟨c, h⟩
        · rcases List.mem_cons.mp h with h | h
          · cases h
          · exact Or.inl h
        · subst h
          cases c <;> simp only [Phase.step, Option.some.injEq] at hstep
          · exact Or.inr ⟨false, hstep.symm⟩
          · cases hstep
      | call c0 =>
        simp only [waitListAfter]
        apply ih _ hrun
        rcases h with h | ⟨c, h⟩
        · rcases List.mem_cons.mp h with h | h
          · cases h
          · exact Or.inl h
        · subst h
          cases c <;> simp only [Phase.step, Option.some.injEq] at hstep
          · exact Or.inr ⟨true, hstep.symm⟩
          · cases hstep
      | updateAssociations calls =>
        simp only [waitListAfter]
        apply ih _ hrun
        rcases h with h | ⟨c, h⟩
        · rcases List.mem_cons.mp h with h | h
          · cases h
          · exact Or.inl h
        · subst h
          cases c <;> simp [Phase.step] at hstep

/-- After events that keep the discipline of the serializer among calls that wait for one
another, the wait list holds no ticket pushed by them, or listed before them, other than
those that the discipline leaves. -/
theorem released_of_queue (strict : Bool) (queryId : String) :
    ∀ (es : List Event) (q q1 : Queue) (waitList : List String),
      Queue.run strict q es = some q1 → queryId ∉ q1.waitList →
      (Event.getQueryId queryId ∈ es ∨ queryId ∈ q.waitList) →
      queryId ∉ waitListAfter waitList es
  | [], q, q1, waitList, hrun, hout, h => by
    simp only [Queue.run, Option.some.injEq] at hrun
    subst hrun
    rcases h with h | h
    · cases h
    · exact absurd h hout
  | e :: es, q, q1, waitList, hrun, hout, h => by
    simp only [Queue.run] at hrun
    cases hstep : q.step strict e with
    | none => rw [hstep] at hrun; cases hrun
    | some q2 =>
      rw [hstep] at hrun
      simp only at hrun
      have ih := released_of_queue strict queryId es q2 q1
      obtain ⟨wl, called⟩ := q
      cases e with
      | getQueryId k =>
        have hq2 : q2.waitList = wl ++ [k] := by
          cases called
          · simp only [Queue.step, Option.some.injEq] at hstep
            rw [← hstep]
          · cases wl <;> simp [Queue.step] at hstep
        simp only [waitListAfter]
        apply ih _ hrun hout
        rw [hq2]
        rcases h with h | h
        · rcases List.mem_cons.mp h with h | h
          · cases h
            exact Or.inr (by simp)
          · exact Or.inl h
        · exact Or.inr (List.mem_append_left _ h)
      | callNextQuery k =>
        simp only [waitListAfter]
        cases wl with
        | nil => cases called <;> simp [Queue.step] at hstep
        | cons held waiting =>
          have hk : k = some held ∧ q2.waitList = waiting := by
            simp only [Queue.step] at hstep
            split at hstep
            · next hk =>
              simp only [Option.some.injEq] at hstep
              exact ⟨hk, by rw [← hstep]⟩
            · cases hstep
          obtain ⟨hk, hq2⟩ := hk
          by_cases hin : Event.getQueryId queryId ∈ es
          · exact ih _ hrun hout (Or.inl hin)
          · rcases h with h | h
            · rcases List.mem_cons.mp h with h | h
              · cases h
              · exact absurd h hin
            · rcases List.mem_cons.mp h with h | h
              · subst h hk
                exact not_mem_waitListAfter queryId es _ (by simp [List.mem_filter]) hin
              · exact ih _ hrun hout (Or.inr (by rw [hq2]; exact h))
      | changeTenant t =>
        have hq2 : q2.waitList = wl := by
          cases wl <;> cases called <;> simp only [Queue.step] at hstep
          · split at hstep
            · cases hstep
            · simp only [Option.some.injEq] at hstep
              rw [← hstep]
          · cases hstep
          · simp only [Option.some.injEq] at hstep
            rw [← hstep]
          · cases hstep
        simp only [waitListAfter]
        apply ih _ hrun hout
        rw [hq2]
        rcases h with h | h
        · rcases List.mem_cons.mp h with h | h
          · cases h
          · exact Or.inl h
        · exact Or.inr h
      | call c =>
        have hq2 : q2.waitList = wl := by
          cases wl <;> cases called <;> simp only [Queue.step] at hstep
          · split at hstep
            · cases hstep
            · simp only [Option.some.injEq] at hstep
              rw [← hstep]
          · cases hstep
          · simp only [Option.some.injEq] at hstep
            rw [← hstep]
          · cases hstep
        simp only [waitListAfter]
        apply ih _ hrun hout
        rw [hq2]
        rcases h with h | h
        · rcases List.mem_cons.mp h with h | h
          · cases h
          · exact Or.inl h
        · exact Or.inr h
      | updateAssociations calls =>
        have hq2 : q2.waitList = wl := by
          cases wl <;> cases called <;> simp only [Queue.step] at hstep
          · simp only [Option.some.injEq] at hstep
            rw [← hstep]
          · cases hstep
          · cases hstep
          · cases hstep
        simp only [waitListAfter]
        apply ih _ hrun hout
        rw [hq2]
        rcases h with h | h
        · rcases List.mem_cons.mp h with h | h
          · cases h
          · exact Or.inl h
        · exact Or.inr h

/-- The events of an operation that awaits no `Promise.all` keep the discipline of the
serializer and leave no ticket held. -/
theorem closed_operation (r : Repository) (lib : Library) (hmt : r.isMultitenantEnabled = true)
    (op : Operation) (hop : op.awaitsAll = false) (trace : List Event) :
    ∃ es, op.events r lib trace = trace ++ es ∧ Serial false es := by
  cases op with
  | list entityQuery entityQueryOptions o => exact closed_list r lib hmt false _ _ _ trace
  | read entityQuery o => exact closed_read r lib hmt false _ _ trace
  | create entityDTO o => exact closed_createEntity r lib hmt _ _ _ trace
  | update entityQuery entityDTO o => exact closed_update r lib hmt _ _ _ trace
  | delete entityQuery o => exact closed_delete r lib hmt false _ _ trace
  | count entityQuery loaded o => exact closed_count r lib hmt false _ _ _ trace
  | validate entityDTO partialValidation tenant => exact closed_validate r lib hmt false _ _ _ trace
  | bulkCreate entitiesDTO o => cases hop
  | bulkUpdate entityQuery entityDTO o => cases hop
  | updateAssociations entity entityDTO transactionId tenant =>
    exact closed_updateAssociations r lib hmt false _ _ _ _ trace

/-- The events of every operation keep the discipline of the serializer among calls that
wait for one another. -/
theorem queued_operation (r : Repository) (lib : Library) (hmt : r.isMultitenantEnabled = true)
    (op : Operation) (trace : List Event) :
    ∃ es pending called, op.events r lib trace = trace ++ es ∧
      Queue.run false ⟨[], false⟩ es = some ⟨pending, called⟩ ∧
      ((op.returns r lib trace = true ∨ ∀ calls, Event.updateAssociations calls ∉ es) →
        pending = [] ∧ called = false) := by
  cases hop : op.awaitsAll with
  | false =>
    obtain ⟨es, h1, h2⟩ := closed_operation r lib hmt op hop trace
    exact ⟨es, [], false, h1, queue_of_phase false es Phase.idle h2, fun _ => ⟨rfl, rfl⟩⟩
  | true =>
    cases op with
    | bulkCreate entitiesDTO o => exact queued_bulkCreate r lib hmt _ _ trace
    | bulkUpdate entityQuery entityDTO o => exact queued_bulkUpdate r lib hmt false _ _ _ trace
    | _ => cases hop

/-- C18, the claim as stated fails for `bulkCreate`: with multitenancy enabled and a
library whose `reload` fails, `bulkCreate` of two DTOs starts two calls of
`updateAssociations`, which push the tickets `t7` and `t8`; the `reload` of the first throws,
its ticket `t7` is given back, which wakes the second call, `Promise.all` rejects and
`bulkCreate` throws, while the ticket `t8` of the second call, whose `reload` is in flight,
is still in the wait list. -/
theorem bulkCreate_leaves_ticket :
    (Operation.bulkCreate [[("name", Val.str "a"), ("posts", Val.arr [Val.num 1])],
        [("name", Val.str "b"), ("posts", Val.arr [Val.num 2])]] {}).events exampleTenantUsers
        exampleFailingReload [] =
      [Event.getQueryId "t0",
        Event.call (LibraryCall.bulkCreate
          [[("name", Val.str "a"), ("posts", Val.arr [Val.num 1])],
            [("name", Val.str "b"), ("posts", Val.arr [Val.num 2])]] none),
        Event.callNextQuery (some "t0"),
        Event.getQueryId "t3",
        Event.call (LibraryCall.findAll "defaultScope"
          (refetchIn exampleTenantUsers Action.Create [exampleUser1, exampleUser2] none none)),
        Event.callNextQuery (some "t3"),
        Event.updateAssociations [(exampleUser1, none), (exampleUser2, none)],
        Event.getQueryId "t7",
        Event.getQueryId "t8",
        Event.call (LibraryCall.reload exampleUser1),
        Event.callNextQuery (some "t7"),
        Event.call (LibraryCall.reload exampleUser2)] ∧
    (Operation.bulkCreate [[("name", Val.str "a"), ("posts", Val.arr [Val.num 1])],
        [("name", Val.str "b"), ("posts", Val.arr [Val.num 2])]] {}).returns exampleTenantUsers
        exampleFailingReload [] = false ∧
    waitListAfter []
      ((Operation.bulkCreate [[("name", Val.str "a"), ("posts", Val.arr [Val.num 1])],
        [("name", Val.str "b"), ("posts", Val.arr [Val.num 2])]] {}).events exampleTenantUsers
        exampleFailingReload []) = ["t8"] ∧
    ¬ Serial false
      ((Operation.bulkCreate [[("name", Val.str "a"), ("posts", Val.arr [Val.num 1])],
        [("name", Val.str "b"), ("posts", Val.arr [Val.num 2])]] {}).events exampleTenantUsers
        exampleFailingReload []) :=
  ⟨rfl, rfl, by decide, fun h => Option.noConfusion h⟩

/-- C18 as amended: with multitenancy enabled, the events of every operation of the
repository, after any events and whatever the library answers, keep the discipline of the
serializer: every ticket is given back right after the answer to the call made under it,
or before the call when the body of the `try` throws early, on return and on throw.  When
the operation ends, the wait list holds none of the tickets it took, apart from the
tickets `pending` of calls of `updateAssociations` that wait for their turn under
`Promise.all` (the first of them with its call in flight when `called` holds); there are
none when the operation returns, or when it has started no calls of `updateAssociations`
under `Promise.all`.  For the operations other than `bulkCreate` and `bulkUpdate` a ticket
is taken only when none is held, and none is left. -/
theorem operations_release_tickets (r : Repository) (lib : Library)
    (hmt : r.isMultitenantEnabled = true) (op : Operation) (trace : List Event) :
    ∃ es pending called, op.events r lib trace = trace ++ es ∧
      Queue.run false ⟨[], false⟩ es = some ⟨pending, called⟩ ∧
      (∀ (waitList : List String) (queryId : String), Event.getQueryId queryId ∈ es →
        queryId ∉ pending → queryId ∉ waitListAfter waitList es) ∧
      ((op.returns r lib trace = true ∨ ∀ calls, Event.updateAssociations calls ∉ es) →
        pending = [] ∧ called = false) ∧
      (op.awaitsAll = false → Serial false es ∧ pending = []) := by
  obtain ⟨es, pending, called, hes, hrun, hpending⟩ := queued_operation r lib hmt op trace
  refine ⟨es, pending, called, hes, hrun, fun waitList queryId hmem hout =>
    released_of_queue false queryId es _ _ waitList hrun hout (Or.inl hmem), hpending, ?_⟩
  intro hop
  obtain ⟨es1, hes1, hserial⟩ := closed_operation r lib hmt op hop trace
  have hsame : es1 = es := List.append_cancel_left (hes1.symm.trans hes)
  subst hsame
  have hq := queue_of_phase false es1 Phase.idle hserial
  rw [hrun] at hq
  simp only [Option.some.injEq, Queue.mk.injEq] at hq
  exact ⟨hserial, hq.1⟩

theorem operations_release_tickets_witness :
    ∃ es pending called, (Operation.bulkCreate
        [[("name", Val.str "a"), ("posts", Val.arr [Val.num 1])],
          [("name", Val.str "b"), ("posts", Val.arr [Val.num 2])]] {}).events
        exampleTenantUsers exampleLibrary [] = [] ++ es ∧
      Queue.run false ⟨[], false⟩ es = some ⟨pending, called⟩ ∧
      (∀ (waitList : List String) (queryId : String), Event.getQueryId queryId ∈ es →
        queryId ∉ pending → queryId ∉ waitListAfter waitList es) ∧
      (((Operation.bulkCreate
          [[("name", Val.str "a"), ("posts", Val.arr [Val.num 1])],
            [("name", Val.str "b"), ("posts", Val.arr [Val.num 2])]] {}).returns
          exampleTenantUsers exampleLibrary [] = true ∨
        ∀ calls, Event.updateAssociations calls ∉ es) → pending = [] ∧ called = false) ∧
      ((Operation.bulkCreate
          [[("name", Val.str "a"), ("posts", Val.arr [Val.num 1])],
            [("name", Val.str "b"), ("posts", Val.arr [Val.num 2])]] {}).awaitsAll = false →
        Serial false es ∧ pending = []) :=
  operations_release_tickets exampleTenantUsers exampleLibrary rfl
    (Operation.bulkCreate [[("name", Val.str "a"), ("posts", Val.arr [Val.num 1])],
      [("name", Val.str "b"), ("posts", Val.arr [Val.num 2])]] {}) []

/-- The events of `bulkCreate` of two DTOs when every call returns: the two calls of
`updateAssociations` push their tickets, make their `reload` one after the other, and no
ticket is left. -/
theorem bulkCreate_takes_turns :
    (Operation.bulkCreate [[("name", Val.str "a"), ("posts", Val.arr [Val.num 1])],
        [("name", Val.str "b"), ("posts", Val.arr [Val.num 2])]] {}).events exampleTenantUsers
        exampleLibrary [] =
      [Event.getQueryId "t0",
        Event.call (LibraryCall.bulkCreate
          [[("name", Val.str "a"), ("posts", Val.arr [Val.num 1])],
            [("name", Val.str "b"), ("posts", Val.arr [Val.num 2])]] none),
        Event.callNextQuery (some "t0"),
        Event.getQueryId "t3",
        Event.call (LibraryCall.findAll "defaultScope"
          (refetchIn exampleTenantUsers Action.Create [exampleUser1, exampleUser2] none none)),
        Event.callNextQuery (some "t3"),
        Event.updateAssociations [(exampleUser1, none), (exampleUser2, none)],
        Event.getQueryId "t7",
        Event.getQueryId "t8",
        Event.call (LibraryCall.reload exampleUser1),
        Event.callNextQuery (some "t7"),
        Event.call (LibraryCall.reload exampleUser2),
        Event.callNextQuery (some "t8")] ∧
    waitListAfter []
      ((Operation.bulkCreate [[("name", Val.str "a"), ("posts", Val.arr [Val.num 1])],
        [("name", Val.str "b"), ("posts", Val.arr [Val.num 2])]] {}).events exampleTenantUsers
        exampleLibrary []) = [] :=
  ⟨rfl, by decide⟩

/-- C19: with multitenancy enabled, `create({ id: 5, name: 'b' }, { tenant: 't1',
ignoreSerialPk: false })` on a model whose primary key `id` is auto-incremented gives its
first ticket back after four events, and then, holding no ticket, switches the tenant and
runs the raw query of `setSerialSequence`; its events do not keep the strict discipline. -/
theorem create_resets_sequence_without_ticket :
    (exampleCreate.events exampleTenantUsers exampleLibrary []).take 1 =
        [Event.getQueryId "t0"] ∧
      ((exampleCreate.events exampleTenantUsers exampleLibrary []).drop 3).take 3 =
        [Event.callNextQuery (some "t0"), Event.changeTenant (some "t1"),
          Event.call (LibraryCall.setval (some "id"))] ∧
      Phase.run true Phase.idle
        ((exampleCreate.events exampleTenantUsers exampleLibrary []).take 4) = some Phase.idle ∧
      ¬ Serial true (exampleCreate.events exampleTenantUsers exampleLibrary []) :=
  ⟨rfl, rfl, rfl, fun h => Option.noConfusion h⟩

/-- The method `create` of the repository of the tenants creates the schema, switches the
tenant and synchronises the models before it takes its first ticket. -/
theorem tenantsCreate_without_ticket :
    ((TenantsRepository.create exampleTenantUsers exampleLibrary
        [("id", Val.str "acme"), ("name", Val.str "Acme")] {} []).1).take 4 =
      [Event.call (LibraryCall.createSchema "acme"), Event.changeTenant none,
        Event.call (LibraryCall.sync "acme"), Event.getQueryId "t3"] := by
  rfl

/-- The operations that do not reset the serial sequence switch the tenant and call the
library only under a ticket. -/
theorem strict_operations (r : Repository) (lib : Library) (hmt : r.isMultitenantEnabled = true)
    (trace : List Event) :
    (∀ entityQuery entityQueryOptions o, ∃ es,
      (Operation.list entityQuery entityQueryOptions o).events r lib trace = trace ++ es ∧
        Serial true es) ∧
    (∀ entityQuery o, ∃ es,
      (Operation.read entityQuery o).events r lib trace = trace ++ es ∧ Serial true es) ∧
    (∀ entityQuery o, ∃ es,
      (Operation.delete entityQuery o).events r lib trace = trace ++ es ∧ Serial true es) ∧
    (∀ entityQuery loaded o, ∃ es,
      (Operation.count entityQuery loaded o).events r lib trace = trace ++ es ∧ Serial true es) ∧
    (∀ entityDTO partialValidation tenant, ∃ es,
      (Operation.validate entityDTO partialValidation tenant).events r lib trace = trace ++ es ∧
        Serial true es) ∧
    (∀ entity entityDTO transactionId tenant, ∃ es,
      (Operation.updateAssociations entity entityDTO transactionId tenant).events r lib trace =
        trace ++ es ∧ Serial true es) :=
  ⟨fun _ _ _ => closed_list r lib hmt true _ _ _ trace,
    fun _ _ => closed_read r lib hmt true _ _ trace,
    fun _ _ => closed_delete r lib hmt true _ _ trace,
    fun _ _ _ => closed_count r lib hmt true _ _ _ trace,
    fun _ _ _ => closed_validate r lib hmt true _ _ _ trace,
    fun _ _ _ _ => closed_updateAssociations r lib hmt true _ _ _ _ trace⟩

/-! ## One call of `updateAssociations` under `Promise.all`

For an array of one entity, `await Promise.all([this.updateAssociations(entity, ...)])` is
`[await this.updateAssociations(entity, ...)]`: the interleaving of the calls agrees with
the method run on its own. -/

theorem OpM.bind_assoc {α β γ : Type} (m : OpM α) (f : α → OpM β) (g : β → OpM γ) :
    OpM.bind (OpM.bind m f) g = OpM.bind m fun a => OpM.bind (f a) g := by
  funext trace
  simp only [OpM.bind]
  rcases m trace with ⟨t1, e | a⟩ <;> rfl

theorem OpM.pure_bind {α β : Type} (a : α) (f : α → OpM β) :
    OpM.bind (OpM.pure a) f = f a := rfl

/-- With multitenancy enabled, the statements around a call of the library push a ticket
and go on under it. -/
theorem serialized_eq_push {α : Type} (r : Repository) (lib : Library)
    (hmt : r.isMultitenantEnabled = true) (tenant : Option String) (body : OpM α)
    (handler : Failure → OpM α) :
    OpM.serialized r lib tenant body handler =
      OpM.bind (OpM.pushQueryId lib) fun queryId =>
        OpM.underTicket r tenant (some queryId) body handler := by
  funext trace
  simp only [OpM.serialized, OpM.bind_apply, OpM.getQueryId, hmt, if_true, OpM.bind,
    OpM.pushQueryId, OpM.underTicket]

/-- Without multitenancy, the statements around a call of the library take no ticket. -/
theorem serialized_eq_none {α : Type} (r : Repository) (lib : Library)
    (hmt : r.isMultitenantEnabled = false) (tenant : Option String) (body : OpM α)
    (handler : Failure → OpM α) :
    OpM.serialized r lib tenant body handler = OpM.underTicket r tenant none body handler := by
  funext trace
  simp only [OpM.serialized, OpM.bind_apply, OpM.getQueryId, hmt, Bool.false_eq_true, if_false,
    OpM.underTicket]

theorem OpM.bind_pure_unit (m : OpM Unit) : OpM.bind m (fun _ => OpM.pure ()) = m := by
  funext trace
  simp only [OpM.bind]
  rcases m trace with ⟨t1, e | a⟩ <;> rfl

/-- A continuation after calls made one after the other is the continuation of the last. -/
theorem foldr_bind {α β : Type} (r : Repository) (lib : Library) (tenant : Option String)
    (k : OpM α) (g : α → OpM β) :
    ∀ cs : List LibraryCall,
      OpM.bind (cs.foldr (fun c rest =>
          OpM.bind (OpM.serialized r lib tenant (OpM.await c lib.done) rethrow) fun _ => rest) k) g =
        cs.foldr (fun c rest =>
          OpM.bind (OpM.serialized r lib tenant (OpM.await c lib.done) rethrow) fun _ => rest)
          (OpM.bind k g)
  | [] => rfl
  | c :: cs => by
    simp only [List.foldr_cons]
    rw [OpM.bind_assoc]
    exact congrArg (OpM.bind _) (funext fun _ => foldr_bind r lib tenant k g cs)

/-- The loop of `updateAssociations` over the pairs under a key makes the calls of
`pairCalls` one after the other. -/
theorem updateAssociationPairs_eq (r : Repository) (lib : Library) (e : Obj) (key : String)
    (transactionId tenant : Option String) :
    ∀ (items : List Val) (index : Nat),
      updateAssociationPairs r lib (some e) key transactionId tenant index items =
        (pairCalls key transactionId e index items).foldr (fun c rest =>
          OpM.bind (OpM.serialized r lib tenant (OpM.await c lib.done) rethrow) fun _ => rest)
          (OpM.pure ())
  | [], _ => rfl
  | item :: rest, index => by
    simp only [updateAssociationPairs, pairCalls, List.foldr_cons, onEntity]
    exact congrArg (OpM.bind _)
      (funext fun _ => updateAssociationPairs_eq r lib e key transactionId tenant rest (index + 1))

theorem updateAssociationKey_eq (r : Repository) (lib : Library) (e : Obj)
    (transactionId tenant : Option String) (key : String) (value : Val) :
    updateAssociationKey r lib (some e) transactionId tenant key value =
      (updateAssociationKeyCalls r e transactionId key value).foldr (fun c rest =>
        OpM.bind (OpM.serialized r lib tenant (OpM.await c lib.done) rethrow) fun _ => rest)
        (OpM.pure ()) := by
  unfold updateAssociationKey updateAssociationKeyCalls
  split
  · split
    · exact updateAssociationPairs_eq r lib e key transactionId tenant _ 0
    · simp only [List.foldr_cons, List.foldr_nil, onEntity, OpM.bind_pure_unit]
  · rfl

/-- The loop of `updateAssociations` over the keys of the DTO makes the calls of
`updateAssociationCalls` one after the other. -/
theorem updateAssociationKeys_eq (r : Repository) (lib : Library) (e : Obj)
    (transactionId tenant : Option String) :
    ∀ entityDTO : List (String × Val),
      updateAssociationKeys r lib (some e) transactionId tenant entityDTO =
        (updateAssociationCalls r e transactionId entityDTO).foldr (fun c rest =>
          OpM.bind (OpM.serialized r lib tenant (OpM.await c lib.done) rethrow) fun _ => rest)
          (OpM.pure ())
  | [] => rfl
  | kv :: rest => by
    simp only [updateAssociationKeys, updateAssociationCalls, List.foldr_append]
    rw [updateAssociationKey_eq, foldr_bind, updateAssociationKeys_eq r lib e transactionId tenant rest]
    rfl

/-- The method `updateAssociations` makes the calls of `updateAssociationCalls` one after
the other, and then the `reload`. -/
theorem updateAssociations_eq (r : Repository) (lib : Library) (e : Obj)
    (entityDTO : Option (List (String × Val))) (transactionId tenant : Option String) :
    Serialized.updateAssociations r lib (some e) entityDTO transactionId tenant =
      (updateAssociationCalls r e transactionId (entityDTO.getD [])).foldr (fun c rest =>
        OpM.bind (OpM.serialized r lib tenant (OpM.await c lib.done) rethrow) fun _ => rest)
        (OpM.serialized r lib tenant (OpM.await (LibraryCall.reload e) lib.entity) rethrow) := by
  have h : Serialized.updateAssociations r lib (some e) entityDTO transactionId tenant =
      OpM.bind (updateAssociationKeys r lib (some e) transactionId tenant (entityDTO.getD []))
        fun _ => OpM.serialized r lib tenant (OpM.await (LibraryCall.reload e) lib.entity)
          rethrow := rfl
  rw [h, updateAssociationKeys_eq, foldr_bind]
  rfl

theorem settleQueued_nil (r : Repository) (lib : Library) (tenant : Option String) (fuel : Nat)
    (results : List (Nat × Obj)) :
    settleQueued r lib tenant fuel [] results = OpM.pure results := by
  cases fuel <;> rfl

/-- With multitenancy enabled, the turns of one call of `updateAssociations` are its calls
of the library one after the other. -/
theorem settleQueued_single (r : Repository) (lib : Library)
    (hmt : r.isMultitenantEnabled = true) (tenant : Option String) (index : Nat) (e : Obj)
    (results : List (Nat × Obj)) :
    ∀ (cs : List LibraryCall) (fuel : Nat), cs.length < fuel →
      (OpM.bind (OpM.pushQueryId lib) fun queryId =>
        settleQueued r lib tenant fuel
          [(queryId, { index := index, entity := e, calls := cs })] results) =
        cs.foldr (fun c rest =>
          OpM.bind (OpM.serialized r lib tenant (OpM.await c lib.done) rethrow) fun _ => rest)
          (OpM.bind
            (OpM.serialized r lib tenant (OpM.await (LibraryCall.reload e) lib.entity) rethrow)
            fun entity => OpM.pure (results ++ [(index, entity)]))
  | [], 0, h => by simp at h
  | [], fuel + 1, _ => by
    simp only [List.foldr_nil]
    rw [serialized_eq_push r lib hmt, OpM.bind_assoc]
    refine congrArg (OpM.bind _) (funext fun queryId => funext fun trace => ?_)
    simp only [settleQueued, OpM.bind, OpM.tryCatch, Started.resume, settleQueued_nil, OpM.pure]
    rcases OpM.underTicket r tenant (some queryId)
      (OpM.await (LibraryCall.reload e) lib.entity) rethrow trace with ⟨t1, e1 | a⟩ <;> rfl
  | c :: cs, 0, h => by simp at h
  | c :: cs, fuel + 1, h => by
    have ih := settleQueued_single r lib hmt tenant index e results cs fuel
      (by simp at h; omega)
    simp only [List.foldr_cons]
    rw [← ih, serialized_eq_push r lib hmt, OpM.bind_assoc]
    refine congrArg (OpM.bind _) (funext fun queryId => funext fun trace => ?_)
    simp only [settleQueued, OpM.bind, OpM.tryCatch, Started.resume, OpM.pure]
    rcases OpM.underTicket r tenant (some queryId) (OpM.await c lib.done) rethrow trace
      with ⟨t1, e1 | a⟩ <;> rfl

theorem settleConcurrent_nil (r : Repository) (lib : Library) (tenant : Option String)
    (fuel : Nat) (results : List (Nat × Obj)) :
    settleConcurrent r lib tenant fuel [] results = OpM.pure results := by
  cases fuel <;> rfl

/-- Without multitenancy, the answers to one call of `updateAssociations` are its calls of
the library one after the other. -/
theorem settleConcurrent_single (r : Repository) (lib : Library)
    (hmt : r.isMultitenantEnabled = false) (tenant : Option String) (index : Nat) (e : Obj)
    (results : List (Nat × Obj)) :
    ∀ (cs : List LibraryCall) (fuel : Nat), cs.length < fuel →
      (fun trace =>
        settleConcurrent r lib tenant fuel
          [({ index := index, entity := e, calls := cs },
            (Started.resume r lib tenant none { index := index, entity := e, calls := cs }
              trace).2)]
          results
          (Started.resume r lib tenant none { index := index, entity := e, calls := cs }
            trace).1) =
        cs.foldr (fun c rest =>
          OpM.bind (OpM.serialized r lib tenant (OpM.await c lib.done) rethrow) fun _ => rest)
          (OpM.bind
            (OpM.serialized r lib tenant (OpM.await (LibraryCall.reload e) lib.entity) rethrow)
            fun entity => OpM.pure (results ++ [(index, entity)]))
  | [], 0, h => by simp at h
  | [], fuel + 1, _ => by
    simp only [List.foldr_nil]
    rw [serialized_eq_none r lib hmt]
    funext trace
    simp only [settleConcurrent, Nat.mod_one, List.length_nil, Nat.zero_add, List.get?,
      Option.getD, Started.resume, OpM.bind, List.eraseIdx, settleConcurrent_nil, OpM.pure]
    rcases OpM.underTicket r tenant none
      (OpM.await (LibraryCall.reload e) lib.entity) rethrow trace with ⟨t1, e1 | a⟩ <;> rfl
  | c :: cs, 0, h => by simp at h
  | c :: cs, fuel + 1, h => by
    have ih := settleConcurrent_single r lib hmt tenant index e results cs fuel
      (by simp at h; omega)
    simp only [List.foldr_cons]
    rw [← ih, serialized_eq_none r lib hmt]
    funext trace
    simp only [settleConcurrent, Nat.mod_one, List.length_nil, Nat.zero_add, List.get?,
      Option.getD, Started.resume, OpM.bind, List.set, OpM.pure]
    rcases OpM.underTicket r tenant none (OpM.await c lib.done) rethrow trace
      with ⟨t1, e1 | a⟩ <;> rfl

/-- For one entity, `await Promise.all([this.updateAssociations(entity, entityDTO,
transactionId, tenant)])` is the start of `Promise.all` followed by
`[await this.updateAssociations(entity, entityDTO, transactionId, tenant)]`, with and
without multitenancy. -/
theorem all_single (r : Repository) (lib : Library) (transactionId tenant : Option String)
    (e : Obj) (entityDTO : Option (List (String × Val))) :
    OpM.all r lib transactionId tenant [(e, entityDTO)] =
      OpM.bind (OpM.emit (Event.updateAssociations [(e, entityDTO)])) fun _ =>
        OpM.bind (Serialized.updateAssociations r lib (some e) entityDTO transactionId tenant)
          fun entity => OpM.pure [entity] := by
  have hlast : (OpM.bind
      (OpM.bind
        (OpM.serialized r lib tenant (OpM.await (LibraryCall.reload e) lib.entity) rethrow)
        fun entity => OpM.pure ([] ++ [(0, entity)]))
      fun results => OpM.pure (inOrder 1 results)) =
      OpM.bind
        (OpM.serialized r lib tenant (OpM.await (LibraryCall.reload e) lib.entity) rethrow)
        fun entity => OpM.pure [entity] := by
    rw [OpM.bind_assoc]
    rfl
  rw [updateAssociations_eq, foldr_bind]
  cases hmt : r.isMultitenantEnabled with
  | true =>
    have hrun := settleQueued_single r lib hmt tenant 0 e []
      (updateAssociationCalls r e transactionId (entityDTO.getD []))
      ((updateAssociationCalls r e transactionId (entityDTO.getD [])).length + 1 + 0)
      (by omega)
    simp only [OpM.all, hmt, if_true, startedFrom, callsLeft, startQueued, List.length_singleton]
    refine congrArg (OpM.bind _) (funext fun _ => ?_)
    rw [← hlast, ← foldr_bind, ← hrun]
    simp only [OpM.bind_assoc, OpM.pure_bind]
  | false =>
    have hrun := settleConcurrent_single r lib hmt tenant 0 e []
      (updateAssociationCalls r e transactionId (entityDTO.getD []))
      ((updateAssociationCalls r e transactionId (entityDTO.getD [])).length + 1 + 0)
      (by omega)
    simp only [OpM.all, hmt, Bool.false_eq_true, if_false, startedFrom, callsLeft,
      List.length_singleton]
    refine congrArg (OpM.bind _) (funext fun _ => ?_)
    rw [← hlast, ← foldr_bind, ← hrun]
    refine congrArg (fun m => OpM.bind m _) (funext fun trace => ?_)
    simp only [OpM.bind, startConcurrent, OpM.pure]

/-! ## The calls of an operation -/

theorem callsOf_append : ∀ es1 es2 : List Event, callsOf (es1 ++ es2) = callsOf es1 ++ callsOf es2
  | [], _ => rfl
  | e :: es1, es2 => by
    cases e <;> simp [callsOf, callsOf_append es1 es2]

/-- The statements around a call of the library add the events up to the call and give the
ticket back; the handler, which throws, runs after that. -/
theorem serialized_await {α : Type} (r : Repository) (lib : Library) (tenant : Option String)
    (c : LibraryCall) (answer : List Event → Except Failure α) (handler : Failure → OpM α)
    (hh : Rethrows handler) (trace : List Event) :
    OpM.serialized r lib tenant (OpM.await c answer) handler trace =
      match answer (callTrace r lib tenant trace c) with
      | Except.ok a => (callTrace r lib tenant trace c ++ releaseOf r lib trace, Except.ok a)
      | Except.error error =>
        handler error (callTrace r lib tenant trace c ++ releaseOf r lib trace) := by
  have key : ∀ e, ∃ thrown, handler e (callTrace r lib tenant trace c ++ releaseOf r lib trace) =
      (callTrace r lib tenant trace c ++ releaseOf r lib trace, Except.error thrown) :=
    fun e => hh e _
  cases hmt : r.isMultitenantEnabled <;> cases ht : strTruthy tenant <;>
    simp only [OpM.serialized, bind, OpM.bind, OpM.getQueryId, OpM.tryCatch, OpM.changeTenant,
      OpM.emit, OpM.await, OpM.callNextQuery, pure, OpM.pure, callTrace, releaseOf, hmt, ht,
      if_true, if_false, List.append_nil, Bool.false_eq_true, List.append_assoc] at key ⊢ <;>
    generalize answer _ = ans <;> cases ans with
    | ok a => simp only [List.append_assoc]
    | error e =>
      obtain ⟨thrown, h⟩ := key e
      simp only [List.append_assoc, h]

/-- The calls among the events that the statements around a call of the library add. -/
theorem callsOf_callTrace (r : Repository) (lib : Library) (tenant : Option String)
    (trace : List Event) (c : LibraryCall) :
    ∃ es, callTrace r lib tenant trace c ++ releaseOf r lib trace = trace ++ es ∧
      callsOf es = [c] := by
  refine ⟨(if r.isMultitenantEnabled then [Event.getQueryId (lib.generateRandomId trace)] else [])
    ++ (if strTruthy tenant then [Event.changeTenant tenant] else []) ++ [Event.call c]
    ++ releaseOf r lib trace, by simp [callTrace, List.append_assoc], ?_⟩
  cases hmt : r.isMultitenantEnabled <;> cases ht : strTruthy tenant <;>
    simp [releaseOf, hmt, callsOf]

/-! ## Operations whose first fetch matches no row -/

/-- C28: an `update` and a `delete` whose first `findOne` finds no row throw
`Entity <primary key of the query> does not exist`, and a `bulkUpdate` whose first `findAll`
answers the empty list throws `No entity matches query criteria`; in each case that fetch is
the only call of the library that the operation issues, so no `update` and no `destroy`. -/
theorem no_match_throws (r : Repository) (lib : Library) (trace : List Event) :
    (∀ (entityQuery entityDTO : List (String × Val)) (o : CallOptions) (options : QueryOptions)
        (hasFilteredArray : Bool),
      setOptions r entityQuery {} Action.Update = Except.ok (options, hasFilteredArray) →
      lib.row (callTrace r lib o.tenant trace
        (LibraryCall.findOne o.scope (firstFind options o.transactionId))) = Except.ok none →
      ∃ es, Serialized.update r lib entityQuery entityDTO o trace =
          (trace ++ es, Except.error (Failure.other ("Entity " ++
            (dtoGet entityQuery r.primaryKeyName).toJsString ++ " does not exist"))) ∧
        callsOf es = [LibraryCall.findOne o.scope (firstFind options o.transactionId)]) ∧
    (∀ (entityQuery : List (String × Val)) (o : CallOptions) (options : QueryOptions)
        (hasFilteredArray : Bool),
      setOptions r entityQuery {} Action.Delete = Except.ok (options, hasFilteredArray) →
      lib.row (callTrace r lib o.tenant trace
        (LibraryCall.findOne o.scope (firstFind options o.transactionId))) = Except.ok none →
      ∃ es, Serialized.delete r lib entityQuery o trace =
          (trace ++ es, Except.error (Failure.other ("Entity " ++
            (dtoGet entityQuery r.primaryKeyName).toJsString ++ " does not exist"))) ∧
        callsOf es = [LibraryCall.findOne o.scope (firstFind options o.transactionId)]) ∧
    (∀ (entityQuery entityDTO : List (String × Val)) (o : CallOptions) (options : QueryOptions)
        (hasFilteredArray : Bool),
      setOptions r entityQuery {} Action.Update = Except.ok (options, hasFilteredArray) →
      lib.rows (callTrace r lib o.tenant trace
        (LibraryCall.findAll o.scope (firstFind options o.transactionId))) = Except.ok [] →
      ∃ es, Serialized.bulkUpdate r lib entityQuery entityDTO o trace =
          (trace ++ es, Except.error (Failure.other "No entity matches query criteria")) ∧
        callsOf es = [LibraryCall.findAll o.scope (firstFind options o.transactionId)]) := by
  refine ⟨?_, ?_, ?_⟩
  · intro entityQuery entityDTO o options hasFilteredArray hset hrow
    obtain ⟨es, hes, hcalls⟩ := callsOf_callTrace r lib o.tenant trace
      (LibraryCall.findOne o.scope (firstFind options o.transactionId))
    refine ⟨es, ?_, hcalls⟩
    unfold Serialized.update
    simp only [hset]
    rw [OpM.bind_apply, serialized_await _ _ _ _ _ _ rethrows_rethrow, hrow, hes]
    rfl
  · intro entityQuery o options hasFilteredArray hset hrow
    obtain ⟨es, hes, hcalls⟩ := callsOf_callTrace r lib o.tenant trace
      (LibraryCall.findOne o.scope (firstFind options o.transactionId))
    refine ⟨es, ?_, hcalls⟩
    unfold Serialized.delete
    simp only [hset]
    rw [OpM.bind_apply, serialized_await _ _ _ _ _ _ rethrows_rethrow, hrow, hes]
    rfl
  · intro entityQuery entityDTO o options hasFilteredArray hset hrows
    obtain ⟨es, hes, hcalls⟩ := callsOf_callTrace r lib o.tenant trace
      (LibraryCall.findAll o.scope (firstFind options o.transactionId))
    refine ⟨es, ?_, hcalls⟩
    unfold Serialized.bulkUpdate
    simp only [hset]
    rw [OpM.bind_apply, serialized_await _ _ _ _ _ _ rethrows_rethrow, hrows, hes]
    rfl

theorem no_match_throws_witness :
    (∃ es, Serialized.update exampleTenantUsers exampleEmptyLibrary [("id", Val.num 9)]
        [("name", Val.str "x")] { tenant := some "t1" } [] =
          ([] ++ es, Except.error (Failure.other "Entity 9 does not exist")) ∧
        callsOf es = [LibraryCall.findOne "defaultScope"
          { where_ := some [(PKey.str "id", Val.num 9)]
            include_ := some (IncField.many [Inc.obj { all := true }]) }]) ∧
    (∃ es, Serialized.delete exampleTenantUsers exampleEmptyLibrary [("id", Val.num 9)]
        { tenant := some "t1" } [] =
          ([] ++ es, Except.error (Failure.other "Entity 9 does not exist")) ∧
        callsOf es = [LibraryCall.findOne "defaultScope"
          { where_ := some [(PKey.str "id", Val.num 9)]
            include_ := some (IncField.many [Inc.obj { all := true }]) }]) ∧
    (∃ es, Serialized.bulkUpdate exampleTenantUsers exampleEmptyLibrary [("name", Val.str "a")]
        [("name", Val.str "x")] { tenant := some "t1" } [] =
          ([] ++ es, Except.error (Failure.other "No entity matches query criteria")) ∧
        callsOf es = [LibraryCall.findAll "defaultScope"
          { where_ := some [(PKey.str "name", Val.str "a")]
            include_ := some (IncField.many [Inc.obj { all := true }]) }]) :=
  ⟨(no_match_throws exampleTenantUsers exampleEmptyLibrary []).1 [("id", Val.num 9)]
      [("name", Val.str "x")] { tenant := some "t1" } _ false rfl rfl,
    (no_match_throws exampleTenantUsers exampleEmptyLibrary []).2.1 [("id", Val.num 9)]
      { tenant := some "t1" } _ false rfl rfl,
    (no_match_throws exampleTenantUsers exampleEmptyLibrary []).2.2 [("name", Val.str "a")]
      [("name", Val.str "x")] { tenant := some "t1" } _ false rfl rfl⟩

/-! ## The calls of `updateAssociations` -/

/-- A call on an entity under a ticket that the library accepts adds the events of the
call and returns. -/
theorem serialized_onEntity_done (r : Repository) (lib : Library) (tenant : Option String)
    (hdone : ∀ t, lib.done t = Except.ok ()) (e : Obj) (c : Obj → LibraryCall)
    (trace : List Event) :
    ∃ es, OpM.serialized r lib tenant (onEntity (some e) c lib.done) rethrow trace =
        (trace ++ es, Except.ok ()) ∧ callsOf es = [c e] := by
  obtain ⟨es, hes, hcalls⟩ := callsOf_callTrace r lib tenant trace (c e)
  refine ⟨es, ?_, hcalls⟩
  show OpM.serialized r lib tenant (OpM.await (c e) lib.done) rethrow trace = _
  rw [serialized_await _ _ _ _ _ _ rethrows_rethrow, hdone, hes]

/-- The calls of the loop over the pairs under a key: one for each pair. -/
theorem updateAssociationPairs_calls (r : Repository) (lib : Library) (tenant : Option String)
    (hdone : ∀ t, lib.done t = Except.ok ()) (e : Obj) (key : String)
    (transactionId : Option String) :
    ∀ (items : List Val) (index : Nat) (trace : List Event),
      ∃ es, updateAssociationPairs r lib (some e) key transactionId tenant index items trace =
          (trace ++ es, Except.ok ()) ∧
        callsOf es = (List.range items.length).zipWith
          (fun i item => pairCall key transactionId (index + i) item e) items
  | [], index, trace => ⟨[], by simp [updateAssociationPairs, OpM.pure], rfl⟩
  | item :: items, index, trace => by
    obtain ⟨es1, h1, hc1⟩ := serialized_onEntity_done r lib tenant hdone e
      (pairCall key transactionId index item) trace
    obtain ⟨es2, h2, hc2⟩ := updateAssociationPairs_calls r lib tenant hdone e key transactionId
      items (index + 1) (trace ++ es1)
    refine ⟨es1 ++ es2, ?_, ?_⟩
    · simp only [updateAssociationPairs, OpM.bind, h1, h2, List.append_assoc]
    · rw [callsOf_append, hc1, hc2, List.length_cons, List.range_succ_eq_map]
      simp [List.zipWith_map_left, Nat.add_assoc, Nat.add_comm 1]

theorem isPair_iff (item : Val) :
    isPair item = true ↔ asPair item = some (pairFirst item, pairSecond item) := by
  unfold isPair asPair pairFirst pairSecond
  split <;> simp

theorem pairsOfList_of_all : ∀ items : List Val, items.all isPair = true →
    pairsOfList items = some (items.map fun item => (pairFirst item, pairSecond item))
  | [], _ => rfl
  | item :: items, h => by
    simp only [List.all_cons, Bool.and_eq_true] at h
    simp [pairsOfList, (isPair_iff item).mp h.1, pairsOfList_of_all items h.2]

theorem all_of_pairsOfList : ∀ (items : List Val) (pairs : List (Val × Val)),
    pairsOfList items = some pairs → items.all isPair = true
  | [], _, _ => rfl
  | item :: items, pairs, h => by
    simp only [pairsOfList] at h
    split at h
    · next p ps hp hps =>
      have h1 : isPair item = true := by
        unfold asPair at hp
        split at hp
        · rfl
        · cases hp
      simp [h1, all_of_pairsOfList items ps hps]
    · cases h

theorem zipWith_right {α β γ : Type} (g : β → γ) :
    ∀ (l : List α) (xs : List β), l.length = xs.length → List.zipWith (fun _ b => g b) l xs = xs.map g
  | [], [], _ => rfl
  | [], _ :: _, h => by cases h
  | _ :: _, [], h => by cases h
  | _ :: l, x :: xs, h => by
    simp only [List.zipWith_cons_cons, List.map_cons]
    rw [zipWith_right g l xs (by simpa using h)]

/-- The calls of `updateAssociations` for one key of the DTO. -/
theorem updateAssociationKey_calls (r : Repository) (lib : Library) (tenant : Option String)
    (hdone : ∀ t, lib.done t = Except.ok ()) (e : Obj) (transactionId : Option String)
    (key : String) (value : Val) (trace : List Event) :
    ∃ es, updateAssociationKey r lib (some e) transactionId tenant key value trace =
        (trace ++ es, Except.ok ()) ∧
      callsOf es = if r.getAssociationAttributes.contains key then
        expectedCalls e key transactionId value else [] := by
  unfold updateAssociationKey
  by_cases hk : r.getAssociationAttributes.contains key = true
  · rw [if_pos hk, if_pos hk]
    by_cases hp : isPairs value = true
    · rw [if_pos hp]
      obtain ⟨es, h, hc⟩ := updateAssociationPairs_calls r lib tenant hdone e key transactionId
        value.elements 0 trace
      refine ⟨es, h, ?_⟩
      rw [hc]
      unfold isPairs at hp
      split at hp
      · next item items =>
        have hall := pairsOfList_of_all (item :: items) hp
        simp only [expectedCalls, pairsOf, hall, Val.elements, List.map_cons, List.length_cons,
          List.range_succ_eq_map, List.zipWith_cons_cons, List.zipWith_map_left, pairCall,
          Nat.zero_add, if_true]
        congr 1
        simp only [Nat.succ_ne_zero, if_false]
        rw [zipWith_right (fun b : Val => LibraryCall.add e key (pairFirst b)
          (some { through := pairSecond b, transaction := transactionId })) _ _
          (List.length_range _), List.map_map]
        rfl
      · cases hp
    · rw [if_neg hp]
      obtain ⟨es, h, hc⟩ := serialized_onEntity_done r lib tenant hdone e
        (fun e => LibraryCall.set e key value none) trace
      refine ⟨es, h, ?_⟩
      rw [hc]
      unfold expectedCalls
      split
      · next id1 a1 pairs hpairs =>
        exfalso
        apply hp
        unfold pairsOf at hpairs
        split at hpairs
        · next items =>
          have := all_of_pairsOfList items _ hpairs
          cases items with
          | nil => cases hpairs
          | cons item items => exact this
        · cases hpairs
      · rfl
  · rw [if_neg hk, if_neg hk]
    exact ⟨[], by simp [OpM.pure], rfl⟩

/-- The calls of the loop of `updateAssociations` over the keys of the DTO. -/
theorem updateAssociationKeys_calls (r : Repository) (lib : Library) (tenant : Option String)
    (hdone : ∀ t, lib.done t = Except.ok ()) (e : Obj) (transactionId : Option String) :
    ∀ (entityDTO : List (String × Val)) (trace : List Event),
      ∃ es, updateAssociationKeys r lib (some e) transactionId tenant entityDTO trace =
          (trace ++ es, Except.ok ()) ∧
        callsOf es = expectedKeyCalls r e transactionId entityDTO
  | [], trace => ⟨[], by simp [updateAssociationKeys, OpM.pure], rfl⟩
  | kv :: rest, trace => by
    obtain ⟨es1, h1, hc1⟩ := updateAssociationKey_calls r lib tenant hdone e transactionId
      kv.1 kv.2 trace
    obtain ⟨es2, h2, hc2⟩ := updateAssociationKeys_calls r lib tenant hdone e transactionId
      rest (trace ++ es1)
    refine ⟨es1 ++ es2, ?_, ?_⟩
    · simp only [updateAssociationKeys, OpM.bind, h1, h2, List.append_assoc]
    · rw [callsOf_append, hc1, hc2]
      simp [expectedKeyCalls]

/-- C21: when the library accepts the calls of the setters, `updateAssociations` on an
entity issues, for the keys of the DTO that name an association and in their order, the
calls of the specification (for a non-empty array of pairs one `set` with the first id and
its through-attributes and one `add` for each further pair, for any other value one `set`
with the value and no options), then one `reload` of the entity, and it returns what the
`reload` answers. -/
theorem updateAssociations_calls (r : Repository) (lib : Library) (entity : Obj)
    (entityDTO : List (String × Val)) (transactionId tenant : Option String)
    (trace : List Event) (hdone : ∀ t, lib.done t = Except.ok ()) :
    ∃ es before,
      (Serialized.updateAssociations r lib (some entity) (some entityDTO) transactionId tenant
        trace).1 = trace ++ es ∧
      callsOf es = expectedKeyCalls r entity transactionId entityDTO ++
        [LibraryCall.reload entity] ∧
      (Serialized.updateAssociations r lib (some entity) (some entityDTO) transactionId tenant
        trace).2 =
        match lib.entity (callTrace r lib tenant before (LibraryCall.reload entity)) with
        | Except.ok reloaded => Except.ok reloaded
        | Except.error error => Except.error (Failure.other error.message) := by
  obtain ⟨es1, h1, hc1⟩ := updateAssociationKeys_calls r lib tenant hdone entity transactionId
    entityDTO trace
  obtain ⟨es2, h2, hc2⟩ := callsOf_callTrace r lib tenant (trace ++ es1)
    (LibraryCall.reload entity)
  have hrun : Serialized.updateAssociations r lib (some entity) (some entityDTO) transactionId
      tenant trace =
      OpM.serialized r lib tenant (OpM.await (LibraryCall.reload entity) lib.entity) rethrow
        (trace ++ es1) := by
    unfold Serialized.updateAssociations
    rw [OpM.bind_apply]
    simp only [Option.getD_some, h1]
    rfl
  rw [hrun, serialized_await _ _ _ _ _ _ rethrows_rethrow, h2]
  refine ⟨es1 ++ es2, trace ++ es1, ?_, ?_, ?_⟩
  · cases lib.entity (callTrace r lib tenant (trace ++ es1) (LibraryCall.reload entity)) <;>
      simp [rethrow, OpM.throw, List.append_assoc]
  · rw [callsOf_append, hc1, hc2]
  · cases lib.entity (callTrace r lib tenant (trace ++ es1) (LibraryCall.reload entity)) <;>
      simp [rethrow, OpM.throw]

theorem updateAssociations_calls_witness :
    ∃ es before,
      (Serialized.updateAssociations exampleTenantUsers exampleLibrary (some exampleUser2)
        (some [("name", Val.str "b"),
          ("posts", Val.arr [Val.arr [Val.num 1, Val.obj [(PKey.str "role", Val.str "x")]],
            Val.arr [Val.num 2, Val.obj [(PKey.str "role", Val.str "y")]]]),
          ("profile", Val.num 7)]) (some "tx1") none []).1 = [] ++ es ∧
      callsOf es =
        [LibraryCall.set exampleUser2 "posts" (Val.num 1)
          (some { through := Val.obj [(PKey.str "role", Val.str "x")], transaction := some "tx1" }),
         LibraryCall.add exampleUser2 "posts" (Val.num 2)
          (some { through := Val.obj [(PKey.str "role", Val.str "y")], transaction := some "tx1" }),
         LibraryCall.set exampleUser2 "profile" (Val.num 7) none] ++
        [LibraryCall.reload exampleUser2] ∧
      (Serialized.updateAssociations exampleTenantUsers exampleLibrary (some exampleUser2)
        (some [("name", Val.str "b"),
          ("posts", Val.arr [Val.arr [Val.num 1, Val.obj [(PKey.str "role", Val.str "x")]],
            Val.arr [Val.num 2, Val.obj [(PKey.str "role", Val.str "y")]]]),
          ("profile", Val.num 7)]) (some "tx1") none []).2 =
        match exampleLibrary.entity
          (callTrace exampleTenantUsers exampleLibrary none before
            (LibraryCall.reload exampleUser2)) with
        | Except.ok reloaded => Except.ok reloaded
        | Except.error error => Except.error (Failure.other error.message) :=
  updateAssociations_calls exampleTenantUsers exampleLibrary exampleUser2 _ (some "tx1") none []
    (fun _ => rfl)

/-! ## The transaction of the calls -/

/-- C22: `update({ id: 2 }, { posts: [1, 2] }, { transactionId: 'tx1' })` issues five calls
of the library: the two `findOne` and the `update` receive the transaction, the call
`setPosts([1, 2])` and the `reload` of `updateAssociations` receive none; and of the three
calls of `create({ id: 5, name: 'b' }, { transactionId: 'tx1', ignoreSerialPk: false })` the
raw query of `setSerialSequence` receives none. -/
theorem association_set_without_transaction :
    (callsOf ((Operation.update [("id", Val.num 2)] [("posts", Val.arr [Val.num 1, Val.num 2])]
        { transactionId := some "tx1" }).events exampleUsers exampleLibrary [])).drop 3 =
      [LibraryCall.set exampleUser2 "posts" (Val.arr [Val.num 1, Val.num 2]) none,
        LibraryCall.reload exampleUser2] ∧
    (callsOf ((Operation.update [("id", Val.num 2)] [("posts", Val.arr [Val.num 1, Val.num 2])]
        { transactionId := some "tx1" }).events exampleUsers exampleLibrary [])).map
        LibraryCall.transaction =
      [some "tx1", some "tx1", some "tx1", none, none] ∧
    (callsOf ((Operation.create [("id", Val.num 5), ("name", Val.str "b")]
        { transactionId := some "tx1", ignoreSerialPk := false }).events exampleUsers
        exampleLibrary [])).map (fun c => (c.transaction)) =
      [some "tx1", none, some "tx1"] ∧
    ((callsOf ((Operation.create [("id", Val.num 5), ("name", Val.str "b")]
        { transactionId := some "tx1", ignoreSerialPk := false }).events exampleUsers
        exampleLibrary [])).drop 1).take 1 = [LibraryCall.setval (some "id")] :=
  ⟨rfl, rfl, rfl, rfl⟩

/-! ## The DTO of a created entity -/

/-- C29: `bulkCreate([{ name: 'a', posts: [1] }, { name: 'b', posts: [2] }])` with the
default options, on a model whose primary key `id` is auto-incremented, starts
`updateAssociations` for each of the two entities fetched with `undefined` in the place of
its DTO, and each of the two calls issues its `reload` only, no `set`; and
`updateAssociations` on an entity with `undefined` for the DTO issues the `reload` only, no
`set`. -/
theorem bulkCreate_loses_dto :
    (Operation.bulkCreate [[("name", Val.str "a"), ("posts", Val.arr [Val.num 1])],
        [("name", Val.str "b"), ("posts", Val.arr [Val.num 2])]] {}).events exampleUsers
        exampleLibrary [] =
      [Event.call (LibraryCall.bulkCreate
          [[("name", Val.str "a"), ("posts", Val.arr [Val.num 1])],
            [("name", Val.str "b"), ("posts", Val.arr [Val.num 2])]] none),
        Event.call (LibraryCall.findAll "defaultScope"
          (refetchIn exampleUsers Action.Create [exampleUser1, exampleUser2] none none)),
        Event.updateAssociations [(exampleUser1, none), (exampleUser2, none)],
        Event.call (LibraryCall.reload exampleUser1),
        Event.call (LibraryCall.reload exampleUser2)] ∧
    (Operation.updateAssociations (some exampleUser1) none none none).events exampleUsers
        exampleLibrary [] =
      [Event.call (LibraryCall.reload exampleUser1)] :=
  ⟨rfl, rfl⟩

/-! ## The name of a tenant -/

/-- C24: `setTenantName('Acme Corp')` is not `'ac'`: the last word is kept whole. -/
theorem setTenantName_acme_not_ac : TenantsRepository.setTenantName "Acme Corp" ≠ some "ac" := by
  decide

/-- C24: `setTenantName('Acme Corp')` returns `'acorp'`, and `create({ name: 'Acme Corp' })`
of the repository of the tenants, with the default options, writes it to `id`, creates and
synchronises the schema `acorp` and saves the tenant with the id `acorp`. -/
theorem create_acme_stores_acorp :
    TenantsRepository.setTenantName "Acme Corp" = some "acorp" ∧
    TenantsRepository.setId true [("name", Val.str "Acme Corp")] =
      some (Except.ok [("name", Val.str "Acme Corp"), ("id", Val.str "acorp")]) ∧
    (callsOf (TenantsRepository.create exampleTenants exampleLibrary
        [("name", Val.str "Acme Corp"), ("id", Val.str "acorp")] {} []).1).take 3 =
      [LibraryCall.createSchema "acorp", LibraryCall.sync "acorp",
        LibraryCall.create [("name", Val.str "Acme Corp"), ("id", Val.str "acorp")] none] :=
  ⟨by decide, rfl, rfl⟩

theorem toLower_cases (c : Char) :
    c.toLower = c ∨ (97 ≤ c.toLower.toNat ∧ c.toLower.toNat ≤ 122 ∧ c.toNat < 128) := by
  by_cases h : c.toNat ≥ 65 ∧ c.toNat ≤ 90
  · right
    have hc : c = Char.ofNat c.toNat := (Char.ofNat_toNat c).symm
    obtain ⟨h1, h2⟩ := h
    generalize c.toNat = n at hc h1 h2
    subst hc
    interval_cases n <;> decide
  · left
    unfold Char.toLower
    simp only [h, if_false]

theorem toLower_ne_space (c : Char) (h : c ≠ ' ') : c.toLower ≠ ' ' := by
  rcases toLower_cases c with h1 | ⟨h1, _, _⟩
  · rwa [h1]
  · intro h2
    rw [h2] at h1
    exact absurd h1 (by decide)

theorem toLower_toLower (c : Char) : c.toLower.toLower = c.toLower := by
  rcases toLower_cases c with h1 | ⟨h1, h2, _⟩
  · rw [h1, h1]
  · generalize c.toLower = d at h1 h2
    unfold Char.toLower
    have : ¬ (d.toNat ≥ 65 ∧ d.toNat ≤ 90) := by omega
    simp only [this, if_false]

theorem toLower_ascii (c : Char) (h : c.toNat < 128) : c.toLower.toNat < 128 := by
  rcases toLower_cases c with h1 | ⟨_, h2, _⟩
  · rwa [h1]
  · omega

/-- Splitting the join of segments without the one-character separator gives the segments
back. -/
theorem jsSplit_jsJoin_single (c : Char) (sep : String) (hsep : sep.data = [c])
    (segs : List String) (hne : segs ≠ []) (hfree : ∀ s ∈ segs, c ∉ s.data) :
    jsSplit sep (jsJoin sep segs) = segs := by
  cases segs with
  | nil => exact absurd rfl hne
  | cons s rest =>
    have hall : ∀ q ∈ s.data :: rest.map String.data, c ∉ q := by
      intro q hq
      rcases List.mem_cons.mp hq with h | h
      · subst h
        exact hfree s (List.mem_cons_self _ _)
      · obtain ⟨t, ht, rfl⟩ := List.mem_map.mp h
        exact hfree t (List.mem_cons_of_mem _ ht)
    have := splitGo_intercalate c (rest.map String.data) s.data hall
    simp only [jsSplit, jsJoin, splitChars, hsep, List.map_cons, this, List.map_map]
    congr 1
    simp [Function.comp_def]

/-- The reduce of `setTenantName` over words of which the last is at `length - 1`. -/
theorem abbreviate_append (last : String) :
    ∀ (words : List String) (index length : Nat) (string : String),
      index + words.length + 1 = length →
      abbreviate length index (words ++ [last]) string =
        string ++ concatAll (words.map charAt0) ++ last
  | [], index, length, string, h => by
    have : index = length - 1 := by simp at h; omega
    simp [abbreviate, this, concatAll]
  | word :: words, index, length, string, h => by
    have hne : ¬ index = length - 1 := by simp at h; omega
    have hrec := abbreviate_append last words (index + 1) length (string ++ charAt0 word)
      (by simp at h ⊢; omega)
    rw [List.cons_append]
    simp only [abbreviate, hne, if_false]
    rw [hrec]
    simp only [List.map_cons, concatAll, String.append_assoc]

theorem map_intercalate {α β : Type} (f : α → β) (sep : List α) :
    ∀ parts : List (List α),
      (List.intercalate sep parts).map f = List.intercalate (sep.map f) (parts.map (List.map f))
  | [] => rfl
  | [p] => by simp [List.intercalate, List.intersperse]
  | p :: q :: parts => by
    have h := map_intercalate f sep (q :: parts)
    simp only [List.intercalate, List.intersperse, List.flatten, List.map_append, List.map_cons,
      List.map_flatten] at h ⊢
    rw [h]

theorem toLowerCase_jsJoin (words : List String) :
    toLowerCase (jsJoin " " words) = jsJoin " " (words.map toLowerCase) := by
  have h1 : (" " : String).data = [' '] := rfl
  simp only [toLowerCase, jsJoin, h1, map_intercalate, List.map_map]
  congr 2

theorem toLowerCase_free (word : String) (h : ' ' ∉ word.data) : ' ' ∉ (toLowerCase word).data := by
  intro hmem
  simp only [toLowerCase, List.mem_map] at hmem
  obtain ⟨c, hc, hl⟩ := hmem
  exact toLower_ne_space c (fun e => h (e ▸ hc)) hl

theorem toLowerCase_idem (s : String) : toLowerCase (toLowerCase s) = toLowerCase s := by
  simp [toLowerCase, Function.comp_def, toLower_toLower]

theorem isAscii_toLowerCase (s : String) (h : isAscii s = true) : isAscii (toLowerCase s) = true := by
  simp only [isAscii, toLowerCase, List.all_eq_true, decide_eq_true_eq, List.mem_map] at h ⊢
  rintro c ⟨d, hd, rfl⟩
  exact toLower_ascii d (h d hd)

theorem toLowerCase_charAt0 (s : String) : toLowerCase (charAt0 s) = charAt0 (toLowerCase s) := by
  simp [toLowerCase, charAt0, List.map_take]

theorem mem_intercalate {α : Type} (sep : List α) (a : α) :
    ∀ parts : List (List α), a ∈ List.intercalate sep parts → a ∈ sep ∨ ∃ p ∈ parts, a ∈ p
  | [], h => by simp [List.intercalate, List.intersperse] at h
  | [p], h => by
    simp only [List.intercalate, List.intersperse, List.flatten, List.append_nil] at h
    exact Or.inr ⟨p, List.mem_cons_self _ _, h⟩
  | p :: q :: parts, h => by
    have hcat : List.intercalate sep (p :: q :: parts) =
        p ++ (sep ++ List.intercalate sep (q :: parts)) := by
      simp [List.intercalate, List.intersperse]
    rw [hcat, List.mem_append, List.mem_append] at h
    rcases h with h | h | h
    · exact Or.inr ⟨p, List.mem_cons_self _ _, h⟩
    · exact Or.inl h
    · rcases mem_intercalate sep a (q :: parts) h with h | ⟨x, hx, hax⟩
      · exact Or.inl h
      · exact Or.inr ⟨x, List.mem_cons_of_mem _ hx, hax⟩

theorem isAscii_jsJoin (words : List String) (h : ∀ w ∈ words, isAscii w = true) :
    isAscii (jsJoin " " words) = true := by
  have h1 : (" " : String).data = [' '] := rfl
  simp only [isAscii, jsJoin, h1, List.all_eq_true, decide_eq_true_eq]
  intro c hc
  rcases mem_intercalate _ c _ hc with hs | ⟨p, hp, hcp⟩
  · rw [List.mem_singleton.mp hs]
    decide
  · obtain ⟨w, hw, rfl⟩ := List.mem_map.mp hp
    have := h w hw
    simp only [isAscii, List.all_eq_true, decide_eq_true_eq] at this
    exact this c hcp

theorem concatAll_data : ∀ l : List String, (concatAll l).data = l.flatMap String.data
  | [] => rfl
  | s :: rest => by simp [concatAll, concatAll_data rest]

theorem toLowerCase_append (a b : String) :
    toLowerCase (a ++ b) = toLowerCase a ++ toLowerCase b := by
  simp only [toLowerCase, String.data_append, List.map_append]
  rfl

theorem toLowerCase_concatAll : ∀ l : List String,
    toLowerCase (concatAll l) = concatAll (l.map toLowerCase)
  | [] => rfl
  | s :: rest => by
    simp only [concatAll, toLowerCase_append, toLowerCase_concatAll rest, List.map_cons]

theorem toNat_ofNat_small (n : Nat) (h : n < 0xD800) : (Char.ofNat n).toNat = n := by
  have hv : n.isValidChar := Or.inl h
  unfold Char.ofNat
  rw [dif_pos hv]
  unfold Char.ofNatAux Char.toNat
  simp only [UInt32.toNat, BitVec.toNat_ofNatLt]

theorem isHangulSyllable_iff (c : Char) :
    isHangulSyllable c = true ↔ 0xAC00 ≤ c.toNat ∧ c.toNat ≤ 0xD7A3 := by
  simp [isHangulSyllable]

theorem isHangulJamo_iff (c : Char) :
    isHangulJamo c = true ↔ 0x1100 ≤ c.toNat ∧ c.toNat ≤ 0x11FF := by
  simp [isHangulJamo]

theorem isHangulSyllable_false_iff (c : Char) :
    isHangulSyllable c = false ↔ ¬ (0xAC00 ≤ c.toNat ∧ c.toNat ≤ 0xD7A3) := by
  rw [← isHangulSyllable_iff]
  simp

theorem toLower_of_not_upper (c : Char) (h : ¬ (c.toNat ≥ 65 ∧ c.toNat ≤ 90)) :
    c.toLower = c := by
  unfold Char.toLower
  simp only [h, if_false]

theorem decompose_of_not_syllable (c : Char) (h : isHangulSyllable c = false) :
    decompose c = [c] := by
  simp [decompose, h]

/-- The decomposition of a Hangul syllable holds conjoining jamo only. -/
theorem decompose_jamo (c : Char) (h : isHangulSyllable c = true) :
    ∀ d ∈ decompose c, isHangulJamo d = true := by
  have hc := (isHangulSyllable_iff c).mp h
  have hl : (Char.ofNat (0x1100 + (c.toNat - 0xAC00) / 588)).toNat =
      0x1100 + (c.toNat - 0xAC00) / 588 := toNat_ofNat_small _ (by omega)
  have hv : (Char.ofNat (0x1161 + (c.toNat - 0xAC00) % 588 / 28)).toNat =
      0x1161 + (c.toNat - 0xAC00) % 588 / 28 := toNat_ofNat_small _ (by omega)
  have ht : (Char.ofNat (0x11A7 + (c.toNat - 0xAC00) % 28)).toNat =
      0x11A7 + (c.toNat - 0xAC00) % 28 := by
    have hlt : 0x11A7 + (c.toNat - 0xAC00) % 28 < 0xD800 := by omega
    exact toNat_ofNat_small _ hlt
  intro d hd
  rw [isHangulJamo_iff]
  simp only [decompose, h, if_true] at hd
  split at hd
  · simp only [List.mem_cons, List.mem_singleton, List.mem_nil_iff, or_false] at hd
    rcases hd with hd | hd
    · rw [hd, hl]
      omega
    · rw [hd, hv]
      omega
  · simp only [List.mem_cons, List.mem_singleton, List.mem_nil_iff, or_false] at hd
    rcases hd with hd | hd | hd
    · rw [hd, hl]
      omega
    · rw [hd, hv]
      omega
    · rw [hd, ht]
      omega

theorem toLower_jamo (d : Char) (h : isHangulJamo d = true) : d.toLower = d := by
  have hd := (isHangulJamo_iff d).mp h
  exact toLower_of_not_upper d (by omega)

theorem toLower_syllable (c : Char) (h : isHangulSyllable c = true) : c.toLower = c := by
  have hc := (isHangulSyllable_iff c).mp h
  exact toLower_of_not_upper c (by omega)

theorem isHangulSyllable_toLower (c : Char) :
    isHangulSyllable c.toLower = isHangulSyllable c := by
  rcases toLower_cases c with h | ⟨_, h2, h3⟩
  · rw [h]
  · have h4 : isHangulSyllable c.toLower = false := by
      rw [isHangulSyllable_false_iff]
      omega
    have h5 : isHangulSyllable c = false := by
      rw [isHangulSyllable_false_iff]
      omega
    rw [h4, h5]

/-- The case mapping and the decomposition of a character commute. -/
theorem decompose_toLower (c : Char) : decompose c.toLower = (decompose c).map Char.toLower := by
  cases h : isHangulSyllable c with
  | false =>
    rw [decompose_of_not_syllable c h,
      decompose_of_not_syllable c.toLower (by rw [isHangulSyllable_toLower, h])]
    rfl
  | true =>
    rw [toLower_syllable c h]
    have hj := decompose_jamo c h
    have : (decompose c).map Char.toLower = (decompose c).map id :=
      List.map_congr_left fun d hd => toLower_jamo d (hj d hd)
    rw [this, List.map_id]

theorem normalizeNFD_toLowerCase (s : String) :
    normalizeNFD (toLowerCase s) = toLowerCase (normalizeNFD s) := by
  simp only [normalizeNFD, toLowerCase, List.flatMap_map, List.map_flatMap]
  congr 1
  induction s.data with
  | nil => rfl
  | cons c cs ih => simp only [List.flatMap_cons, ih, decompose_toLower]

/-- The string holds ASCII characters and conjoining jamo only. -/
theorem plain_normalizeNFD (s : String) (h : isEmbedded s = true) :
    ∀ c ∈ (normalizeNFD s).data, c.toNat < 128 ∨ isHangulJamo c = true := by
  intro c hc
  simp only [normalizeNFD, List.mem_flatMap] at hc
  obtain ⟨d, hd, hcd⟩ := hc
  simp only [isEmbedded, List.all_eq_true, Bool.or_eq_true, decide_eq_true_eq] at h
  cases hs : isHangulSyllable d with
  | true => exact Or.inr (decompose_jamo d hs c hcd)
  | false =>
    rw [decompose_of_not_syllable d hs, List.mem_singleton] at hcd
    subst hcd
    rcases h c hd with (h1 | h1) | h1
    · exact Or.inl h1
    · exact Or.inr h1
    · rw [hs] at h1
      cases h1

theorem normalizeNFD_plain (s : String)
    (h : ∀ c ∈ s.data, c.toNat < 128 ∨ isHangulJamo c = true) : normalizeNFD s = s := by
  have key : ∀ l : List Char, (∀ c ∈ l, c.toNat < 128 ∨ isHangulJamo c = true) →
      l.flatMap decompose = l := by
    intro l
    induction l with
    | nil => intro _; rfl
    | cons c cs ih =>
      intro hl
      have hc : isHangulSyllable c = false := by
        rw [isHangulSyllable_false_iff]
        rcases hl c (List.mem_cons_self _ _) with h1 | h1
        · omega
        · have := (isHangulJamo_iff c).mp h1
          omega
      rw [List.flatMap_cons, decompose_of_not_syllable c hc,
        ih fun d hd => hl d (List.mem_cons_of_mem _ hd)]
      rfl
  simp only [normalizeNFD, key s.data h]

theorem removeCombiningMarks_plain (s : String)
    (h : ∀ c ∈ s.data, c.toNat < 128 ∨ isHangulJamo c = true) : removeCombiningMarks s = s := by
  simp only [removeCombiningMarks]
  rw [List.filter_eq_self.mpr]
  intro c hc
  rcases h c hc with h1 | h1
  · simp only [Bool.not_eq_true', Bool.and_eq_false_iff, decide_eq_false_iff_not]
    left
    omega
  · have := (isHangulJamo_iff c).mp h1
    simp only [Bool.not_eq_true', Bool.and_eq_false_iff, decide_eq_false_iff_not]
    right
    omega

theorem plain_toLowerCase (s : String)
    (h : ∀ c ∈ s.data, c.toNat < 128 ∨ isHangulJamo c = true) :
    ∀ c ∈ (toLowerCase s).data, c.toNat < 128 ∨ isHangulJamo c = true := by
  intro c hc
  simp only [toLowerCase, List.mem_map] at hc
  obtain ⟨d, hd, rfl⟩ := hc
  rcases h d hd with h1 | h1
  · exact Or.inl (toLower_ascii d h1)
  · rw [toLower_jamo d h1]
    exact Or.inr h1

theorem isEmbedded_plain (s : String)
    (h : ∀ c ∈ s.data, c.toNat < 128 ∨ isHangulJamo c = true) : isEmbedded s = true := by
  simp only [isEmbedded, List.all_eq_true, Bool.or_eq_true, decide_eq_true_eq]
  intro c hc
  rcases h c hc with h1 | h1
  · exact Or.inl (Or.inl h1)
  · exact Or.inl (Or.inr h1)

/-- On a name of ASCII characters and conjoining jamo, `setTenantName` abbreviates the
words of the lower-cased name. -/
theorem setTenantName_plain (s : String)
    (h : ∀ c ∈ s.data, c.toNat < 128 ∨ isHangulJamo c = true) :
    TenantsRepository.setTenantName s =
      some (abbreviate (jsSplit " " (toLowerCase s)).length 0 (jsSplit " " (toLowerCase s)) "") := by
  have hl := plain_toLowerCase s h
  simp only [TenantsRepository.setTenantName, isEmbedded_plain s h, if_true,
    normalizeNFD_plain _ hl, removeCombiningMarks_plain _ hl]

/-- The name of a tenant is the name of the decomposed name. -/
theorem setTenantName_normalizeNFD (s : String) (h : isEmbedded s = true) :
    TenantsRepository.setTenantName s = TenantsRepository.setTenantName (normalizeNFD s) := by
  have hp := plain_normalizeNFD s h
  rw [setTenantName_plain _ hp]
  have hl := plain_toLowerCase _ hp
  simp only [TenantsRepository.setTenantName, h, if_true, normalizeNFD_toLowerCase,
    removeCombiningMarks_plain _ hl]

theorem flatMap_intercalate {α β : Type} (f : α → List β) (sep : List α) :
    ∀ parts : List (List α),
      (List.intercalate sep parts).flatMap f =
        List.intercalate (sep.flatMap f) (parts.map fun p => p.flatMap f)
  | [] => rfl
  | [p] => by simp [List.intercalate, List.intersperse]
  | p :: q :: parts => by
    have h := flatMap_intercalate f sep (q :: parts)
    have hcat : ∀ (s : List α) (a b : List α) (l : List (List α)),
        List.intercalate s (a :: b :: l) = a ++ (s ++ List.intercalate s (b :: l)) := by
      intro s a b l
      simp [List.intercalate, List.intersperse]
    have hcat2 : ∀ (s : List β) (a b : List β) (l : List (List β)),
        List.intercalate s (a :: b :: l) = a ++ (s ++ List.intercalate s (b :: l)) := by
      intro s a b l
      simp [List.intercalate, List.intersperse]
    rw [hcat, List.flatMap_append, List.flatMap_append, h]
    simp only [List.map_cons]
    rw [hcat2]

theorem normalizeNFD_jsJoin (words : List String) :
    normalizeNFD (jsJoin " " words) = jsJoin " " (words.map normalizeNFD) := by
  have h1 : (" " : String).data = [' '] := rfl
  have h2 : [' '].flatMap decompose = [' '] := by decide
  simp only [normalizeNFD, jsJoin, h1, flatMap_intercalate, h2, List.map_map]
  congr 2

theorem normalizeNFD_free (word : String) (h : ' ' ∉ word.data) :
    ' ' ∉ (normalizeNFD word).data := by
  intro hmem
  simp only [normalizeNFD, List.mem_flatMap] at hmem
  obtain ⟨c, hc, hd⟩ := hmem
  cases hs : isHangulSyllable c with
  | true =>
    have := (isHangulJamo_iff _).mp (decompose_jamo c hs _ hd)
    have h32 : (' ' : Char).toNat = 32 := rfl
    omega
  | false =>
    rw [decompose_of_not_syllable c hs, List.mem_singleton] at hd
    exact h (hd ▸ hc)

theorem isEmbedded_jsJoin (words : List String) (h : ∀ w ∈ words, isEmbedded w = true) :
    isEmbedded (jsJoin " " words) = true := by
  have h1 : (" " : String).data = [' '] := rfl
  simp only [isEmbedded, jsJoin, h1, List.all_eq_true]
  intro c hc
  rcases mem_intercalate _ c _ hc with hs | ⟨p, hp, hcp⟩
  · rw [List.mem_singleton.mp hs]
    decide
  · obtain ⟨w, hw, rfl⟩ := List.mem_map.mp hp
    have := h w hw
    simp only [isEmbedded, List.all_eq_true] at this
    exact this c hcp

/-- A lower-case word of ASCII characters and conjoining jamo is its own abbreviation. -/
theorem setTenantName_word (word : String)
    (hplain : ∀ c ∈ word.data, c.toNat < 128 ∨ isHangulJamo c = true)
    (hlower : toLowerCase word = word) (hfree : ' ' ∉ word.data) :
    TenantsRepository.setTenantName word = some word := by
  have h1 : (" " : String).data = [' '] := rfl
  have hsplit : jsSplit " " word = [word] := by
    simp [jsSplit, splitChars, h1, splitGo_single_of_not_mem ' ' word.data [] hfree]
  rw [setTenantName_plain word hplain]
  simp [hlower, hsplit, abbreviate]

/-- For words of ASCII characters and conjoining jamo without a space, joined by single
spaces, `setTenantName` returns the lower-cased first character of each word but the last
followed by the lower-cased last word; the result holds no space, and `setTenantName`
returns it unchanged. -/
theorem setTenantName_plain_words (words : List String) (last : String)
    (hplain : ∀ w ∈ words ++ [last], ∀ c ∈ w.data, c.toNat < 128 ∨ isHangulJamo c = true)
    (hfree : ∀ w ∈ words ++ [last], ' ' ∉ w.data) :
    TenantsRepository.setTenantName (jsJoin " " (words ++ [last])) =
        some (expectedTenantName words last) ∧
      ' ' ∉ (expectedTenantName words last).data ∧
      TenantsRepository.setTenantName (expectedTenantName words last) =
        some (expectedTenantName words last) := by
  have h1 : (" " : String).data = [' '] := rfl
  have hlast : last ∈ words ++ [last] := by simp
  have hword : ∀ w ∈ words, w ∈ words ++ [last] := fun w hw => List.mem_append_left _ hw
  have hsplit : jsSplit " " (toLowerCase (jsJoin " " (words ++ [last]))) =
      words.map toLowerCase ++ [toLowerCase last] := by
    rw [toLowerCase_jsJoin, jsSplit_jsJoin_single ' ' " " h1 _ (by simp)]
    · simp
    · intro s hs
      obtain ⟨w, hw, rfl⟩ := List.mem_map.mp hs
      exact toLowerCase_free w (hfree w hw)
  have hexp : expectedTenantName words last =
      concatAll ((words.map toLowerCase).map charAt0) ++ toLowerCase last := by
    simp [expectedTenantName, List.map_map, Function.comp_def, toLowerCase_charAt0]
  have hspace : ' ' ∉ (expectedTenantName words last).data := by
    rw [hexp, String.data_append, concatAll_data]
    simp only [List.mem_append, List.mem_flatMap, List.mem_map, not_or, not_exists, not_and]
    refine ⟨?_, toLowerCase_free last (hfree last hlast)⟩
    rintro s ⟨t, ⟨w, hw, rfl⟩, rfl⟩ hmem
    have hsub : ' ' ∈ (toLowerCase w).data := by
      simp only [charAt0] at hmem
      exact List.mem_of_mem_take hmem
    exact toLowerCase_free w (hfree w (hword w hw)) hsub
  have hjoin : ∀ c ∈ (jsJoin " " (words ++ [last])).data,
      c.toNat < 128 ∨ isHangulJamo c = true := by
    intro c hc
    simp only [jsJoin, h1] at hc
    rcases mem_intercalate _ c _ hc with hs | ⟨p, hp, hcp⟩
    · rw [List.mem_singleton.mp hs]
      exact Or.inl (by decide)
    · obtain ⟨w, hw, rfl⟩ := List.mem_map.mp hp
      exact hplain w hw c hcp
  refine ⟨?_, hspace, ?_⟩
  · rw [setTenantName_plain _ hjoin, hsplit, abbreviate_append _ _ 0 _ "" (by simp), hexp]
    simp
  · apply setTenantName_word _ _ _ hspace
    · intro c hc
      rw [hexp, String.data_append, concatAll_data] at hc
      simp only [List.mem_append, List.mem_flatMap, List.mem_map] at hc
      rcases hc with ⟨s, ⟨t, ⟨w, hw, rfl⟩, rfl⟩, hmem⟩ | hc
      · exact plain_toLowerCase w (hplain w (hword w hw)) c (List.mem_of_mem_take hmem)
      · exact plain_toLowerCase last (hplain last hlast) c hc
    · simp only [expectedTenantName, toLowerCase_append, toLowerCase_concatAll, List.map_map,
        Function.comp_def, toLowerCase_idem]

/-- C25, the claim as stated fails for a name of Hangul syllables: `normalize('NFD')`
decomposes every syllable into its jamo, so that `setTenantName` of the name of the two
words U+D55C U+AD6D and U+D68C U+C0AC returns the leading consonant U+1112 of the first
word followed by the four jamo of the second, not the first letter U+D55C followed by the
second word. -/
theorem setTenantName_decomposes_hangul :
    TenantsRepository.setTenantName "\uD55C\uAD6D \uD68C\uC0AC" =
      some "\u1112\u1112\u116C\u1109\u1161" ∧
    expectedTenantName ["\uD55C\uAD6D"] "\uD68C\uC0AC" = "\uD55C\uD68C\uC0AC" ∧
    TenantsRepository.setTenantName "\uD55C\uAD6D \uD68C\uC0AC" ≠
      some (expectedTenantName ["\uD55C\uAD6D"] "\uD68C\uC0AC") := by
  decide

/-- C25 as amended: for words `w1 ... wn` of ASCII characters, Hangul syllables and
conjoining jamo, without a space and joined by single spaces, `setTenantName` returns the
lower-cased first character of the canonical decomposition of each of `w1 ... w(n-1)`
followed by the lower-cased decomposition of `wn`; the result holds no space, and
`setTenantName` returns it unchanged; when no word holds a Hangul syllable, the result is
the lower-cased first letter of each of `w1 ... w(n-1)` followed by the lower-cased
`wn`. -/
theorem setTenantName_abbreviates (words : List String) (last : String)
    (hembedded : ∀ w ∈ words ++ [last], isEmbedded w = true)
    (hfree : ∀ w ∈ words ++ [last], ' ' ∉ w.data) :
    TenantsRepository.setTenantName (jsJoin " " (words ++ [last])) =
        some (expectedTenantName (words.map normalizeNFD) (normalizeNFD last)) ∧
      ' ' ∉ (expectedTenantName (words.map normalizeNFD) (normalizeNFD last)).data ∧
      TenantsRepository.setTenantName
          (expectedTenantName (words.map normalizeNFD) (normalizeNFD last)) =
        some (expectedTenantName (words.map normalizeNFD) (normalizeNFD last)) ∧
      ((∀ w ∈ words ++ [last], ∀ c ∈ w.data, isHangulSyllable c = false) →
        expectedTenantName (words.map normalizeNFD) (normalizeNFD last) =
          expectedTenantName words last) := by
  have hmap : (words ++ [last]).map normalizeNFD = words.map normalizeNFD ++ [normalizeNFD last] := by
    simp
  have hplain : ∀ w ∈ words.map normalizeNFD ++ [normalizeNFD last], ∀ c ∈ w.data,
      c.toNat < 128 ∨ isHangulJamo c = true := by
    intro w hw
    rw [← hmap] at hw
    obtain ⟨v, hv, rfl⟩ := List.mem_map.mp hw
    exact plain_normalizeNFD v (hembedded v hv)
  have hfree2 : ∀ w ∈ words.map normalizeNFD ++ [normalizeNFD last], ' ' ∉ w.data := by
    intro w hw
    rw [← hmap] at hw
    obtain ⟨v, hv, rfl⟩ := List.mem_map.mp hw
    exact normalizeNFD_free v (hfree v hv)
  obtain ⟨h1, h2, h3⟩ := setTenantName_plain_words (words.map normalizeNFD) (normalizeNFD last)
    hplain hfree2
  refine ⟨?_, h2, h3, ?_⟩
  · rw [setTenantName_normalizeNFD _ (isEmbedded_jsJoin _ hembedded), normalizeNFD_jsJoin, hmap]
    exact h1
  · intro hno
    have hid : ∀ w ∈ words ++ [last], normalizeNFD w = w := by
      intro w hw
      apply normalizeNFD_plain
      intro c hc
      have hemb := hembedded w hw
      simp only [isEmbedded, List.all_eq_true, Bool.or_eq_true, decide_eq_true_eq] at hemb
      rcases hemb c hc with (h4 | h4) | h4
      · exact Or.inl h4
      · exact Or.inr h4
      · rw [hno w hw c hc] at h4
        cases h4
    have hwords : words.map normalizeNFD = words := by
      rw [List.map_congr_left fun w hw => hid w (List.mem_append_left _ hw), List.map_id']
    rw [hwords, hid last (by simp)]

theorem setTenantName_abbreviates_witness :
    TenantsRepository.setTenantName (jsJoin " " (["Acme", "\uD55C\uAD6D"] ++ ["Corp"])) =
        some (expectedTenantName (["Acme", "\uD55C\uAD6D"].map normalizeNFD)
          (normalizeNFD "Corp")) ∧
      ' ' ∉ (expectedTenantName (["Acme", "\uD55C\uAD6D"].map normalizeNFD)
        (normalizeNFD "Corp")).data ∧
      TenantsRepository.setTenantName
          (expectedTenantName (["Acme", "\uD55C\uAD6D"].map normalizeNFD)
            (normalizeNFD "Corp")) =
        some (expectedTenantName (["Acme", "\uD55C\uAD6D"].map normalizeNFD)
          (normalizeNFD "Corp")) ∧
      ((∀ w ∈ ["Acme", "\uD55C\uAD6D"] ++ ["Corp"], ∀ c ∈ w.data,
          isHangulSyllable c = false) →
        expectedTenantName (["Acme", "\uD55C\uAD6D"].map normalizeNFD) (normalizeNFD "Corp") =
          expectedTenantName ["Acme", "\uD55C\uAD6D"] "Corp") :=
  setTenantName_abbreviates ["Acme", "\uD55C\uAD6D"] "Corp" (by decide) (by decide)

/-! ## The order, the limit and the offset -/

theorem orderItem_eq (item : String) : orderItem item = expectedOrderItem item := by
  have h1 : ("-" : String).data = ['-'] := rfl
  unfold orderItem expectedOrderItem jsStartsWith jsSubstring1
  rw [h1]
  rcases hd : item.data with _ | ⟨c, cs⟩
  · have : item = "" := String.ext hd
    subst this
    simp [List.isPrefixOf]
  · by_cases hc : c = '-'
    · subst hc
      simp [List.isPrefixOf]
    · have hc2 : ¬ '-' = c := fun e => hc e.symm
      have hpre : List.isPrefixOf ['-'] (c :: cs) = false := by simp [List.isPrefixOf, hc2]
      rw [hpre]
      simp only [Bool.false_eq_true, if_false]
      split
      · next column heq =>
        simp only [List.cons.injEq] at heq
        exact absurd heq.1 hc
      · rfl

/-- C26: when `setOptions` returns, for the action `List` and an order string the order of
the options is the list of the pairs of the items that `split(',')` gives, in their order:
the item without its leading `-` and `DESC`, or the item and `ASC`; so it is for every
non-empty list of items without a comma joined by commas.  For the other actions the
options have no order, no limit and no offset. -/
theorem setOptions_order (r : Repository) (entityQuery : List (String × Val))
    (entityQueryOptions : EntityQueryOptions) (action : Action) (result : QueryOptions × Bool)
    (h : setOptions r entityQuery entityQueryOptions action = Except.ok result) :
    (action = Action.List → ∀ order, entityQueryOptions.order = some order →
      result.1.order = some ((jsSplit "," order).map expectedOrderItem)) ∧
    (action = Action.List → ∀ items : List String, items ≠ [] →
      (∀ item ∈ items, ',' ∉ item.data) → entityQueryOptions.order = some (jsJoin "," items) →
      result.1.order = some (items.map expectedOrderItem)) ∧
    (action ≠ Action.List →
      result.1.order = none ∧ result.1.limit = Val.undef ∧ result.1.offset = Val.undef) := by
  have hsplit : action = Action.List → ∀ order, entityQueryOptions.order = some order →
      result.1.order = some ((jsSplit "," order).map expectedOrderItem) := by
    intro hact order horder
    unfold setOptions at h
    simp only [hact, if_true, horder] at h
    split at h
    · cases h
    · cases h
      simp [orderItem_eq]
  refine ⟨hsplit, ?_, ?_⟩
  · intro hact items hne hfree horder
    rw [hsplit hact _ horder, jsSplit_jsJoin_single ',' "," rfl items hne hfree]
  · intro hact
    unfold setOptions at h
    simp only [hact, if_false] at h
    split at h
    · cases h
    · cases h
      exact ⟨rfl, rfl, rfl⟩

theorem setOptions_order_witness :
    (Action.List = Action.List → ∀ order, some "-name,id" = some order →
      some [("name", "DESC"), ("id", "ASC")] =
        some ((jsSplit "," order).map expectedOrderItem)) ∧
    (Action.List = Action.List → ∀ items : List String, items ≠ [] →
      (∀ item ∈ items, ',' ∉ item.data) → some "-name,id" = some (jsJoin "," items) →
      some [("name", "DESC"), ("id", "ASC")] = some (items.map expectedOrderItem)) ∧
    (Action.List ≠ Action.List →
      some [("name", "DESC"), ("id", "ASC")] = none ∧ Val.undef = Val.undef ∧
        Val.undef = Val.undef) :=
  setOptions_order exampleUsers [("name", Val.str "a")] { order := some "-name,id" } Action.List
    ({ include_ := IncField.many [Inc.obj { all := true }]
       where_ := some [(PKey.str "name", Val.str "a")]
       order := some [("name", "DESC"), ("id", "ASC")] }, false) rfl

/-! ## The limit and the offset of the list action -/

/-- C27: the list action hands the value of `limit` or `offset` on as a string: `'5'` for
the query value `5`, `'undefined'` for the query value `abc` and `'NaN'` for the empty
query value; and `setOptions` puts the string `'undefined'` into the limit and the offset
of the query specification, the configured `listLimit` of 10 notwithstanding. -/
theorem list_limit_is_a_string :
    BaseCrudController.pagingOption "5" = some (Val.str "5") ∧
    BaseCrudController.pagingOption "abc" = some (Val.str "undefined") ∧
    BaseCrudController.pagingOption "" = some (Val.str "NaN") ∧
    (setOptions { exampleUsers with listLimit := Val.num 10 } []
        { limit := Val.str "undefined", offset := Val.str "undefined" } Action.List).map
        (fun result => (result.1.limit, result.1.offset)) =
      Except.ok (Val.str "undefined", Val.str "undefined") :=
  ⟨rfl, rfl, rfl, rfl⟩

/-! ## The where object of `count` -/

/-- C30: for the filter map `{ active: 'true', nickname: 'x' }`, without a dotted key and
without an operator key, `count` passes the map itself to `model.count` as the where
object, with the string `'true'` and with the key `nickname`, which is no attribute of the
model, while `setOptions` computes for `list` the where object `{ active: true }`. -/
theorem count_where_is_the_filter_map :
    (∀ loaded, (Operation.count [("active", Val.str "true"), ("nickname", Val.str "x")] loaded
        {}).events exampleUsers exampleLibrary [] =
      [Event.call (LibraryCall.count
        (some [(PKey.str "active", Val.str "true"), (PKey.str "nickname", Val.str "x")]) none)]) ∧
    (setOptions exampleUsers [("active", Val.str "true"), ("nickname", Val.str "x")] {}
        Action.List).map (fun result => result.1.where_) =
      Except.ok (some [(PKey.str "active", Val.bool true)]) :=
  ⟨fun _ => rfl, rfl⟩

/-! ## The two branches of `count` -/

/-- On the empty include `filterInclude` changes nothing. -/
theorem filterIncludeSegs_nil (db : Sequelize) (v : Val) (segs : List String) (model : String)
    (result : IncField Inc × Bool)
    (h : filterIncludeSegs db v segs model (IncField.many []) = Except.ok result) :
    result = (IncField.many [], false) := by
  match segs, h with
  | [], h =>
    simp only [filterIncludeSegs] at h
    cases h
    rfl
  | [_], h =>
    simp only [filterIncludeSegs] at h
    cases h
    rfl
  | field :: subfield :: rest, h =>
    simp only [filterIncludeSegs] at h
    split at h
    · cases h
      rfl
    · split at h <;> cases h
    · cases rest with
      | nil =>
        simp only [IncField.toList, List.find?_nil] at h
        split at h <;> cases h <;> rfl
      | cons s rest =>
        simp only [IncField.toList, List.find?_nil] at h
        split at h <;> cases h <;> rfl

theorem setOptionsLoop_nil (r : Repository) :
    ∀ (q : List (String × Val)) (st st1 : LoopState), st.include_ = IncField.many [] →
      setOptionsLoop r q st = Except.ok st1 → st1.include_ = IncField.many []
  | [], st, st1, h, hrun => by
    simp only [setOptionsLoop] at hrun
    cases hrun
    exact h
  | (key, value) :: rest, st, st1, h, hrun => by
    simp only [setOptionsLoop] at hrun
    split at hrun
    · cases hrun
    · next st2 hstep =>
      refine setOptionsLoop_nil r rest st2 st1 ?_ hrun
      unfold setOptionsStep at hstep
      split at hstep
      · cases hstep
      · cases hstep
        exact h
      · split at hstep
        · split at hstep
          · split at hstep
            · cases hstep
            · cases hstep
              exact h
          · cases hstep
            exact h
        · split at hstep
          · cases hstep
          · next result hres =>
            cases hstep
            simp only [filterInclude, h] at hres
            split at hres
            · cases hres
              rfl
            · rw [filterIncludeSegs_nil _ _ _ _ _ hres]

/-- The options of `setOptions` for the empty include hold the empty include. -/
theorem setOptions_nil (r : Repository) (q : List (String × Val)) (options : QueryOptions)
    (flag : Bool)
    (h : setOptions r q { loadedInclude := some (IncField.many []) } Action.List =
      Except.ok (options, flag)) :
    options.include_ = IncField.many [] := by
  simp only [setOptions, if_true] at h
  split at h
  · cases h
  · next st hloop =>
    have hst := setOptionsLoop_nil r q _ st rfl hloop
    simp only [Except.ok.injEq, Prod.mk.injEq] at h
    rw [← h.1]
    exact hst

/-- The call of `loadIncludeClasses` on the empty array returns the empty array. -/
theorem loadIncludeClasses_nil (db : Sequelize) (fuel : Nat) (model : Option String) :
    loadIncludeClasses db (fuel + 1) (some (IncField.many [])) model =
      some (Except.ok (some (IncField.many []))) := by
  rfl

/-- What `setOptions` returns for the action `List` on a filter map with the single key
`key`, which holds a dot and no operator separator. -/
theorem setOptions_list_single_dotted (r : Repository) (key : String) (v : Val)
    (eqo : EntityQueryOptions) (result : IncField Inc × Bool)
    (hdot : jsIncludes key "." = true)
    (hsep : jsIncludes key r.options.operatorSeparator = false)
    (hres : filterInclude r.sequelize key (coerce v) r.model
      (IncField.many (includeInEffect r eqo.loadedInclude Action.List)) = Except.ok result) :
    setOptions r [(key, v)] eqo Action.List =
      Except.ok ({
        include_ := result.1
        where_ := none
        order := eqo.order.map fun o => (jsSplit "," o).map orderItem
        limit := if eqo.limit.truthy then eqo.limit else r.listLimit
        offset := eqo.offset },
        result.2) := by
  simp [setOptions, setOptionsLoop, setOptionsStep, parseAttribute, hsep, hdot, hres]

theorem includesGo_single_of_not_mem (c : Char) :
    ∀ xs : List Char, c ∉ xs → includesGo [c] xs = false
  | [], _ => by simp [includesGo, List.isPrefixOf]
  | x :: xs, h => by
    have hx : ¬ c = x := fun e => h (by simp [e])
    have hxs : c ∉ xs := fun e => h (by simp [e])
    simp [includesGo, List.isPrefixOf, hx, includesGo_single_of_not_mem c xs hxs]

/-- The include that `loadIncludeClasses` returns for the array that holds the name of an
association other than `all`. -/
theorem loadIncludeClasses_single (db : Sequelize) (fuel : Nat) (model a : String)
    (assoc : Association) (ha : '.' ∉ a.data) (hall : a ≠ "all")
    (hassoc : db.association model a = some assoc) :
    loadIncludeClasses db (fuel + 1) (some (IncField.many [Inc.str a])) (some model) =
      some (Except.ok (some (IncField.many
        [if assoc.associationType = AssociationType.HasMany then separateNode assoc
          else Inc.str a]))) := by
  have h1 : ("." : String).data = ['.'] := rfl
  have hdot : jsIncludes a "." = false := by
    unfold jsIncludes
    rw [h1]
    exact includesGo_single_of_not_mem '.' _ ha
  have hfind : associationIn (db.associations model) a = Property.own assoc :=
    associationProperty_own hassoc
  by_cases hmany : assoc.associationType = AssociationType.HasMany
  · simp [loadIncludeClasses, loadLoop, loadItem, IncField.truthy, IncField.toList, Inc.isAll,
      Inc.isStr, hall, hdot, Sequelize.associationsOf, hfind, hmany, List.range,
      List.range.loop, aggregateIncludeEntries]
  · simp [loadIncludeClasses, loadLoop, loadItem, IncField.truthy, IncField.toList, Inc.isAll,
      Inc.isStr, hall, hdot, Sequelize.associationsOf, hfind, hmany, List.range,
      List.range.loop, aggregateIncludeEntries]

/-- The branches of `count`, which issues one call of the library, without a limit.  When no key of the
filter map holds a dot or a `$`, the call is `model.count` with the filter map itself as
the where object, also when a key names an association.  When some key holds a dot or a
`$` and no key's first segment names an association, the call is `model.count` with the
where object that `setOptions` computes.  For the filter map with the single key `a.b`, `a`
an association other than `all` and `b` an attribute of its target, the call is `findAll`
with the include entry of `a` that carries the where object of `b`, and `count` returns
the length of the result. -/
theorem count_branches (r : Repository) (lib : Library) (o : CallOptions) (fuel : Nat) :
    (∀ q : List (String × Val), hasDottedOrOperatorKey q = false →
      Serialized.countLoaded r lib fuel q o =
        some (countRows r lib (some (q.map fun kv => (PKey.str kv.1, kv.2))) o)) ∧
    (∀ (q : List (String × Val)) (options : QueryOptions) (flag : Bool),
      hasDottedOrOperatorKey q = true →
      (∀ kv ∈ q, r.filtersByAssociation kv.1 = false) →
      setOptions r q { loadedInclude := some (IncField.many []) } Action.List =
        Except.ok (options, flag) →
      Serialized.countLoaded r lib (fuel + 1) q o = some (countRows r lib options.where_ o)) ∧
    (∀ (a b : String) (v : Val) (assoc : Association),
      '.' ∉ a.data → '.' ∉ b.data → a ≠ "all" →
      jsIncludes (a ++ "." ++ b) r.options.operatorSeparator = false →
      r.sequelize.association r.model a = some assoc →
      b ∈ r.sequelize.rawAttributes assoc.target →
      Serialized.countLoaded r lib (fuel + 1) [(a ++ "." ++ b, v)] o =
        some (countFetched r lib
          { include_ := some (IncField.many [filteredNode assoc b (coerce v)])
            transaction := o.transactionId } o)) := by
  refine ⟨?_, ?_, ?_⟩
  · intro q hq
    unfold hasDottedOrOperatorKey at hq
    simp only [Serialized.countLoaded, hq, Bool.false_eq_true, if_false, Serialized.count,
      countOptions, IncField.toList, List.length_nil, if_true, countRows]
  · intro q options flag hq hnone hset
    have hinc : countInclude r q = [] := by
      unfold countInclude
      rw [List.filter_eq_nil_iff.mpr (fun kv hkv => by simp [hnone kv hkv])]
      rfl
    have hnil := setOptions_nil r q options flag hset
    unfold hasDottedOrOperatorKey at hq
    simp only [Serialized.countLoaded, hq, if_true, hinc, loadIncludeClasses_nil,
      Serialized.count, countOptions, hset, hnil, IncField.toList, List.length_nil, countRows]
  · intro a b v assoc ha hb hall hsep hassoc hattr
    have hdot := jsIncludes_dot a b
    have has : assoc.as = a := association_as hassoc
    have hq : ([(a ++ "." ++ b, v)] : List (String × Val)).any
        (fun kv => jsIncludes kv.1 "." || jsIncludes kv.1 "$") = true := by
      simp [hdot]
    have hkey : r.getAssociationAttributes.contains a = true := by
      unfold Repository.getAssociationAttributes
      rw [contains_associationKeys, hassoc]
      rfl
    have hf : r.filtersByAssociation (a ++ "." ++ b) = true := by
      simp only [Repository.filtersByAssociation, jsSplit_dot a b ha hb, hkey]
    have hjoin : jsJoin "." [a] = a := by
      simp [jsJoin, List.intercalate, List.intersperse]
    have hinc : countInclude r [(a ++ "." ++ b, v)] = [Inc.str a] := by
      simp only [countInclude, List.filter, hf, List.map, jsSplit_dot a b ha hb, List.dropLast,
        hjoin]
    have hload := loadIncludeClasses_single r.sequelize fuel r.model a assoc ha hall hassoc
    have hleaf : filterInclude r.sequelize (a ++ "." ++ b) (coerce v) r.model
        (IncField.many [if assoc.associationType = AssociationType.HasMany then separateNode assoc
          else Inc.str a]) =
        Except.ok (IncField.many [filteredNode assoc b (coerce v)],
          assoc.associationType.isToMany) := by
      rw [filterInclude_leaf r.sequelize a b (coerce v) r.model _ assoc ha hb hassoc hattr]
      by_cases hmany : assoc.associationType = AssociationType.HasMany
      · simp [hmany, IncField.toList, separateNode, Inc.isNodeOf, Inc.associationAs?, modifyFirst,
          attachWhere, filteredNode]
      · simp [hmany, IncField.toList, Inc.isNodeOf, Inc.associationAs?, Inc.mentions, Inc.isStr,
          Inc.isAll, removeMentioned]
    have heff : includeInEffect r (some (IncField.many
        [if assoc.associationType = AssociationType.HasMany then separateNode assoc
          else Inc.str a])) Action.List =
        [if assoc.associationType = AssociationType.HasMany then separateNode assoc
          else Inc.str a] := by
      simp [includeInEffect, orInclude, IncField.truthy, IncField.toList]
    have hset := setOptions_list_single_dotted r (a ++ "." ++ b) v
      { loadedInclude := some (IncField.many
          [if assoc.associationType = AssociationType.HasMany then separateNode assoc
            else Inc.str a]) } _ hdot hsep (by rw [heff]; exact hleaf)
    simp only [Serialized.countLoaded, hq, if_true, hinc, hload, Serialized.count, countOptions,
      hset, IncField.toList, List.length_singleton, countFetched, firstFind]
    rfl

theorem count_branches_witness :
    Serialized.countLoaded exampleUsers exampleLibrary 0 [("name", Val.str "a")] {} =
        some (countRows exampleUsers exampleLibrary (some [(PKey.str "name", Val.str "a")]) {}) ∧
    Serialized.countLoaded exampleUsers exampleLibrary 1 [("name$like", Val.str "a%")] {} =
        some (countRows exampleUsers exampleLibrary
          (some [(PKey.str "name", Val.obj [(PKey.op "like", Val.str "a%")])]) {}) ∧
    Serialized.countLoaded exampleUsers exampleLibrary 1 [("posts" ++ "." ++ "title", Val.str "x")]
        {} =
      some (countFetched exampleUsers exampleLibrary
        { include_ := some (IncField.many [filteredNode examplePosts "title" (Val.str "x")]) }
        {}) :=
  ⟨(count_branches exampleUsers exampleLibrary {} 0).1 [("name", Val.str "a")] rfl,
    (count_branches exampleUsers exampleLibrary {} 0).2.1 [("name$like", Val.str "a%")]
      { include_ := IncField.many []
        where_ := some [(PKey.str "name", Val.obj [(PKey.op "like", Val.str "a%")])] } false
      rfl (by decide) rfl,
    (count_branches exampleUsers exampleLibrary {} 0).2.2 "posts" "title" (Val.str "x")
      examplePosts (by decide) (by decide) (by decide) rfl rfl (by decide)⟩

/-- C23: for the filter map `{ posts: 1, name$like: 'a' }`, whose key `posts` names an
association of the model, `count` builds the include `['']` from the keys (the key `posts`
without its last segment) and throws a `TypeError` in `loadIncludeClasses` before any call
of the library, where the claim has one `findAll`; `setOptions` translates the same filter
map for `list` without an error.  For the filter map `{ posts: 1 }` alone, `count` issues
`model.count` with the where object `{ posts: 1 }`, and no `findAll`. -/
theorem count_of_association_key :
    exampleUsers.filtersByAssociation "posts" = true ∧
    countInclude exampleUsers [("posts", Val.num 1), ("name$like", Val.str "a")] =
      [Inc.str ""] ∧
    (∀ fuel, (Serialized.countLoaded exampleUsers exampleLibrary (fuel + 1)
      [("posts", Val.num 1), ("name$like", Val.str "a")] {}).map (fun m => m []) =
      some ([], Except.error (Failure.other
        "TypeError: Cannot read properties of undefined (reading 'associationType')"))) ∧
    (setOptions exampleUsers [("posts", Val.num 1), ("name$like", Val.str "a")] {}
        Action.List).map (fun result => result.1.where_) =
      Except.ok (some [(PKey.str "name", Val.obj [(PKey.op "like", Val.str "a")])]) ∧
    (∀ fuel, (Serialized.countLoaded exampleUsers exampleLibrary fuel [("posts", Val.num 1)]
        {}).map (fun m => m []) =
      some ([Event.call (LibraryCall.count (some [(PKey.str "posts", Val.num 1)]) none)],
        Except.ok 2)) :=
  ⟨rfl, rfl, fun _ => rfl, rfl, fun _ => rfl⟩

end BaseSequelizeRepository
